import Mathlib

/-!
Linear::DoublyList: a shallow embedding of `include/Linear/DoublyList.hpp`.

The C++ class is a doubly-linked list between two sentinel nodes, manipulated through raw
`Node<T>*` pointers.  The embedding keeps the pointers: memory is a record of field maps
(`data`, `prev`, `next`) indexed by addresses, a liveness map (`new` sets a bit, `delete`
clears it), a bump allocator, and a store of list objects (`head_`, `tail_`, `size_`) indexed
by the address of the list object, so that `this == &other` and aliasing between `this` and
`other` mean what they mean in C++.

Addresses are natural numbers and `0` plays the role of `nullptr`.  Every member function
becomes a function `Mem T → Except Fault (Mem T)`, taking the address `self` of the list object
where C++ has `this`.  Reading or writing a field of a node that is not live (never allocated,
or already deleted) is undefined behaviour in C++ and yields `Fault.invalidAccess` here.  Loops
and the recursion of `merge_sort` are driven by a fuel argument; running out of it yields
`Fault.outOfFuel`.

`size_` is a `size_t`.  It only ever counts live nodes, each of which occupies its own
addresses, so incrementing it cannot wrap; decrementing zero wraps to `2^64 - 1` as in C++.
-/

namespace Linear

/-- Ways in which a run of the embedded code can fail to produce a value. -/
inductive Fault where
  | outOfFuel
  | invalidAccess
  | outOfRange
  | uninitialisedRead
  | signedOverflow
  deriving DecidableEq, Repr

/-- Pointwise update of a field map. -/
def upd {β : Type} (f : Nat → β) (a : Nat) (v : β) : Nat → β :=
  fun x => if x = a then v else f x

/-- The three data members of a `DoublyList<T>` object. -/
structure ListObj where
  head_ : Nat
  tail_ : Nat
  size_ : Nat
  deriving DecidableEq, Repr

/-- Memory: the fields of every `Node<T>`, which addresses hold a live node, the next address
the allocator hands out, and the list objects. -/
structure Mem (T : Type) where
  data : Nat → T
  prev : Nat → Nat
  next : Nat → Nat
  live : Nat → Bool
  fresh : Nat
  lists : Nat → ListObj

namespace Mem

variable {T : Type}

/-- Memory before anything was allocated. -/
def init [Inhabited T] : Mem T :=
  { data := fun _ => default, prev := fun _ => 0, next := fun _ => 0,
    live := fun _ => false, fresh := 1, lists := fun _ => ⟨0, 0, 0⟩ }

/-- Read `p->next`. -/
def getNext (m : Mem T) (p : Nat) : Except Fault Nat :=
  if m.live p = true then .ok (m.next p) else .error .invalidAccess

/-- Read `p->prev`. -/
def getPrev (m : Mem T) (p : Nat) : Except Fault Nat :=
  if m.live p = true then .ok (m.prev p) else .error .invalidAccess

/-- Read `p->data`. -/
def getData (m : Mem T) (p : Nat) : Except Fault T :=
  if m.live p = true then .ok (m.data p) else .error .invalidAccess

/-- The memory with the `next` field at `p` overwritten. -/
def withNext (m : Mem T) (p q : Nat) : Mem T := { m with next := upd m.next p q }

/-- The memory with the `prev` field at `p` overwritten. -/
def withPrev (m : Mem T) (p q : Nat) : Mem T := { m with prev := upd m.prev p q }

/-- The memory with the node at `p` no longer live. -/
def kill (m : Mem T) (p : Nat) : Mem T := { m with live := upd m.live p false }

/-- Write `p->next = q`. -/
def setNext (m : Mem T) (p q : Nat) : Except Fault (Mem T) :=
  if m.live p = true then .ok (m.withNext p q) else .error .invalidAccess

/-- Write `p->prev = q`. -/
def setPrev (m : Mem T) (p q : Nat) : Except Fault (Mem T) :=
  if m.live p = true then .ok (m.withPrev p q) else .error .invalidAccess

/-- The memory after `new Node<T>(val, next, prev)`; the new node sits at `m.fresh`. -/
def newNode (m : Mem T) (val : T) (nx pv : Nat) : Mem T :=
  { m with data := upd m.data m.fresh val, next := upd m.next m.fresh nx,
           prev := upd m.prev m.fresh pv, live := upd m.live m.fresh true,
           fresh := m.fresh + 1 }

/-- The memory after `delete p`. -/
def deleteNode (m : Mem T) (p : Nat) : Except Fault (Mem T) :=
  if m.live p = true then .ok (m.kill p) else .error .invalidAccess

/-- Overwrite `size_` of the list object at `this`. -/
def setSize (m : Mem T) (self : Nat) (n : Nat) : Mem T :=
  { m with lists := upd m.lists self { m.lists self with size_ := n } }

/-- The `head_` member of the list object at `this`. -/
def head_ (m : Mem T) (self : Nat) : Nat := (m.lists self).head_

/-- The `tail_` member of the list object at `this`. -/
def tail_ (m : Mem T) (self : Nat) : Nat := (m.lists self).tail_

/-- The `size_` member of the list object at `this`. -/
def size_ (m : Mem T) (self : Nat) : Nat := (m.lists self).size_

/-- The effect of `size_++`. -/
def incSize (m : Mem T) (self : Nat) : Mem T := m.setSize self (m.size_ self + 1)

/-- The effect of `size_--` on a `size_t`. -/
def decSize (m : Mem T) (self : Nat) : Mem T :=
  m.setSize self (if m.size_ self = 0 then 2 ^ 64 - 1 else m.size_ self - 1)

end Mem

namespace DoublyList

variable {T : Type}

/-- The constructor `DoublyList()`, building the list object at address `this`. -/
def construct [Inhabited T] (self : Nat) (m : Mem T) : Except Fault (Mem T) := do
  let h := m.fresh
  let m := m.newNode default 0 0
  let t := m.fresh
  let m := m.newNode default 0 0
  let m : Mem T := { m with lists := upd m.lists self ⟨h, t, 0⟩ }
  let m ← m.setNext h t
  let m ← m.setPrev t h
  pure m

/-- Member `empty()`. -/
def empty (self : Nat) (m : Mem T) : Bool := m.size_ self == 0

/-- Member `size()`. -/
def size (self : Nat) (m : Mem T) : Nat := m.size_ self

/-- Member `end()`: an iterator is the address of its node. -/
def end_ (self : Nat) (m : Mem T) : Nat := m.tail_ self

/-- Member `begin()`. -/
def begin_ (self : Nat) (m : Mem T) : Except Fault Nat := m.getNext (m.head_ self)

/-- Member `push_back(val)`. -/
def push_back (self : Nat) (val : T) (m : Mem T) : Except Fault (Mem T) := do
  let tp ← m.getPrev (m.tail_ self)
  let cur := m.fresh
  let m := m.newNode val (m.tail_ self) tp
  let tp ← m.getPrev (m.tail_ self)
  let m ← m.setNext tp cur
  let m ← m.setPrev (m.tail_ self) cur
  pure (m.incSize self)

/-- Member `push_front(val)`. -/
def push_front (self : Nat) (val : T) (m : Mem T) : Except Fault (Mem T) := do
  let hn ← m.getNext (m.head_ self)
  let cur := m.fresh
  let m := m.newNode val hn (m.head_ self)
  let hn ← m.getNext (m.head_ self)
  let m ← m.setPrev hn cur
  let m ← m.setNext (m.head_ self) cur
  pure (m.incSize self)

/-- Member `pop_back()`. -/
def pop_back (self : Nat) (m : Mem T) : Except Fault (Mem T) :=
  if empty self m then pure m else do
    let cur ← m.getPrev (m.tail_ self)
    let cp ← m.getPrev cur
    let m ← m.setPrev (m.tail_ self) cp
    let cp ← m.getPrev cur
    let m ← m.setNext cp (m.tail_ self)
    let m ← m.deleteNode cur
    pure (m.decSize self)

/-- Member `pop_front()`. -/
def pop_front (self : Nat) (m : Mem T) : Except Fault (Mem T) :=
  if empty self m then pure m else do
    let cur ← m.getNext (m.head_ self)
    let cn ← m.getNext cur
    let m ← m.setNext (m.head_ self) cn
    let cn ← m.getNext cur
    let m ← m.setPrev cn (m.head_ self)
    let m ← m.deleteNode cur
    pure (m.decSize self)

/-- Member `insert(val)`. -/
def insert (self : Nat) (val : T) (m : Mem T) : Except Fault (Mem T) :=
  push_front self val m

/-- Member `insert(val, pos)`. -/
def insert_pos (self : Nat) (val : T) (pos : Nat) (m : Mem T) : Except Fault (Mem T) := do
  let target := pos
  let tp ← m.getPrev target
  let cur := m.fresh
  let m := m.newNode val target tp
  let tp ← m.getPrev target
  let m ← m.setNext tp cur
  let m ← m.setPrev target cur
  pure (m.incSize self)

/-- Member `erase()`. -/
def erase (self : Nat) (m : Mem T) : Except Fault (Mem T) :=
  pop_front self m

/-- Member `erase(pos)`. -/
def erase_pos (self : Nat) (pos : Nat) (m : Mem T) : Except Fault (Mem T) :=
  if pos = end_ self m then pure m else do
    let target := pos
    let tp ← m.getPrev target
    let tn ← m.getNext target
    let m ← m.setNext tp tn
    let tn ← m.getNext target
    let tp ← m.getPrev target
    let m ← m.setPrev tn tp
    let m ← m.deleteNode target
    pure (m.decSize self)

/-- Member `back()`; the reference it returns is read at once. -/
def back (self : Nat) (m : Mem T) : Except Fault T :=
  if empty self m then .error .outOfRange else do
    let p ← m.getPrev (m.tail_ self)
    m.getData p

/-- Member `front()`; the reference it returns is read at once. -/
def front (self : Nat) (m : Mem T) : Except Fault T :=
  if empty self m then .error .outOfRange else do
    let p ← m.getNext (m.head_ self)
    m.getData p

/-- Member `clear()`: `while (!empty()) pop_front();`. -/
def clear (self : Nat) : Nat → Mem T → Except Fault (Mem T)
  | 0, _ => .error .outOfFuel
  | fuel + 1, m =>
    if empty self m then pure m else do
      let m ← pop_front self m
      clear self fuel m

/-- Member `splice(other)`. -/
def splice (self other : Nat) (m : Mem T) : Except Fault (Mem T) :=
  if empty other m then pure m else do
    let m ← if empty self m then do
        let ohn ← m.getNext (m.head_ other)
        let m ← m.setNext (m.head_ self) ohn
        let ohn ← m.getNext (m.head_ other)
        let m ← m.setPrev ohn (m.head_ self)
        let otp ← m.getPrev (m.tail_ other)
        let m ← m.setPrev (m.tail_ self) otp
        let otp ← m.getPrev (m.tail_ other)
        m.setNext otp (m.tail_ self)
      else do
        let tp ← m.getPrev (m.tail_ self)
        let ohn ← m.getNext (m.head_ other)
        let m ← m.setNext tp ohn
        let ohn ← m.getNext (m.head_ other)
        let tp ← m.getPrev (m.tail_ self)
        let m ← m.setPrev ohn tp
        let otp ← m.getPrev (m.tail_ other)
        let m ← m.setPrev (m.tail_ self) otp
        let otp ← m.getPrev (m.tail_ other)
        m.setNext otp (m.tail_ self)
    let m := m.setSize self (m.size_ self + m.size_ other)
    let m ← m.setNext (m.head_ other) (m.tail_ other)
    let m ← m.setPrev (m.tail_ other) (m.head_ other)
    pure (m.setSize other 0)

/-- The loop of `merge(other, comp)`, from the iterators `it1` and `it2`. -/
def mergeLoop (self other : Nat) (comp : T → T → Bool) :
    Nat → Nat → Nat → Mem T → Except Fault (Mem T)
  | 0, _, _, _ => .error .outOfFuel
  | fuel + 1, it1, it2, m =>
    if it2 ≠ end_ other m then do
      let c ← if it1 = end_ self m then pure true else do
          let a ← m.getData it2
          let b ← m.getData it1
          pure (comp a b)
      if c then do
        let v ← m.getData it2
        let m ← insert_pos self v it1 m
        let it2 ← m.getNext it2
        mergeLoop self other comp fuel it1 it2 m
      else do
        let it1 ← m.getNext it1
        mergeLoop self other comp fuel it1 it2 m
    else pure m

/-- Member `merge(other, comp)`. -/
def merge (self other : Nat) (comp : T → T → Bool) (fuel : Nat) (m : Mem T) :
    Except Fault (Mem T) :=
  if self = other then pure m else do
    let it1 ← begin_ self m
    let it2 ← begin_ other m
    let m ← mergeLoop self other comp fuel it1 it2 m
    let m ← clear other fuel m
    let m ← m.setNext (m.head_ other) (m.tail_ other)
    m.setPrev (m.tail_ other) (m.head_ other)

/-- The loop of `remove(val)`, from the iterator `it`. -/
def removeLoop [DecidableEq T] (self : Nat) (val : T) :
    Nat → Nat → Mem T → Except Fault (Mem T)
  | 0, _, _ => .error .outOfFuel
  | fuel + 1, it, m =>
    if it ≠ end_ self m then do
      let v ← m.getData it
      if v = val then do
        let m ← erase_pos self it m
        removeLoop self val fuel it m
      else do
        let it ← m.getNext it
        removeLoop self val fuel it m
    else pure m

/-- Member `remove(val)`. -/
def remove [DecidableEq T] (self : Nat) (val : T) (fuel : Nat) (m : Mem T) :
    Except Fault (Mem T) := do
  let it ← begin_ self m
  removeLoop self val fuel it m

/-- The loop of `unique()`, from the iterator `it`. -/
def uniqueLoop [DecidableEq T] (self : Nat) : Nat → Nat → Mem T → Except Fault (Mem T)
  | 0, _, _ => .error .outOfFuel
  | fuel + 1, it, m =>
    if it ≠ end_ self m then do
      let v ← m.getData it
      let p ← m.getPrev it
      let w ← m.getData p
      if v = w then do
        let cur := it
        let it ← m.getNext it
        let m ← erase_pos self cur m
        uniqueLoop self fuel it m
      else do
        let it ← m.getNext it
        uniqueLoop self fuel it m
    else pure m

/-- Member `unique()`. -/
def unique [DecidableEq T] (self : Nat) (fuel : Nat) (m : Mem T) : Except Fault (Mem T) :=
  if m.size_ self ≤ 1 then pure m else do
    let b ← begin_ self m
    let it ← m.getNext b
    uniqueLoop self fuel it m

/-- The loop of `reverse()`, from the node `current`. -/
def reverseLoop (self : Nat) : Nat → Nat → Mem T → Except Fault (Mem T)
  | 0, _, _ => .error .outOfFuel
  | fuel + 1, current, m =>
    if current ≠ m.tail_ self then do
      let a ← m.getNext current
      let b ← m.getPrev current
      let m ← m.setNext current b
      let m ← m.setPrev current a
      let current ← m.getPrev current
      reverseLoop self fuel current m
    else pure m

/-- Member `reverse()`. -/
def reverse (self : Nat) (fuel : Nat) (m : Mem T) : Except Fault (Mem T) :=
  if m.size_ self ≤ 1 then pure m else do
    let current ← m.getNext (m.head_ self)
    let tp ← m.getPrev (m.tail_ self)
    let m ← m.setNext (m.head_ self) tp
    let m ← m.setPrev (m.tail_ self) current
    let m ← reverseLoop self fuel current m
    let hn ← m.getNext (m.head_ self)
    let m ← m.setPrev hn (m.head_ self)
    let tp ← m.getPrev (m.tail_ self)
    m.setNext tp (m.tail_ self)

/-- The slow/fast loop of `merge_sort(other, comp)`; the value is the final `slow`. -/
def slowFast (tail : Nat) : Nat → Nat → Nat → Mem T → Except Fault Nat
  | 0, _, _, _ => .error .outOfFuel
  | fuel + 1, slow, fast, m =>
    if fast = tail then pure slow else do
      let fn ← m.getNext fast
      if fn = tail then pure slow else do
        let slow ← m.getNext slow
        let fn ← m.getNext fast
        let fast ← m.getNext fn
        slowFast tail fuel slow fast m

/-- The linking loop of `merge_sort(left, right, comp)`; the value is the final
`(left, right, cur)` and memory. -/
def linkLoop (tail : Nat) (comp : T → T → Bool) :
    Nat → Nat → Nat → Nat → Mem T → Except Fault (Nat × Nat × Nat × Mem T)
  | 0, _, _, _, _ => .error .outOfFuel
  | fuel + 1, left, right, cur, m =>
    if left ≠ tail ∧ right ≠ tail then do
      let a ← m.getData left
      let b ← m.getData right
      if comp a b then do
        let m ← m.setNext cur left
        let m ← m.setPrev left cur
        let left ← m.getNext left
        let cur ← m.getNext cur
        linkLoop tail comp fuel left right cur m
      else do
        let m ← m.setNext cur right
        let m ← m.setPrev right cur
        let right ← m.getNext right
        let cur ← m.getNext cur
        linkLoop tail comp fuel left right cur m
    else pure (left, right, cur, m)

/-- What `merge_sort(left, right, comp)` does after its loop: attach the rest, fix one `prev`. -/
def linkRest (tail : Nat) (st : Nat × Nat × Nat × Mem T) : Except Fault (Mem T) := do
  let left := st.1
  let right := st.2.1
  let cur := st.2.2.1
  let m := st.2.2.2
  let m ← m.setNext cur (if left ≠ tail then left else right)
  let cn ← m.getNext cur
  if cn ≠ tail then do
    let cn ← m.getNext cur
    m.setPrev cn cur
  else
    m.setPrev tail cur

/-- Private member `merge_sort(left, right, comp)`.  The local `dummy` lives at a fresh address
for the duration of the call. -/
def merge_sort_lr [Inhabited T] (self : Nat) (comp : T → T → Bool) (fuel : Nat)
    (left right : Nat) (m : Mem T) : Except Fault (Nat × Mem T) := do
  let dummy := m.fresh
  let m := m.newNode default 0 0
  let cur := dummy
  let st ← linkLoop (m.tail_ self) comp fuel left right cur m
  let m ← linkRest (m.tail_ self) st
  let r ← m.getNext dummy
  let m ← m.deleteNode dummy
  pure (r, m)

/-- Private member `merge_sort(other, comp)`. -/
def merge_sort [Inhabited T] (self : Nat) (comp : T → T → Bool) :
    Nat → Nat → Mem T → Except Fault (Nat × Mem T)
  | 0, _, _ => .error .outOfFuel
  | fuel + 1, other, m =>
    if other = m.tail_ self then pure (other, m) else do
      let n ← m.getNext other
      if n = m.tail_ self then pure (other, m) else do
        let slow := other
        let fast ← m.getNext other
        let slow ← slowFast (m.tail_ self) fuel slow fast m
        let mid ← m.getNext slow
        let m ← m.setNext slow (m.tail_ self)
        let m ← m.setPrev mid (m.head_ self)
        let (left, m) ← merge_sort self comp fuel other m
        let (right, m) ← merge_sort self comp fuel mid m
        merge_sort_lr self comp fuel left right m

/-- Member `sort(comp)`. -/
def sort [Inhabited T] (self : Nat) (comp : T → T → Bool) (fuel : Nat) (m : Mem T) :
    Except Fault (Mem T) :=
  if m.size_ self ≤ 1 then pure m else do
    let hn ← m.getNext (m.head_ self)
    let (data_head, m) ← merge_sort self comp fuel hn m
    let m ← m.setNext (m.head_ self) data_head
    m.setPrev data_head (m.head_ self)

/-- The traversal `for (it = begin(); it != end(); ++it)` collecting `*it`, from `it`. -/
def collect (tail : Nat) : Nat → Nat → Mem T → Except Fault (List T)
  | 0, _, _ => .error .outOfFuel
  | fuel + 1, it, m =>
    if it ≠ tail then do
      let v ← m.getData it
      let it ← m.getNext it
      let rest ← collect tail fuel it m
      pure (v :: rest)
    else pure []

/-- The helper `listToVector` of the test driver: the front-to-back sequence of the list. -/
def listToVector (self : Nat) (fuel : Nat) (m : Mem T) : Except Fault (List T) := do
  let it ← begin_ self m
  collect (end_ self m) fuel it m

/-- The same traversal backwards: from `tail_->prev` along `prev` until `head_`. -/
def collectBack (head : Nat) : Nat → Nat → Mem T → Except Fault (List T)
  | 0, _, _ => .error .outOfFuel
  | fuel + 1, it, m =>
    if it ≠ head then do
      let v ← m.getData it
      let it ← m.getPrev it
      let rest ← collectBack head fuel it m
      pure (v :: rest)
    else pure []

/-- The list built by `DoublyList()` at `this` followed by `push_back` of each value. -/
def ofList [Inhabited T] (self : Nat) (vs : List T) (m : Mem T) : Except Fault (Mem T) := do
  let m ← construct self m
  vs.foldlM (fun m v => push_back self v m) m

/-- The nodes of the list object at `this`, sentinels included, when its interior nodes are
`ps` from front to back. -/
def nodes (m : Mem T) (self : Nat) (ps : List Nat) : List Nat :=
  m.head_ self :: (ps ++ [m.tail_ self])

/-- Consecutive nodes of `l` point at each other: `p->next == q` and `q->prev == p`. -/
def Linked (m : Mem T) (l : List Nat) : Prop :=
  List.Chain' (fun p q => m.next p = q ∧ m.prev q = p) l

/-- Walking `next` visits the nodes of `l` in order. -/
def Fwd (m : Mem T) (l : List Nat) : Prop :=
  List.Chain' (fun p q => m.next p = q) l

/-- The nodes `l` form a well-formed chain: consecutive ones point at each other, they are
pairwise distinct, and each is a live node that the allocator handed out. -/
def Chained (m : Mem T) (l : List Nat) : Prop :=
  Linked m l ∧ l.Nodup ∧ ∀ p ∈ l, m.live p = true ∧ p < m.fresh

/-- The list object at `this` is a well-formed chain `head_, ps, tail_`, and `size_` counts
`ps`. -/
def Owns (m : Mem T) (self : Nat) (ps : List Nat) : Prop :=
  Chained m (nodes m self ps) ∧ m.size_ self = ps.length

/-- Deciding `Linked` by walking the list. -/
def decLinked (m : Mem T) : (l : List Nat) → Decidable (Linked m l)
  | [] => isTrue List.chain'_nil
  | [_] => isTrue (List.chain'_singleton _)
  | p :: q :: l =>
    match decLinked m (q :: l) with
    | isTrue h =>
      if h1 : m.next p = q ∧ m.prev q = p then isTrue (List.chain'_cons.2 ⟨h1, h⟩)
      else isFalse (fun hc => h1 (List.chain'_cons.1 hc).1)
    | isFalse h => isFalse (fun hc => h (List.chain'_cons.1 hc).2)

instance (m : Mem T) (l : List Nat) : Decidable (Linked m l) := decLinked m l

instance (m : Mem T) (l : List Nat) : Decidable (Chained m l) :=
  inferInstanceAs (Decidable (Linked m l ∧ l.Nodup ∧ ∀ p ∈ l, m.live p = true ∧ p < m.fresh))

instance (m : Mem T) (self : Nat) (ps : List Nat) : Decidable (Owns m self ps) :=
  inferInstanceAs (Decidable (Chained m (nodes m self ps) ∧ m.size_ self = ps.length))

/-- The list `a :: l` with every maximal run of consecutive equal elements collapsed to its
first element: the elements of `l` equal to the run's first element `a` are skipped. -/
def collapseFrom [DecidableEq T] (a : T) : List T → List T
  | [] => [a]
  | b :: l => if a = b then collapseFrom a l else a :: collapseFrom b l

/-- The reference for `unique()` in the words of the specification: every maximal run of
consecutive equal elements is collapsed to its first element. -/
def collapseRuns [DecidableEq T] : List T → List T
  | [] => []
  | a :: l => collapseFrom a l

/-- A concrete memory: one list object at address `0` holding the values `2, 1`; its sentinels
are the nodes `1` and `2`, its interior nodes `3` and `4`. -/
def demo21 : Mem Nat :=
  { data := fun p => [0, 0, 0, 2, 1].getD p 0,
    prev := fun p => [0, 0, 4, 1, 3].getD p 0,
    next := fun p => [0, 3, 0, 4, 2].getD p 0,
    live := fun p => decide (1 ≤ p ∧ p ≤ 4),
    fresh := 5,
    lists := fun _ => ⟨1, 2, 2⟩ }

/-- The list object at `this` is well formed and its front-to-back sequence is `xs`. -/
def Repr (m : Mem T) (self : Nat) (xs : List T) : Prop :=
  ∃ ps, Owns m self ps ∧ ps.map m.data = xs

/-- A comparator is a strict weak order: irreflexive, transitive, and incomparability is
transitive. -/
structure StrictWeakOrder (comp : T → T → Bool) : Prop where
  irrefl : ∀ a, comp a a = false
  trans : ∀ a b c, comp a b = true → comp b c = true → comp a c = true
  incomp_trans : ∀ a b c, comp a b = false → comp b a = false → comp b c = false →
    comp c b = false → comp a c = false ∧ comp c a = false

/-- The sequence is non-decreasing under `comp`: no element is strictly before its
predecessor. -/
def SortedBy (comp : T → T → Bool) (l : List T) : Prop :=
  List.Chain' (fun a b => comp b a = false) l

/-- Deciding `SortedBy` by walking the list. -/
def decSortedBy (comp : T → T → Bool) : (l : List T) → Decidable (SortedBy comp l)
  | [] => isTrue List.chain'_nil
  | [_] => isTrue (List.chain'_singleton _)
  | a :: b :: l =>
    match decSortedBy comp (b :: l) with
    | isTrue h =>
      if h1 : comp b a = false then isTrue (List.chain'_cons.2 ⟨h1, h⟩)
      else isFalse (fun hc => h1 (List.chain'_cons.1 hc).1)
    | isFalse h => isFalse (fun hc => h (List.chain'_cons.1 hc).2)

instance (comp : T → T → Bool) (l : List T) : Decidable (SortedBy comp l) :=
  decSortedBy comp l

/-- Merging `x :: xs` with a list, where `rest` merges `xs` with a list: the head of the other
list is taken as long as it is strictly before `x`. -/
def mergeInto (comp : T → T → Bool) (x : T) (xs : List T) (rest : List T → List T) :
    List T → List T
  | [] => x :: xs
  | y :: ys => if comp y x then y :: mergeInto comp x xs rest ys else x :: rest (y :: ys)

/-- The reference two-way merge of the specification for `merge(other, comp)`: the head of
`ys` is taken only when it is strictly before the head of `xs`, or when `xs` is exhausted. -/
def mergeRef (comp : T → T → Bool) : List T → List T → List T
  | [] => fun ys => ys
  | x :: xs => mergeInto comp x xs (mergeRef comp xs)

/-- Linking `x :: xs` with a list, where `rest` links `xs` with a list: `x` is taken when it is
strictly before the head of the other list, otherwise that head is taken. -/
def linkInto (comp : T → T → Bool) (x : T) (xs : List T) (rest : List T → List T) :
    List T → List T
  | [] => x :: xs
  | y :: ys => if comp x y then x :: rest (y :: ys) else y :: linkInto comp x xs rest ys

/-- What `merge_sort(left, right, comp)` computes on sequences: the head of the left run is
taken when `comp(left, right)` holds, otherwise the head of the right run. -/
def linkRef (comp : T → T → Bool) : List T → List T → List T
  | [] => fun ys => ys
  | x :: xs => linkInto comp x xs (linkRef comp xs)

/-- What `merge_sort(other, comp)` computes on sequences: a run of `n ≥ 2` elements is split
after its first `(n + 1) / 2` elements (where the slow pointer stops), both halves are sorted
and then linked by `linkRef`.  The first argument bounds the depth of the recursion. -/
def sortRef (comp : T → T → Bool) : Nat → List T → List T
  | 0, l => l
  | fuel + 1, l =>
    if l.length ≤ 1 then l
    else linkRef comp (sortRef comp fuel (l.take ((l.length + 1) / 2)))
      (sortRef comp fuel (l.drop ((l.length + 1) / 2)))

/-- The nodes `ps` are a segment that ends at the sentinel `t`: walking `next` from the first
of them visits them in order and then reaches `t`; they are distinct live nodes. -/
def TailSeg (m : Mem T) (t : Nat) (ps : List Nat) : Prop :=
  Fwd m (ps ++ [t]) ∧ (ps ++ [t]).Nodup ∧ ∀ p ∈ ps ++ [t], m.live p = true ∧ p < m.fresh

/-- The memory in which `splice(other)` ends when both lists are well formed, share no node and
`other` is not empty: the eight writes of the member in their order. -/
def spliced (m : Mem T) (self other : Nat) : Mem T :=
  let m1 := m.withNext (m.prev (m.tail_ self)) (m.next (m.head_ other))
  let m2 := m1.withPrev (m.next (m.head_ other)) (m.prev (m.tail_ self))
  let m3 := m2.withPrev (m.tail_ self) (m.prev (m.tail_ other))
  let m4 := m3.withNext (m.prev (m.tail_ other)) (m.tail_ self)
  let m5 := m4.setSize self (m.size_ self + m.size_ other)
  let m6 := m5.withNext (m.head_ other) (m.tail_ other)
  let m7 := m6.withPrev (m.tail_ other) (m.head_ other)
  m7.setSize other 0

/-- The memory a run of the embedded code ends in (the initial memory if it faults). -/
def memOf [Inhabited T] (r : Except Fault (Mem T)) : Mem T :=
  match r with
  | .ok m => m
  | .error _ => Mem.init

/-- The list of `testUniqueAndReverse`: object `0` holds `1, 1, 2, 3, 3` in the nodes
`3, 4, 5, 6, 7`. -/
def demoRuns : Mem Nat := memOf (ofList 0 [1, 1, 2, 3, 3] Mem.init)

/-- The list of `testSort`: object `0` holds `3, 1, 4, 2` in the nodes `3, 4, 5, 6`. -/
def demoSort : Mem Nat := memOf (ofList 0 [3, 1, 4, 2] Mem.init)

/-- The lists of `testSpliceAndMerge`: object `0` holds `1, 3` in the nodes `3, 4`, object `1`
holds `2, 4` in the nodes `7, 8`. -/
def demoTwo : Mem Nat := memOf (ofList 0 [1, 3] Mem.init >>= ofList 1 [2, 4])

/-- A list of two elements that compare equivalent under the order on the first component:
object `0` holds `(1, 0), (1, 1)` in the nodes `3, 4`. -/
def demoTies : Mem (Nat × Nat) := memOf (ofList 0 [(1, 0), (1, 1)] Mem.init)

/-- A freshly constructed list: object `0` with the sentinels `1` and `2`. -/
def demoEmpty : Mem Nat := memOf (construct 0 Mem.init)

end DoublyList

end Linear

/-!
Reference functions and drivers for the later properties of `Linear::DoublyList`: the stable
sort the result of `sort` is compared with, and sequences of calls of the public interface.
-/

namespace Linear

namespace DoublyList

variable {T : Type}

/-- Insertion into a sequence sorted under `comp`: `x` goes after the elements strictly before
it and in front of the first element that is not. -/
def insertBy (comp : T → T → Bool) (x : T) : List T → List T
  | [] => [x]
  | y :: ys => if comp y x then y :: insertBy comp x ys else x :: y :: ys

/-- The stable sort under `comp` in the words of the specification: the sorted arrangement in
which elements that compare equivalent keep their input order (insertion sort). -/
def stableSort (comp : T → T → Bool) : List T → List T
  | [] => []
  | x :: xs => insertBy comp x (stableSort comp xs)

/-- Whether `a` and `b` compare equivalent: neither is strictly before the other. -/
def equiv (comp : T → T → Bool) (a b : T) : Bool := !comp a b && !comp b a

/-- A sequence with every element marked by its origin: `false` for the list `merge` is
called on, `true` for the list merged into it. -/
def tagged (b : Bool) (l : List T) : List (T × Bool) := l.map (fun x => (x, b))

/-- The reference merge run on marked elements, the marks ignored by the comparison: the
merged sequence together with the origin of each of its elements. -/
def mergeTagged (comp : T → T → Bool) (xs ys : List T) : List (T × Bool) :=
  mergeRef (fun p q => comp p.1 q.1) (tagged false xs) (tagged true ys)

/-- An element of the merged list precedes an element of the list merged into only when it
is strictly before it: among equivalent elements, those of the list `merge` is called on
come first. -/
def TiesKeepFirst (comp : T → T → Bool) (r : List (T × Bool)) : Prop :=
  r.Pairwise (fun p q => p.2 = true → q.2 = false → comp p.1 q.1 = true)

/-- Two lists of pairs `(key, origin)`: object `0` holds `(5, 0), (1, 0)` in the nodes `3, 4`,
object `1` holds `(1, 1)` in the node `7`.  The first is not sorted by key. -/
def demoMix : Mem (Nat × Nat) :=
  memOf (ofList 0 [(5, 0), (1, 0)] Mem.init >>= ofList 1 [(1, 1)])

/-- One call of a mutating member by a driver of the list.  An iterator argument is given by
the number `k` of `operator++` applied to `begin()`; on a list of `n` elements the iterators
of the list are those with `k < n`, and `k = n` is `end()`. -/
inductive Op (T : Type) where
  | push_back (val : T)
  | push_front (val : T)
  | pop_back
  | pop_front
  | insert (val : T)
  | insert_pos (val : T) (k : Nat)
  | erase
  | erase_pos (k : Nat)

/-- The iterator `it` after `k` applications of `operator++`, each of which reads
`current_->next`. -/
def advance : Nat → Nat → Mem T → Except Fault Nat
  | 0, it, _ => pure it
  | k + 1, it, m => do
    let it ← m.getNext it
    advance k it m

/-- The iterator `begin()` after `k` applications of `operator++`. -/
def iterAt (self k : Nat) (m : Mem T) : Except Fault Nat := do
  let it ← begin_ self m
  advance k it m

/-- Performing one call on the list object at `this`. -/
def stepOp (self : Nat) : Op T → Mem T → Except Fault (Mem T)
  | .push_back v, m => push_back self v m
  | .push_front v, m => push_front self v m
  | .pop_back, m => pop_back self m
  | .pop_front, m => pop_front self m
  | .insert v, m => insert self v m
  | .insert_pos v k, m => do
    let pos ← iterAt self k m
    insert_pos self v pos m
  | .erase, m => erase self m
  | .erase_pos k, m => do
    let pos ← iterAt self k m
    erase_pos self pos m

/-- Performing a sequence of calls one after the other. -/
def runOps (self : Nat) : List (Op T) → Mem T → Except Fault (Mem T)
  | [], m => pure m
  | op :: ops, m => do
    let m ← stepOp self op m
    runOps self ops m

/-- What one call does to the front-to-back sequence, in the words of the specification:
the pushes add at the ends, the pops and `erase()` remove at the ends and do nothing on an
empty sequence, `insert(v, pos)` places `v` immediately before the position, `erase(pos)`
removes the element at the position and does nothing at `end()`. -/
def applyOp : Op T → List T → List T
  | .push_back v, xs => xs ++ [v]
  | .push_front v, xs => v :: xs
  | .pop_back, xs => xs.dropLast
  | .pop_front, xs => xs.drop 1
  | .insert v, xs => v :: xs
  | .insert_pos v k, xs => xs.take k ++ v :: xs.drop k
  | .erase, xs => xs.drop 1
  | .erase_pos k, xs => xs.eraseIdx k

/-- What a sequence of calls does to the front-to-back sequence. -/
def applyOps : List (Op T) → List T → List T
  | [], xs => xs
  | op :: ops, xs => applyOps ops (applyOp op xs)

/-- The call is an insertion: it allocates one node. -/
def Op.inserts : Op T → Bool
  | .push_back _ => true
  | .push_front _ => true
  | .insert _ => true
  | .insert_pos _ _ => true
  | _ => false

/-- The call is an erasure that is not a no-op on a list of `n` elements. -/
def Op.removes (n : Nat) : Op T → Bool
  | .pop_back => n ≠ 0
  | .pop_front => n ≠ 0
  | .erase => n ≠ 0
  | .erase_pos k => k < n
  | _ => false

/-- The iterator argument of the call, if it has one, is an iterator of the list of `n`
elements or its `end()`. -/
def Op.valid (n : Nat) : Op T → Bool
  | .insert_pos _ k => k ≤ n
  | .erase_pos k => k ≤ n
  | _ => true

/-- The number of elements after the call on a list of `n` elements. -/
def Op.lengthAfter (n : Nat) (op : Op T) : Nat :=
  if op.inserts then n + 1 else if op.removes n then n - 1 else n

/-- Every iterator argument in the sequence of calls is valid when its call is made; `n` is
the number of elements before the first call. -/
def validOps : Nat → List (Op T) → Bool
  | _, [] => true
  | n, op :: ops => op.valid n && validOps (op.lengthAfter n) ops

/-- The number of insertions in a sequence of calls. -/
def insertions : List (Op T) → Nat
  | [] => 0
  | op :: ops => (if op.inserts then 1 else 0) + insertions ops

/-- The number of erasures in a sequence of calls that are not no-ops; `n` is the number of
elements before the first call. -/
def removals : Nat → List (Op T) → Nat
  | _, [] => 0
  | n, op :: ops => (if op.removes n then 1 else 0) + removals (op.lengthAfter n) ops

/-- The calls of `testPopAndErase` followed by those of `testEdgeCases`. -/
def demoOps : List (Op Nat) :=
  [.push_back 1, .push_back 2, .push_back 3, .pop_front, .pop_back, .erase_pos 0,
    .pop_front, .pop_back, .insert_pos 10 0, .insert_pos 20 0]

end DoublyList

end Linear

/-!
Linear::Vector: a shallow embedding of `include/Linear/Vector.hpp`.

The C++ class owns a raw buffer `data_` obtained from `::operator new`, in which the slots
`[0, size_)` hold constructed elements.  The embedding keeps the buffer as an object of its
own: memory maps a buffer address and a slot index to `some x` (a constructed element) or
`none` (raw storage: never constructed, or destroyed), records which buffers are allocated and
how many slots each was allocated with, and stores the vector objects (`data_`, `size_`,
`capacity_`) by the address of the object, so that `v = v` aliases as it does in C++.

Reading a slot outside an allocated buffer, or through `nullptr`, yields
`Fault.invalidAccess`; reading raw storage yields `Fault.uninitialisedRead`.  `T` is taken to
be a trivially copyable, implicit-lifetime type, as the `int` of the test program is:
assignment to a slot and placement-new into a slot both store the value, also when the slot
is raw storage, and a destructor call only marks the slot raw.  `::operator new` always
succeeds and is measured in slots: the byte count `n * sizeof(T)` is taken not to wrap.

`push_back` and `insert` take their element as `const T& val` and read it only after they
have grown the buffer and, for `insert`, shifted the elements.  The embedding therefore passes
a `Ref`: the object the parameter is bound to, either an object outside every buffer or a slot
of a buffer, which may be a slot of the vector itself as in `v.push_back(v[0])`; the member
reads it where the source reads `val`.  `Vector(size_t count, const T& val)` writes to a
buffer it has just allocated and to nothing else, so every read of `val` there returns what
it held at the call, and the embedding passes that value.

`size_`, `capacity_` and the `size_t` loop counters are 64-bit: `capacity_ * 2`, `++size_`,
`size_ -= 1`, `size_ += 1` and `index + 1` wrap modulo `2^64`.  A `size_t` counter `i` that is
incremented under the guard `i < size_` cannot wrap.  The copy loops count with an `int`;
incrementing it past `INT_MAX` is undefined behaviour and yields `Fault.signedOverflow`.
-/

namespace Linear

/-- The number of values of a `size_t`. -/
def sizeMod : Nat := 2 ^ 64

/-- The largest value of an `int`. -/
def intMax : Nat := 2 ^ 31 - 1

/-- The object a `const T&` parameter is bound to: an object that lies in no buffer and holds
`v` (a local variable or a temporary), or the slot `i` of the buffer `p`. -/
inductive Ref (T : Type) where
  | obj (v : T)
  | slot (p i : Nat)

/-- The three data members of a `Vector<T>` object. -/
structure VecObj where
  data_ : Nat
  size_ : Nat
  capacity_ : Nat
  deriving DecidableEq, Repr

/-- Memory of the vector code: the slots of every buffer, which buffers are allocated, the
number of slots each was allocated with, the next address the allocator hands out, and the
vector objects. -/
structure VMem (T : Type) where
  cell : Nat → Nat → Option T
  blive : Nat → Bool
  bcap : Nat → Nat
  bfresh : Nat
  vecs : Nat → VecObj

namespace VMem

variable {T : Type}

/-- Memory before anything was allocated. -/
def init : VMem T :=
  { cell := fun _ _ => none, blive := fun _ => false, bcap := fun _ => 0, bfresh := 1,
    vecs := fun _ => ⟨0, 0, 0⟩ }

/-- Member `data_` of the vector object at `a`. -/
def data_ (m : VMem T) (a : Nat) : Nat := (m.vecs a).data_

/-- Member `size_` of the vector object at `a`. -/
def size_ (m : VMem T) (a : Nat) : Nat := (m.vecs a).size_

/-- Member `capacity_` of the vector object at `a`. -/
def capacity_ (m : VMem T) (a : Nat) : Nat := (m.vecs a).capacity_

/-- Assignment to the member `data_`. -/
def setData (m : VMem T) (a p : Nat) : VMem T :=
  { m with vecs := upd m.vecs a { m.vecs a with data_ := p } }

/-- Assignment to the member `size_`. -/
def setSize (m : VMem T) (a n : Nat) : VMem T :=
  { m with vecs := upd m.vecs a { m.vecs a with size_ := n } }

/-- Assignment to the member `capacity_`. -/
def setCap (m : VMem T) (a n : Nat) : VMem T :=
  { m with vecs := upd m.vecs a { m.vecs a with capacity_ := n } }

/-- The memory with slot `i` of buffer `p` overwritten. -/
def withCell (m : VMem T) (p i : Nat) (c : Option T) : VMem T :=
  { m with cell := upd m.cell p (upd (m.cell p) i c) }

/-- Whether `p[i]` lies inside an allocated buffer. -/
def inBounds (m : VMem T) (p i : Nat) : Bool :=
  decide (p ≠ 0) && m.blive p && decide (i < m.bcap p)

/-- Read the element `p[i]`. -/
def readCell (m : VMem T) (p i : Nat) : Except Fault T :=
  if m.inBounds p i = true then
    match m.cell p i with
    | some x => .ok x
    | none => .error .uninitialisedRead
  else .error .invalidAccess

/-- Read the object a `const T&` parameter is bound to. -/
def readRef (m : VMem T) : Ref T → Except Fault T
  | .obj v => .ok v
  | .slot p i => m.readCell p i

/-- Store into `p[i]`: `new (p + i) T(x)`, or `p[i] = x`. -/
def writeCell (m : VMem T) (p i : Nat) (x : T) : Except Fault (VMem T) :=
  if m.inBounds p i = true then .ok (m.withCell p i (some x)) else .error .invalidAccess

/-- Destroy the element `p[i]`: `p[i].~T()`. -/
def destroyCell (m : VMem T) (p i : Nat) : Except Fault (VMem T) :=
  if m.inBounds p i = true then .ok (m.withCell p i none) else .error .invalidAccess

/-- Allocation of a raw buffer of `n` slots, `::operator new(n * sizeof(T))`; the buffer is at
address `m.bfresh`. -/
def alloc (m : VMem T) (n : Nat) : VMem T :=
  { m with cell := upd m.cell m.bfresh (fun _ => none), blive := upd m.blive m.bfresh true,
           bcap := upd m.bcap m.bfresh n, bfresh := m.bfresh + 1 }

/-- Release of a buffer, `::operator delete(p)`; a null pointer is accepted. -/
def free (m : VMem T) (p : Nat) : Except Fault (VMem T) :=
  if p = 0 then .ok m
  else if m.blive p = true then .ok { m with blive := upd m.blive p false }
  else .error .invalidAccess

end VMem

namespace Vector

variable {T : Type}

/-- `Vector()`. -/
def construct (self : Nat) (m : VMem T) : VMem T :=
  { m with vecs := upd m.vecs self ⟨0, 0, 0⟩ }

/-- `Vector(size_t initial_capacity)`. -/
def construct_cap (self : Nat) (initial_capacity : Nat) (m : VMem T) : VMem T :=
  { m.alloc initial_capacity with vecs := upd m.vecs self ⟨m.bfresh, 0, initial_capacity⟩ }

/-- The loop of `Vector(size_t count, const T& val)`. -/
def fillLoop (self : Nat) (count : Nat) (val : T) : Nat → Nat → VMem T → Except Fault (VMem T)
  | 0, _, _ => .error .outOfFuel
  | fuel + 1, i, m =>
    if i < count then do
      let m1 ← m.writeCell (m.data_ self) i val
      fillLoop self count val fuel (i + 1) m1
    else pure m

/-- `Vector(size_t count, const T& val)`. -/
def construct_fill (self : Nat) (count : Nat) (val : T) (fuel : Nat) (m : VMem T) :
    Except Fault (VMem T) := do
  let m1 := (m.alloc count).setData self m.bfresh
  let m2 := m1.setCap self count
  let m3 ← fillLoop self count val fuel 0 m2
  pure (m3.setSize self count)

/-- The loop of the copy constructor and of `operator=`:
`for (int i = 0; i < other.size_; i++) new (data_ + i) T(other.data_[i]);`. -/
def copyLoop (self other : Nat) : Nat → Nat → VMem T → Except Fault (VMem T)
  | 0, _, _ => .error .outOfFuel
  | fuel + 1, i, m =>
    if i < m.size_ other then do
      let x ← m.readCell (m.data_ other) i
      let m1 ← m.writeCell (m.data_ self) i x
      if i < intMax then copyLoop self other fuel (i + 1) m1 else .error .signedOverflow
    else pure m

/-- `Vector(const Vector& other)`. -/
def copy_construct (self other : Nat) (fuel : Nat) (m : VMem T) : Except Fault (VMem T) := do
  let m1 := (m.alloc (m.capacity_ other)).setData self m.bfresh
  let m2 := m1.setCap self (m1.capacity_ other)
  let m3 ← copyLoop self other fuel 0 m2
  pure (m3.setSize self (m3.size_ other))

/-- The loop of `clear`. -/
def clearLoop (self : Nat) : Nat → Nat → VMem T → Except Fault (VMem T)
  | 0, _, _ => .error .outOfFuel
  | fuel + 1, i, m =>
    if i < m.size_ self then do
      let m1 ← m.destroyCell (m.data_ self) i
      clearLoop self fuel (i + 1) m1
    else pure m

/-- `clear()`. -/
def clear (self : Nat) (fuel : Nat) (m : VMem T) : Except Fault (VMem T) := do
  let m1 ← clearLoop self fuel 0 m
  pure (m1.setSize self 0)

/-- `operator=(const Vector& other)`. -/
def assign (self other : Nat) (fuel : Nat) (m : VMem T) : Except Fault (VMem T) := do
  let temp_size := m.size_ other
  let m1 ← clear self fuel m
  let m2 ← m1.free (m1.data_ self)
  let m3 := (m2.alloc (m2.capacity_ other)).setData self m2.bfresh
  let m4 := m3.setCap self (m3.capacity_ other)
  let m5 ← copyLoop self other fuel 0 m4
  pure (m5.setSize self temp_size)

/-- Reading through `operator[](size_t index)`. -/
def index (self : Nat) (i : Nat) (m : VMem T) : Except Fault T :=
  m.readCell (m.data_ self) i

/-- Writing through the reference `operator[](size_t index)` returns: `v[index] = x`. -/
def index_write (self : Nat) (i : Nat) (x : T) (m : VMem T) : Except Fault (VMem T) :=
  m.writeCell (m.data_ self) i x

/-- `at(size_t index)`. -/
def at_ (self : Nat) (i : Nat) (m : VMem T) : Except Fault T :=
  if i ≥ m.size_ self then .error .outOfRange else m.readCell (m.data_ self) i

/-- The loop of `reserve`: move-construct into the new buffer, destroy the old element. -/
def reserveLoop (self new_data : Nat) : Nat → Nat → VMem T → Except Fault (VMem T)
  | 0, _, _ => .error .outOfFuel
  | fuel + 1, i, m =>
    if i < m.size_ self then do
      let x ← m.readCell (m.data_ self) i
      let m1 ← m.writeCell new_data i x
      let m2 ← m1.destroyCell (m1.data_ self) i
      reserveLoop self new_data fuel (i + 1) m2
    else pure m

/-- `reserve(size_t new_capacity)`. -/
def reserve (self : Nat) (new_capacity : Nat) (fuel : Nat) (m : VMem T) :
    Except Fault (VMem T) :=
  if new_capacity ≤ m.capacity_ self then pure m else do
    let new_data := m.bfresh
    let m1 := m.alloc new_capacity
    let m2 ← reserveLoop self new_data fuel 0 m1
    let m3 ← m2.free (m2.data_ self)
    let m4 := m3.setData self new_data
    pure (m4.setCap self new_capacity)

/-- The capacity `push_back` and `insert` ask for: `capacity_ == 0 ? 1 : capacity_ * 2`. -/
def grown (capacity : Nat) : Nat :=
  if capacity = 0 then 1 else capacity * 2 % sizeMod

/-- `push_back(const T& val)`; `push_back(T&& val)` has the same body.  The parameter is
read by `new (data_ + size_) T(val)`, after `reserve` has returned. -/
def push_back (self : Nat) (val : Ref T) (fuel : Nat) (m : VMem T) :
    Except Fault (VMem T) := do
  let m1 ← if m.size_ self ≥ m.capacity_ self
    then reserve self (grown (m.capacity_ self)) fuel m else pure m
  let x ← m1.readRef val
  let m2 ← m1.writeCell (m1.data_ self) (m1.size_ self) x
  pure (m2.setSize self ((m2.size_ self + 1) % sizeMod))

/-- `size()`. -/
def size (self : Nat) (m : VMem T) : Nat := m.size_ self

/-- `capacity()`. -/
def capacity (self : Nat) (m : VMem T) : Nat := m.capacity_ self

/-- `empty()`. -/
def empty (self : Nat) (m : VMem T) : Bool := m.size_ self == 0

/-- The loop of `erase`: `for (size_t i = index + 1; i < size_; i++) data_[i - 1] = data_[i];`. -/
def eraseLoop (self : Nat) : Nat → Nat → VMem T → Except Fault (VMem T)
  | 0, _, _ => .error .outOfFuel
  | fuel + 1, i, m =>
    if i < m.size_ self then do
      let x ← m.readCell (m.data_ self) i
      let m1 ← m.writeCell (m.data_ self) ((i + sizeMod - 1) % sizeMod) x
      eraseLoop self fuel (i + 1) m1
    else pure m

/-- `erase(size_t index)`. -/
def erase (self : Nat) (idx : Nat) (fuel : Nat) (m : VMem T) : Except Fault (VMem T) := do
  let m1 ← eraseLoop self fuel ((idx + 1) % sizeMod) m
  pure (m1.setSize self ((m1.size_ self + sizeMod - 1) % sizeMod))

/-- The loop of `insert`:
`for (size_t i = size_; i > index; i--) if (i < capacity_) data_[i] = data_[i - 1];`. -/
def insertLoop (self : Nat) (idx : Nat) : Nat → Nat → VMem T → Except Fault (VMem T)
  | 0, _, _ => .error .outOfFuel
  | fuel + 1, i, m =>
    if i > idx then do
      let m1 ← if i < m.capacity_ self then do
          let x ← m.readCell (m.data_ self) (i - 1)
          m.writeCell (m.data_ self) i x
        else pure m
      insertLoop self idx fuel (i - 1) m1
    else pure m

/-- `insert(size_t index, const T& val)`.  The parameter is read by `data_[index] = val`,
after `reserve` and the shift loop. -/
def insert (self : Nat) (idx : Nat) (val : Ref T) (fuel : Nat) (m : VMem T) :
    Except Fault (VMem T) := do
  let m1 ← if m.size_ self ≥ m.capacity_ self
    then reserve self (grown (m.capacity_ self)) fuel m else pure m
  let m2 ← insertLoop self idx fuel (m1.size_ self) m1
  let x ← m2.readRef val
  let m3 ← m2.writeCell (m2.data_ self) idx x
  pure (m3.setSize self ((m3.size_ self + 1) % sizeMod))

/-- The shift of `insert` as the specification words it, elements `[index, size)` moved one
slot right by assignment, with no guard in the loop:
`for (size_t i = size_; i > index; i--) data_[i] = data_[i - 1];`. -/
def shiftLoop (self : Nat) (idx : Nat) : Nat → Nat → VMem T → Except Fault (VMem T)
  | 0, _, _ => .error .outOfFuel
  | fuel + 1, i, m =>
    if i > idx then do
      let x ← m.readCell (m.data_ self) (i - 1)
      let m1 ← m.writeCell (m.data_ self) i x
      shiftLoop self idx fuel (i - 1) m1
    else pure m

/-- The member `insert` with the unguarded `shiftLoop` in place of its loop: the reference
the guarded code is compared with. -/
def insert_unguarded (self : Nat) (idx : Nat) (val : Ref T) (fuel : Nat) (m : VMem T) :
    Except Fault (VMem T) := do
  let m1 ← if m.size_ self ≥ m.capacity_ self
    then reserve self (grown (m.capacity_ self)) fuel m else pure m
  let m2 ← shiftLoop self idx fuel (m1.size_ self) m1
  let x ← m2.readRef val
  let m3 ← m2.writeCell (m2.data_ self) idx x
  pure (m3.setSize self ((m3.size_ self + 1) % sizeMod))

/-- The elements met from `begin()` to `end()`, as the range-for loops of the test program
read them. -/
def toList (self : Nat) (m : VMem T) : Except Fault (List T) :=
  (List.range (m.size_ self)).mapM (fun i => m.readCell (m.data_ self) i)

/-- The vector built by pushing the elements of a list onto the vector at `self`, each passed
as an object of its own, as in `v.push_back(1)`. -/
def pushAll (self : Nat) (fuel : Nat) : List T → VMem T → Except Fault (VMem T)
  | [], m => pure m
  | x :: xs, m => do
    let m1 ← push_back self (.obj x) fuel m
    pushAll self fuel xs m1

/-- Well-formedness of the vector object at `self`, holding the elements `xs`: `size_` counts
them, they fit the capacity, the buffer is either null with capacity zero or an allocated
buffer of `capacity_` slots, and the slots `[0, size_)` hold `xs`. -/
def Valid (m : VMem T) (self : Nat) (xs : List T) : Prop :=
  m.size_ self = xs.length ∧ xs.length ≤ m.capacity_ self ∧ m.capacity_ self < sizeMod ∧
  ((m.data_ self = 0 ∧ m.capacity_ self = 0) ∨
   (m.data_ self ≠ 0 ∧ m.blive (m.data_ self) = true ∧
    m.bcap (m.data_ self) = m.capacity_ self)) ∧
  m.data_ self < m.bfresh ∧
  ∀ i < xs.length, m.cell (m.data_ self) i = xs[i]?

instance [DecidableEq T] (m : VMem T) (self : Nat) (xs : List T) : Decidable (Valid m self xs) :=
  inferInstanceAs (Decidable (_ ∧ _))

/-- The memory a run of the embedded vector code ends in (the initial memory if it faults). -/
def vmemOf (r : Except Fault (VMem T)) : VMem T :=
  match r with
  | .ok m => m
  | .error _ => VMem.init

/-- The vector of `testCopyAndAssignment`: object `0` holds `1, 2` in a buffer of two slots. -/
def demoVec : VMem Nat := vmemOf (pushAll 0 3 [1, 2] (construct 0 VMem.init))

/-- The vector of `testEraseAndClear`: object `0` holds `1, 2, 3, 4` in a buffer of four
slots. -/
def demoFour : VMem Nat := vmemOf (pushAll 0 5 [1, 2, 3, 4] (construct 0 VMem.init))

/-- The vector `1, 2, 3` with a spare slot: object `0` after three pushes holds `1, 2, 3` in a
buffer of four slots. -/
def demoThree : VMem Nat := vmemOf (pushAll 0 4 [1, 2, 3] (construct 0 VMem.init))

/-- The capacities a doubling policy passes through while `n` elements are pushed: either
nothing was pushed and the capacity is zero, or the capacity is a power of two with
`n ≤ capacity < 2 * n`. -/
def CapInv (n c : Nat) : Prop :=
  (n = 0 ∧ c = 0) ∨ ∃ e, c = 2 ^ e ∧ n ≤ c ∧ c < 2 * n

/-- The shape of a vector object, apart from the contents of its slots: `size <= capacity`,
the capacity is a `size_t`, and the buffer is either null with capacity zero or an allocated
buffer of `capacity_` slots. -/
def Shaped (m : VMem T) (self : Nat) : Prop :=
  size self m ≤ capacity self m ∧ m.capacity_ self < sizeMod ∧
  ((m.data_ self = 0 ∧ m.capacity_ self = 0) ∨
   (m.data_ self ≠ 0 ∧ m.blive (m.data_ self) = true ∧
    m.bcap (m.data_ self) = m.capacity_ self)) ∧
  m.data_ self < m.bfresh

instance (m : VMem T) (self : Nat) : Decidable (Shaped m self) :=
  inferInstanceAs (Decidable (_ ∧ _))

/-- Two memories that differ at most in the contents of slots. -/
def SameFrame (m m' : VMem T) : Prop :=
  m'.vecs = m.vecs ∧ m'.blive = m.blive ∧ m'.bcap = m.bcap ∧ m'.bfresh = m.bfresh

/-- The memory after `Vector<T> src(2147483649, 0)`: object `0` holds `2^31 + 1` zeros in the
buffer `1`. -/
def hugeVec : VMem Nat :=
  { cell := fun p i => if p = 1 ∧ i < 2 ^ 31 + 1 then some 0 else none,
    blive := fun p => decide (p = 1),
    bcap := fun p => if p = 1 then 2 ^ 31 + 1 else 0,
    bfresh := 2,
    vecs := fun a => if a = 0 then ⟨1, 2 ^ 31 + 1, 2 ^ 31 + 1⟩ else ⟨0, 0, 0⟩ }

end Vector

end Linear

/-! ## Memory algebra -/

namespace Linear

variable {T : Type}

@[simp] theorem upd_same {β : Type} (f : Nat → β) (a : Nat) (v : β) : upd f a v a = v := by
  simp [upd]

theorem upd_ne {β : Type} (f : Nat → β) {a x : Nat} (v : β) (h : x ≠ a) :
    upd f a v x = f x := by
  simp [upd, h]

theorem upd_true_of {f : Nat → Bool} {x : Nat} (a : Nat) (h : f x = true) :
    upd f a true x = true := by
  unfold upd; split <;> simp [h]

@[simp] theorem ok_bind {ε α β : Type} (a : α) (f : α → Except ε β) :
    (Except.ok a >>= f) = f a := rfl

@[simp] theorem error_bind {ε α β : Type} (e : ε) (f : α → Except ε β) :
    (Except.error e >>= f) = Except.error e := rfl

@[simp] theorem pure_eq_ok {ε α : Type} (a : α) : (pure a : Except ε α) = Except.ok a := rfl

namespace Mem

@[simp] theorem newNode_data (m : Mem T) (v : T) (a b : Nat) :
    (m.newNode v a b).data = upd m.data m.fresh v := rfl

@[simp] theorem newNode_prev (m : Mem T) (v : T) (a b : Nat) :
    (m.newNode v a b).prev = upd m.prev m.fresh b := rfl

@[simp] theorem newNode_next (m : Mem T) (v : T) (a b : Nat) :
    (m.newNode v a b).next = upd m.next m.fresh a := rfl

@[simp] theorem newNode_live (m : Mem T) (v : T) (a b : Nat) :
    (m.newNode v a b).live = upd m.live m.fresh true := rfl

@[simp] theorem newNode_fresh (m : Mem T) (v : T) (a b : Nat) :
    (m.newNode v a b).fresh = m.fresh + 1 := rfl

@[simp] theorem newNode_lists (m : Mem T) (v : T) (a b : Nat) :
    (m.newNode v a b).lists = m.lists := rfl

@[simp] theorem newNode_head_ (m : Mem T) (v : T) (a b : Nat) (j : Nat) :
    (m.newNode v a b).head_ j = m.head_ j := rfl

@[simp] theorem newNode_tail_ (m : Mem T) (v : T) (a b : Nat) (j : Nat) :
    (m.newNode v a b).tail_ j = m.tail_ j := rfl

@[simp] theorem newNode_size_ (m : Mem T) (v : T) (a b : Nat) (j : Nat) :
    (m.newNode v a b).size_ j = m.size_ j := rfl

@[simp] theorem withNext_data (m : Mem T) (p q : Nat) :
    (m.withNext p q).data = m.data := rfl

@[simp] theorem withNext_prev (m : Mem T) (p q : Nat) :
    (m.withNext p q).prev = m.prev := rfl

@[simp] theorem withNext_next (m : Mem T) (p q : Nat) :
    (m.withNext p q).next = upd m.next p q := rfl

@[simp] theorem withNext_live (m : Mem T) (p q : Nat) :
    (m.withNext p q).live = m.live := rfl

@[simp] theorem withNext_fresh (m : Mem T) (p q : Nat) :
    (m.withNext p q).fresh = m.fresh := rfl

@[simp] theorem withNext_lists (m : Mem T) (p q : Nat) :
    (m.withNext p q).lists = m.lists := rfl

@[simp] theorem withNext_head_ (m : Mem T) (p q : Nat) (j : Nat) :
    (m.withNext p q).head_ j = m.head_ j := rfl

@[simp] theorem withNext_tail_ (m : Mem T) (p q : Nat) (j : Nat) :
    (m.withNext p q).tail_ j = m.tail_ j := rfl

@[simp] theorem withNext_size_ (m : Mem T) (p q : Nat) (j : Nat) :
    (m.withNext p q).size_ j = m.size_ j := rfl

@[simp] theorem withPrev_data (m : Mem T) (p q : Nat) :
    (m.withPrev p q).data = m.data := rfl

@[simp] theorem withPrev_prev (m : Mem T) (p q : Nat) :
    (m.withPrev p q).prev = upd m.prev p q := rfl

@[simp] theorem withPrev_next (m : Mem T) (p q : Nat) :
    (m.withPrev p q).next = m.next := rfl

@[simp] theorem withPrev_live (m : Mem T) (p q : Nat) :
    (m.withPrev p q).live = m.live := rfl

@[simp] theorem withPrev_fresh (m : Mem T) (p q : Nat) :
    (m.withPrev p q).fresh = m.fresh := rfl

@[simp] theorem withPrev_lists (m : Mem T) (p q : Nat) :
    (m.withPrev p q).lists = m.lists := rfl

@[simp] theorem withPrev_head_ (m : Mem T) (p q : Nat) (j : Nat) :
    (m.withPrev p q).head_ j = m.head_ j := rfl

@[simp] theorem withPrev_tail_ (m : Mem T) (p q : Nat) (j : Nat) :
    (m.withPrev p q).tail_ j = m.tail_ j := rfl

@[simp] theorem withPrev_size_ (m : Mem T) (p q : Nat) (j : Nat) :
    (m.withPrev p q).size_ j = m.size_ j := rfl

@[simp] theorem kill_data (m : Mem T) (p : Nat) :
    (m.kill p).data = m.data := rfl

@[simp] theorem kill_prev (m : Mem T) (p : Nat) :
    (m.kill p).prev = m.prev := rfl

@[simp] theorem kill_next (m : Mem T) (p : Nat) :
    (m.kill p).next = m.next := rfl

@[simp] theorem kill_live (m : Mem T) (p : Nat) :
    (m.kill p).live = upd m.live p false := rfl

@[simp] theorem kill_fresh (m : Mem T) (p : Nat) :
    (m.kill p).fresh = m.fresh := rfl

@[simp] theorem kill_lists (m : Mem T) (p : Nat) :
    (m.kill p).lists = m.lists := rfl

@[simp] theorem kill_head_ (m : Mem T) (p : Nat) (j : Nat) :
    (m.kill p).head_ j = m.head_ j := rfl

@[simp] theorem kill_tail_ (m : Mem T) (p : Nat) (j : Nat) :
    (m.kill p).tail_ j = m.tail_ j := rfl

@[simp] theorem kill_size_ (m : Mem T) (p : Nat) (j : Nat) :
    (m.kill p).size_ j = m.size_ j := rfl

@[simp] theorem setSize_data (m : Mem T) (i n : Nat) :
    (m.setSize i n).data = m.data := rfl

@[simp] theorem setSize_prev (m : Mem T) (i n : Nat) :
    (m.setSize i n).prev = m.prev := rfl

@[simp] theorem setSize_next (m : Mem T) (i n : Nat) :
    (m.setSize i n).next = m.next := rfl

@[simp] theorem setSize_live (m : Mem T) (i n : Nat) :
    (m.setSize i n).live = m.live := rfl

@[simp] theorem setSize_fresh (m : Mem T) (i n : Nat) :
    (m.setSize i n).fresh = m.fresh := rfl

@[simp] theorem setSize_lists (m : Mem T) (i n : Nat) :
    (m.setSize i n).lists = upd m.lists i { m.lists i with size_ := n } := rfl

@[simp] theorem setSize_head_ (m : Mem T) (i n j : Nat) : (m.setSize i n).head_ j = m.head_ j := by
  unfold setSize head_ upd; dsimp only; split <;> simp_all

@[simp] theorem setSize_tail_ (m : Mem T) (i n j : Nat) : (m.setSize i n).tail_ j = m.tail_ j := by
  unfold setSize tail_ upd; dsimp only; split <;> simp_all

@[simp] theorem setSize_size_same (m : Mem T) (i n : Nat) : (m.setSize i n).size_ i = n := by
  simp [setSize, size_]

theorem setSize_size_ne (m : Mem T) {i j : Nat} (n : Nat) (h : j ≠ i) :
    (m.setSize i n).size_ j = m.size_ j := by
  simp [setSize, size_, upd, h]

@[simp] theorem incSize_data (m : Mem T) (i : Nat) : (m.incSize i).data = m.data := rfl

@[simp] theorem incSize_prev (m : Mem T) (i : Nat) : (m.incSize i).prev = m.prev := rfl

@[simp] theorem incSize_next (m : Mem T) (i : Nat) : (m.incSize i).next = m.next := rfl

@[simp] theorem incSize_live (m : Mem T) (i : Nat) : (m.incSize i).live = m.live := rfl

@[simp] theorem incSize_fresh (m : Mem T) (i : Nat) : (m.incSize i).fresh = m.fresh := rfl

@[simp] theorem incSize_head_ (m : Mem T) (i j : Nat) : (m.incSize i).head_ j = m.head_ j := by
  simp [incSize]

@[simp] theorem incSize_tail_ (m : Mem T) (i j : Nat) : (m.incSize i).tail_ j = m.tail_ j := by
  simp [incSize]

@[simp] theorem incSize_size_same (m : Mem T) (i : Nat) :
    (m.incSize i).size_ i = m.size_ i + 1 := by
  simp [incSize]

theorem incSize_size_ne (m : Mem T) {i j : Nat} (h : j ≠ i) :
    (m.incSize i).size_ j = m.size_ j := by
  simp [incSize, setSize_size_ne _ _ h]

@[simp] theorem decSize_data (m : Mem T) (i : Nat) : (m.decSize i).data = m.data := rfl

@[simp] theorem decSize_prev (m : Mem T) (i : Nat) : (m.decSize i).prev = m.prev := rfl

@[simp] theorem decSize_next (m : Mem T) (i : Nat) : (m.decSize i).next = m.next := rfl

@[simp] theorem decSize_live (m : Mem T) (i : Nat) : (m.decSize i).live = m.live := rfl

@[simp] theorem decSize_fresh (m : Mem T) (i : Nat) : (m.decSize i).fresh = m.fresh := rfl

@[simp] theorem decSize_head_ (m : Mem T) (i j : Nat) : (m.decSize i).head_ j = m.head_ j := by
  simp [decSize]

@[simp] theorem decSize_tail_ (m : Mem T) (i j : Nat) : (m.decSize i).tail_ j = m.tail_ j := by
  simp [decSize]

theorem decSize_size_same (m : Mem T) (i : Nat) (h : m.size_ i ≠ 0) :
    (m.decSize i).size_ i = m.size_ i - 1 := by
  simp [decSize, h]

theorem decSize_size_ne (m : Mem T) {i j : Nat} (h : j ≠ i) :
    (m.decSize i).size_ j = m.size_ j := by
  simp [decSize, setSize_size_ne _ _ h]

theorem getNext_ok {m : Mem T} {p : Nat} (h : m.live p = true) :
    m.getNext p = .ok (m.next p) := by
  simp [getNext, h]

theorem getPrev_ok {m : Mem T} {p : Nat} (h : m.live p = true) :
    m.getPrev p = .ok (m.prev p) := by
  simp [getPrev, h]

theorem getData_ok {m : Mem T} {p : Nat} (h : m.live p = true) :
    m.getData p = .ok (m.data p) := by
  simp [getData, h]

theorem setNext_ok {m : Mem T} {p : Nat} (q : Nat) (h : m.live p = true) :
    m.setNext p q = .ok (m.withNext p q) := by
  simp [setNext, h]

theorem setPrev_ok {m : Mem T} {p : Nat} (q : Nat) (h : m.live p = true) :
    m.setPrev p q = .ok (m.withPrev p q) := by
  simp [setPrev, h]

theorem deleteNode_ok {m : Mem T} {p : Nat} (h : m.live p = true) :
    m.deleteNode p = .ok (m.kill p) := by
  simp [deleteNode, h]

end Mem

/-! ## Chains of nodes -/

namespace DoublyList

theorem chain_frame {α : Type} {R S : α → α → Prop} :
    ∀ {l : List α}, List.Chain' R l →
      (∀ p q, p ∈ l.dropLast → q ∈ l.tail → R p q → S p q) → List.Chain' S l
  | [], _, _ => List.chain'_nil
  | [_], _, _ => List.chain'_singleton _
  | a :: b :: l, h, hRS => by
    rw [List.chain'_cons] at h ⊢
    refine ⟨hRS a b (by simp) (by simp) h.1, chain_frame h.2 ?_⟩
    intro p q hp hq
    exact hRS p q (by simp [List.dropLast]; right; exact hp) (by simp; right; simpa using hq)

theorem getLast_not_mem_dropLast {α : Type} {l : List α} (hl : l ≠ []) (hn : l.Nodup) :
    l.getLast hl ∉ l.dropLast := by
  intro h
  have hsplit := List.dropLast_append_getLast hl
  rw [← hsplit] at hn
  exact (List.nodup_append.1 hn).2.2 h (by simp)

theorem Linked.frameL {m m' : Mem T} {l : List Nat} (h : Linked m l)
    (hn : ∀ p ∈ l.dropLast, m'.next p = m.next p) (hp : ∀ q ∈ l.tail, m'.prev q = m.prev q) :
    Linked m' l :=
  chain_frame h (fun p q hp' hq' hr => by rw [hn p hp', hp q hq']; exact hr)


theorem exists_concat (a : Nat) (l : List Nat) : ∃ L b, a :: l = L ++ [b] := by
  rcases List.eq_nil_or_concat (a :: l) with h | ⟨L, b, h⟩
  · simp at h
  · exact ⟨L, b, by simpa using h⟩

/-- Linking the freshly allocated node between two neighbours keeps the chain well formed. -/
theorem Chained.insert {m m' : Mem T} {X Y : List Nat} {a b : Nat}
    (h : Chained m (X ++ a :: b :: Y))
    (hnext : m'.next = upd (upd m.next m.fresh b) a m.fresh)
    (hprev : m'.prev = upd (upd m.prev m.fresh a) b m.fresh)
    (hlive : m'.live = upd m.live m.fresh true)
    (hfresh : m'.fresh = m.fresh + 1) :
    Chained m' (X ++ a :: m.fresh :: b :: Y) := by
  obtain ⟨hl, hnd, hlv⟩ := h
  have hlt : ∀ p ∈ X ++ a :: b :: Y, p ≠ m.fresh := fun p hp => by
    have hp' := (hlv p hp).2; omega
  have haf := hlt a (by simp)
  have hbf := hlt b (by simp)
  unfold Linked at hl
  rw [List.chain'_append_cons_cons] at hl
  obtain ⟨hl1, ⟨hab, hba⟩, hl2⟩ := hl
  have hnd2 := hnd
  simp only [List.nodup_append, List.nodup_cons, List.mem_cons, not_or] at hnd2
  obtain ⟨hX, ⟨⟨hab', haY⟩, hbY, hY⟩, hdis⟩ := hnd2
  refine ⟨?_, ?_, ?_⟩
  · unfold Linked
    rw [List.chain'_append_cons_cons, List.chain'_cons]
    refine ⟨?_, ?_, ?_, ?_⟩
    · refine Linked.frameL hl1 (fun p hp => ?_) (fun q hq => ?_)
      · have hpX : p ∈ X := by simpa using hp
        have hpa : p ≠ a := by rintro rfl; exact hdis hpX (by simp)
        have hpf := hlt p (by simp [hpX])
        simp [hnext, upd_ne, *]
      · have hq' : q ∈ X ++ [a] := List.mem_of_mem_tail hq
        have hqb : q ≠ b := by
          rintro rfl
          rcases List.mem_append.1 hq' with h1 | h1
          · exact hdis h1 (by simp)
          · simp at h1; exact hab' h1.symm
        have hqf := hlt q (by simp at hq' ⊢; tauto)
        simp [hprev, upd_ne, *]
    · simp [hnext, hprev, upd_ne, Ne.symm hbf]
    · simp [hnext, hprev, upd_ne, Ne.symm haf]
    · refine Linked.frameL hl2 (fun p hp => ?_) (fun q hq => ?_)
      · have hp' : p ∈ b :: Y := List.mem_of_mem_dropLast hp
        have hpa : p ≠ a := by
          rintro rfl; simp at hp'; rcases hp' with h1 | h1
          · exact hab' h1
          · exact haY h1
        have hpf := hlt p (by simp at hp' ⊢; tauto)
        simp [hnext, upd_ne, *]
      · have hqY : q ∈ Y := by simpa using hq
        have hqb : q ≠ b := by rintro rfl; exact hbY hqY
        have hqf := hlt q (by simp [hqY])
        simp [hprev, upd_ne, *]
  · have hfX : m.fresh ∉ X := fun hf => hlt _ (by simp [hf]) rfl
    have hfY : m.fresh ∉ Y := fun hf => hlt _ (by simp [hf]) rfl
    simp only [List.nodup_append, List.nodup_cons, List.mem_cons, not_or]
    refine ⟨hX, ⟨⟨haf, hab', haY⟩, ⟨Ne.symm hbf, hfY⟩, hbY, hY⟩, ?_⟩
    intro p hpX hp
    simp at hp
    rcases hp with rfl | rfl | rfl | hp
    · exact hdis hpX (by simp)
    · exact hfX hpX
    · exact hdis hpX (by simp)
    · exact hdis hpX (by simp [hp])
  · intro p hp
    rw [hlive, hfresh]
    by_cases hpf : p = m.fresh
    · subst hpf; simp
    · have hp' : p ∈ X ++ a :: b :: Y := by simp at hp ⊢; tauto
      have := hlv p hp'
      simp [upd_ne, hpf, this.1]; omega


theorem exists_cons (l : List Nat) (t : Nat) : ∃ b Y, l ++ [t] = b :: Y := by
  cases l with
  | nil => exact ⟨t, [], rfl⟩
  | cons b l => exact ⟨b, l ++ [t], rfl⟩

theorem upd_self_val {β : Type} (f : Nat → β) (a y : Nat) : upd f a (f y) y = f y := by
  unfold upd; split <;> simp_all

theorem map_upd_of_not_mem {β : Type} (f : Nat → β) {a : Nat} (v : β) {l : List Nat}
    (h : a ∉ l) : l.map (upd f a v) = l.map f :=
  List.map_congr_left (fun _ hx => upd_ne f v (fun e => h (e ▸ hx)))

theorem insert_pos_eq {m : Mem T} (self : Nat) (v : T) {pos : Nat}
    (hpos : m.live pos = true) (hprev : m.live (m.prev pos) = true) :
    insert_pos self v pos m =
      .ok ((((m.newNode v pos (m.prev pos)).withNext (m.prev pos) m.fresh).withPrev
        pos m.fresh).incSize self) := by
  simp [insert_pos, Mem.getPrev, Mem.setNext, Mem.setPrev, upd_true_of, upd_self_val, hpos, hprev]

theorem push_back_eq_insert_pos {m : Mem T} (self : Nat) (v : T)
    (hpos : m.live (m.tail_ self) = true) (hprev : m.live (m.prev (m.tail_ self)) = true) :
    push_back self v m = insert_pos self v (m.tail_ self) m := by
  rw [insert_pos_eq self v hpos hprev]
  simp [push_back, Mem.getPrev, Mem.setNext, Mem.setPrev, upd_true_of, upd_self_val, hpos, hprev]

theorem push_front_eq {m : Mem T} (self : Nat) (v : T)
    (hh : m.live (m.head_ self) = true) (hn : m.live (m.next (m.head_ self)) = true) :
    push_front self v m =
      .ok ((((m.newNode v (m.next (m.head_ self)) (m.head_ self)).withPrev
        (m.next (m.head_ self)) m.fresh).withNext (m.head_ self) m.fresh).incSize self) := by
  simp [push_front, Mem.getNext, Mem.setNext, Mem.setPrev, upd_true_of, upd_self_val, hh, hn]

/-- Inserting before a position of a well-formed list. -/
theorem Owns.insert_fields {m m' : Mem T} {self : Nat} {A B : List Nat} {a b : Nat}
    (h : Owns m self (A ++ B))
    (ha : (m.head_ self :: A).getLast? = some a) (hb : (B ++ [m.tail_ self]).head? = some b)
    (hnext : m'.next = upd (upd m.next m.fresh b) a m.fresh)
    (hprev : m'.prev = upd (upd m.prev m.fresh a) b m.fresh)
    (hlive : m'.live = upd m.live m.fresh true)
    (hfresh : m'.fresh = m.fresh + 1)
    (hhead : m'.head_ self = m.head_ self) (htail : m'.tail_ self = m.tail_ self)
    (hsize : m'.size_ self = m.size_ self + 1) :
    Owns m' self (A ++ m.fresh :: B) := by
  obtain ⟨X, a', hX⟩ := exists_concat (m.head_ self) A
  obtain ⟨b', Y, hY⟩ := exists_cons B (m.tail_ self)
  rw [hX] at ha; rw [hY] at hb
  simp at ha hb
  subst ha hb
  have e1 : nodes m self (A ++ B) = X ++ a' :: b' :: Y := by
    simp only [nodes, List.append_assoc, hY, ← List.cons_append, hX]; simp
  have e2 : nodes m' self (A ++ m.fresh :: B) = X ++ a' :: m.fresh :: b' :: Y := by
    simp only [nodes, hhead, htail, List.append_assoc, List.cons_append, hY]
    simp only [← List.cons_append, hX]; simp
  refine ⟨?_, by simp [hsize, h.2]; omega⟩
  rw [e2]
  exact Chained.insert (e1 ▸ h.1) hnext hprev hlive hfresh


theorem Owns.live_head {m : Mem T} {self : Nat} {ps : List Nat} (h : Owns m self ps) :
    m.live (m.head_ self) = true := (h.1.2.2 _ (by simp [nodes])).1

theorem Owns.live_tail {m : Mem T} {self : Nat} {ps : List Nat} (h : Owns m self ps) :
    m.live (m.tail_ self) = true := (h.1.2.2 _ (by simp [nodes])).1

theorem Owns.live_mem {m : Mem T} {self : Nat} {ps : List Nat} (h : Owns m self ps)
    {p : Nat} (hp : p ∈ ps) : m.live p = true := (h.1.2.2 _ (by simp [nodes, hp])).1

theorem Owns.lt_fresh {m : Mem T} {self : Nat} {ps : List Nat} (h : Owns m self ps)
    {p : Nat} (hp : p ∈ ps) : p < m.fresh := (h.1.2.2 _ (by simp [nodes, hp])).2

/-- In a well-formed list, `p->prev` of a node or of `tail_` is the node in front of it. -/
theorem Owns.prev_eq {m : Mem T} {self : Nat} {A B : List Nat} {a b : Nat}
    (h : Owns m self (A ++ B))
    (ha : (m.head_ self :: A).getLast? = some a) (hb : (B ++ [m.tail_ self]).head? = some b) :
    m.prev b = a ∧ m.next a = b ∧ m.live a = true ∧ m.live b = true := by
  obtain ⟨X, a', hX⟩ := exists_concat (m.head_ self) A
  obtain ⟨b', Y, hY⟩ := exists_cons B (m.tail_ self)
  rw [hX] at ha; rw [hY] at hb
  simp at ha hb
  subst ha hb
  have e1 : nodes m self (A ++ B) = X ++ a' :: b' :: Y := by
    simp only [nodes, List.append_assoc, hY, ← List.cons_append, hX]; simp
  have hc := h.1
  rw [e1] at hc
  obtain ⟨hl, -, hlv⟩ := hc
  unfold Linked at hl
  rw [List.chain'_append_cons_cons] at hl
  exact ⟨hl.2.1.2, hl.2.1.1, (hlv a' (by simp)).1, (hlv b' (by simp)).1⟩

theorem insert_pos_spec {m : Mem T} {self : Nat} {A B : List Nat} (v : T) {pos : Nat}
    (h : Owns m self (A ++ B)) (hpos : (B ++ [m.tail_ self]).head? = some pos) :
    ∃ m', insert_pos self v pos m = .ok m' ∧ Owns m' self (A ++ m.fresh :: B) ∧
      m'.data = upd m.data m.fresh v ∧
      (∀ j, m'.head_ j = m.head_ j ∧ m'.tail_ j = m.tail_ j) ∧ m'.fresh = m.fresh + 1 := by
  have ha : (m.head_ self :: A).getLast? = some ((m.head_ self :: A).getLast (by simp)) :=
    List.getLast?_eq_getLast _ _
  obtain ⟨h1, h2, h3, h4⟩ := h.prev_eq ha hpos
  refine ⟨_, insert_pos_eq self v h4 (h1 ▸ h3), ?_, rfl, fun j => by simp, rfl⟩
  exact h.insert_fields ha hpos (by simp [h1]) (by simp [h1]) rfl rfl (by simp) (by simp) (by simp)


end DoublyList

end Linear

/-! ## Traversal, construction and the push operations -/

namespace Linear

namespace DoublyList

variable {T : Type}

theorem Linked.toFwd {m : Mem T} {l : List Nat} (h : Linked m l) : Fwd m l :=
  List.Chain'.imp (fun _ _ hab => hab.1) h

/-- Traversing a tail-terminated forward chain collects the data of its nodes. -/
theorem collect_of_fwd {m : Mem T} {t : Nat} :
    ∀ (ps : List Nat) (s fuel : Nat), Fwd m (ps ++ [t]) → t ∉ ps →
      (∀ p ∈ ps, m.live p = true) → (ps ++ [t]).head? = some s → ps.length < fuel →
      collect t fuel s m = .ok (ps.map m.data)
  | [], s, fuel, _, _, _, hs, hf => by
    obtain ⟨f, rfl⟩ : ∃ f, fuel = f + 1 := ⟨fuel - 1, by simp at hf; omega⟩
    simp at hs
    simp [collect, hs]
  | p :: ps, s, fuel, hc, ht, hl, hs, hf => by
    obtain ⟨f, rfl⟩ : ∃ f, fuel = f + 1 := ⟨fuel - 1, by simp at hf; omega⟩
    simp at hs
    subst hs
    have hpt : p ≠ t := fun e => ht (by simp [e])
    have hnx : (ps ++ [t]).head? = some (m.next p) := by
      cases ps with
      | nil => simp [Fwd] at hc; simp [hc]
      | cons q ps => simp [Fwd, List.chain'_cons] at hc; simp [hc.1]
    have ih := collect_of_fwd ps (m.next p) f (List.Chain'.tail hc)
      (fun h => ht (by simp [h])) (fun q hq => hl q (by simp [hq])) hnx (by simp at hf; omega)
    simp [collect, hpt, Mem.getData_ok (hl p (by simp)), Mem.getNext_ok (hl p (by simp)), ih]

theorem Owns.next_head {m : Mem T} {self : Nat} {ps : List Nat} (h : Owns m self ps) :
    (ps ++ [m.tail_ self]).head? = some (m.next (m.head_ self)) := by
  have hl := h.1.1
  cases ps with
  | nil => simp [nodes, Linked] at hl; simp [hl.1]
  | cons q ps => simp [nodes, Linked, List.chain'_cons] at hl; simp [hl.1.1]

theorem Owns.tail_not_mem {m : Mem T} {self : Nat} {ps : List Nat} (h : Owns m self ps) :
    m.tail_ self ∉ ps := by
  have hn := h.1.2.1
  simp [nodes, List.nodup_append] at hn
  tauto

theorem Owns.head_not_mem {m : Mem T} {self : Nat} {ps : List Nat} (h : Owns m self ps) :
    m.head_ self ∉ ps := by
  have hn := h.1.2.1
  simp [nodes, List.nodup_append] at hn
  tauto

theorem Owns.head_ne_tail {m : Mem T} {self : Nat} {ps : List Nat} (h : Owns m self ps) :
    m.head_ self ≠ m.tail_ self := by
  have hn := h.1.2.1
  simp [nodes, List.nodup_append] at hn
  tauto

theorem Owns.fwd {m : Mem T} {self : Nat} {ps : List Nat} (h : Owns m self ps) :
    Fwd m (ps ++ [m.tail_ self]) :=
  List.Chain'.tail h.1.1.toFwd

/-- On a well-formed list the traversal returns the data of the interior nodes. -/
theorem Owns.traverse {m : Mem T} {self : Nat} {ps : List Nat} (h : Owns m self ps)
    {fuel : Nat} (hf : ps.length < fuel) :
    listToVector self fuel m = .ok (ps.map m.data) := by
  simp only [DoublyList.listToVector, begin_, end_, Mem.getNext_ok h.live_head, ok_bind]
  exact collect_of_fwd ps _ fuel h.fwd h.tail_not_mem (fun p hp => h.live_mem hp) h.next_head hf

theorem Repr.traverseRepr {m : Mem T} {self : Nat} {xs : List T} (h : Repr m self xs)
    {fuel : Nat} (hf : xs.length < fuel) :
    listToVector self fuel m = .ok xs := by
  obtain ⟨ps, ho, rfl⟩ := h
  exact ho.traverse (by simpa using hf)

theorem Repr.size_eq {m : Mem T} {self : Nat} {xs : List T} (h : Repr m self xs) :
    size self m = xs.length := by
  obtain ⟨ps, ho, rfl⟩ := h
  simp [size, ho.2]

theorem construct_spec [Inhabited T] (self : Nat) (m : Mem T) :
    ∃ m', construct self m = .ok m' ∧ Owns m' self [] := by
  refine ⟨_, by simp [construct, Mem.setNext, Mem.setPrev, upd_ne]; rfl, ?_⟩
  simp [Owns, Chained, Linked, nodes, Mem.head_, Mem.tail_, Mem.size_, upd_ne]
  omega

theorem push_back_spec {m : Mem T} {self : Nat} {ps : List Nat} (v : T) (h : Owns m self ps) :
    ∃ m', push_back self v m = .ok m' ∧ Owns m' self (ps ++ [m.fresh]) ∧
      m'.data = upd m.data m.fresh v := by
  have hpos : ([] ++ [m.tail_ self]).head? = some (m.tail_ self) := rfl
  have h' : Owns m self (ps ++ []) := by simpa using h
  have ha : (m.head_ self :: ps).getLast? = some ((m.head_ self :: ps).getLast (by simp)) :=
    List.getLast?_eq_getLast _ _
  obtain ⟨h1, h2, h3, h4⟩ := h'.prev_eq ha hpos
  rw [push_back_eq_insert_pos self v h4 (h1 ▸ h3)]
  obtain ⟨m', e1, e2, e3, -, -⟩ := insert_pos_spec v h' hpos
  exact ⟨m', e1, e2, e3⟩

theorem push_front_spec {m : Mem T} {self : Nat} {ps : List Nat} (v : T) (h : Owns m self ps) :
    ∃ m', push_front self v m = .ok m' ∧ Owns m' self (m.fresh :: ps) ∧
      m'.data = upd m.data m.fresh v := by
  have ha : (m.head_ self :: []).getLast? = some (m.head_ self) := rfl
  have h' : Owns m self ([] ++ ps) := by simpa using h
  have hb := h.next_head
  obtain ⟨h1, h2, h3, h4⟩ := h'.prev_eq ha hb
  refine ⟨_, push_front_eq self v h3 h4, ?_, rfl⟩
  exact h'.insert_fields ha hb (by simp) (by simp) rfl rfl (by simp) (by simp) (by simp)

theorem Owns.not_mem_fresh {m : Mem T} {self : Nat} {ps : List Nat} (h : Owns m self ps) :
    m.fresh ∉ ps := fun hf => Nat.lt_irrefl _ (h.lt_fresh hf)

theorem push_back_repr {m : Mem T} {self : Nat} {xs : List T} (v : T) (h : Repr m self xs) :
    ∃ m', push_back self v m = .ok m' ∧ Repr m' self (xs ++ [v]) := by
  obtain ⟨ps, ho, rfl⟩ := h
  obtain ⟨m', h1, h2, h3⟩ := push_back_spec v ho
  exact ⟨m', h1, _, h2, by simp [h3, map_upd_of_not_mem _ _ ho.not_mem_fresh]⟩

theorem push_front_repr {m : Mem T} {self : Nat} {xs : List T} (v : T) (h : Repr m self xs) :
    ∃ m', push_front self v m = .ok m' ∧ Repr m' self (v :: xs) := by
  obtain ⟨ps, ho, rfl⟩ := h
  obtain ⟨m', h1, h2, h3⟩ := push_front_spec v ho
  exact ⟨m', h1, _, h2, by simp [h3, map_upd_of_not_mem _ _ ho.not_mem_fresh]⟩


theorem push_back_all {self : Nat} :
    ∀ (vs : List T) {m : Mem T} {xs : List T}, Repr m self xs →
      ∃ m', vs.foldlM (fun m v => push_back self v m) m = .ok m' ∧ Repr m' self (xs ++ vs)
  | [], m, xs, h => ⟨m, rfl, by simpa using h⟩
  | v :: vs, m, xs, h => by
    obtain ⟨m1, h1, h2⟩ := push_back_repr v h
    obtain ⟨m2, h3, h4⟩ := push_back_all vs h2
    exact ⟨m2, by simp [List.foldlM_cons, h1, h3], by simpa using h4⟩

theorem push_front_all {self : Nat} :
    ∀ (vs : List T) {m : Mem T} {xs : List T}, Repr m self xs →
      ∃ m', vs.foldlM (fun m v => push_front self v m) m = .ok m' ∧
        Repr m' self (vs.reverse ++ xs)
  | [], m, xs, h => ⟨m, rfl, by simpa using h⟩
  | v :: vs, m, xs, h => by
    obtain ⟨m1, h1, h2⟩ := push_front_repr v h
    obtain ⟨m2, h3, h4⟩ := push_front_all vs h2
    exact ⟨m2, by simp [List.foldlM_cons, h1, h3], by simpa using h4⟩

theorem construct_repr [Inhabited T] (self : Nat) (m : Mem T) :
    ∃ m', construct self m = .ok m' ∧ Repr m' self [] := by
  obtain ⟨m', h1, h2⟩ := construct_spec self m
  exact ⟨m', h1, [], h2, rfl⟩

/-- C10: on a well-formed list with front-to-back sequence `xs`, `push_back(v)` succeeds and
gives the sequence `xs ++ [v]`, `push_front(v)` gives `v :: xs`; pushing `vs` one after the
other with `push_back` gives `xs ++ vs` and with `push_front` gives `vs.reverse ++ xs`; and
starting from the empty list built by the constructor, the pushes of `vs` give `vs`, respectively
`vs.reverse`, which is also what the front-to-back traversal returns. -/
theorem push_back_push_front_order [Inhabited T] (m : Mem T) (self : Nat) (xs : List T)
    (h : Repr m self xs) (v : T) (vs : List T) :
    (∃ m', push_back self v m = .ok m' ∧ Repr m' self (xs ++ [v]) ∧
      listToVector self (xs.length + 2) m' = .ok (xs ++ [v])) ∧
    (∃ m', push_front self v m = .ok m' ∧ Repr m' self (v :: xs) ∧
      listToVector self (xs.length + 2) m' = .ok (v :: xs)) ∧
    (∃ m', vs.foldlM (fun m v => push_back self v m) m = .ok m' ∧ Repr m' self (xs ++ vs)) ∧
    (∃ m', vs.foldlM (fun m v => push_front self v m) m = .ok m' ∧
      Repr m' self (vs.reverse ++ xs)) ∧
    (∀ m0 : Mem T, ∃ m1 m', construct self m0 = .ok m1 ∧ Repr m1 self [] ∧
      vs.foldlM (fun m v => push_back self v m) m1 = .ok m' ∧ Repr m' self vs ∧
      listToVector self (vs.length + 1) m' = .ok vs) ∧
    (∀ m0 : Mem T, ∃ m1 m', construct self m0 = .ok m1 ∧ Repr m1 self [] ∧
      vs.foldlM (fun m v => push_front self v m) m1 = .ok m' ∧ Repr m' self vs.reverse ∧
      listToVector self (vs.length + 1) m' = .ok vs.reverse) := by
  refine ⟨?_, ?_, push_back_all vs h, push_front_all vs h, fun m0 => ?_, fun m0 => ?_⟩
  · obtain ⟨m', h1, h2⟩ := push_back_repr v h
    exact ⟨m', h1, h2, h2.traverseRepr (by simp)⟩
  · obtain ⟨m', h1, h2⟩ := push_front_repr v h
    exact ⟨m', h1, h2, h2.traverseRepr (by simp)⟩
  · obtain ⟨m1, h1, h2⟩ := construct_repr self m0
    obtain ⟨m', h3, h4⟩ := push_back_all vs h2
    exact ⟨m1, m', h1, h2, h3, by simpa using h4, h4.traverseRepr (by simp)⟩
  · obtain ⟨m1, h1, h2⟩ := construct_repr self m0
    obtain ⟨m', h3, h4⟩ := push_front_all vs h2
    rw [List.append_nil] at h4
    exact ⟨m1, m', h1, h2, h3, h4, h4.traverseRepr (by simp)⟩

theorem push_back_push_front_order_witness :
    Repr demo21 0 [2, 1] ∧
      ∃ m', push_back 0 7 demo21 = .ok m' ∧ Repr m' 0 ([2, 1] ++ [7]) ∧
        listToVector 0 ([2, 1].length + 2) m' = .ok ([2, 1] ++ [7]) :=
  ⟨⟨[3, 4], by decide, rfl⟩,
    (push_back_push_front_order demo21 0 [2, 1] ⟨[3, 4], by decide, rfl⟩ 7 [8, 9]).1⟩


end DoublyList

end Linear

/-! ## Erasing nodes -/

namespace Linear

namespace DoublyList

variable {T : Type}

/-- Unlinking a node from between its two neighbours keeps the chain well formed. -/
theorem Chained.erase {m m' : Mem T} {X Y : List Nat} {a b c : Nat}
    (h : Chained m (X ++ a :: b :: c :: Y))
    (hnext : m'.next = upd m.next a c)
    (hprev : m'.prev = upd m.prev c a)
    (hlive : ∀ p, p ≠ b → m'.live p = m.live p)
    (hfresh : m'.fresh = m.fresh) :
    Chained m' (X ++ a :: c :: Y) := by
  obtain ⟨hl, hnd, hlv⟩ := h
  unfold Linked at hl
  rw [List.chain'_append_cons_cons, List.chain'_cons] at hl
  obtain ⟨hl1, -, -, hl2⟩ := hl
  have hnd2 := hnd
  simp only [List.nodup_append, List.nodup_cons, List.mem_cons, not_or] at hnd2
  obtain ⟨hX, ⟨⟨hab, hac, haY⟩, ⟨hbc, hbY⟩, hcY, hY⟩, hdis⟩ := hnd2
  refine ⟨?_, ?_, ?_⟩
  · unfold Linked
    rw [List.chain'_append_cons_cons]
    refine ⟨?_, ?_, ?_⟩
    · refine Linked.frameL hl1 (fun p hp => ?_) (fun q hq => ?_)
      · have hpX : p ∈ X := by simpa using hp
        have hpa : p ≠ a := by rintro rfl; exact hdis hpX (by simp)
        simp [hnext, upd_ne, *]
      · have hq' : q ∈ X ++ [a] := List.mem_of_mem_tail hq
        have hqc : q ≠ c := by
          rintro rfl
          rcases List.mem_append.1 hq' with h1 | h1
          · exact hdis h1 (by simp)
          · simp at h1; exact hac h1.symm
        simp [hprev, upd_ne, *]
    · simp [hnext, hprev]
    · refine Linked.frameL hl2 (fun p hp => ?_) (fun q hq => ?_)
      · have hp' : p ∈ c :: Y := List.mem_of_mem_dropLast hp
        have hpa : p ≠ a := by
          rintro rfl; simp at hp'; rcases hp' with h1 | h1
          · exact hac h1
          · exact haY h1
        simp [hnext, upd_ne, *]
      · have hqY : q ∈ Y := by simpa using hq
        have hqc : q ≠ c := by rintro rfl; exact hcY hqY
        simp [hprev, upd_ne, *]
  · simp only [List.nodup_append, List.nodup_cons, List.mem_cons, not_or]
    refine ⟨hX, ⟨⟨hac, haY⟩, hcY, hY⟩, ?_⟩
    intro p hpX hp
    simp at hp
    rcases hp with rfl | rfl | hp
    · exact hdis hpX (by simp)
    · exact hdis hpX (by simp)
    · exact hdis hpX (by simp [hp])
  · intro p hp
    have hp' : p ∈ X ++ a :: b :: c :: Y := by simp at hp ⊢; tauto
    have hpb : p ≠ b := by
      rintro rfl
      simp at hp
      rcases hp with h1 | h1 | h1 | h1
      · exact hdis h1 (by simp)
      · exact hab h1.symm
      · exact hbc h1
      · exact hbY h1
    rw [hlive p hpb, hfresh]
    exact hlv p hp'

theorem erase_pos_eq {m : Mem T} (self : Nat) {pos : Nat} (hne : pos ≠ m.tail_ self)
    (hpos : m.live pos = true) (hprev : m.live (m.prev pos) = true)
    (hnext : m.live (m.next pos) = true) :
    erase_pos self pos m =
      .ok ((((m.withNext (m.prev pos) (m.next pos)).withPrev (m.next pos) (m.prev pos)).kill
        pos).decSize self) := by
  simp [erase_pos, end_, Mem.getPrev, Mem.getNext, Mem.setNext, Mem.setPrev, Mem.deleteNode,
    upd_self_val, hpos, hprev, hnext, hne]

theorem pop_front_eq {m : Mem T} (self : Nat) (hne : m.size_ self ≠ 0)
    (hh : m.live (m.head_ self) = true) (hpos : m.live (m.next (m.head_ self)) = true)
    (hnext : m.live (m.next (m.next (m.head_ self))) = true) :
    pop_front self m =
      .ok ((((m.withNext (m.head_ self) (m.next (m.next (m.head_ self)))).withPrev
        (m.next (m.next (m.head_ self))) (m.head_ self)).kill (m.next (m.head_ self))).decSize
          self) := by
  simp [pop_front, empty, Mem.getPrev, Mem.getNext, Mem.setNext, Mem.setPrev, Mem.deleteNode,
    upd_self_val, hpos, hh, hnext, hne]

/-- The neighbours of an interior node of a well-formed list. -/
theorem Owns.neighbours {m : Mem T} {self : Nat} {A B : List Nat} {a b c : Nat}
    (h : Owns m self (A ++ b :: B))
    (ha : (m.head_ self :: A).getLast? = some a) (hc : (B ++ [m.tail_ self]).head? = some c) :
    m.prev b = a ∧ m.next b = c ∧ m.next a = b ∧ m.prev c = b ∧
      m.live a = true ∧ m.live b = true ∧ m.live c = true := by
  have h1 := h.prev_eq ha (show ((b :: B) ++ [m.tail_ self]).head? = some b from rfl)
  have h' : Owns m self ((A ++ [b]) ++ B) := by simpa using h
  have h2 := h'.prev_eq
    (show (m.head_ self :: (A ++ [b])).getLast? = some b by
      rw [← List.cons_append, List.getLast?_append]; simp) hc
  exact ⟨h1.1, h2.2.1, h1.2.1, h2.1, h1.2.2.1, h1.2.2.2, h2.2.2.2⟩

/-- Erasing an interior node of a well-formed list, in terms of the fields written. -/
theorem Owns.erase_fields {m m' : Mem T} {self : Nat} {A B : List Nat} {a b c : Nat}
    (h : Owns m self (A ++ b :: B))
    (ha : (m.head_ self :: A).getLast? = some a) (hc : (B ++ [m.tail_ self]).head? = some c)
    (hnext : m'.next = upd m.next a c)
    (hprev : m'.prev = upd m.prev c a)
    (hlive : ∀ p, p ≠ b → m'.live p = m.live p)
    (hfresh : m'.fresh = m.fresh)
    (hhead : m'.head_ self = m.head_ self) (htail : m'.tail_ self = m.tail_ self)
    (hsize : m'.size_ self = m.size_ self - 1) :
    Owns m' self (A ++ B) := by
  obtain ⟨X, a', hX⟩ := exists_concat (m.head_ self) A
  obtain ⟨c', Y, hY⟩ := exists_cons B (m.tail_ self)
  rw [hX] at ha; rw [hY] at hc
  simp at ha hc
  subst ha hc
  have e1 : nodes m self (A ++ b :: B) = X ++ a' :: b :: c' :: Y := by
    simp only [nodes, List.append_assoc, List.cons_append, hY]
    simp only [← List.cons_append, hX]; simp
  have e2 : nodes m' self (A ++ B) = X ++ a' :: c' :: Y := by
    simp only [nodes, hhead, htail, List.append_assoc, List.cons_append, hY]
    simp only [← List.cons_append, hX]; simp
  refine ⟨?_, by simp [hsize, h.2]⟩
  rw [e2]
  exact Chained.erase (e1 ▸ h.1) hnext hprev hlive hfresh

theorem Owns.mem_ne_tail {m : Mem T} {self : Nat} {ps : List Nat} (h : Owns m self ps)
    {p : Nat} (hp : p ∈ ps) : p ≠ m.tail_ self :=
  fun e => h.tail_not_mem (e ▸ hp)

theorem erase_pos_spec {m : Mem T} {self : Nat} {A B : List Nat} {b : Nat}
    (h : Owns m self (A ++ b :: B)) :
    ∃ m', erase_pos self b m = .ok m' ∧ Owns m' self (A ++ B) ∧ m'.data = m.data ∧
      ∀ j, m'.head_ j = m.head_ j ∧ m'.tail_ j = m.tail_ j := by
  have ha : (m.head_ self :: A).getLast? = some ((m.head_ self :: A).getLast (by simp)) :=
    List.getLast?_eq_getLast _ _
  obtain ⟨c, Y, hY⟩ := exists_cons B (m.tail_ self)
  have hc : (B ++ [m.tail_ self]).head? = some c := by rw [hY]; rfl
  obtain ⟨h1, h2, h3, h4, h5, h6, h7⟩ := h.neighbours ha hc
  have hbt := h.mem_ne_tail (show b ∈ A ++ b :: B by simp)
  refine ⟨_, erase_pos_eq self hbt h6 (h1 ▸ h5) (h2 ▸ h7), ?_, rfl, fun j => by simp⟩
  · refine h.erase_fields ha hc (by simp [h1, h2]) (by simp [h1, h2])
      (fun p hp => by simp [upd_ne, hp]) rfl (by simp) (by simp) ?_
    rw [Mem.decSize_size_same]
    · simp
    · simp [h.2]

theorem pop_front_spec {m : Mem T} {self : Nat} {b : Nat} {B : List Nat}
    (h : Owns m self (b :: B)) :
    ∃ m', pop_front self m = .ok m' ∧ Owns m' self B ∧ m'.data = m.data ∧
      ∀ j, m'.head_ j = m.head_ j ∧ m'.tail_ j = m.tail_ j := by
  have ha : (m.head_ self :: []).getLast? = some (m.head_ self) := rfl
  obtain ⟨c, Y, hY⟩ := exists_cons B (m.tail_ self)
  have hc : (B ++ [m.tail_ self]).head? = some c := by rw [hY]; rfl
  have h' : Owns m self ([] ++ b :: B) := by simpa using h
  obtain ⟨h1, h2, h3, h4, h5, h6, h7⟩ := h'.neighbours ha hc
  have hsz : m.size_ self ≠ 0 := by simp [h.2]
  refine ⟨_, pop_front_eq self hsz h5 (h3 ▸ h6) (by rw [h3, h2]; exact h7), ?_, rfl,
    fun j => by simp⟩
  show Owns _ self ([] ++ B)
  refine h'.erase_fields ha hc ?_ ?_ (fun p hp => ?_) rfl (by simp) (by simp) ?_
  · simp [h3, h2]
  · simp [h3, h2]
  · simp [h3, upd_ne, hp]
  · rw [Mem.decSize_size_same _ _ (by simpa using hsz)]; simp


end DoublyList

end Linear

/-! ## The member unique -/

namespace Linear

namespace DoublyList

variable {T : Type}

theorem collapseRuns_cons_cons_eq [DecidableEq T] (a : T) (l : List T) :
    collapseRuns (a :: a :: l) = collapseRuns (a :: l) := by
  simp [collapseRuns, collapseFrom]

theorem collapseRuns_cons_cons_ne [DecidableEq T] {a b : T} (h : a ≠ b) (l : List T) :
    collapseRuns (a :: b :: l) = a :: collapseRuns (b :: l) := by
  simp [collapseRuns, collapseFrom, h]

theorem collapseRuns_cons_exists [DecidableEq T] (a : T) (l : List T) :
    ∃ r, collapseRuns (a :: l) = a :: r := by
  induction l with
  | nil => exact ⟨[], rfl⟩
  | cons b l ih =>
    by_cases h : a = b
    · subst h; rw [collapseRuns_cons_cons_eq]; exact ih
    · exact ⟨_, collapseRuns_cons_cons_ne h l⟩

theorem collapseRuns_eq_destutter [DecidableEq T] (l : List T) :
    collapseRuns l = l.destutter (· ≠ ·) := by
  cases l with
  | nil => rfl
  | cons a l =>
    induction l generalizing a with
    | nil => rfl
    | cons b l ih =>
      by_cases h : a = b
      · subst h
        rw [collapseRuns_cons_cons_eq, ih]
        simp [List.destutter, List.destutter']
      · rw [collapseRuns_cons_cons_ne h, ih]
        simp [List.destutter, List.destutter', h]

theorem collapseRuns_chain [DecidableEq T] (l : List T) :
    (collapseRuns l).Chain' (· ≠ ·) := by
  rw [collapseRuns_eq_destutter]; exact List.destutter_is_chain' _ _

theorem collapseRuns_sublist [DecidableEq T] (l : List T) :
    (collapseRuns l).Sublist l := by
  rw [collapseRuns_eq_destutter]; exact List.destutter_sublist _ _

theorem collapseRuns_of_length_le_one [DecidableEq T] {l : List T} (h : l.length ≤ 1) :
    collapseRuns l = l := by
  match l, h with
  | [], _ => rfl
  | [_], _ => rfl

/-- The loop of `unique()`: `k` is the last node kept so far, `R` the nodes still to visit. -/
theorem uniqueLoop_spec [DecidableEq T] {self : Nat} :
    ∀ (R K : List Nat) (k it fuel : Nat) (m : Mem T), Owns m self (K ++ k :: R) →
      (R ++ [m.tail_ self]).head? = some it → R.length < fuel →
      ∃ m' ps, uniqueLoop self fuel it m = .ok m' ∧ Owns m' self (K ++ k :: ps) ∧
        m'.data = m.data ∧
        (k :: ps).map m.data = collapseRuns ((k :: R).map m.data)
  | [], K, k, it, fuel, m, h, hit, hf => by
    obtain ⟨f, rfl⟩ : ∃ f, fuel = f + 1 := ⟨fuel - 1, by simp at hf; omega⟩
    simp at hit
    exact ⟨m, [], by simp [uniqueLoop, end_, hit], h, rfl, rfl⟩
  | r :: R, K, k, it, fuel, m, h, hit, hf => by
    obtain ⟨f, rfl⟩ : ∃ f, fuel = f + 1 := ⟨fuel - 1, by simp at hf; omega⟩
    simp at hit
    subst hit
    have h' : Owns m self ((K ++ [k]) ++ r :: R) := by simpa using h
    have ha : (m.head_ self :: (K ++ [k])).getLast? = some k := by
      rw [← List.cons_append, List.getLast?_append]; simp
    obtain ⟨c, Y, hY⟩ := exists_cons R (m.tail_ self)
    have hc : (R ++ [m.tail_ self]).head? = some c := by rw [hY]; rfl
    obtain ⟨h1, h2, h3, h4, h5, h6, h7⟩ := h'.neighbours ha hc
    have hrt : r ≠ m.tail_ self := h.mem_ne_tail (by simp)
    by_cases hv : m.data r = m.data k
    · obtain ⟨m1, e1, e2, e3, e4⟩ := erase_pos_spec h'
      have e2' : Owns m1 self (K ++ k :: R) := by simpa using e2
      obtain ⟨m2, ps, i1, i2, i3, i4⟩ := uniqueLoop_spec R K k c f m1 e2'
        (by rw [(e4 self).2]; exact hc) (by simp at hf; omega)
      refine ⟨m2, ps, ?_, i2, by rw [i3, e3], ?_⟩
      · simp [uniqueLoop, end_, hrt, Mem.getData_ok h6, Mem.getPrev_ok h6, h1,
          Mem.getData_ok h5, hv, Mem.getNext_ok h6, h2, e1, i1]
      · rw [e3] at i4
        rw [i4]
        simp only [List.map_cons, hv]
        rw [collapseRuns_cons_cons_eq]
    · have h'' : Owns m self ((K ++ [k]) ++ r :: R) := h'
      obtain ⟨m2, ps, i1, i2, i3, i4⟩ := uniqueLoop_spec R (K ++ [k]) r c f m h'' hc
        (by simp at hf; omega)
      refine ⟨m2, r :: ps, ?_, by simpa using i2, i3, ?_⟩
      · simp [uniqueLoop, end_, hrt, Mem.getData_ok h6, Mem.getPrev_ok h6, h1,
          Mem.getData_ok h5, hv, Mem.getNext_ok h6, h2, i1]
      · simp only [List.map_cons] at i4 ⊢
        rw [collapseRuns_cons_cons_ne (Ne.symm hv), ← i4]

theorem unique_spec [DecidableEq T] {m : Mem T} {self : Nat} {ps : List Nat} {fuel : Nat}
    (h : Owns m self ps) (hf : ps.length ≤ fuel) :
    ∃ m' ps', unique self fuel m = .ok m' ∧ Owns m' self ps' ∧ m'.data = m.data ∧
      ps'.map m.data = collapseRuns (ps.map m.data) ∧ (ps.length ≤ 1 → m' = m) := by
  by_cases hs : ps.length ≤ 1
  · refine ⟨m, ps, by simp [unique, h.2, hs], h, rfl, ?_, fun _ => rfl⟩
    rw [collapseRuns_of_length_le_one (by simpa using hs)]
  · match ps, h, hf, hs with
    | [], _, _, hs => exact absurd (by simp) hs
    | [_], _, _, hs => exact absurd (by simp) hs
    | a :: b :: R, h, hf, hs =>
      have hb := h.next_head
      simp at hb
      have h' : Owns m self ([] ++ a :: b :: R) := h
      have hn := (h'.neighbours (a := m.head_ self) rfl
        (show ((b :: R) ++ [m.tail_ self]).head? = some b from rfl))
      obtain ⟨m', ps', i1, i2, i3, i4⟩ := uniqueLoop_spec (b :: R) [] a b fuel m h' rfl
        (by simpa using hf)
      refine ⟨m', a :: ps', ?_, i2, i3, i4, fun hle => absurd hle hs⟩
      simp [unique, h.2, begin_, Mem.getNext_ok h.live_head, ← hb, Mem.getNext_ok hn.2.2.2.2.2.1,
        hn.2.1, i1]


/-- C8: on a well-formed list with front-to-back sequence `xs`, `unique()` succeeds and leaves
the sequence `collapseRuns xs` (each maximal run of equal elements collapsed to its first
element): no two adjacent elements are equal, the kept elements are a sublist of `xs` in their
order, `size()` is the new length, and a list of size 0 or 1 is not touched at all. -/
theorem unique_collapses_runs [DecidableEq T] (m : Mem T) (self : Nat) (xs : List T)
    (fuel : Nat) (h : Repr m self xs) (hf : xs.length ≤ fuel) :
    ∃ m', unique self fuel m = .ok m' ∧ Repr m' self (collapseRuns xs) ∧
      listToVector self (xs.length + 1) m' = .ok (collapseRuns xs) ∧
      (collapseRuns xs).Chain' (· ≠ ·) ∧ (collapseRuns xs).Sublist xs ∧
      size self m' = (collapseRuns xs).length ∧ (xs.length ≤ 1 → m' = m) := by
  obtain ⟨ps, ho, rfl⟩ := h
  obtain ⟨m', ps', h1, h2, h3, h4, h5⟩ := unique_spec ho (by simpa using hf)
  have hr : Repr m' self (collapseRuns (ps.map m.data)) := ⟨ps', h2, by rw [h3, h4]⟩
  refine ⟨m', h1, hr, hr.traverseRepr ?_, collapseRuns_chain _, collapseRuns_sublist _,
    hr.size_eq, fun hle => h5 (by simpa using hle)⟩
  have := (collapseRuns_sublist (ps.map m.data)).length_le
  omega

theorem unique_collapses_runs_witness :
    Repr demoRuns 0 [1, 1, 2, 3, 3] ∧ [1, 1, 2, 3, 3].length ≤ 5 ∧
      ∃ m', unique 0 5 demoRuns = .ok m' ∧ Repr m' 0 [1, 2, 3] ∧
        listToVector 0 6 m' = .ok [1, 2, 3] :=
  ⟨⟨[3, 4, 5, 6, 7], by decide, rfl⟩, by decide,
    (unique_collapses_runs demoRuns 0 [1, 1, 2, 3, 3] 5 ⟨[3, 4, 5, 6, 7], by decide, rfl⟩
      (by decide)).imp fun _ hm => ⟨hm.1, hm.2.1, hm.2.2.1⟩⟩


end DoublyList

end Linear

/-! ## The member remove -/

namespace Linear

namespace DoublyList

variable {T : Type}

/-- C7 (failing input): on the well-formed list `2, 1`, `remove(1)` does not complete.  After
`erase(it)` deleted the matching node the loop dereferences the same iterator again: with any
fuel the run ends in a fault, and from fuel 3 on the fault is the access to the deleted node. -/
theorem remove_reads_deleted_node :
    Owns demo21 0 [3, 4] ∧ listToVector 0 3 demo21 = .ok [2, 1] ∧
      (∀ f, remove 0 1 (f + 3) demo21 = .error .invalidAccess) ∧
      (∀ fuel m', remove 0 1 fuel demo21 ≠ .ok m') := by
  refine ⟨by decide, rfl, fun f => rfl, fun fuel m' => ?_⟩
  match fuel with
  | 0 => exact fun h => by cases h
  | 1 => exact fun h => by cases h
  | 2 => exact fun h => by cases h
  | f + 3 => exact fun h => by cases h


end DoublyList

end Linear

/-! ## The member reverse -/

namespace Linear

namespace DoublyList

variable {T : Type}

theorem Fwd.frameF {m m' : Mem T} {l : List Nat} (h : Fwd m l)
    (hn : ∀ p ∈ l.dropLast, m'.next p = m.next p) : Fwd m' l :=
  chain_frame h (fun p q hp' _ hr => by rw [hn p hp']; exact hr)

theorem Fwd.head_tail {m : Mem T} {r t : Nat} {R : List Nat} (h : Fwd m (r :: R ++ [t])) :
    (R ++ [t]).head? = some (m.next r) := by
  cases R with
  | nil => simp [Fwd] at h; simp [h]
  | cons q R => simp [Fwd, List.chain'_cons] at h; simp [h.1]

/-- The loop of `reverse()` swaps `next` and `prev` of exactly the nodes it walks over. -/
theorem reverseLoop_spec (self : Nat) :
    ∀ (R : List Nat) (current fuel : Nat) (m : Mem T), Fwd m (R ++ [m.tail_ self]) →
      m.tail_ self ∉ R → R.Nodup → (∀ p ∈ R, m.live p = true) →
      (R ++ [m.tail_ self]).head? = some current → R.length < fuel →
      ∃ m', reverseLoop self fuel current m = .ok m' ∧
        (∀ p, m'.next p = if p ∈ R then m.prev p else m.next p) ∧
        (∀ p, m'.prev p = if p ∈ R then m.next p else m.prev p) ∧
        m'.live = m.live ∧ m'.data = m.data ∧ m'.fresh = m.fresh ∧ m'.lists = m.lists
  | [], current, fuel, m, _, _, _, _, hc, hf => by
    obtain ⟨f, rfl⟩ : ∃ f, fuel = f + 1 := ⟨fuel - 1, by simp at hf; omega⟩
    simp at hc
    exact ⟨m, by simp [reverseLoop, hc], by simp, by simp, rfl, rfl, rfl, rfl⟩
  | r :: R, current, fuel, m, hfw, ht, hnd, hl, hc, hf => by
    obtain ⟨f, rfl⟩ : ∃ f, fuel = f + 1 := ⟨fuel - 1, by simp at hf; omega⟩
    simp at hc
    subst hc
    have hrt : r ≠ m.tail_ self := fun e => ht (by simp [e])
    have hrl := hl r (by simp)
    have hrR : r ∉ R := (List.nodup_cons.1 hnd).1
    have hnx := hfw.head_tail
    obtain ⟨m', h1, h2, h3, h4, h5, h6, h7⟩ := reverseLoop_spec self R (m.next r) f
      ((m.withNext r (m.prev r)).withPrev r (m.next r))
      (by
        refine Fwd.frameF (List.Chain'.tail hfw) (fun p hp => ?_)
        have hpR : p ∈ R := by simpa using hp
        have : p ≠ r := fun e => hrR (e ▸ hpR)
        simp [upd_ne, this])
      (fun h => ht (by simp at h; simp [h])) (List.nodup_cons.1 hnd).2
      (fun p hp => by simpa using hl p (by simp [hp])) (by simpa using hnx)
      (by simp at hf; omega)
    refine ⟨m', ?_, fun p => ?_, fun p => ?_, by simpa using h4, by simpa using h5,
      by simpa using h6, by simpa using h7⟩
    · simp [reverseLoop, hrt, Mem.getNext, Mem.getPrev, Mem.setNext, Mem.setPrev, hrl]
      exact h1
    · rw [h2]
      by_cases hp : p ∈ R
      · have : p ≠ r := fun e => hrR (e ▸ hp)
        simp [hp, upd_ne, this]
      · by_cases hpr : p = r
        · subst hpr; simp [hp]
        · simp [hp, hpr, upd_ne]
    · rw [h3]
      by_cases hp : p ∈ R
      · have : p ≠ r := fun e => hrR (e ▸ hp)
        simp [hp, upd_ne, this]
      · by_cases hpr : p = r
        · subst hpr; simp [hp]
        · simp [hp, hpr, upd_ne]

/-- Swapping `next` and `prev` along a chain links its reversal. -/
theorem Linked.reverse_of_swap {m m' : Mem T} {l : List Nat} (h : Linked m l)
    (hp : ∀ p ∈ l.dropLast, m'.prev p = m.next p) (hn : ∀ q ∈ l.tail, m'.next q = m.prev q) :
    Linked m' l.reverse := by
  unfold Linked
  rw [List.chain'_reverse]
  refine chain_frame h (fun p q hp' hq' hr => ?_)
  show m'.next q = p ∧ m'.prev p = q
  rw [hn q hq', hp p hp']
  exact ⟨hr.2, hr.1⟩


theorem Owns.prev_tail {m : Mem T} {self : Nat} {ps : List Nat} (h : Owns m self ps) :
    (m.head_ self :: ps).getLast? = some (m.prev (m.tail_ self)) := by
  have ha : (m.head_ self :: ps).getLast? = some ((m.head_ self :: ps).getLast (by simp)) :=
    List.getLast?_eq_getLast _ _
  have h' : Owns m self (ps ++ []) := by simpa using h
  rw [ha, (h'.prev_eq ha rfl).1]

theorem Owns.linked_interior {m : Mem T} {self : Nat} {ps : List Nat} (h : Owns m self ps) :
    Linked m ps :=
  List.Chain'.left_of_append (List.Chain'.tail h.1.1)

theorem Owns.nodup_interior {m : Mem T} {self : Nat} {ps : List Nat} (h : Owns m self ps) :
    ps.Nodup := by
  have hn := h.1.2.1
  simp [nodes, List.nodup_append] at hn
  tauto

theorem Owns.mem_ne_head {m : Mem T} {self : Nat} {ps : List Nat} (h : Owns m self ps)
    {p : Nat} (hp : p ∈ ps) : p ≠ m.head_ self :=
  fun e => h.head_not_mem (e ▸ hp)

theorem reverse_spec {m : Mem T} {self : Nat} {ps : List Nat} {fuel : Nat}
    (h : Owns m self ps) (hf : ps.length < fuel) :
    ∃ m', reverse self fuel m = .ok m' ∧ Owns m' self ps.reverse ∧ m'.data = m.data ∧
      (∀ j, m'.head_ j = m.head_ j ∧ m'.tail_ j = m.tail_ j) ∧ (ps.length ≤ 1 → m' = m) := by
  by_cases hs : ps.length ≤ 1
  · refine ⟨m, by simp [reverse, h.2, hs], ?_, rfl, fun j => ⟨rfl, rfl⟩, fun _ => rfl⟩
    match ps, hs, h with
    | [], _, h => exact h
    | [_], _, h => exact h
  · obtain ⟨first, R, rfl⟩ : ∃ a R, ps = a :: R := by
      cases ps with
      | nil => simp at hs
      | cons a R => exact ⟨a, R, rfl⟩
    have hR : R ≠ [] := by rintro rfl; simp at hs
    set ps := first :: R with hps
    have hnh := h.next_head
    have hpt := h.prev_tail
    have hfirst : m.next (m.head_ self) = first := by simpa [hps] using hnh.symm
    have hlastm : m.prev (m.tail_ self) ∈ ps := by
      have : (m.head_ self :: ps).getLast? = ps.getLast? := by
        simp [hps, List.getLast?_cons_cons]
      rw [this] at hpt
      exact List.mem_of_mem_getLast? hpt
    have hlast : ps.getLast (by simp [hps]) = m.prev (m.tail_ self) := by
      have : (m.head_ self :: ps).getLast? = ps.getLast? := by
        simp [hps, List.getLast?_cons_cons]
      rw [this, List.getLast?_eq_getLast _ (by simp [hps])] at hpt
      exact Option.some.inj hpt
    have hlh := h.live_head
    have hlt := h.live_tail
    have hht := h.head_ne_tail
    -- the loop, run on the memory after the first two writes
    obtain ⟨m2, l1, l2, l3, l4, l5, l6, l7⟩ := reverseLoop_spec self ps first fuel
      ((m.withNext (m.head_ self) (m.prev (m.tail_ self))).withPrev (m.tail_ self) first)
      (by
        refine Fwd.frameF h.fwd (fun p hp => ?_)
        have hpp : p ∈ ps := by simpa using hp
        simp [upd_ne, h.mem_ne_head hpp])
      (by simpa using h.tail_not_mem) h.nodup_interior
      (fun p hp => by simpa using h.live_mem hp) (by simp [hps]) hf
    simp only [Mem.withPrev_next, Mem.withNext_next, Mem.withPrev_prev, Mem.withNext_prev,
      Mem.withPrev_live, Mem.withNext_live, Mem.withPrev_data, Mem.withNext_data,
      Mem.withPrev_fresh, Mem.withNext_fresh, Mem.withPrev_lists, Mem.withNext_lists]
      at l2 l3 l4 l5 l6 l7
    have hh2 : m2.head_ self = m.head_ self := by simp [Mem.head_, l7]
    have ht2 : m2.tail_ self = m.tail_ self := by simp [Mem.tail_, l7]
    have hs2 : m2.size_ self = m.size_ self := by simp [Mem.size_, l7]
    have hn2 : m2.next (m.head_ self) = m.prev (m.tail_ self) := by
      rw [l2]; simp [h.head_not_mem]
    have hp2 : m2.prev (m.tail_ self) = first := by
      rw [l3]; simp [h.tail_not_mem]
    refine ⟨(m2.withPrev (m.prev (m.tail_ self)) (m.head_ self)).withNext first (m.tail_ self),
      ?_, ?_, by simp [l5], fun j => by simp [Mem.head_, Mem.tail_, l7],
      fun hle => absurd hle hs⟩
    · have htl : m.tail_ self ≠ m.prev (m.tail_ self) := (h.mem_ne_tail hlastm).symm
      simp [reverse, h.2, hs, Mem.getNext, Mem.getPrev, Mem.setNext, Mem.setPrev, hlh, hlt,
        hfirst, l1, hh2, ht2, l4, hn2, hp2, h.live_mem hlastm, upd_ne, htl,
        h.live_mem (show first ∈ ps by simp [hps])]
    · have hfirstm : first ∈ ps := by simp [hps]
      have hint : Linked ((m2.withPrev (m.prev (m.tail_ self)) (m.head_ self)).withNext first
          (m.tail_ self)) ps.reverse := by
        refine h.linked_interior.reverse_of_swap (fun p hp => ?_) (fun q hq => ?_)
        · have hpp : p ∈ ps := List.mem_of_mem_dropLast hp
          have hpl : p ≠ m.prev (m.tail_ self) := by
            rintro rfl
            exact getLast_not_mem_dropLast (by simp [hps]) h.nodup_interior (hlast ▸ hp)
          simp [upd_ne, hpl, l3, hpp, h.mem_ne_head hpp]
        · have hqR : q ∈ R := by simpa [hps] using hq
          have hqq : q ∈ ps := by simp [hps, hqR]
          have hqf : q ≠ first := by
            rintro rfl
            exact (List.nodup_cons.1 h.nodup_interior).1 hqR
          simp [upd_ne, hqf, l2, hqq, h.mem_ne_tail hqq]
      refine ⟨⟨?_, ?_, ?_⟩, by simp [hs2, h.2]⟩
      · simp only [nodes, Mem.withNext_head_, Mem.withPrev_head_, Mem.withNext_tail_,
          Mem.withPrev_tail_, hh2, ht2]
        unfold Linked
        rw [List.chain'_cons', List.chain'_append]
        refine ⟨?_, hint, List.chain'_singleton _, ?_⟩
        · intro y hy
          have hy' : y = m.prev (m.tail_ self) := by
            rw [List.head?_append_of_ne_nil _ (by simp [hps]), List.head?_reverse,
              List.getLast?_eq_getLast _ (by simp [hps]), hlast] at hy
            exact (Option.some.inj hy).symm
          subst hy'
          have hhf : m.head_ self ≠ first := (h.mem_ne_head hfirstm).symm
          simp [upd_ne, hhf, hn2]
        · intro x hx y hy
          have hx' : x = first := by
            rw [List.getLast?_reverse] at hx
            simpa [hps] using hx.symm
          have hy' : y = m.tail_ self := by simpa using hy.symm
          subst hx' hy'
          have htl : m.tail_ self ≠ m.prev (m.tail_ self) := (h.mem_ne_tail hlastm).symm
          simp [upd_ne, htl, hp2]
      · have hn := h.1.2.1
        simp only [nodes, Mem.withNext_head_, Mem.withPrev_head_, Mem.withNext_tail_,
          Mem.withPrev_tail_, hh2, ht2] at hn ⊢
        simp only [List.nodup_cons, List.nodup_append, List.mem_append, List.mem_reverse,
          List.nodup_reverse, List.mem_singleton] at hn ⊢
        refine ⟨hn.1, hn.2.1, hn.2.2.1, ?_⟩
        intro a ha hb
        exact hn.2.2.2 (List.mem_reverse.1 ha) hb
      · intro p hp
        have hp' : p ∈ nodes m self ps := by
          simp only [nodes, Mem.withNext_head_, Mem.withPrev_head_, Mem.withNext_tail_,
            Mem.withPrev_tail_, hh2, ht2] at hp ⊢
          simpa using hp
        simpa [l4, l6] using h.1.2.2 p hp'


/-- C9: on a well-formed list whose interior nodes are `ps` from front to back, `reverse()`
succeeds and leaves a well-formed list (every link has its back link) with the same nodes in
reverse order, so the front-to-back sequence is reversed and `size()` is unchanged; a second
`reverse()` restores the original order of the nodes and of the sequence. -/
theorem reverse_reverses_sequence (m : Mem T) (self : Nat) (ps : List Nat) (fuel : Nat)
    (h : Owns m self ps) (hf : ps.length < fuel) :
    ∃ m', reverse self fuel m = .ok m' ∧ Owns m' self ps.reverse ∧
      listToVector self fuel m' = .ok (ps.map m.data).reverse ∧
      size self m' = size self m ∧
      ∃ m'', reverse self fuel m' = .ok m'' ∧ Owns m'' self ps ∧
        listToVector self fuel m'' = .ok (ps.map m.data) := by
  obtain ⟨m', h1, h2, h3, -, -⟩ := reverse_spec h hf
  obtain ⟨m'', h4, h5, h6, -, -⟩ := reverse_spec h2 (by simpa using hf)
  rw [List.reverse_reverse] at h5
  refine ⟨m', h1, h2, ?_, ?_, m'', h4, h5, ?_⟩
  · rw [h2.traverse (by simpa using hf), h3, List.map_reverse]
  · simp [size, h2.2, h.2]
  · rw [h5.traverse hf, h6, h3]

theorem reverse_reverses_sequence_witness :
    Owns demoRuns 0 [3, 4, 5, 6, 7] ∧ [3, 4, 5, 6, 7].length < 6 ∧
      ∃ m', reverse 0 6 demoRuns = .ok m' ∧ Owns m' 0 [7, 6, 5, 4, 3] ∧
        listToVector 0 6 m' = .ok [3, 3, 2, 1, 1] :=
  ⟨by decide, by decide,
    (reverse_reverses_sequence demoRuns 0 [3, 4, 5, 6, 7] 6 (by decide) (by decide)).imp
      fun _ hm => ⟨hm.1, hm.2.1, hm.2.2.1⟩⟩


end DoublyList

end Linear

/-! ## The member splice -/

namespace Linear

namespace DoublyList

variable {T : Type}

theorem Owns.head_mem_nodes {m : Mem T} {self : Nat} {ps : List Nat} :
    m.head_ self ∈ nodes m self ps := by simp [nodes]

theorem Owns.tail_mem_nodes {m : Mem T} {self : Nat} {ps : List Nat} :
    m.tail_ self ∈ nodes m self ps := by simp [nodes]

theorem Owns.mem_nodes {m : Mem T} {self : Nat} {ps : List Nat} {p : Nat} (hp : p ∈ ps) :
    p ∈ nodes m self ps := by simp [nodes, hp]

theorem Owns.prev_tail_mem {m : Mem T} {self : Nat} {ps : List Nat} (h : Owns m self ps) :
    m.prev (m.tail_ self) ∈ m.head_ self :: ps :=
  List.mem_of_mem_getLast? h.prev_tail

theorem Owns.next_head_mem {m : Mem T} {self : Nat} {ps : List Nat} (h : Owns m self ps) :
    m.next (m.head_ self) ∈ ps ++ [m.tail_ self] :=
  List.mem_of_mem_head? h.next_head

theorem Owns.prev_tail_of_ne_nil {m : Mem T} {self : Nat} {ps : List Nat} (h : Owns m self ps)
    (hne : ps ≠ []) : ps.getLast? = some (m.prev (m.tail_ self)) := by
  have := h.prev_tail
  cases ps with
  | nil => exact absurd rfl hne
  | cons a l => simpa [List.getLast?_cons_cons] using this

theorem Owns.next_head_of_ne_nil {m : Mem T} {self : Nat} {ps : List Nat} (h : Owns m self ps)
    (hne : ps ≠ []) : ps.head? = some (m.next (m.head_ self)) := by
  have := h.next_head
  cases ps with
  | nil => exact absurd rfl hne
  | cons a l => simpa using this

theorem Owns.prev_tail_nil {m : Mem T} {self : Nat} (h : Owns m self []) :
    m.prev (m.tail_ self) = m.head_ self := by
  have := h.prev_tail
  simpa using this.symm

theorem splice_eq {m : Mem T} {self other : Nat} {pa pb : List Nat}
    (ha : Owns m self pa) (hb : Owns m other pb)
    (hd : (nodes m self pa).Disjoint (nodes m other pb)) (hpb : pb ≠ []) :
    splice self other m = .ok (spliced m self other) := by
  have hx : ∀ x ∈ nodes m self pa, ∀ y ∈ nodes m other pb, x ≠ y :=
    fun x hx y hy e => hd hx (e ▸ hy)
  have hfb : m.next (m.head_ other) ∈ pb := List.mem_of_mem_head? (hb.next_head_of_ne_nil hpb)
  have hlb : m.prev (m.tail_ other) ∈ pb :=
    List.mem_of_mem_getLast? (hb.prev_tail_of_ne_nil hpb)
  have htbm : m.tail_ other ∈ nodes m other pb := Owns.tail_mem_nodes
  have hhbm : m.head_ other ∈ nodes m other pb := Owns.head_mem_nodes
  have hla : m.prev (m.tail_ self) ∈ nodes m self pa := by
    have := ha.prev_tail_mem
    simp [nodes] at this ⊢; tauto
  have hsb : m.size_ other ≠ 0 := by
    rw [hb.2]; exact fun e => hpb (List.length_eq_zero.1 e)
  have n1 := hx _ hla _ Owns.head_mem_nodes
  have n2 := hb.mem_ne_tail hfb
  have n3 := hx _ Owns.tail_mem_nodes _ (Owns.mem_nodes hfb)
  have n4 := hx _ Owns.tail_mem_nodes _ htbm
  have hlla : m.live (m.prev (m.tail_ self)) = true := (ha.1.2.2 _ hla).1
  by_cases hpa : pa = []
  · subst hpa
    have hlae := ha.prev_tail_nil
    rw [hlae] at n1 hlla
    simp [splice, spliced, empty, hsb, ha.2, Mem.getNext, Mem.getPrev, Mem.setNext, Mem.setPrev,
      hb.live_head, hb.live_tail, ha.live_head, ha.live_tail, hb.live_mem hfb, hb.live_mem hlb,
      upd_ne, n1, n1.symm, n2, n2.symm, n3, n3.symm, n4, n4.symm, hlae]
  · have hsa : m.size_ self ≠ 0 := by
      rw [ha.2]; exact fun e => hpa (List.length_eq_zero.1 e)
    simp [splice, spliced, empty, hsb, hsa, Mem.getNext, Mem.getPrev, Mem.setNext, Mem.setPrev,
      hb.live_head, hb.live_tail, ha.live_head, ha.live_tail, hb.live_mem hfb, hb.live_mem hlb,
      upd_ne, n1, n1.symm, n2, n2.symm, n3, n3.symm, n4, n4.symm, hlla]


theorem spliced_next (m : Mem T) (self other : Nat) :
    (spliced m self other).next =
      upd (upd (upd m.next (m.prev (m.tail_ self)) (m.next (m.head_ other)))
        (m.prev (m.tail_ other)) (m.tail_ self)) (m.head_ other) (m.tail_ other) := rfl

theorem spliced_prev (m : Mem T) (self other : Nat) :
    (spliced m self other).prev =
      upd (upd (upd m.prev (m.next (m.head_ other)) (m.prev (m.tail_ self)))
        (m.tail_ self) (m.prev (m.tail_ other))) (m.tail_ other) (m.head_ other) := rfl

theorem spliced_live (m : Mem T) (self other : Nat) :
    (spliced m self other).live = m.live := rfl

theorem spliced_data (m : Mem T) (self other : Nat) :
    (spliced m self other).data = m.data := rfl

theorem spliced_fresh (m : Mem T) (self other : Nat) :
    (spliced m self other).fresh = m.fresh := rfl

theorem spliced_head_ (m : Mem T) (self other j : Nat) :
    (spliced m self other).head_ j = m.head_ j := by simp [spliced]

theorem spliced_tail_ (m : Mem T) (self other j : Nat) :
    (spliced m self other).tail_ j = m.tail_ j := by simp [spliced]

theorem spliced_size_other (m : Mem T) (self other : Nat) :
    (spliced m self other).size_ other = 0 := by simp [spliced]

theorem spliced_size_self (m : Mem T) {self other : Nat} (h : self ≠ other) :
    (spliced m self other).size_ self = m.size_ self + m.size_ other := by
  simp [spliced, Mem.setSize_size_ne _ _ h]

theorem spliced_owns {m : Mem T} {self other : Nat} {pa pb : List Nat}
    (ha : Owns m self pa) (hb : Owns m other pb) (hne : self ≠ other)
    (hd : (nodes m self pa).Disjoint (nodes m other pb)) (hpb : pb ≠ []) :
    Owns (spliced m self other) self (pa ++ pb) ∧ Owns (spliced m self other) other [] := by
  have hx : ∀ x ∈ nodes m self pa, ∀ y ∈ nodes m other pb, x ≠ y :=
    fun x hx y hy e => hd hx (e ▸ hy)
  have hfb' := hb.next_head_of_ne_nil hpb
  have hlb' := hb.prev_tail_of_ne_nil hpb
  have hla' := ha.prev_tail
  have hfb : m.next (m.head_ other) ∈ pb := List.mem_of_mem_head? hfb'
  have hlb : m.prev (m.tail_ other) ∈ pb := List.mem_of_mem_getLast? hlb'
  have htbm : m.tail_ other ∈ nodes m other pb := Owns.tail_mem_nodes
  have hhbm : m.head_ other ∈ nodes m other pb := Owns.head_mem_nodes
  have hla : m.prev (m.tail_ self) ∈ nodes m self pa := by
    have := ha.prev_tail_mem
    simp [nodes] at this ⊢; tauto
  have hla_ne_ta : m.prev (m.tail_ self) ≠ m.tail_ self := by
    intro e
    have h1 := ha.prev_tail_mem
    rw [e] at h1
    simp at h1
    rcases h1 with h1 | h1
    · exact ha.head_ne_tail h1.symm
    · exact ha.tail_not_mem h1
  set la := m.prev (m.tail_ self) with hlae
  set fb := m.next (m.head_ other) with hfbe
  set lb := m.prev (m.tail_ other) with hlbe
  have hnb : pb.Nodup := hb.nodup_interior
  constructor
  · refine ⟨⟨?_, ?_, ?_⟩, ?_⟩
    · have e : nodes (spliced m self other) self (pa ++ pb) =
          (m.head_ self :: pa) ++ (pb ++ [m.tail_ self]) := by
        simp [nodes, spliced_head_, spliced_tail_]
      rw [e]
      unfold Linked
      rw [List.chain'_append, List.chain'_append]
      refine ⟨?_, ⟨?_, List.chain'_singleton _, ?_⟩, ?_⟩
      · have hla0 : Linked m (m.head_ self :: pa) := by
          have := ha.1.1
          rw [nodes, ← List.cons_append] at this
          exact List.Chain'.left_of_append this
        refine hla0.frameL (fun p hp => ?_) (fun q hq => ?_)
        · have hpm : p ∈ nodes m self pa := by
            have := List.mem_of_mem_dropLast hp
            simp [nodes] at this ⊢; tauto
          have p1 : p ≠ la := by
            rintro rfl
            refine getLast_not_mem_dropLast (by simp) ?_ ?_ (l := m.head_ self :: pa)
            · have := ha.1.2.1
              rw [nodes, ← List.cons_append] at this
              exact (List.nodup_append.1 this).1
            · have h2 := hla'
              rw [List.getLast?_eq_getLast _ (by simp)] at h2
              rw [Option.some.inj h2]; exact hp
          have p2 := hx p hpm lb (Owns.mem_nodes hlb)
          have p3 := hx p hpm _ hhbm
          simp [spliced_next, upd_ne, p1, p2, p3]
        · have hqm : q ∈ pa := by simpa using hq
          have q1 := hx q (Owns.mem_nodes hqm) fb (Owns.mem_nodes hfb)
          have q2 := ha.mem_ne_tail hqm
          have q3 := hx q (Owns.mem_nodes hqm) _ htbm
          simp [spliced_prev, upd_ne, q1, q2, q3]
      · refine hb.linked_interior.frameL (fun p hp => ?_) (fun q hq => ?_)
        · have hpm : p ∈ pb := List.mem_of_mem_dropLast hp
          have p1 : p ≠ lb := by
            rintro rfl
            refine getLast_not_mem_dropLast hpb hnb ?_
            have h2 := hlb'
            rw [List.getLast?_eq_getLast _ hpb] at h2
            rw [Option.some.inj h2]; exact hp
          have p2 := (hx la hla p (Owns.mem_nodes hpm)).symm
          have p3 := hb.mem_ne_head hpm
          simp [spliced_next, upd_ne, p1, p2, p3]
        · have hqm : q ∈ pb := List.mem_of_mem_tail hq
          have q1 : q ≠ fb := by
            rintro rfl
            cases pb with
            | nil => exact hpb rfl
            | cons a l =>
              simp at hfb'
              subst hfb'
              exact (List.nodup_cons.1 hnb).1 (by simpa using hq)
          have q2 := (hx _ Owns.tail_mem_nodes q (Owns.mem_nodes hqm)).symm
          have q3 := hb.mem_ne_tail hqm
          simp [spliced_prev, upd_ne, q1, q2, q3]
      · intro x hx' y hy
        rw [hlb'] at hx'
        simp at hx' hy
        subst hx' hy
        have c1 := hb.mem_ne_head hlb
        have c2 := hx _ Owns.tail_mem_nodes _ htbm
        simp [spliced_next, spliced_prev, upd_ne, c1, c2]
      · intro x hx' y hy
        rw [hla'] at hx'
        rw [List.head?_append_of_ne_nil _ hpb, hfb'] at hy
        simp at hx' hy
        subst hx' hy
        have c1 := hx _ hla _ (Owns.mem_nodes hlb)
        have c2 := hx _ hla _ hhbm
        have c3 := (hx _ Owns.tail_mem_nodes _ (Owns.mem_nodes hfb)).symm
        have c4 := hb.mem_ne_tail hfb
        simp [spliced_next, spliced_prev, upd_ne, c1, c2, c3, c4]
    · have hna := ha.1.2.1
      simp only [nodes, spliced_head_, spliced_tail_] at hna ⊢
      simp only [List.nodup_cons, List.nodup_append, List.mem_append, List.mem_singleton,
        List.nodup_nil, List.not_mem_nil, not_false_eq_true, and_true, true_and, not_or,
        List.disjoint_singleton, List.disjoint_append_left] at hna ⊢
      refine ⟨⟨⟨hna.1.1, ?_⟩, hna.1.2⟩, ⟨hna.2.1, hnb, ?_⟩, hna.2.2, ?_⟩
      · exact fun h1 => hx _ Owns.head_mem_nodes _ (Owns.mem_nodes h1) rfl
      · exact fun a h1 h2 => hx a (Owns.mem_nodes h1) a (Owns.mem_nodes h2) rfl
      · exact fun h1 => hx _ Owns.tail_mem_nodes _ (Owns.mem_nodes h1) rfl
    · intro p hp
      simp only [nodes, spliced_head_, spliced_tail_, spliced_live, spliced_fresh] at hp ⊢
      simp only [List.mem_cons, List.mem_append, List.mem_singleton, List.not_mem_nil,
        or_false] at hp
      rcases hp with rfl | (h1 | h1) | rfl
      · exact ha.1.2.2 _ Owns.head_mem_nodes
      · exact ha.1.2.2 _ (Owns.mem_nodes h1)
      · exact hb.1.2.2 _ (Owns.mem_nodes h1)
      · exact ha.1.2.2 _ Owns.tail_mem_nodes
    · rw [spliced_size_self m hne, ha.2, hb.2, List.length_append]
  · refine ⟨⟨?_, ?_, ?_⟩, by simp [spliced_size_other]⟩
    · simp [nodes, spliced_head_, spliced_tail_, Linked, spliced_next, spliced_prev]
    · simpa [nodes, spliced_head_, spliced_tail_] using hb.head_ne_tail
    · intro p hp
      simp only [nodes, spliced_head_, spliced_tail_, spliced_live, spliced_fresh] at hp ⊢
      simp at hp
      rcases hp with rfl | rfl
      · exact hb.1.2.2 _ Owns.head_mem_nodes
      · exact hb.1.2.2 _ Owns.tail_mem_nodes


/-- C5: for two distinct well-formed lists that share no node, with interior nodes `pa` and
`pb`, `splice(other)` succeeds; afterwards `this` is the well-formed list over the nodes
`pa ++ pb`, so its front-to-back sequence is the old one followed by the sequence of `other`
and its size is the sum of the sizes; `other` is the empty well-formed list of size 0 (its
sentinels linked to each other); no node was allocated or deleted and no datum written. -/
theorem splice_appends_and_empties (m : Mem T) (self other : Nat) (pa pb : List Nat)
    (hne : self ≠ other) (ha : Owns m self pa) (hb : Owns m other pb)
    (hdis : ∀ p ∈ nodes m self pa, p ∉ nodes m other pb) :
    ∃ m', splice self other m = .ok m' ∧
      Owns m' self (pa ++ pb) ∧ Owns m' other [] ∧
      listToVector self (pa.length + pb.length + 1) m' = .ok (pa.map m.data ++ pb.map m.data) ∧
      listToVector other 1 m' = .ok [] ∧
      size self m' = size self m + size other m ∧ size other m' = 0 ∧
      m'.data = m.data ∧ m'.live = m.live ∧ m'.fresh = m.fresh := by
  have hd : (nodes m self pa).Disjoint (nodes m other pb) := fun p h1 h2 => hdis p h1 h2
  have key : ∃ m', splice self other m = .ok m' ∧
      Owns m' self (pa ++ pb) ∧ Owns m' other [] ∧
      m'.data = m.data ∧ m'.live = m.live ∧ m'.fresh = m.fresh := by
    by_cases hpb : pb = []
    · subst hpb
      refine ⟨m, ?_, by simpa using ha, hb, rfl, rfl, rfl⟩
      simp [splice, empty, hb.2]
    · obtain ⟨h1, h2⟩ := spliced_owns ha hb hne hd hpb
      exact ⟨_, splice_eq ha hb hd hpb, h1, h2, rfl, rfl, rfl⟩
  obtain ⟨m', h1, h2, h3, h4, h5, h6⟩ := key
  refine ⟨m', h1, h2, h3, ?_, ?_, ?_, ?_, h4, h5, h6⟩
  · rw [h2.traverse (by simp), h4, List.map_append]
  · rw [h3.traverse (by simp)]; rfl
  · simp [size, h2.2, ha.2, hb.2]
  · simp [size, h3.2]

theorem splice_appends_and_empties_witness :
    (0 : Nat) ≠ 1 ∧ Owns demoTwo 0 [3, 4] ∧ Owns demoTwo 1 [7, 8] ∧
      (∀ p ∈ nodes demoTwo 0 [3, 4], p ∉ nodes demoTwo 1 [7, 8]) ∧
      ∃ m', splice 0 1 demoTwo = .ok m' ∧ Owns m' 0 [3, 4, 7, 8] ∧ Owns m' 1 [] ∧
        listToVector 0 5 m' = .ok [1, 3, 2, 4] :=
  ⟨by decide, by decide, by decide, by decide,
    (splice_appends_and_empties demoTwo 0 1 [3, 4] [7, 8] (by decide) (by decide) (by decide)
      (by decide)).imp fun _ hm => ⟨hm.1, hm.2.1, hm.2.2.1, hm.2.2.2.1⟩⟩

/-- C6 (failing input): `a.splice(a)` on the well-formed list `2, 1` is not a no-op.  There is
no self-check in `splice`; the call unlinks every node and sets `size_` to 0, leaving the empty
list while the two nodes stay allocated. -/
theorem self_splice_empties_list :
    Owns demo21 0 [3, 4] ∧ listToVector 0 3 demo21 = .ok [2, 1] ∧ size 0 demo21 = 2 ∧
      ∃ m', splice 0 0 demo21 = .ok m' ∧ Owns m' 0 [] ∧ listToVector 0 3 m' = .ok [] ∧
        size 0 m' = 0 ∧ m'.live 3 = true ∧ m'.live 4 = true :=
  ⟨by decide, rfl, rfl, memOf (splice 0 0 demo21), rfl, by decide, rfl, rfl, rfl, rfl⟩


end DoublyList

end Linear

/-! ## The member merge -/

namespace Linear

namespace DoublyList

variable {T : Type}

theorem mergeRef_nil_left (comp : T → T → Bool) (ys : List T) : mergeRef comp [] ys = ys := rfl

theorem mergeRef_nil_right (comp : T → T → Bool) (xs : List T) : mergeRef comp xs [] = xs := by
  cases xs <;> rfl

theorem mergeRef_cons_cons (comp : T → T → Bool) (x y : T) (xs ys : List T) :
    mergeRef comp (x :: xs) (y :: ys) =
      if comp y x then y :: mergeRef comp (x :: xs) ys else x :: mergeRef comp xs (y :: ys) :=
  rfl

theorem mergeRef_perm (comp : T → T → Bool) :
    ∀ xs ys : List T, (mergeRef comp xs ys).Perm (xs ++ ys)
  | [], ys => by simp [mergeRef_nil_left]
  | x :: xs, [] => by simp [mergeRef_nil_right]
  | x :: xs, y :: ys => by
    rw [mergeRef_cons_cons]
    split
    · have ih := mergeRef_perm comp (x :: xs) ys
      exact (List.Perm.cons y ih).trans (List.perm_middle.symm)
    · have ih := mergeRef_perm comp xs (y :: ys)
      exact List.Perm.cons x ih
termination_by xs ys => xs.length + ys.length

theorem StrictWeakOrder.asymm {comp : T → T → Bool} (h : StrictWeakOrder comp) {a b : T}
    (hab : comp a b = true) : comp b a = false := by
  cases hba : comp b a with
  | false => rfl
  | true => have := h.trans a b a hab hba; rw [h.irrefl] at this; cases this

/-- Every element that can come first in the merge is not strictly before `a`. -/
theorem mergeRef_head (comp : T → T → Bool) (a : T) :
    ∀ xs ys : List T, (∀ x ∈ xs.head?, comp x a = false) → (∀ y ∈ ys.head?, comp y a = false) →
      ∀ z ∈ (mergeRef comp xs ys).head?, comp z a = false
  | [], ys, _, hy => by simpa [mergeRef_nil_left] using hy
  | x :: xs, [], hx, _ => by simpa [mergeRef_nil_right] using hx
  | x :: xs, y :: ys, hx, hy => by
    rw [mergeRef_cons_cons]
    split
    · simpa using hy
    · simpa using hx

theorem mergeRef_sorted {comp : T → T → Bool} (hc : ∀ a b, comp a b = true → comp b a = false) :
    ∀ xs ys : List T, SortedBy comp xs → SortedBy comp ys → SortedBy comp (mergeRef comp xs ys)
  | [], ys, _, hy => by simpa [mergeRef_nil_left] using hy
  | x :: xs, [], hx, _ => by simpa [mergeRef_nil_right] using hx
  | x :: xs, y :: ys, hx, hy => by
    rw [mergeRef_cons_cons]
    unfold SortedBy at hx hy ⊢
    split
    · rename_i hyx
      have ih := mergeRef_sorted hc (x :: xs) ys hx (List.Chain'.tail hy)
      refine List.Chain'.cons' ih ?_
      intro z hz
      refine mergeRef_head comp y (x :: xs) ys ?_ ?_ z hz
      · intro x' hx'; simp at hx'; subst hx'; exact hc _ _ hyx
      · intro y' hy'
        exact (List.chain'_cons'.1 hy).1 y' hy'
    · rename_i hyx
      have ih := mergeRef_sorted hc xs (y :: ys) (List.Chain'.tail hx) hy
      refine List.Chain'.cons' ih ?_
      intro z hz
      refine mergeRef_head comp x xs (y :: ys) ?_ ?_ z hz
      · intro x' hx'
        exact (List.chain'_cons'.1 hx).1 x' hx'
      · intro y' hy'; simp at hy'; subst hy'; simpa using hyx
termination_by xs ys => xs.length + ys.length

/-- A list keeps being well formed when the memory changes outside its nodes. -/
theorem Owns.frameO {m m' : Mem T} {self : Nat} {ps : List Nat} (h : Owns m self ps)
    (hf : ∀ p ∈ nodes m self ps,
      m'.next p = m.next p ∧ m'.prev p = m.prev p ∧ m'.live p = m.live p)
    (hfr : m.fresh ≤ m'.fresh) (hh : m'.head_ self = m.head_ self)
    (ht : m'.tail_ self = m.tail_ self) (hs : m'.size_ self = m.size_ self) :
    Owns m' self ps := by
  have e : nodes m' self ps = nodes m self ps := by simp [nodes, hh, ht]
  refine ⟨⟨?_, ?_, ?_⟩, by rw [hs, h.2]⟩
  · rw [e]
    exact h.1.1.frameL (fun p hp => (hf p (List.mem_of_mem_dropLast hp)).1)
      (fun q hq => (hf q (List.mem_of_mem_tail hq)).2.1)
  · rw [e]; exact h.1.2.1
  · rw [e]
    intro p hp
    have := h.1.2.2 p hp
    rw [(hf p hp).2.2]
    exact ⟨this.1, by omega⟩


/-- Inserting into one list leaves a list with other nodes well formed. -/
theorem insert_pos_other {m m' : Mem T} {a b : Nat} {A B pb : List Nat} {pos : Nat} {v : T}
    (ha : Owns m a (A ++ B)) (hpos : (B ++ [m.tail_ a]).head? = some pos)
    (hb : Owns m b pb) (hne : b ≠ a)
    (hd : (nodes m a (A ++ B)).Disjoint (nodes m b pb))
    (e : insert_pos a v pos m = .ok m') : Owns m' b pb := by
  have hla : (m.head_ a :: A).getLast? = some ((m.head_ a :: A).getLast (by simp)) :=
    List.getLast?_eq_getLast _ _
  obtain ⟨h1, h2, h3, h4⟩ := ha.prev_eq hla hpos
  rw [insert_pos_eq a v h4 (h1 ▸ h3)] at e
  cases e
  have hposm : pos ∈ nodes m a (A ++ B) := by
    have := List.mem_of_mem_head? hpos
    simp [nodes] at this ⊢; tauto
  have hprevm : m.prev pos ∈ nodes m a (A ++ B) := by
    rw [h1]
    have hm : (m.head_ a :: A).getLast (by simp) ∈ m.head_ a :: A := List.getLast_mem _
    rw [List.mem_cons] at hm
    simp only [nodes, List.mem_cons, List.mem_append]
    tauto
  refine hb.frameO (fun p hp => ?_) (by simp) (by simp) (by simp)
    (by simp [Mem.incSize_size_ne _ hne])
  have p1 : p ≠ m.fresh := by have := (hb.1.2.2 p hp).2; omega
  have p2 : p ≠ pos := fun e => hd hposm (e ▸ hp)
  have p3 : p ≠ m.prev pos := fun e => hd hprevm (e ▸ hp)
  simp [upd_ne, p1, p2, p3]

theorem Owns.nodes_lt_fresh {m : Mem T} {self : Nat} {ps : List Nat} (h : Owns m self ps)
    {p : Nat} (hp : p ∈ nodes m self ps) : p < m.fresh := (h.1.2.2 p hp).2

theorem map_data_congr {m m' : Mem T} {l : List Nat} (h : ∀ p ∈ l, m'.data p = m.data p) :
    l.map m'.data = l.map m.data :=
  List.map_congr_left h

/-- The loop of `merge(other, comp)`: `Ra` and `Rb` are the nodes of the two lists from the
iterators on; the nodes in front of them are final. -/
theorem mergeLoop_spec {a b : Nat} (comp : T → T → Bool) (hne : a ≠ b) :
    ∀ (fuel : Nat) (Ka Ra Kb Rb : List Nat) (it1 it2 : Nat) (m : Mem T),
      Owns m a (Ka ++ Ra) → Owns m b (Kb ++ Rb) →
      (nodes m a (Ka ++ Ra)).Disjoint (nodes m b (Kb ++ Rb)) →
      (Ra ++ [m.tail_ a]).head? = some it1 → (Rb ++ [m.tail_ b]).head? = some it2 →
      Ra.length + Rb.length < fuel →
      ∃ m' N, mergeLoop a b comp fuel it1 it2 m = .ok m' ∧
        Owns m' a (Ka ++ N) ∧ Owns m' b (Kb ++ Rb) ∧
        (nodes m' a (Ka ++ N)).Disjoint (nodes m' b (Kb ++ Rb)) ∧
        (∀ p, p < m.fresh → m'.data p = m.data p) ∧ m.fresh ≤ m'.fresh ∧
        N.map m'.data = mergeRef comp (Ra.map m.data) (Rb.map m.data)
  | 0, _, _, _, _, _, _, _, _, _, _, _, _, hf => by simp at hf
  | f + 1, Ka, Ra, Kb, [], it1, it2, m, ha, hb, hd, h1, h2, hf => by
    simp at h2
    refine ⟨m, Ra, by simp [mergeLoop, end_, h2], ha, hb, hd, fun _ _ => rfl, le_refl _, ?_⟩
    rw [List.map_nil, mergeRef_nil_right]
  | f + 1, Ka, Ra, Kb, y :: Rb, it1, it2, m, ha, hb, hd, h1, h2, hf => by
    simp at h2
    subst h2
    have hyb : y ∈ Kb ++ y :: Rb := by simp
    have hyt : y ≠ m.tail_ b := hb.mem_ne_tail hyb
    have hyl := hb.live_mem hyb
    have hb' : Owns m b ((Kb ++ [y]) ++ Rb) := by simpa using hb
    have hnx : (Rb ++ [m.tail_ b]).head? = some (m.next y) := by
      obtain ⟨c, Y, hY⟩ := exists_cons Rb (m.tail_ b)
      have hc : (Rb ++ [m.tail_ b]).head? = some c := by rw [hY]; rfl
      have := hb.neighbours (List.getLast?_eq_getLast _ (by simp)) hc
      rw [this.2.1]; exact hc
    -- the step that inserts a copy of `*y` before `it1`
    have ins : ∀ (_ : it1 = m.tail_ a ∨
          (it1 ≠ m.tail_ a ∧ m.live it1 = true ∧ comp (m.data y) (m.data it1) = true)),
        ∃ m' N, mergeLoop a b comp (f + 1) it1 y m = .ok m' ∧
          Owns m' a (Ka ++ N) ∧ Owns m' b (Kb ++ y :: Rb) ∧
          (nodes m' a (Ka ++ N)).Disjoint (nodes m' b (Kb ++ y :: Rb)) ∧
          (∀ p, p < m.fresh → m'.data p = m.data p) ∧ m.fresh ≤ m'.fresh ∧
          N.map m'.data = m.data y :: mergeRef comp (Ra.map m.data) (Rb.map m.data) := by
      intro hc
      obtain ⟨m1, e1, o1, d1, ht1, fr1⟩ := insert_pos_spec (m.data y) ha h1
      have ob1 : Owns m1 b (Kb ++ y :: Rb) := insert_pos_other ha h1 hb hne.symm hd e1
      have hnx1 : (Rb ++ [m1.tail_ b]).head? = some (m1.next y) := by
        obtain ⟨c, Y, hY⟩ := exists_cons Rb (m1.tail_ b)
        have hc : (Rb ++ [m1.tail_ b]).head? = some c := by rw [hY]; rfl
        have := ob1.neighbours (List.getLast?_eq_getLast _ (by simp)) hc
        rw [this.2.1]; exact hc
      have dd : (nodes m1 a ((Ka ++ [m.fresh]) ++ Ra)).Disjoint
          (nodes m1 b ((Kb ++ [y]) ++ Rb)) := by
        intro p hp hq
        simp only [nodes, (ht1 a).1, (ht1 a).2, (ht1 b).1, (ht1 b).2] at hp hq
        have hq' : p ∈ nodes m b (Kb ++ y :: Rb) := by simpa [nodes] using hq
        by_cases hpf : p = m.fresh
        · have := hb.nodes_lt_fresh hq'; omega
        · refine hd (a := p) ?_ hq'
          simp [nodes] at hp ⊢; tauto
      obtain ⟨m', N, e', oa', ob', dd', data', fr', map'⟩ := mergeLoop_spec comp hne f
        (Ka ++ [m.fresh]) Ra (Kb ++ [y]) Rb it1 (m1.next y) m1 (by simpa using o1)
        (by simpa using ob1) dd (by rw [(ht1 a).2]; exact h1) hnx1 (by simp at hf; omega)
      have hRa : Ra.map m1.data = Ra.map m.data := by
        rw [d1]
        exact map_upd_of_not_mem _ _ (fun hm => Nat.lt_irrefl _
          (ha.lt_fresh (show m.fresh ∈ Ka ++ Ra by simp [hm])))
      have hRb : Rb.map m1.data = Rb.map m.data := by
        rw [d1]
        exact map_upd_of_not_mem _ _ (fun hm => Nat.lt_irrefl _
          (hb.lt_fresh (show m.fresh ∈ Kb ++ y :: Rb by simp [hm])))
      refine ⟨m', m.fresh :: N, ?_, by simpa using oa', by simpa using ob',
        by simpa using dd', fun p hp => ?_, by omega, ?_⟩
      · rw [mergeLoop]
        have hl1 := ob1.live_mem (show y ∈ Kb ++ y :: Rb by simp)
        rcases hc with hc | ⟨hc1, hc2, hc3⟩
        · subst hc
          simp [end_, hyt, Mem.getData_ok hyl, e1, Mem.getNext_ok hl1, e']
        · simp [end_, hyt, hc1, hc3, Mem.getData_ok hc2, Mem.getData_ok hyl, e1,
            Mem.getNext_ok hl1, e']
      · rw [data' p (by omega), d1, upd_ne _ _ (by omega)]
      · rw [List.map_cons, map', hRa, hRb, data' _ (by omega), d1, upd_same]
    by_cases hit : it1 = m.tail_ a
    · have hRa : Ra = [] := by
        cases Ra with
        | nil => rfl
        | cons x R =>
          simp at h1
          exact absurd (h1 ▸ hit) (ha.mem_ne_tail (show x ∈ Ka ++ x :: R by simp))
      subst hRa
      obtain ⟨m', N, r1, r2, r3, r4, r5, r6, r7⟩ := ins (Or.inl hit)
      exact ⟨m', N, r1, r2, r3, r4, r5, r6, by simpa [mergeRef_nil_left] using r7⟩
    · obtain ⟨x, Ra', rfl⟩ : ∃ x R, Ra = x :: R := by
        cases Ra with
        | nil => simp at h1; exact absurd h1.symm hit
        | cons x R => exact ⟨x, R, rfl⟩
      simp at h1
      subst h1
      have hxl := ha.live_mem (show x ∈ Ka ++ x :: Ra' by simp)
      by_cases hcomp : comp (m.data y) (m.data x) = true
      · obtain ⟨m', N, r1, r2, r3, r4, r5, r6, r7⟩ := ins (Or.inr ⟨hit, hxl, hcomp⟩)
        refine ⟨m', N, r1, r2, r3, r4, r5, r6, ?_⟩
        rw [r7, List.map_cons, List.map_cons, mergeRef_cons_cons, if_pos hcomp]
      · have hnx' : (Ra' ++ [m.tail_ a]).head? = some (m.next x) := by
          obtain ⟨c, Y, hY⟩ := exists_cons Ra' (m.tail_ a)
          have hc : (Ra' ++ [m.tail_ a]).head? = some c := by rw [hY]; rfl
          have := ha.neighbours (List.getLast?_eq_getLast _ (by simp)) hc
          rw [this.2.1]; exact hc
        obtain ⟨m', N, e', oa', ob', dd', data', fr', map'⟩ := mergeLoop_spec comp hne f
          (Ka ++ [x]) Ra' Kb (y :: Rb) (m.next x) y m (by simpa using ha) hb
          (by simpa using hd) hnx' (by simp) (by simp at hf ⊢; omega)
        refine ⟨m', x :: N, ?_, by simpa using oa', ob', by simpa using dd', data', fr', ?_⟩
        · rw [mergeLoop]
          simp [end_, hyt, hit, Mem.getData_ok hyl, Mem.getData_ok hxl, hcomp,
            Mem.getNext_ok hxl, e']
        · rw [List.map_cons, map', data' x (ha.lt_fresh (by simp)), List.map_cons,
            List.map_cons, mergeRef_cons_cons, if_neg hcomp]


/-- What `pop_front()` leaves untouched. -/
theorem pop_front_frame {m m' : Mem T} {self : Nat} {b : Nat} {B : List Nat}
    (h : Owns m self (b :: B)) (e : pop_front self m = .ok m') :
    m'.fresh = m.fresh ∧ (∀ j, j ≠ self → m'.size_ j = m.size_ j) ∧
      ∀ p, p ∉ nodes m self (b :: B) →
        m'.next p = m.next p ∧ m'.prev p = m.prev p ∧ m'.live p = m.live p := by
  have ha : (m.head_ self :: []).getLast? = some (m.head_ self) := rfl
  obtain ⟨c, Y, hY⟩ := exists_cons B (m.tail_ self)
  have hc : (B ++ [m.tail_ self]).head? = some c := by rw [hY]; rfl
  have h' : Owns m self ([] ++ b :: B) := by simpa using h
  obtain ⟨h1, h2, h3, h4, h5, h6, h7⟩ := h'.neighbours ha hc
  have hsz : m.size_ self ≠ 0 := by simp [h.2]
  rw [pop_front_eq self hsz h5 (h3 ▸ h6) (by rw [h3, h2]; exact h7)] at e
  cases e
  refine ⟨rfl, fun j hj => by simp [Mem.decSize_size_ne _ hj], fun p hp => ?_⟩
  have hcm : c ∈ nodes m self (b :: B) := by
    have := List.mem_of_mem_head? hc
    simp [nodes] at this ⊢; tauto
  have p1 : p ≠ m.head_ self := fun e => hp (e ▸ Owns.head_mem_nodes)
  have p2 : p ≠ b := fun e => hp (e ▸ Owns.mem_nodes (by simp))
  have p3 : p ≠ c := fun e => hp (e ▸ hcm)
  simp [h3, h2, upd_ne, p1, p2, p3]

theorem clear_spec {b : Nat} :
    ∀ (pb : List Nat) (fuel : Nat) (m : Mem T), Owns m b pb → pb.length < fuel →
      ∃ m', clear b fuel m = .ok m' ∧ Owns m' b [] ∧ m'.data = m.data ∧
        m'.fresh = m.fresh ∧ (∀ j, m'.head_ j = m.head_ j ∧ m'.tail_ j = m.tail_ j) ∧
        (∀ j, j ≠ b → m'.size_ j = m.size_ j) ∧
        ∀ p, p ∉ nodes m b pb →
          m'.next p = m.next p ∧ m'.prev p = m.prev p ∧ m'.live p = m.live p
  | [], fuel, m, h, hf => by
    obtain ⟨f, rfl⟩ : ∃ f, fuel = f + 1 := ⟨fuel - 1, by simp at hf; omega⟩
    exact ⟨m, by simp [clear, empty, h.2], h, rfl, rfl, fun _ => ⟨rfl, rfl⟩, fun _ _ => rfl,
      fun _ _ => ⟨rfl, rfl, rfl⟩⟩
  | x :: pb, fuel, m, h, hf => by
    obtain ⟨f, rfl⟩ : ∃ f, fuel = f + 1 := ⟨fuel - 1, by simp at hf; omega⟩
    obtain ⟨m1, e1, o1, d1, ht1⟩ := pop_front_spec h
    obtain ⟨f1, s1, fr1⟩ := pop_front_frame h e1
    obtain ⟨m', e', o', d', f', ht', s', fr'⟩ := clear_spec pb f m1 o1 (by simp at hf; omega)
    refine ⟨m', ?_, o', by rw [d', d1], by rw [f', f1],
      fun j => ⟨by rw [(ht' j).1, (ht1 j).1], by rw [(ht' j).2, (ht1 j).2]⟩,
      fun j hj => by rw [s' j hj, s1 j hj], fun p hp => ?_⟩
    · rw [clear]
      simp [empty, h.2, e1, e']
    · have hp1 : p ∉ nodes m1 b pb := by
        intro hm
        apply hp
        simp only [nodes, (ht1 b).1, (ht1 b).2] at hm
        simp [nodes] at hm ⊢; tauto
      obtain ⟨a1, a2, a3⟩ := fr' p hp1
      obtain ⟨b1, b2, b3⟩ := fr1 p hp
      exact ⟨by rw [a1, b1], by rw [a2, b2], by rw [a3, b3]⟩

theorem Owns.begin_eq {m : Mem T} {self : Nat} {ps : List Nat} (h : Owns m self ps) :
    begin_ self m = .ok (m.next (m.head_ self)) :=
  Mem.getNext_ok h.live_head

theorem merge_spec {m : Mem T} {a b : Nat} {pa pb : List Nat} (comp : T → T → Bool)
    {fuel : Nat} (hne : a ≠ b) (ha : Owns m a pa) (hb : Owns m b pb)
    (hd : (nodes m a pa).Disjoint (nodes m b pb)) (hf : pa.length + pb.length < fuel) :
    ∃ m' N, merge a b comp fuel m = .ok m' ∧ Owns m' a N ∧ Owns m' b [] ∧
      N.map m'.data = mergeRef comp (pa.map m.data) (pb.map m.data) := by
  obtain ⟨m1, N, e1, oa1, ob1, dd1, data1, fr1, map1⟩ := mergeLoop_spec comp hne fuel
    [] pa [] pb _ _ m ha hb hd ha.next_head hb.next_head hf
  simp only [List.nil_append] at oa1 ob1 dd1
  obtain ⟨m2, e2, ob2, d2, f2, ht2, s2, fr2⟩ := clear_spec pb fuel m1 ob1 (by omega)
  have oa2 : Owns m2 a N := by
    refine oa1.frameO (fun p hp => fr2 p (fun hq => dd1 hp hq)) (by omega) (ht2 a).1 (ht2 a).2
      (s2 a hne)
  have hlh := ob2.live_head
  have hlt := ob2.live_tail
  refine ⟨(m2.withNext (m2.head_ b) (m2.tail_ b)).withPrev (m2.tail_ b) (m2.head_ b), N,
    ?_, ?_, ?_, ?_⟩
  · simp [merge, hne, ha.begin_eq, hb.begin_eq, e1, e2, Mem.setNext, Mem.setPrev, hlh, hlt]
  · refine oa2.frameO (fun p hp => ?_) (by simp) (by simp) (by simp) (by simp)
    have hpb : p ∉ nodes m1 b pb := fun hq => dd1 (by
      simpa [nodes, (ht2 a).1, (ht2 a).2] using hp) hq
    have p1 : p ≠ m2.head_ b := by
      intro e; apply hpb; rw [e, (ht2 b).1]; exact Owns.head_mem_nodes
    have p2 : p ≠ m2.tail_ b := by
      intro e; apply hpb; rw [e, (ht2 b).2]; exact Owns.tail_mem_nodes
    simp [upd_ne, p1, p2]
  · have hl := ob2.1.1
    simp [nodes, Linked] at hl
    refine ob2.frameO (fun p hp => ?_) (by simp) (by simp) (by simp) (by simp)
    simp [nodes] at hp
    rcases hp with rfl | rfl
    · simp [upd_ne, ob2.head_ne_tail, hl.1]
    · simp [upd_ne, ob2.head_ne_tail.symm, hl.2]
  · simp [d2, map1]


theorem strictWeakOrder_lt : StrictWeakOrder (fun a b : Nat => decide (a < b)) where
  irrefl := by simp
  trans := by simp; omega
  incomp_trans := by simp; omega

/-- C4: for two distinct well-formed lists that share no node, whose sequences `xs` and `ys`
are each sorted under a strict weak order `comp`, `merge(other, comp)` succeeds; afterwards
the sequence of `this` is sorted under `comp` and is a permutation of `xs ++ ys`, its size is
the sum of the two sizes, and `other` is the empty well-formed list (size 0, sentinels linked
to each other). -/
theorem merge_sorted_lists (m : Mem T) (a b : Nat) (pa pb : List Nat) (comp : T → T → Bool)
    (fuel : Nat) (hswo : StrictWeakOrder comp) (hne : a ≠ b)
    (ha : Owns m a pa) (hb : Owns m b pb)
    (hdis : ∀ p ∈ nodes m a pa, p ∉ nodes m b pb)
    (hsa : SortedBy comp (pa.map m.data)) (hsb : SortedBy comp (pb.map m.data))
    (hf : pa.length + pb.length < fuel) :
    ∃ m' zs, merge a b comp fuel m = .ok m' ∧ Repr m' a zs ∧ Repr m' b [] ∧
      listToVector a fuel m' = .ok zs ∧ listToVector b 1 m' = .ok [] ∧
      SortedBy comp zs ∧ zs.Perm (pa.map m.data ++ pb.map m.data) ∧
      size a m' = size a m + size b m ∧ size b m' = 0 := by
  obtain ⟨m', N, h1, h2, h3, h4⟩ := merge_spec comp hne ha hb (fun p h1 h2 => hdis p h1 h2) hf
  have hperm := mergeRef_perm comp (pa.map m.data) (pb.map m.data)
  have hra : Repr m' a (mergeRef comp (pa.map m.data) (pb.map m.data)) := ⟨N, h2, h4⟩
  have hrb : Repr m' b [] := ⟨[], h3, rfl⟩
  have hlen : (mergeRef comp (pa.map m.data) (pb.map m.data)).length = pa.length + pb.length := by
    simpa using hperm.length_eq
  refine ⟨m', _, h1, hra, hrb, hra.traverseRepr (by omega), hrb.traverseRepr (by simp),
    mergeRef_sorted (fun _ _ h => hswo.asymm h) _ _ hsa hsb, hperm, ?_, hrb.size_eq⟩
  rw [hra.size_eq, hlen]
  simp [size, ha.2, hb.2]

theorem merge_sorted_lists_witness :
    Owns demoTwo 0 [3, 4] ∧ Owns demoTwo 1 [7, 8] ∧
      SortedBy (fun a b : Nat => decide (a < b)) ([3, 4].map demoTwo.data) ∧
      SortedBy (fun a b : Nat => decide (a < b)) ([7, 8].map demoTwo.data) ∧
      ∃ m' zs, merge 0 1 (fun a b : Nat => decide (a < b)) 5 demoTwo = .ok m' ∧
        Repr m' 0 zs ∧ Repr m' 1 [] ∧ listToVector 0 5 m' = .ok zs :=
  ⟨by decide, by decide, by decide, by decide,
    (merge_sorted_lists demoTwo 0 1 [3, 4] [7, 8] (fun a b : Nat => decide (a < b)) 5
      strictWeakOrder_lt (by decide) (by decide) (by decide) (by decide) (by decide)
      (by decide) (by decide)).imp fun _ hm =>
        hm.imp fun _ hz => ⟨hz.1, hz.2.1, hz.2.2.1, hz.2.2.2.1⟩⟩


end DoublyList

end Linear

/-! ## The reference functions of sort -/

namespace Linear

namespace DoublyList

variable {T : Type}

theorem linkRef_nil_left (comp : T → T → Bool) (ys : List T) : linkRef comp [] ys = ys := rfl

theorem linkRef_nil_right (comp : T → T → Bool) (xs : List T) : linkRef comp xs [] = xs := by
  cases xs <;> rfl

theorem linkRef_cons_cons (comp : T → T → Bool) (x y : T) (xs ys : List T) :
    linkRef comp (x :: xs) (y :: ys) =
      if comp x y then x :: linkRef comp xs (y :: ys) else y :: linkRef comp (x :: xs) ys :=
  rfl

theorem linkRef_perm (comp : T → T → Bool) :
    ∀ xs ys : List T, (linkRef comp xs ys).Perm (xs ++ ys)
  | [], ys => by simp [linkRef_nil_left]
  | x :: xs, [] => by simp [linkRef_nil_right]
  | x :: xs, y :: ys => by
    rw [linkRef_cons_cons]
    split
    · exact List.Perm.cons x (linkRef_perm comp xs (y :: ys))
    · exact (List.Perm.cons y (linkRef_perm comp (x :: xs) ys)).trans List.perm_middle.symm
termination_by xs ys => xs.length + ys.length

theorem linkRef_head (comp : T → T → Bool) (a : T) :
    ∀ xs ys : List T, (∀ x ∈ xs.head?, comp x a = false) → (∀ y ∈ ys.head?, comp y a = false) →
      ∀ z ∈ (linkRef comp xs ys).head?, comp z a = false
  | [], ys, _, hy => by simpa [linkRef_nil_left] using hy
  | x :: xs, [], hx, _ => by simpa [linkRef_nil_right] using hx
  | x :: xs, y :: ys, hx, hy => by
    rw [linkRef_cons_cons]
    split
    · simpa using hx
    · simpa using hy

theorem linkRef_sorted {comp : T → T → Bool} (hc : ∀ a b, comp a b = true → comp b a = false) :
    ∀ xs ys : List T, SortedBy comp xs → SortedBy comp ys → SortedBy comp (linkRef comp xs ys)
  | [], ys, _, hy => by simpa [linkRef_nil_left] using hy
  | x :: xs, [], hx, _ => by simpa [linkRef_nil_right] using hx
  | x :: xs, y :: ys, hx, hy => by
    rw [linkRef_cons_cons]
    unfold SortedBy at hx hy ⊢
    split
    · rename_i hxy
      have ih := linkRef_sorted hc xs (y :: ys) (List.Chain'.tail hx) hy
      refine List.Chain'.cons' ih ?_
      intro z hz
      refine linkRef_head comp x xs (y :: ys) ?_ ?_ z hz
      · intro x' hx'
        exact (List.chain'_cons'.1 hx).1 x' hx'
      · intro y' hy'; simp at hy'; subst hy'; exact hc _ _ hxy
    · rename_i hxy
      have ih := linkRef_sorted hc (x :: xs) ys hx (List.Chain'.tail hy)
      refine List.Chain'.cons' ih ?_
      intro z hz
      refine linkRef_head comp y (x :: xs) ys ?_ ?_ z hz
      · intro x' hx'; simp at hx'; subst hx'; simpa using hxy
      · intro y' hy'
        exact (List.chain'_cons'.1 hy).1 y' hy'
termination_by xs ys => xs.length + ys.length

theorem sortedBy_of_length_le_one (comp : T → T → Bool) {l : List T} (h : l.length ≤ 1) :
    SortedBy comp l := by
  match l, h with
  | [], _ => exact List.chain'_nil
  | [_], _ => exact List.chain'_singleton _

theorem sortRef_perm (comp : T → T → Bool) :
    ∀ (fuel : Nat) (l : List T), (sortRef comp fuel l).Perm l
  | 0, l => List.Perm.refl l
  | fuel + 1, l => by
    rw [sortRef]
    split
    · exact List.Perm.refl l
    · refine (linkRef_perm comp _ _).trans ?_
      refine ((sortRef_perm comp fuel _).append (sortRef_perm comp fuel _)).trans ?_
      rw [List.take_append_drop]

theorem sortRef_sorted {comp : T → T → Bool} (hc : ∀ a b, comp a b = true → comp b a = false) :
    ∀ (fuel : Nat) (l : List T), l.length ≤ fuel → SortedBy comp (sortRef comp fuel l)
  | 0, l, h => sortedBy_of_length_le_one comp (show l.length ≤ 1 by omega)
  | fuel + 1, l, h => by
    rw [sortRef]
    split
    · rename_i h1; exact sortedBy_of_length_le_one comp h1
    · rename_i h1
      refine linkRef_sorted hc _ _ (sortRef_sorted hc fuel _ ?_) (sortRef_sorted hc fuel _ ?_)
      · rw [List.length_take]; omega
      · rw [List.length_drop]; omega


end DoublyList

end Linear

/-! ## The loops of merge_sort -/

namespace Linear

namespace DoublyList

variable {T : Type}

theorem TailSeg.liveOf {m : Mem T} {t : Nat} {ps : List Nat} (h : TailSeg m t ps) {p : Nat}
    (hp : p ∈ ps) : m.live p = true := (h.2.2 p (by simp [hp])).1

theorem TailSeg.liveTail {m : Mem T} {t : Nat} {ps : List Nat} (h : TailSeg m t ps) :
    m.live t = true := (h.2.2 t (by simp)).1

theorem TailSeg.ltFresh {m : Mem T} {t : Nat} {ps : List Nat} (h : TailSeg m t ps) {p : Nat}
    (hp : p ∈ ps) : p < m.fresh := (h.2.2 p (by simp [hp])).2

theorem TailSeg.tail_lt_fresh {m : Mem T} {t : Nat} {ps : List Nat} (h : TailSeg m t ps) :
    t < m.fresh := (h.2.2 t (by simp)).2

theorem TailSeg.ne_tail {m : Mem T} {t : Nat} {ps : List Nat} (h : TailSeg m t ps) {p : Nat}
    (hp : p ∈ ps) : p ≠ t := by
  have hn := h.2.1
  rw [List.nodup_append] at hn
  exact fun e => hn.2.2 hp (by simp [e])

theorem TailSeg.nodup {m : Mem T} {t : Nat} {ps : List Nat} (h : TailSeg m t ps) :
    ps.Nodup := (List.nodup_append.1 h.2.1).1

theorem TailSeg.nil {m : Mem T} {t : Nat} (hl : m.live t = true) (hf : t < m.fresh) :
    TailSeg m t [] :=
  ⟨List.chain'_singleton _, by simp, by simp [hl, hf]⟩

theorem TailSeg.frame {m m' : Mem T} {t : Nat} {ps : List Nat} (h : TailSeg m t ps)
    (hn : ∀ p ∈ ps, m'.next p = m.next p) (hl : ∀ p ∈ ps ++ [t], m'.live p = m.live p)
    (hf : m.fresh ≤ m'.fresh) : TailSeg m' t ps := by
  refine ⟨Fwd.frameF h.1 (fun p hp => hn p (by simpa using hp)), h.2.1, fun p hp => ?_⟩
  have := h.2.2 p hp
  rw [hl p hp]
  exact ⟨this.1, by omega⟩

theorem TailSeg.tail {m : Mem T} {t p : Nat} {ps : List Nat} (h : TailSeg m t (p :: ps)) :
    TailSeg m t ps :=
  ⟨List.Chain'.tail h.1, (List.nodup_cons.1 h.2.1).2, fun q hq => h.2.2 q (by simp at hq ⊢; tauto)⟩

theorem TailSeg.head_next {m : Mem T} {t p : Nat} {ps : List Nat} (h : TailSeg m t (p :: ps)) :
    (ps ++ [t]).head? = some (m.next p) := Fwd.head_tail h.1

theorem TailSeg.not_mem_tail {m : Mem T} {t p : Nat} {ps : List Nat}
    (h : TailSeg m t (p :: ps)) : p ∉ ps := by
  have hn := h.2.1
  simp [List.nodup_append] at hn
  tauto

/-- The memory after the exit of the linking loop when the rest starts at `x`. -/
theorem linkRest_eq {m : Mem T} {t left right cur x : Nat}
    (hx : (if left ≠ t then left else right) = x)
    (hc : m.live cur = true) (hlx : m.live x = true) :
    linkRest t (left, right, cur, m) = .ok ((m.withNext cur x).withPrev x cur) := by
  by_cases hxt : x = t
  · subst hxt
    simp [linkRest, hx, Mem.setNext, Mem.getNext, Mem.setPrev, hc, hlx]
  · simp [linkRest, hx, Mem.setNext, Mem.getNext, Mem.setPrev, hc, hxt, hlx]

theorem Fwd.cons {m : Mem T} {c : Nat} {l : List Nat} (h : Fwd m l)
    (hc : l.head? = some (m.next c)) : Fwd m (c :: l) := by
  refine List.Chain'.cons' h ?_
  intro y hy
  rw [hc] at hy
  exact (Option.some.inj hy)

/-- The linking loop of `merge_sort(left, right, comp)` followed by the attachment of the
rest: from `cur` on, `next` runs through `linkRef` of the two runs. -/
theorem linkLoop_spec {t : Nat} (comp : T → T → Bool) :
    ∀ (fuel : Nat) (L R : List Nat) (left right cur : Nat) (m : Mem T),
      TailSeg m t L → TailSeg m t R → L.Disjoint R →
      (L ++ [t]).head? = some left → (R ++ [t]).head? = some right →
      m.live cur = true → cur ∉ L → cur ∉ R → cur ≠ t → L.length + R.length < fuel →
      ∃ m' N, (linkLoop t comp fuel left right cur m >>= linkRest t) = .ok m' ∧
        Fwd m' (cur :: (N ++ [t])) ∧ N.Perm (L ++ R) ∧
        N.map m.data = linkRef comp (L.map m.data) (R.map m.data) ∧
        (∀ p, p ≠ cur → p ∉ L → p ∉ R → m'.next p = m.next p) ∧
        m'.data = m.data ∧ m'.live = m.live ∧ m'.fresh = m.fresh ∧ m'.lists = m.lists
  | 0, _, _, _, _, _, _, _, _, _, _, _, _, _, _, _, hf => by simp at hf
  | f + 1, [], R, left, right, cur, m, hL, hR, hd, hl, hr, hc, hcL, hcR, hct, hf => by
    simp at hl
    subst hl
    have hlr : m.live right = true := by
      have := List.mem_of_mem_head? hr
      exact (hR.2.2 right this).1
    refine ⟨(m.withNext cur right).withPrev right cur, R, ?_, ?_, by simp, by
      simp [linkRef_nil_left], fun p hp _ _ => by simp [upd_ne, hp], rfl, rfl, rfl, rfl⟩
    · rw [linkLoop]
      simp only [ne_eq, not_true_eq_false, false_and, if_false, pure_eq_ok, ok_bind]
      exact linkRest_eq (by simp) hc hlr
    · refine Fwd.cons (Fwd.frameF hR.1 (fun p hp => ?_)) (by simpa using hr)
      have hpR : p ∈ R := by simpa using hp
      have : p ≠ cur := fun e => hcR (e ▸ hpR)
      simp [upd_ne, this]
  | f + 1, l :: L, [], left, right, cur, m, hL, hR, hd, hl, hr, hc, hcL, hcR, hct, hf => by
    simp at hl hr
    subst hl hr
    have hlt := hL.ne_tail (show l ∈ l :: L by simp)
    have hll := hL.liveOf (show l ∈ l :: L by simp)
    refine ⟨(m.withNext cur l).withPrev l cur, l :: L, ?_, ?_, by simp, by
      simp [linkRef_nil_right], fun p hp _ _ => by simp [upd_ne, hp], rfl, rfl, rfl, rfl⟩
    · rw [linkLoop]
      simp only [ne_eq, not_true_eq_false, and_false, if_false, pure_eq_ok, ok_bind]
      exact linkRest_eq (by simp [hlt]) hc hll
    · refine Fwd.cons (Fwd.frameF hL.1 (fun p hp => ?_)) (by simp)
      have hpL : p ∈ l :: L := by
        rw [List.dropLast_concat] at hp; exact hp
      have : p ≠ cur := fun e => hcL (e ▸ hpL)
      simp [upd_ne, this]
  | f + 1, l :: L, r :: R, left, right, cur, m, hL, hR, hd, hl, hr, hc, hcL, hcR, hct, hf => by
    simp at hl hr
    subst hl hr
    have hlt := hL.ne_tail (show l ∈ l :: L by simp)
    have hll := hL.liveOf (show l ∈ l :: L by simp)
    have hrt := hR.ne_tail (show r ∈ r :: R by simp)
    have hrl := hR.liveOf (show r ∈ r :: R by simp)
    have hlc : l ≠ cur := fun e => hcL (by simp [e])
    have hrc : r ≠ cur := fun e => hcR (by simp [e])
    have hlr : l ≠ r := fun e => hd (show l ∈ l :: L by simp) (by simp [e])
    by_cases hcomp : comp (m.data l) (m.data r) = true
    · -- the head of the left run is linked behind `cur`
      obtain ⟨m', N, e', fw', pm', mp', fr', d', l', f', ls'⟩ := linkLoop_spec comp f L (r :: R)
        (m.next l) r l ((m.withNext cur l).withPrev l cur)
        (hL.tail.frame (fun p hp => by
          have : p ≠ cur := fun e => hcL (by simp [← e, hp])
          simp [upd_ne, this]) (fun _ _ => rfl) (le_refl _))
        (hR.frame (fun p hp => by
          have : p ≠ cur := fun e => hcR (e ▸ hp)
          simp [upd_ne, this]) (fun _ _ => rfl) (le_refl _))
        (fun p hp hq => hd (by simp [hp]) hq)
        (by simpa using hL.head_next) (by simp) (by simpa using hll) hL.not_mem_tail
        (fun h => hd (show l ∈ l :: L by simp) h) hlt (by simp at hf ⊢; omega)
      refine ⟨m', l :: N, ?_, ?_, ?_, ?_, fun p hp hpL hpR => ?_, by simpa using d',
        by simpa using l', by simpa using f', by simpa using ls'⟩
      · rw [linkLoop]
        simp [hlt, hrt, Mem.getData_ok hll, Mem.getData_ok hrl, hcomp, Mem.setNext,
          Mem.setPrev, Mem.getNext, hc, hll, upd_ne, hlc]
        exact e'
      · refine Fwd.cons fw' ?_
        have := fr' cur (Ne.symm hlc) (fun h => hcL (by simp [h])) hcR
        simp [this]
      · simpa using pm'.cons l
      · simp only [Mem.withPrev_data, Mem.withNext_data] at mp'
        rw [List.map_cons, mp', List.map_cons, List.map_cons, linkRef_cons_cons, if_pos hcomp]
      · have := fr' p (fun e => hpL (by simp [e])) (fun h => hpL (by simp [h])) hpR
        simpa [upd_ne, hp] using this
    · -- the head of the right run is linked behind `cur`
      obtain ⟨m', N, e', fw', pm', mp', fr', d', l', f', ls'⟩ := linkLoop_spec comp f (l :: L) R
        l (m.next r) r ((m.withNext cur r).withPrev r cur)
        (hL.frame (fun p hp => by
          have : p ≠ cur := fun e => hcL (e ▸ hp)
          simp [upd_ne, this]) (fun _ _ => rfl) (le_refl _))
        (hR.tail.frame (fun p hp => by
          have : p ≠ cur := fun e => hcR (by simp [← e, hp])
          simp [upd_ne, this]) (fun _ _ => rfl) (le_refl _))
        (fun p hp hq => hd hp (by simp [hq]))
        (by simp) (by simpa using hR.head_next) (by simpa using hrl)
        (fun h => hd h (show r ∈ r :: R by simp)) hR.not_mem_tail hrt (by simp at hf ⊢; omega)
      refine ⟨m', r :: N, ?_, ?_, ?_, ?_, fun p hp hpL hpR => ?_, by simpa using d',
        by simpa using l', by simpa using f', by simpa using ls'⟩
      · rw [linkLoop]
        simp [hlt, hrt, Mem.getData_ok hll, Mem.getData_ok hrl, hcomp, Mem.setNext,
          Mem.setPrev, Mem.getNext, hc, hrl, upd_ne, hrc]
        exact e'
      · refine Fwd.cons fw' ?_
        have := fr' cur (Ne.symm hrc) hcL (fun h => hcR (by simp [h]))
        simp [this]
      · exact (pm'.cons r).trans List.perm_middle.symm
      · simp only [Mem.withPrev_data, Mem.withNext_data] at mp'
        rw [List.map_cons, mp', List.map_cons, List.map_cons, linkRef_cons_cons, if_neg hcomp]
      · have := fr' p (fun e => hpR (by simp [e])) hpL (fun h => hpR (by simp [h]))
        simpa [upd_ne, hp] using this


theorem map_data_eq_of_lt {m m' : Mem T} {l : List Nat} {n : Nat}
    (h : ∀ p, p < n → m'.data p = m.data p) (hl : ∀ p ∈ l, p < n) :
    l.map m'.data = l.map m.data :=
  List.map_congr_left (fun p hp => h p (hl p hp))

/-- The private member `merge_sort(left, right, comp)` on two disjoint tail-terminated runs:
the result is the tail-terminated run `linkRef` of the two, over the same nodes. -/
theorem merge_sort_lr_spec [Inhabited T] (self : Nat) (comp : T → T → Bool) (fuel : Nat)
    {L R : List Nat} {left right : Nat} {m : Mem T}
    (hL : TailSeg m (m.tail_ self) L) (hR : TailSeg m (m.tail_ self) R) (hd : L.Disjoint R)
    (hl : (L ++ [m.tail_ self]).head? = some left)
    (hr : (R ++ [m.tail_ self]).head? = some right) (hf : L.length + R.length < fuel) :
    ∃ r m' N, merge_sort_lr self comp fuel left right m = .ok (r, m') ∧
      TailSeg m' (m.tail_ self) N ∧ (N ++ [m.tail_ self]).head? = some r ∧
      N.Perm (L ++ R) ∧ N.map m.data = linkRef comp (L.map m.data) (R.map m.data) ∧
      (∀ p, p < m.fresh → p ∉ L → p ∉ R → m'.next p = m.next p) ∧
      (∀ p, p < m.fresh → m'.data p = m.data p ∧ m'.live p = m.live p) ∧
      m'.fresh = m.fresh + 1 ∧ m'.lists = m.lists := by
  have hLf : ∀ p ∈ L, p ≠ m.fresh := fun p hp => Nat.ne_of_lt (hL.ltFresh hp)
  have hRf : ∀ p ∈ R, p ≠ m.fresh := fun p hp => Nat.ne_of_lt (hR.ltFresh hp)
  have htf : m.tail_ self ≠ m.fresh := Nat.ne_of_lt hL.tail_lt_fresh
  have hfr : ∀ {ps : List Nat}, TailSeg m (m.tail_ self) ps →
      TailSeg (m.newNode default 0 0) (m.tail_ self) ps := by
    intro ps h
    refine h.frame (fun p hp => ?_) (fun p hp => ?_) (by simp)
    · simp [upd_ne, Nat.ne_of_lt (h.ltFresh hp)]
    · simp [upd_ne, Nat.ne_of_lt (h.2.2 p hp).2]
  obtain ⟨m1, N, e1, fw, pm, mp, fr, d1, l1, f1, ls1⟩ := linkLoop_spec comp fuel L R left right
    m.fresh (m.newNode default 0 0) (hfr hL) (hfr hR) hd hl hr (by simp)
    (fun h => hLf _ h rfl) (fun h => hRf _ h rfl) (Ne.symm htf) hf
  have hNmem : ∀ p ∈ N, p ∈ L ∨ p ∈ R := fun p hp => by
    simpa using pm.subset hp
  have hNlt : ∀ p ∈ N, p < m.fresh := fun p hp => by
    rcases hNmem p hp with h | h
    · exact hL.ltFresh h
    · exact hR.ltFresh h
  have hlive1 : m1.live m.fresh = true := by rw [l1]; simp
  refine ⟨m1.next m.fresh, m1.kill m.fresh, N, ?_, ⟨?_, ?_, ?_⟩, ?_, pm, ?_, ?_, ?_, ?_, ?_⟩
  · simp only [merge_sort_lr, Mem.newNode_tail_]
    rw [show (linkLoop (m.tail_ self) comp fuel left right m.fresh (m.newNode default 0 0) >>=
        fun st => linkRest (m.tail_ self) st >>= fun m_1 => m_1.getNext m.fresh >>= fun r =>
          m_1.deleteNode m.fresh >>= fun m_2 => pure (r, m_2)) =
        ((linkLoop (m.tail_ self) comp fuel left right m.fresh (m.newNode default 0 0) >>=
          linkRest (m.tail_ self)) >>= fun m_1 => m_1.getNext m.fresh >>= fun r =>
          m_1.deleteNode m.fresh >>= fun m_2 => pure (r, m_2)) by
      rw [bind_assoc]]
    rw [e1]
    simp [Mem.getNext_ok hlive1, Mem.deleteNode_ok hlive1]
  · exact Fwd.frameF (List.Chain'.tail fw) (fun _ _ => rfl)
  · rw [List.nodup_append]
    refine ⟨(pm.nodup_iff).2 (List.nodup_append.2 ⟨hL.nodup, hR.nodup, hd⟩), by simp, ?_⟩
    intro p hp hq
    simp at hq
    subst hq
    rcases hNmem _ hp with h | h
    · exact hL.ne_tail h rfl
    · exact hR.ne_tail h rfl
  · intro p hp
    have hplt : p < m.fresh := by
      simp at hp
      rcases hp with h | h
      · exact hNlt p h
      · rw [h]; exact hL.tail_lt_fresh
    have hpl : m.live p = true := by
      simp at hp
      rcases hp with h | h
      · rcases hNmem p h with h' | h'
        · exact hL.liveOf h'
        · exact hR.liveOf h'
      · rw [h]; exact hL.liveTail
    simp [l1, f1, upd_ne, Nat.ne_of_lt hplt, hpl]
    omega
  · exact Fwd.head_tail fw
  · have e : ∀ l : List Nat, (∀ p ∈ l, p < m.fresh) →
        l.map (m.newNode default 0 0).data = l.map m.data := fun l hl =>
      map_upd_of_not_mem _ _ (fun h => Nat.lt_irrefl _ (hl _ h))
    rw [e N hNlt, e L (fun p hp => hL.ltFresh hp), e R (fun p hp => hR.ltFresh hp)] at mp
    exact mp
  · intro p hp hpL hpR
    have := fr p (Nat.ne_of_lt hp) hpL hpR
    simpa [upd_ne, Nat.ne_of_lt hp] using this
  · intro p hp
    simp [d1, l1, upd_ne, Nat.ne_of_lt hp]
  · simp [f1]
  · simp [ls1]


/-- The slow/fast loop: with `slow` at the front of `S` and `fast` at the front of `F`, `slow`
ends on the node of `S` that has `F.length / 2` nodes in front of it. -/
theorem slowFast_spec {m : Mem T} {t : Nat} :
    ∀ (fuel : Nat) (S F : List Nat) (slow fast : Nat), Fwd m (S ++ [t]) → Fwd m (F ++ [t]) →
      t ∉ F → (∀ p ∈ S, m.live p = true) → (∀ p ∈ F, m.live p = true) →
      (S ++ [t]).head? = some slow → (F ++ [t]).head? = some fast →
      F.length < S.length → F.length < fuel →
      ∃ r A B, slowFast t fuel slow fast m = .ok r ∧ S = A ++ r :: B ∧
        A.length = F.length / 2
  | 0, _, _, _, _, _, _, _, _, _, _, _, _, hf => by simp at hf
  | f + 1, [], F, _, _, _, _, _, _, _, _, _, hlen, _ => by simp at hlen
  | f + 1, s :: S, [], slow, fast, _, _, _, _, _, hs, hfa, _, _ => by
    simp at hs hfa
    subst hs hfa
    exact ⟨s, [], S, by simp [slowFast], rfl, rfl⟩
  | f + 1, s :: S, [f1], slow, fast, _, hF, ht, _, hlF, hs, hfa, _, _ => by
    simp at hs hfa
    subst hs hfa
    have h1 : f1 ≠ t := fun e => ht (by simp [e])
    have h2 : m.next f1 = t := by simpa [Fwd] using hF
    exact ⟨s, [], S, by simp [slowFast, h1, Mem.getNext_ok (hlF f1 (by simp)), h2], rfl,
      by simp⟩
  | f + 1, s :: S, f1 :: f2 :: F, slow, fast, hS, hF, ht, hlS, hlF, hs, hfa, hlen, hfuel => by
    simp at hs hfa
    subst hs hfa
    have h1 : f1 ≠ t := fun e => ht (by simp [e])
    have h2 : f2 ≠ t := fun e => ht (by simp [e])
    have h3 : m.next f1 = f2 := by
      have := Fwd.head_tail (R := f2 :: F) hF
      simpa using this.symm
    have h4 : (F ++ [t]).head? = some (m.next f2) := Fwd.head_tail (List.Chain'.tail hF)
    obtain ⟨r, A, B, e, hd, hA⟩ := slowFast_spec f S F (m.next s) (m.next f2)
      (List.Chain'.tail hS) (List.Chain'.tail (List.Chain'.tail hF))
      (fun h => ht (by simp [h])) (fun p hp => hlS p (by simp [hp]))
      (fun p hp => hlF p (by simp [hp])) (Fwd.head_tail hS) h4
      (by simp at hlen; omega) (by simp at hfuel; omega)
    refine ⟨r, s :: A, B, ?_, by simp [hd], by simp [hA]; omega⟩
    rw [slowFast]
    simp [h1, Mem.getNext_ok (hlF f1 (by simp)), h3, h2, Mem.getNext_ok (hlS s (by simp)),
      Mem.getNext_ok (hlF f2 (by simp)), e]


end DoublyList

end Linear

/-! ## The members merge_sort and sort -/

namespace Linear

namespace DoublyList

variable {T : Type}

theorem Fwd.next_mid {m : Mem T} {A B : List Nat} {r t : Nat} (h : Fwd m (A ++ r :: B ++ [t])) :
    (B ++ [t]).head? = some (m.next r) := by
  have h' : Fwd m (A ++ (r :: B ++ [t])) := by simpa using h
  exact Fwd.head_tail (List.Chain'.right_of_append h')

/-- Cutting a tail-terminated run after the node `r`. -/
theorem TailSeg.split {m : Mem T} {t r : Nat} {A B : List Nat} (h : TailSeg m t (A ++ r :: B)) :
    TailSeg (m.withNext r t) t (A ++ [r]) ∧ TailSeg (m.withNext r t) t B ∧
      (A ++ [r]).Disjoint B := by
  have hn := h.2.1
  have hnd : (A ++ r :: B).Nodup := h.nodup
  have hdis : (A ++ [r]).Disjoint B := by
    have : ((A ++ [r]) ++ B).Nodup := by simpa using hnd
    exact (List.nodup_append.1 this).2.2
  have hrA : r ∉ A := by
    have := (List.nodup_append.1 hnd).2.2
    exact fun hr => this hr (by simp)
  have hrB : r ∉ B := fun hb => hdis (by simp) hb
  have hfw : Fwd m (A ++ (r :: B ++ [t])) := by simpa using h.1
  refine ⟨⟨?_, ?_, ?_⟩, ⟨?_, ?_, ?_⟩, hdis⟩
  · show Fwd _ ((A ++ [r]) ++ [t])
    rw [List.append_assoc]
    unfold Fwd
    show List.Chain' _ (A ++ r :: [t])
    rw [List.chain'_split]
    refine ⟨?_, by simp [List.chain'_cons]⟩
    have h1 : Fwd m (A ++ [r]) := by
      have : Fwd m ((A ++ [r]) ++ (B ++ [t])) := by simpa using h.1
      exact List.Chain'.left_of_append this
    refine Fwd.frameF h1 (fun p hp => ?_)
    have hpA : p ∈ A := by simpa using hp
    have : p ≠ r := fun e => hrA (e ▸ hpA)
    simp [upd_ne, this]
  · have : ((A ++ [r]) ++ [t]).Sublist ((A ++ r :: B) ++ [t]) := by
      simp only [List.append_assoc, List.cons_append, List.nil_append]
      refine List.Sublist.append_left ?_ _
      exact List.Sublist.cons₂ _ (List.sublist_append_right _ _)
    exact hn.sublist this
  · intro p hp
    exact h.2.2 p (by simp at hp ⊢; tauto)
  · have h2 : Fwd m (B ++ [t]) := by
      have : Fwd m ((A ++ [r]) ++ (B ++ [t])) := by simpa using h.1
      exact List.Chain'.right_of_append this
    refine Fwd.frameF h2 (fun p hp => ?_)
    have hpB : p ∈ B := by simpa using hp
    have : p ≠ r := fun e => hrB (e ▸ hpB)
    simp [upd_ne, this]
  · have : (B ++ [t]).Sublist ((A ++ r :: B) ++ [t]) := by
      simp only [List.append_assoc, List.cons_append]
      exact (List.sublist_append_right _ _).trans
        (List.Sublist.append_left (List.sublist_cons_self _ _) _)
    exact hn.sublist this
  · intro p hp
    exact h.2.2 p (by simp at hp ⊢; tauto)

theorem TailSeg.withPrev {m : Mem T} {t : Nat} {ps : List Nat} (h : TailSeg m t ps)
    (p q : Nat) : TailSeg (m.withPrev p q) t ps :=
  h.frame (fun _ _ => rfl) (fun _ _ => rfl) (le_refl _)

theorem sortRef_of_length_le_one (comp : T → T → Bool) (fuel : Nat) {l : List T}
    (h : l.length ≤ 1) : sortRef comp fuel l = l := by
  cases fuel with
  | zero => rfl
  | succ f => simp [sortRef, h]


/-- The private member `merge_sort(other, comp)` on a tail-terminated run `ps`: with enough
fuel it returns, and the result is a tail-terminated run over the same nodes whose data is
`sortRef` of the data of `ps`. -/
theorem merge_sort_spec [Inhabited T] (self : Nat) (comp : T → T → Bool) :
    ∀ (fuel : Nat) (ps : List Nat) (other : Nat) (m : Mem T),
      TailSeg m (m.tail_ self) ps → (ps ++ [m.tail_ self]).head? = some other →
      ps.length + 1 < fuel →
      ∃ r m' N, merge_sort self comp fuel other m = .ok (r, m') ∧
        TailSeg m' (m.tail_ self) N ∧ (N ++ [m.tail_ self]).head? = some r ∧
        N.Perm ps ∧ N.map m.data = sortRef comp fuel (ps.map m.data) ∧
        (∀ p, p < m.fresh → p ∉ ps → m'.next p = m.next p) ∧
        (∀ p, p < m.fresh → m'.data p = m.data p ∧ m'.live p = m.live p) ∧
        m.fresh ≤ m'.fresh ∧ m'.lists = m.lists
  | 0, _, _, _, _, _, hf => by simp at hf
  | f + 1, [], other, m, h, ho, _ => by
    simp at ho
    subst ho
    exact ⟨_, m, [], by simp [merge_sort], h, rfl, List.Perm.refl _, by simp [sortRef],
      fun _ _ _ => rfl, fun _ _ => ⟨rfl, rfl⟩, le_refl _, rfl⟩
  | f + 1, [p], other, m, h, ho, _ => by
    simp at ho
    subst ho
    have hpt := h.ne_tail (show p ∈ [p] by simp)
    have hn : m.next p = m.tail_ self := by simpa [Fwd] using h.1
    have hpl := h.liveOf (show p ∈ [p] by simp)
    exact ⟨p, m, [p], by simp [merge_sort, hpt, Mem.getNext_ok hpl, hn], h,
      rfl, List.Perm.refl _, by simp [sortRef], fun _ _ _ => rfl, fun _ _ => ⟨rfl, rfl⟩,
      le_refl _, rfl⟩
  | f + 1, p :: q :: rest, other, m, h, ho, hf => by
    simp at ho
    subst ho
    have hpt := h.ne_tail (show p ∈ p :: q :: rest by simp)
    have hqt := h.ne_tail (show q ∈ p :: q :: rest by simp)
    have hpl := h.liveOf (show p ∈ p :: q :: rest by simp)
    have hnp : m.next p = q := by
      have := h.head_next
      simpa using this.symm
    obtain ⟨r, A, B, esf, hdec, hA⟩ := slowFast_spec (m := m) (t := m.tail_ self) f
      (p :: q :: rest) (q :: rest) p q h.1 (List.Chain'.tail h.1)
      (fun ht => h.tail.ne_tail ht rfl) (fun x hx => h.liveOf hx)
      (fun x hx => h.tail.liveOf hx) (by simp) (by simp) (by simp) (by simp at hf ⊢; omega)
    have hlen : A.length + 1 + B.length = rest.length + 2 := by
      have := congrArg List.length hdec
      simp at this; omega
    simp only [List.length_cons] at hA hf
    have hB : B ≠ [] := by
      intro e; rw [e] at hlen; simp at hlen; omega
    rw [hdec] at h ⊢
    have hrl := h.liveOf (show r ∈ A ++ r :: B by simp)
    have hmid : (B ++ [m.tail_ self]).head? = some (m.next r) := Fwd.next_mid h.1
    have hmidB : m.next r ∈ B := by
      rw [List.head?_append_of_ne_nil _ hB] at hmid
      exact List.mem_of_mem_head? hmid
    have hmidl := h.liveOf (show m.next r ∈ A ++ r :: B by simp [hmidB])
    obtain ⟨s1, s2, hdis⟩ := h.split
    have hheadA : ((A ++ [r]) ++ [m.tail_ self]).head? = some p := by
      cases A with
      | nil => simp at hdec ⊢; exact hdec.1.symm
      | cons a A' => simp at hdec ⊢; exact hdec.1.symm
    -- the left half
    obtain ⟨lp, m3, NL, e3, s3, h3, pm3, mp3, fr3, dl3, f3, ls3⟩ := merge_sort_spec self comp f
      (A ++ [r]) p ((m.withNext r (m.tail_ self)).withPrev (m.next r) (m.head_ self))
      (s1.withPrev _ _) hheadA (by simp; omega)
    simp only [Mem.withPrev_tail_, Mem.withNext_tail_, Mem.withPrev_data, Mem.withNext_data,
      Mem.withPrev_fresh, Mem.withNext_fresh, Mem.withPrev_live, Mem.withNext_live,
      Mem.withPrev_lists, Mem.withNext_lists, Mem.withPrev_next, Mem.withNext_next]
      at s3 h3 mp3 fr3 dl3 f3 ls3
    have ht3 : m3.tail_ self = m.tail_ self := by simp [Mem.tail_, ls3]
    have hBlt : ∀ x ∈ B, x < m.fresh := fun x hx => h.ltFresh (by simp [hx])
    have sB3 : TailSeg m3 (m3.tail_ self) B := by
      rw [ht3]
      refine (s2.withPrev (m.next r) (m.head_ self)).frame (fun x hx => ?_) (fun x hx => ?_)
        (by simpa using f3)
      · have := fr3 x (hBlt x hx) (fun hx' => hdis hx' hx)
        simpa using this
      · have hxlt : x < m.fresh := by
          simp at hx
          rcases hx with hx | hx
          · exact hBlt x hx
          · rw [hx]; exact h.tail_lt_fresh
        simpa using (dl3 x hxlt).2
    -- the right half
    obtain ⟨rp, m4, NR, e4, s4, h4, pm4, mp4, fr4, dl4, f4, ls4⟩ := merge_sort_spec self comp f
      B (m.next r) m3 sB3 (by rw [ht3]; exact hmid) (by omega)
    rw [ht3] at s4 h4
    have ht4 : m4.tail_ self = m.tail_ self := by simp [Mem.tail_, ls4, ls3]
    have hNLmem : ∀ x ∈ NL, x ∈ A ++ [r] := fun x hx => pm3.subset hx
    have hNRmem : ∀ x ∈ NR, x ∈ B := fun x hx => pm4.subset hx
    have hNLlt : ∀ x ∈ NL, x < m.fresh := fun x hx =>
      h.ltFresh (by have := hNLmem x hx; simp at this ⊢; tauto)
    have sL4 : TailSeg m4 (m4.tail_ self) NL := by
      rw [ht4]
      refine s3.frame (fun x hx => ?_) (fun x hx => ?_) f4
      · exact fr4 x (by have := hNLlt x hx; omega) (fun hx' => hdis (hNLmem x hx) hx')
      · have hxlt : x < m.fresh := by
          simp at hx
          rcases hx with hx | hx
          · exact hNLlt x hx
          · rw [hx]; exact h.tail_lt_fresh
        exact (dl4 x (by omega)).2
    have hdisN : NL.Disjoint NR := fun x h1 h2 => hdis (hNLmem x h1) (hNRmem x h2)
    -- linking the two sorted halves
    obtain ⟨res, m5, N, e5, s5, h5, pm5, mp5, fr5, dl5, f5, ls5⟩ := merge_sort_lr_spec
      self comp f sL4 (ht4 ▸ s4) hdisN (by rw [ht4]; exact h3)
      (by rw [ht4]; exact h4) (by rw [pm3.length_eq, pm4.length_eq]; simp; omega)
    rw [ht4] at s5 h5
    have hNmem : ∀ x ∈ N, x ∈ A ++ r :: B := fun x hx => by
      have := pm5.subset hx
      simp at this
      rcases this with h1 | h1
      · have := hNLmem x h1; simp at this ⊢; tauto
      · have := hNRmem x h1; simp [this]
    have hdata4 : ∀ x, x < m.fresh → m4.data x = m.data x := fun x hx => by
      rw [(dl4 x (by omega)).1, (dl3 x hx).1]
    have hdata3 : ∀ x, x < m.fresh → m3.data x = m.data x := fun x hx => (dl3 x hx).1
    refine ⟨res, m5, N, ?_, s5, h5, ?_, ?_, fun x hx hxps => ?_, fun x hx => ?_, by omega,
      by rw [ls5, ls4, ls3]⟩
    · rw [merge_sort]
      simp [hpt, Mem.getNext_ok hpl, hnp, hqt, esf, Mem.getNext_ok hrl, Mem.setNext_ok _ hrl,
        Mem.setPrev, hmidl, e3, e4, e5]
    · refine pm5.trans ((pm3.append pm4).trans ?_)
      simp
    · have eN : N.map m.data = N.map m4.data :=
        (map_data_eq_of_lt hdata4 (fun x hx => h.ltFresh (hNmem x hx))).symm
      have eNL : NL.map m4.data = NL.map m.data := map_data_eq_of_lt hdata4 hNLlt
      have eNR : NR.map m4.data = NR.map m3.data :=
        map_data_eq_of_lt (fun x hx => (dl4 x hx).1)
          (fun x hx => by have := hBlt x (hNRmem x hx); omega)
      have eB : B.map m3.data = B.map m.data := map_data_eq_of_lt hdata3 hBlt
      rw [eN, mp5, eNL, eNR, mp3, mp4, eB]
      have hsplit : (A ++ r :: B).map m.data = (A ++ [r]).map m.data ++ B.map m.data := by
        simp
      have hk : ((A ++ [r]).map m.data).length =
          (((A ++ r :: B).map m.data).length + 1) / 2 := by
        simp; omega
      have hnot : ¬ ((A ++ r :: B).map m.data).length ≤ 1 := by
        simp; omega
      rw [sortRef, if_neg hnot, ← hk]
      conv_rhs => rw [hsplit]
      rw [List.take_left' rfl, List.drop_left' rfl]
    · have hx1 : x ∉ NL := fun hm => hxps (by
        have := hNLmem x hm; simp at this ⊢; tauto)
      have hx2 : x ∉ NR := fun hm => hxps (by simp [hNRmem x hm])
      have hxr : x ≠ r := fun e => hxps (by simp [e])
      rw [fr5 x (by omega) hx1 hx2, fr4 x (by omega) (fun hm => hxps (by simp [hm])),
        fr3 x hx (fun hm => hxps (by simp at hm ⊢; tauto))]
      simp [upd_ne, hxr]
    · rw [(dl5 x (by omega)).1, (dl5 x (by omega)).2, (dl4 x (by omega)).1,
        (dl4 x (by omega)).2, (dl3 x hx).1, (dl3 x hx).2]
      simp


theorem Owns.tailSeg {m : Mem T} {self : Nat} {ps : List Nat} (h : Owns m self ps) :
    TailSeg m (m.tail_ self) ps := by
  refine ⟨h.fwd, ?_, fun p hp => h.1.2.2 p (by simp [nodes] at hp ⊢; tauto)⟩
  have := h.1.2.1
  rw [nodes] at this
  exact (List.nodup_cons.1 this).2

/-- The member `sort(comp)` on a well-formed list: with enough fuel it returns, and walking
`next` from `head_` then visits the nodes in an order whose data is `sortRef` of the old
sequence. -/
theorem sort_spec [Inhabited T] {m : Mem T} {self : Nat} {ps : List Nat} (comp : T → T → Bool)
    {fuel : Nat} (h : Owns m self ps) (hf : ps.length + 1 < fuel) :
    ∃ m' N, sort self comp fuel m = .ok m' ∧ Fwd m' (m.head_ self :: (N ++ [m.tail_ self])) ∧
      N.Perm ps ∧ N.map m'.data = sortRef comp fuel (ps.map m.data) ∧
      listToVector self fuel m' = .ok (sortRef comp fuel (ps.map m.data)) ∧
      m'.lists = m.lists := by
  by_cases hs : ps.length ≤ 1
  · refine ⟨m, ps, by simp [sort, h.2, hs], h.1.1.toFwd, List.Perm.refl _, ?_, ?_, rfl⟩
    · rw [sortRef_of_length_le_one comp fuel (by simpa using hs)]
    · rw [sortRef_of_length_le_one comp fuel (by simpa using hs)]
      exact h.traverse (by omega)
  · obtain ⟨r, m1, N, e1, s1, h1, pm1, mp1, fr1, dl1, f1, ls1⟩ := merge_sort_spec
      self comp fuel ps (m.next (m.head_ self)) m h.tailSeg h.next_head hf
    have hhl : m1.live (m.head_ self) = true := by
      rw [(dl1 _ (h.1.2.2 _ Owns.head_mem_nodes).2).2]; exact h.live_head
    have hN : N ≠ [] := by
      intro e; rw [e] at pm1
      have := pm1.length_eq
      simp at this; omega
    have hrN : r ∈ N := by
      rw [List.head?_append_of_ne_nil _ hN] at h1
      exact List.mem_of_mem_head? h1
    have hrl : m1.live r = true := s1.liveOf hrN
    have hNps : ∀ x ∈ N, x ∈ ps := fun x hx => pm1.subset hx
    have hh1 : m1.head_ self = m.head_ self := by simp [Mem.head_, ls1]
    have ht1 : m1.tail_ self = m.tail_ self := by simp [Mem.tail_, ls1]
    have hs1 : m1.size_ self = m.size_ self := by simp [Mem.size_, ls1]
    have hfw : Fwd ((m1.withNext (m.head_ self) r).withPrev r (m.head_ self))
        (N ++ [m.tail_ self]) := by
      refine Fwd.frameF s1.1 (fun p hp => ?_)
      have hpN : p ∈ N := by simpa using hp
      have : p ≠ m.head_ self := h.mem_ne_head (hNps p hpN)
      simp [upd_ne, this]
    have hmap : N.map m1.data = sortRef comp fuel (ps.map m.data) := by
      rw [← mp1]
      exact map_data_eq_of_lt (fun x hx => (dl1 x hx).1) (fun x hx => h.lt_fresh (hNps x hx))
    refine ⟨(m1.withNext (m.head_ self) r).withPrev r (m.head_ self), N, ?_, ?_, pm1,
      by simpa using hmap, ?_, by simpa using ls1⟩
    · simp [sort, h.2, hs, Mem.getNext_ok h.live_head, e1, hh1, Mem.setNext, Mem.setPrev, hhl,
        hrl]
    · exact Fwd.cons hfw (by simpa using h1)
    · simp only [listToVector, begin_, end_, Mem.withPrev_head_, Mem.withNext_head_, hh1,
        Mem.withPrev_tail_, Mem.withNext_tail_, ht1]
      rw [Mem.getNext_ok (by simpa using hhl)]
      simp only [ok_bind, Mem.withPrev_next, Mem.withNext_next, upd_same]
      rw [← hmap]
      exact collect_of_fwd N r fuel hfw (fun ht => s1.ne_tail ht rfl)
        (fun p hp => by simpa using s1.liveOf hp) h1
        (by rw [pm1.length_eq]; omega)

/-- In a well-formed list the node in front of `tail_` points at `tail_`. -/
theorem Owns.next_prev_tail {m : Mem T} {self : Nat} {ps : List Nat} (h : Owns m self ps) :
    m.next (m.prev (m.tail_ self)) = m.tail_ self := by
  have ha : (m.head_ self :: ps).getLast? = some ((m.head_ self :: ps).getLast (by simp)) :=
    List.getLast?_eq_getLast _ _
  have h' : Owns m self (ps ++ []) := by simpa using h
  obtain ⟨h1, h2, -, -⟩ := h'.prev_eq ha rfl
  rw [h1, h2]

/-- C1: on a well-formed list with front-to-back sequence `xs` and for a strict weak order
`comp`, `sort(comp)` returns (given fuel beyond the length), and the front-to-back sequence
afterwards is a permutation of `xs` that is non-decreasing under `comp`: no element is
strictly before its predecessor. -/
theorem sort_sorted_permutation [Inhabited T] (m : Mem T) (self : Nat) (xs : List T)
    (comp : T → T → Bool) (fuel : Nat) (hswo : StrictWeakOrder comp) (h : Repr m self xs)
    (hf : xs.length + 1 < fuel) :
    ∃ m' ys, sort self comp fuel m = .ok m' ∧ listToVector self fuel m' = .ok ys ∧
      ys.Perm xs ∧ SortedBy comp ys := by
  obtain ⟨ps, ho, rfl⟩ := h
  obtain ⟨m', N, h1, -, -, -, h5, -⟩ := sort_spec comp ho (by simpa using hf)
  exact ⟨m', _, h1, h5, sortRef_perm comp fuel _,
    sortRef_sorted (fun _ _ hab => hswo.asymm hab) fuel _ (by simp at hf ⊢; omega)⟩

theorem sort_sorted_permutation_witness :
    Repr demoSort 0 [3, 1, 4, 2] ∧ [3, 1, 4, 2].length + 1 < 6 ∧
      ∃ m' ys, sort 0 (fun a b : Nat => decide (a < b)) 6 demoSort = .ok m' ∧
        listToVector 0 6 m' = .ok ys ∧ ys.Perm [3, 1, 4, 2] ∧
        SortedBy (fun a b : Nat => decide (a < b)) ys :=
  ⟨⟨[3, 4, 5, 6], by decide, rfl⟩, by decide,
    sort_sorted_permutation demoSort 0 [3, 1, 4, 2] (fun a b : Nat => decide (a < b)) 6
      strictWeakOrder_lt ⟨[3, 4, 5, 6], by decide, rfl⟩ (by decide)⟩

theorem strictWeakOrder_fst : StrictWeakOrder (fun a b : Nat × Nat => decide (a.1 < b.1)) where
  irrefl := by simp
  trans := by simp; omega
  incomp_trans := by simp; omega

/-- C2 (failing input): `sort` is not stable.  The well-formed list `(1, 0), (1, 1)` is sorted
by the first component, a strict weak order under which the two elements are equivalent; the
merge step takes the right run when `comp(left, right)` is false, so the two come out in the
opposite order. -/
theorem sort_swaps_equivalent_elements :
    StrictWeakOrder (fun a b : Nat × Nat => decide (a.1 < b.1)) ∧
      Owns demoTies 0 [3, 4] ∧ listToVector 0 3 demoTies = .ok [(1, 0), (1, 1)] ∧
      ∃ m', sort 0 (fun a b : Nat × Nat => decide (a.1 < b.1)) 4 demoTies = .ok m' ∧
        listToVector 0 3 m' = .ok [(1, 1), (1, 0)] :=
  ⟨strictWeakOrder_fst, by decide, rfl,
    memOf (sort 0 (fun a b : Nat × Nat => decide (a.1 < b.1)) 4 demoTies), rfl, rfl⟩

/-- C3 (failing input): after `sort` the list of `testSort`, `3, 1, 4, 2`, is not a well-formed
chain.  Forwards it reads `1, 2, 3, 4`, but `tail_->prev` still points at the node that was
last before the call (the one holding 2): `back()` returns 2, that node's `next` is not
`tail_`, and walking `prev` from `tail_` visits `2, 1` only. -/
theorem sort_leaves_tail_prev_stale :
    Owns demoSort 0 [3, 4, 5, 6] ∧ listToVector 0 5 demoSort = .ok [3, 1, 4, 2] ∧
      ∃ m', sort 0 (fun a b : Nat => decide (a < b)) 6 demoSort = .ok m' ∧
        listToVector 0 5 m' = .ok [1, 2, 3, 4] ∧ back 0 m' = .ok 2 ∧
        m'.next (m'.prev (m'.tail_ 0)) ≠ m'.tail_ 0 ∧
        (do let p ← m'.getPrev (m'.tail_ 0); collectBack (m'.head_ 0) 5 p m') = .ok [2, 1] ∧
        ∀ ps, ¬ Owns m' 0 ps := by
  refine ⟨by decide, rfl, memOf (sort 0 (fun a b : Nat => decide (a < b)) 6 demoSort), rfl,
    rfl, rfl, by decide, rfl, fun ps hps => ?_⟩
  exact absurd hps.next_prev_tail (by decide)


end DoublyList

end Linear

/-! ## The members front and back, and the operations that do nothing -/

namespace Linear

namespace DoublyList

variable {T : Type}

theorem Owns.empty_iff {m : Mem T} {self : Nat} {ps : List Nat} (h : Owns m self ps) :
    empty self m = true ↔ ps = [] := by
  simp [empty, h.2]

theorem Owns.front_eq {m : Mem T} {self : Nat} {ps : List Nat} (h : Owns m self ps)
    (hne : ps ≠ []) : front self m = .ok (m.data (ps.head hne)) := by
  have he : ¬ (empty self m = true) := fun hh => hne (h.empty_iff.mp hh)
  have hn := h.next_head_of_ne_nil hne
  rw [List.head?_eq_head hne] at hn
  have hp : m.next (m.head_ self) = ps.head hne := (Option.some.inj hn).symm
  simp only [front, if_neg he, Mem.getNext_ok h.live_head, ok_bind, hp]
  exact Mem.getData_ok (h.live_mem (List.head_mem hne))

theorem Owns.back_eq {m : Mem T} {self : Nat} {ps : List Nat} (h : Owns m self ps)
    (hne : ps ≠ []) : back self m = .ok (m.data (ps.getLast hne)) := by
  have he : ¬ (empty self m = true) := fun hh => hne (h.empty_iff.mp hh)
  have hn := h.prev_tail_of_ne_nil hne
  rw [List.getLast?_eq_getLast _ hne] at hn
  have hp : m.prev (m.tail_ self) = ps.getLast hne := (Option.some.inj hn).symm
  simp only [back, if_neg he, Mem.getPrev_ok h.live_tail, ok_bind, hp]
  exact Mem.getData_ok (h.live_mem (List.getLast_mem hne))

/-- C19: on every well-formed list with front-to-back sequence `xs`, `front()` fails with the
out-of-range error exactly when `xs` is empty, and so does `back()`; when `xs` is not empty
`front()` returns its first and `back()` its last element.  Both only read: the embedded
functions return the element and no memory, the list after the call is the list before. -/
theorem front_back_checked {m : Mem T} {self : Nat} {xs : List T} (h : Repr m self xs) :
    (empty self m = true ↔ xs = []) ∧
    (front self m = .error .outOfRange ↔ xs = []) ∧
    (back self m = .error .outOfRange ↔ xs = []) ∧
    (∀ hne : xs ≠ [], front self m = .ok (xs.head hne) ∧ back self m = .ok (xs.getLast hne)) := by
  obtain ⟨ps, ho, rfl⟩ := h
  have hok : ∀ hne : ps.map m.data ≠ [], front self m = .ok ((ps.map m.data).head hne) ∧
      back self m = .ok ((ps.map m.data).getLast hne) := by
    intro hne
    have hp : ps ≠ [] := by simpa using hne
    rw [ho.front_eq hp, ho.back_eq hp]
    constructor
    · cases ps with
      | nil => exact absurd rfl hp
      | cons a l => rfl
    · rw [List.getLast_map]
  have hemp : ps.map m.data = [] → empty self m = true := fun hx =>
    ho.empty_iff.mpr (by simpa using hx)
  refine ⟨?_, ⟨?_, ?_⟩, ⟨?_, ?_⟩, hok⟩
  · rw [ho.empty_iff]; simp
  · intro he
    by_contra hne
    rw [(hok hne).1] at he
    cases he
  · intro hx
    simp [front, hemp hx]
  · intro he
    by_contra hne
    rw [(hok hne).2] at he
    cases he
  · intro hx
    simp [back, hemp hx]

/-- Witness for C19: the list `3, 1, 4, 2` of `testSort`. -/
theorem front_back_checked_witness :
    (empty 0 demoSort = true ↔ [3, 1, 4, 2] = []) ∧
    (front 0 demoSort = .error .outOfRange ↔ [3, 1, 4, 2] = []) ∧
    (back 0 demoSort = .error .outOfRange ↔ [3, 1, 4, 2] = []) ∧
    (∀ hne : [3, 1, 4, 2] ≠ [], front 0 demoSort = .ok ([3, 1, 4, 2].head hne) ∧
      back 0 demoSort = .ok ([3, 1, 4, 2].getLast hne)) :=
  front_back_checked (show Repr demoSort 0 [3, 1, 4, 2] from ⟨[3, 4, 5, 6], by decide, rfl⟩)

/-- C20: on a well-formed empty list `pop_back()`, `pop_front()`, `erase()` and `erase(end())`
return without error and leave the memory as it was, so the list is still empty, its size is
`0` and its sentinels point at each other; and `erase(end())` returns without error and
leaves the memory as it was on any list whatever. -/
theorem pops_on_empty_do_nothing {m : Mem T} {self : Nat} (h : Repr m self []) :
    pop_back self m = .ok m ∧ pop_front self m = .ok m ∧ erase self m = .ok m ∧
    erase_pos self (end_ self m) m = .ok m ∧
    empty self m = true ∧ size self m = 0 ∧
    m.next (m.head_ self) = m.tail_ self ∧ m.prev (m.tail_ self) = m.head_ self ∧
    (∀ (m2 : Mem T) (b : Nat), erase_pos b (end_ b m2) m2 = .ok m2) := by
  obtain ⟨ps, ho, hmap⟩ := h
  have hps : ps = [] := by simpa using hmap
  subst hps
  have he : empty self m = true := ho.empty_iff.mpr rfl
  have hn := ho.next_head
  refine ⟨by simp [pop_back, he], by simp [pop_front, he], by simp [erase, pop_front, he],
    by simp [erase_pos], he, by simpa [size] using ho.2, ?_, ho.prev_tail_nil,
    fun m2 b => by simp [erase_pos]⟩
  simpa using hn.symm

/-- Witness for C20: the freshly constructed list. -/
theorem pops_on_empty_do_nothing_witness :
    pop_back 0 demoEmpty = .ok demoEmpty ∧ pop_front 0 demoEmpty = .ok demoEmpty ∧
    erase 0 demoEmpty = .ok demoEmpty ∧
    erase_pos 0 (end_ 0 demoEmpty) demoEmpty = .ok demoEmpty ∧
    empty 0 demoEmpty = true ∧ size 0 demoEmpty = 0 ∧
    demoEmpty.next (demoEmpty.head_ 0) = demoEmpty.tail_ 0 ∧
    demoEmpty.prev (demoEmpty.tail_ 0) = demoEmpty.head_ 0 ∧
    (∀ (m2 : Mem Nat) (b : Nat), erase_pos b (end_ b m2) m2 = .ok m2) :=
  pops_on_empty_do_nothing (show Repr demoEmpty 0 [] from ⟨[], by decide, rfl⟩)

end DoublyList

end Linear

/-! ## What sort does with equivalent elements -/

namespace Linear

namespace DoublyList

variable {T : Type}

theorem StrictWeakOrder.neg_trans {comp : T → T → Bool} (h : StrictWeakOrder comp) {a b c : T}
    (hab : comp a b = false) (hbc : comp b c = false) : comp a c = false := by
  by_contra hac
  have hac : comp a c = true := by simpa using hac
  have hba : comp b a = false := by
    by_contra hba
    have hba : comp b a = true := by simpa using hba
    rw [h.trans b a c hba hac] at hbc
    cases hbc
  have hcb : comp c b = false := by
    by_contra hcb
    have hcb : comp c b = true := by simpa using hcb
    rw [h.trans a c b hac hcb] at hab
    cases hab
  rw [(h.incomp_trans a b c hab hba hbc hcb).1] at hac
  cases hac

theorem insertBy_cons (comp : T → T → Bool) (x y : T) (ys : List T) :
    insertBy comp x (y :: ys) = if comp y x then y :: insertBy comp x ys else x :: y :: ys :=
  rfl

/-- Inserting into the link of two runs is inserting into the right run: ties go to the right
run in `linkRef` and in front of their equivalents in `insertBy`. -/
theorem insertBy_linkRef {comp : T → T → Bool} (h : StrictWeakOrder comp) (a : T) :
    ∀ L R : List T, insertBy comp a (linkRef comp L R) = linkRef comp L (insertBy comp a R)
  | [], R => by simp [linkRef_nil_left]
  | l :: L, [] => by
    have ih := insertBy_linkRef h a L []
    rw [linkRef_nil_right] at ih ⊢
    show insertBy comp a (l :: L) = linkRef comp (l :: L) [a]
    rw [insertBy_cons, linkRef_cons_cons]
    by_cases hla : comp l a = true
    · rw [if_pos hla, if_pos hla, ih]; rfl
    · rw [if_neg hla, if_neg hla, linkRef_nil_right]
  | l :: L, r :: R => by
    have ih1 := insertBy_linkRef h a L (r :: R)
    have ih2 := insertBy_linkRef h a (l :: L) R
    rw [linkRef_cons_cons]
    by_cases hlr : comp l r = true
    · rw [if_pos hlr, insertBy_cons]
      by_cases hla : comp l a = true
      · rw [if_pos hla, ih1, insertBy_cons]
        by_cases hra : comp r a = true
        · rw [if_pos hra, linkRef_cons_cons, if_pos hlr]
        · rw [if_neg hra, linkRef_cons_cons, if_pos hla]
      · have hra : ¬ comp r a = true := fun hra => hla (h.trans l r a hlr hra)
        rw [if_neg hla, insertBy_cons, if_neg hra, linkRef_cons_cons, if_neg hla,
          linkRef_cons_cons, if_pos hlr]
    · rw [if_neg hlr, insertBy_cons]
      by_cases hra : comp r a = true
      · rw [if_pos hra, ih2, insertBy_cons, if_pos hra, linkRef_cons_cons, if_neg hlr]
      · have hla : ¬ comp l a = true := by
          have := h.neg_trans (by simpa using hlr) (by simpa using hra)
          simp [this]
        rw [if_neg hra, insertBy_cons, if_neg hra, linkRef_cons_cons, if_neg hla,
          linkRef_cons_cons, if_neg hlr]
termination_by L R => L.length + R.length

theorem stableSort_append {comp : T → T → Bool} (h : StrictWeakOrder comp) :
    ∀ A B : List T,
      stableSort comp (A ++ B) = linkRef comp (stableSort comp B) (stableSort comp A)
  | [], B => by simp [stableSort, linkRef_nil_right]
  | a :: A, B => by
    show insertBy comp a (stableSort comp (A ++ B)) = _
    rw [stableSort_append h A B, insertBy_linkRef h]
    rfl

theorem sortRef_eq_stableSort {comp : T → T → Bool} (h : StrictWeakOrder comp) :
    ∀ (fuel : Nat) (l : List T), l.length ≤ fuel →
      sortRef comp fuel l = stableSort comp l.reverse
  | 0, l, hl => by
    have : l = [] := List.length_eq_zero.mp (by omega)
    subst this; rfl
  | fuel + 1, l, hl => by
    rw [sortRef]
    split
    · rename_i h1
      match l, h1 with
      | [], _ => rfl
      | [a], _ => rfl
      | _ :: _ :: _, h1 => simp at h1
    · rename_i h1
      have hk1 : (l.length + 1) / 2 ≤ fuel := by omega
      have hk2 : 1 ≤ (l.length + 1) / 2 := by omega
      rw [sortRef_eq_stableSort h fuel _ (by rw [List.length_take]; omega),
        sortRef_eq_stableSort h fuel _ (by rw [List.length_drop]; omega),
        ← stableSort_append h, ← List.reverse_append, List.take_append_drop]

theorem insertBy_eq_orderedInsert (comp : T → T → Bool) (a : T) :
    ∀ l : List T, insertBy comp a l = l.orderedInsert (fun x y => comp y x = false) a
  | [] => rfl
  | b :: l => by
    rw [insertBy_cons, List.orderedInsert]
    by_cases hba : comp b a = true
    · rw [if_pos hba, if_neg (by simp [hba]), insertBy_eq_orderedInsert comp a l]
    · rw [if_neg hba, if_pos (by simpa using hba)]

/-- The reference `stableSort` is the insertion sort of the library for the order "not
strictly after". -/
theorem stableSort_eq_insertionSort (comp : T → T → Bool) :
    ∀ l : List T, stableSort comp l = l.insertionSort (fun x y => comp y x = false)
  | [] => rfl
  | a :: l => by
    show insertBy comp a (stableSort comp l) = _
    rw [stableSort_eq_insertionSort comp l, insertBy_eq_orderedInsert, List.insertionSort]

theorem insertBy_filter {comp : T → T → Bool} (P : T → Bool) (a : T)
    (hP : ∀ z, P z = true → P a = true → comp z a = false) :
    ∀ Z : List T, (insertBy comp a Z).filter P = (a :: Z).filter P
  | [] => rfl
  | y :: ys => by
    rw [insertBy_cons]
    by_cases hya : comp y a = true
    · rw [if_pos hya, List.filter_cons, insertBy_filter P a hP ys]
      by_cases hy : P y = true
      · have ha : P a = false := by
          by_contra hpa
          have := hP y hy (by simpa using hpa)
          rw [this] at hya; cases hya
        simp [List.filter_cons, hy, ha]
      · simp [List.filter_cons, hy]
    · rw [if_neg hya]

/-- The reference `stableSort` is stable: the elements picked out by a predicate under which
no picked element is strictly before another keep their input order. -/
theorem stableSort_filter {comp : T → T → Bool} (P : T → Bool)
    (hP : ∀ z a, P z = true → P a = true → comp z a = false) :
    ∀ l : List T, (stableSort comp l).filter P = l.filter P
  | [] => rfl
  | a :: l => by
    show (insertBy comp a (stableSort comp l)).filter P = _
    rw [insertBy_filter P a (fun z hz ha => hP z a hz ha), List.filter_cons, List.filter_cons,
      stableSort_filter P hP l]

theorem equiv_class {comp : T → T → Bool} (h : StrictWeakOrder comp) (c : T) :
    ∀ z a, equiv comp c z = true → equiv comp c a = true → comp z a = false := by
  intro z a hz ha
  simp only [equiv, Bool.and_eq_true, Bool.not_eq_true'] at hz ha
  exact (h.incomp_trans z c a hz.2 hz.1 ha.1 ha.2).1

theorem stableSort_of_all_equiv {comp : T → T → Bool} :
    ∀ l : List T, (∀ a ∈ l, ∀ b ∈ l, comp a b = false) → stableSort comp l = l
  | [], _ => rfl
  | a :: l, hl => by
    show insertBy comp a (stableSort comp l) = _
    rw [stableSort_of_all_equiv l (fun x hx y hy =>
      hl x (List.mem_cons_of_mem _ hx) y (List.mem_cons_of_mem _ hy))]
    cases l with
    | nil => rfl
    | cons b l =>
      rw [insertBy_cons, if_neg (by
        rw [hl b (by simp) a (by simp)]; simp)]

/-- C23: on every well-formed list with front-to-back sequence `xs` and for every strict weak
order `comp`, `sort(comp)` returns (given fuel beyond the length) and the front-to-back
sequence afterwards is the stable sort under `comp` of the reversed input `xs.reverse`.  The
reference `stableSort` is insertion sort; the sequence is a permutation of `xs`, no element
is strictly before its predecessor, and for every `c` the elements equivalent to `c` come out
in the order they have in `xs.reverse`, the reverse of their input order.  In particular a
list whose elements are all equivalent is reversed. -/
theorem sort_is_stable_sort_of_reverse [Inhabited T] (m : Mem T) (self : Nat) (xs : List T)
    (comp : T → T → Bool) (fuel : Nat) (hswo : StrictWeakOrder comp) (h : Repr m self xs)
    (hf : xs.length + 1 < fuel) :
    ∃ m', sort self comp fuel m = .ok m' ∧
      listToVector self fuel m' = .ok (stableSort comp xs.reverse) ∧
      stableSort comp xs.reverse =
        xs.reverse.insertionSort (fun x y => comp y x = false) ∧
      (stableSort comp xs.reverse).Perm xs ∧ SortedBy comp (stableSort comp xs.reverse) ∧
      (∀ c, (stableSort comp xs.reverse).filter (equiv comp c) =
        xs.reverse.filter (equiv comp c)) ∧
      ((∀ a ∈ xs, ∀ b ∈ xs, comp a b = false) → stableSort comp xs.reverse = xs.reverse) := by
  obtain ⟨ps, ho, rfl⟩ := h
  simp only [List.length_map] at hf
  obtain ⟨m', N, h1, _, _, _, h5, _⟩ := sort_spec comp ho hf
  have heq : sortRef comp fuel (ps.map m.data) = stableSort comp (ps.map m.data).reverse :=
    sortRef_eq_stableSort hswo fuel _ (by simp; omega)
  refine ⟨m', h1, by rw [h5, heq], stableSort_eq_insertionSort comp _, ?_, ?_,
    fun c => stableSort_filter _ (equiv_class hswo c) _, ?_⟩
  · rw [← heq]; exact sortRef_perm comp fuel _
  · rw [← heq]
    exact sortRef_sorted (fun _ _ hab => hswo.asymm hab) fuel _ (by simp; omega)
  · intro hall
    exact stableSort_of_all_equiv _ (fun a ha b hb =>
      hall a (List.mem_reverse.mp ha) b (List.mem_reverse.mp hb))

/-- Witness for C23: the two equivalent elements `(1, 0), (1, 1)` under the order on the first
component. -/
theorem sort_is_stable_sort_of_reverse_witness :
    ∃ m', sort 0 (fun a b : Nat × Nat => decide (a.1 < b.1)) 4 demoTies = .ok m' ∧
      listToVector 0 4 m' =
        .ok (stableSort (fun a b : Nat × Nat => decide (a.1 < b.1)) [(1, 0), (1, 1)].reverse) ∧
      stableSort (fun a b : Nat × Nat => decide (a.1 < b.1)) [(1, 0), (1, 1)].reverse =
        [(1, 0), (1, 1)].reverse.insertionSort
          (fun x y => (fun a b : Nat × Nat => decide (a.1 < b.1)) y x = false) ∧
      (stableSort (fun a b : Nat × Nat => decide (a.1 < b.1)) [(1, 0), (1, 1)].reverse).Perm
        [(1, 0), (1, 1)] ∧
      SortedBy (fun a b : Nat × Nat => decide (a.1 < b.1))
        (stableSort (fun a b : Nat × Nat => decide (a.1 < b.1)) [(1, 0), (1, 1)].reverse) ∧
      (∀ c, (stableSort (fun a b : Nat × Nat => decide (a.1 < b.1))
          [(1, 0), (1, 1)].reverse).filter
            (equiv (fun a b : Nat × Nat => decide (a.1 < b.1)) c) =
        [(1, 0), (1, 1)].reverse.filter
          (equiv (fun a b : Nat × Nat => decide (a.1 < b.1)) c)) ∧
      ((∀ a ∈ [(1, 0), (1, 1)], ∀ b ∈ [(1, 0), (1, 1)],
          (fun a b : Nat × Nat => decide (a.1 < b.1)) a b = false) →
        stableSort (fun a b : Nat × Nat => decide (a.1 < b.1)) [(1, 0), (1, 1)].reverse =
          [(1, 0), (1, 1)].reverse) :=
  sort_is_stable_sort_of_reverse demoTies 0 [(1, 0), (1, 1)]
    (fun a b : Nat × Nat => decide (a.1 < b.1)) 4 strictWeakOrder_fst
    ⟨[3, 4], by decide, rfl⟩ (by decide)

end DoublyList

end Linear

/-! ## The member merge on arbitrary sequences -/

namespace Linear

namespace DoublyList

variable {T : Type}

theorem mergeRef_sublist_left (comp : T → T → Bool) :
    ∀ xs ys : List T, xs.Sublist (mergeRef comp xs ys)
  | [], ys => by simp
  | x :: xs, [] => by rw [mergeRef_nil_right]
  | x :: xs, y :: ys => by
    rw [mergeRef_cons_cons]
    split
    · exact (mergeRef_sublist_left comp (x :: xs) ys).cons y
    · exact (mergeRef_sublist_left comp xs (y :: ys)).cons₂ x
termination_by xs ys => xs.length + ys.length

theorem mergeRef_sublist_right (comp : T → T → Bool) :
    ∀ xs ys : List T, ys.Sublist (mergeRef comp xs ys)
  | [], ys => by rw [mergeRef_nil_left]
  | x :: xs, [] => by simp
  | x :: xs, y :: ys => by
    rw [mergeRef_cons_cons]
    split
    · exact (mergeRef_sublist_right comp (x :: xs) ys).cons₂ y
    · exact (mergeRef_sublist_right comp xs (y :: ys)).cons x
termination_by xs ys => xs.length + ys.length

theorem tagged_fst (b : Bool) : ∀ l : List T, (tagged b l).map Prod.fst = l
  | [] => rfl
  | x :: l => by
    show x :: (tagged b l).map Prod.fst = x :: l
    rw [tagged_fst b l]

theorem tagged_filter_same (b : Bool) (P : T × Bool → Bool) (hP : ∀ x, P (x, b) = true) :
    ∀ l : List T, (tagged b l).filter P = tagged b l
  | [] => rfl
  | x :: l => by
    show ((x, b) :: tagged b l).filter P = (x, b) :: tagged b l
    rw [List.filter_cons, if_pos (hP x), tagged_filter_same b P hP l]

theorem tagged_filter_other (b : Bool) (P : T × Bool → Bool) (hP : ∀ x, P (x, b) = false) :
    ∀ l : List T, (tagged b l).filter P = []
  | [] => rfl
  | x :: l => by
    show ((x, b) :: tagged b l).filter P = []
    rw [List.filter_cons, if_neg (by simp [hP x]), tagged_filter_other b P hP l]

theorem tagged_ties (comp : T → T → Bool) (b : Bool) :
    ∀ l : List T, TiesKeepFirst comp (tagged b l)
  | [] => List.Pairwise.nil
  | x :: l => by
    refine List.Pairwise.cons ?_ (tagged_ties comp b l)
    intro q hq h1 h2
    simp only [tagged, List.mem_map] at hq
    obtain ⟨z, _, rfl⟩ := hq
    simp only at h1 h2
    rw [h1] at h2; cases h2

theorem mergeTagged_cons_cons (comp : T → T → Bool) (x y : T) (xs ys : List T) :
    mergeTagged comp (x :: xs) (y :: ys) =
      if comp y x then (y, true) :: mergeTagged comp (x :: xs) ys
      else (x, false) :: mergeTagged comp xs (y :: ys) := rfl

theorem mergeTagged_nil_left (comp : T → T → Bool) (ys : List T) :
    mergeTagged comp [] ys = tagged true ys := rfl

theorem mergeTagged_nil_right (comp : T → T → Bool) (xs : List T) :
    mergeTagged comp xs [] = tagged false xs := by
  unfold mergeTagged; exact mergeRef_nil_right _ _

/-- Forgetting the marks of the marked merge gives the merge. -/
theorem mergeTagged_fst (comp : T → T → Bool) :
    ∀ xs ys : List T, (mergeTagged comp xs ys).map Prod.fst = mergeRef comp xs ys
  | [], ys => by rw [mergeTagged_nil_left, tagged_fst, mergeRef_nil_left]
  | x :: xs, [] => by rw [mergeTagged_nil_right, tagged_fst, mergeRef_nil_right]
  | x :: xs, y :: ys => by
    rw [mergeTagged_cons_cons, mergeRef_cons_cons]
    split
    · rw [List.map_cons, mergeTagged_fst comp (x :: xs) ys]
    · rw [List.map_cons, mergeTagged_fst comp xs (y :: ys)]
termination_by xs ys => xs.length + ys.length

/-- The elements of the marked merge that carry the mark `false` are those of the first
sequence, in their order. -/
theorem mergeTagged_filter_false (comp : T → T → Bool) :
    ∀ xs ys : List T, (mergeTagged comp xs ys).filter (fun p => !p.2) = tagged false xs
  | [], ys => by
    rw [mergeTagged_nil_left, tagged_filter_other true _ (fun _ => rfl)]
    rfl
  | x :: xs, [] => by
    rw [mergeTagged_nil_right, tagged_filter_same false _ (fun _ => rfl)]
  | x :: xs, y :: ys => by
    rw [mergeTagged_cons_cons]
    split
    · rw [List.filter_cons]
      simpa using mergeTagged_filter_false comp (x :: xs) ys
    · rw [List.filter_cons]
      simp only [Bool.not_false, if_true]
      rw [mergeTagged_filter_false comp xs (y :: ys)]
      rfl
termination_by xs ys => xs.length + ys.length

/-- The elements of the marked merge that carry the mark `true` are those of the second
sequence, in their order. -/
theorem mergeTagged_filter_true (comp : T → T → Bool) :
    ∀ xs ys : List T, (mergeTagged comp xs ys).filter (fun p => p.2) = tagged true ys
  | [], ys => by
    rw [mergeTagged_nil_left, tagged_filter_same true _ (fun _ => rfl)]
  | x :: xs, [] => by
    rw [mergeTagged_nil_right, tagged_filter_other false _ (fun _ => rfl)]
    rfl
  | x :: xs, y :: ys => by
    rw [mergeTagged_cons_cons]
    split
    · rw [List.filter_cons]
      simp only [if_true]
      rw [mergeTagged_filter_true comp (x :: xs) ys]
      rfl
    · rw [List.filter_cons]
      simpa using mergeTagged_filter_true comp xs (y :: ys)
termination_by xs ys => xs.length + ys.length

theorem mergeTagged_mem_false (comp : T → T → Bool) (xs ys : List T) {q : T × Bool}
    (hq : q ∈ mergeTagged comp xs ys) (h2 : q.2 = false) : q.1 ∈ xs := by
  have : q ∈ (mergeTagged comp xs ys).filter (fun p => !p.2) := by
    simp [List.mem_filter, hq, h2]
  rw [mergeTagged_filter_false] at this
  simp only [tagged, List.mem_map] at this
  obtain ⟨x, hx, rfl⟩ := this
  exact hx

theorem SortedBy.head_le {comp : T → T → Bool} (h : StrictWeakOrder comp) :
    ∀ (x : T) (xs : List T), SortedBy comp (x :: xs) → ∀ z ∈ xs, comp z x = false
  | x, [], _, z, hz => by simp at hz
  | x, y :: xs, hs, z, hz => by
    have h1 : comp y x = false := (List.chain'_cons.1 hs).1
    rcases List.mem_cons.1 hz with rfl | hz
    · exact h1
    · exact h.neg_trans (SortedBy.head_le h y xs (List.chain'_cons.1 hs).2 z hz) h1

/-- When the first sequence is sorted under a strict weak order, an element of the second
sequence precedes an element of the first in the merge only if it is strictly before it. -/
theorem mergeTagged_ties {comp : T → T → Bool} (h : StrictWeakOrder comp) :
    ∀ xs ys : List T, SortedBy comp xs → TiesKeepFirst comp (mergeTagged comp xs ys)
  | [], ys, _ => by
    rw [mergeTagged_nil_left]; exact tagged_ties comp true ys
  | x :: xs, [], _ => by
    rw [mergeTagged_nil_right]; exact tagged_ties comp false _
  | x :: xs, y :: ys, hs => by
    rw [mergeTagged_cons_cons]
    unfold TiesKeepFirst
    split
    · rename_i hyx
      refine List.Pairwise.cons ?_ (mergeTagged_ties h (x :: xs) ys hs)
      intro q hq _ hq2
      have hmem := mergeTagged_mem_false comp (x :: xs) ys hq hq2
      rcases List.mem_cons.1 hmem with heq | hmem
      · rw [heq]; exact hyx
      · have hqx := SortedBy.head_le h x xs hs q.1 hmem
        by_contra hyq
        have := h.neg_trans (by simpa using hyq : comp y q.1 = false) hqx
        rw [this] at hyx; cases hyx
    · refine List.Pairwise.cons ?_ (mergeTagged_ties h xs (y :: ys) (List.Chain'.tail hs))
      intro q _ hp
      cases hp
termination_by xs ys => xs.length + ys.length

/-- C22 (counterexample): with an unsorted first list, an element of the second list ends up
in front of an equivalent element of the first.  The lists hold pairs `(key, origin)` compared
by key: `a` holds `(5, 0), (1, 0)` and `b` holds `(1, 1)`.  `a.merge(b, comp)` inserts `(1, 1)`
in front of `(5, 0)`, so the sequence is `(1, 1), (5, 0), (1, 0)`: the element `(1, 1)` of `b`
comes before the element `(1, 0)` of `a`, and neither is strictly before the other. -/
theorem merge_puts_other_first_on_unsorted :
    Owns demoMix 0 [3, 4] ∧ Owns demoMix 1 [7] ∧
    [3, 4].map demoMix.data = [(5, 0), (1, 0)] ∧ [7].map demoMix.data = [(1, 1)] ∧
    (∃ m', merge 0 1 (fun p q : Nat × Nat => decide (p.1 < q.1)) 4 demoMix = .ok m' ∧
      listToVector 0 4 m' = .ok [(1, 1), (5, 0), (1, 0)]) ∧
    mergeRef (fun p q : Nat × Nat => decide (p.1 < q.1)) [(5, 0), (1, 0)] [(1, 1)] =
      [(1, 1), (5, 0), (1, 0)] ∧
    equiv (fun p q : Nat × Nat => decide (p.1 < q.1)) (1, 1) (1, 0) = true ∧
    ¬ TiesKeepFirst (fun p q : Nat × Nat => decide (p.1 < q.1))
      (mergeTagged (fun p q : Nat × Nat => decide (p.1 < q.1)) [(5, 0), (1, 0)] [(1, 1)]) := by
  refine ⟨by decide, by decide, rfl, rfl,
    ⟨memOf (merge 0 1 (fun p q : Nat × Nat => decide (p.1 < q.1)) 4 demoMix), rfl, rfl⟩,
    rfl, rfl, ?_⟩
  intro h
  have h1 : mergeTagged (fun p q : Nat × Nat => decide (p.1 < q.1)) [(5, 0), (1, 0)] [(1, 1)] =
      [((1, 1), true), ((5, 0), false), ((1, 0), false)] := rfl
  rw [h1] at h
  have h2 := (List.pairwise_cons.1 h).1 ((1, 0), false) (by simp) rfl rfl
  simp at h2

/-- C22 (amended): for every two distinct well-formed lists that share no node, with
sequences `xs` and `ys`, and every comparator `comp`, sorted inputs or not, `a.merge(b, comp)`
returns; the sequence of `a` afterwards is the reference merge `mergeRef comp xs ys`, which
takes the head of `ys` only when it is strictly before the head of `xs` or `xs` is exhausted,
and `b` is empty.  Hence `xs` and `ys` are subsequences of the result: the relative order
within each is preserved.  `mergeTagged` is the same merge with every element marked by its
origin.  When `xs` is sorted under a strict weak order `comp`, an element of `b` precedes an
element of `a` in the result only if it is strictly before it, so among equivalent elements
those of `a` come first. -/
theorem merge_is_reference_merge (m : Mem T) (a b : Nat) (pa pb : List Nat)
    (comp : T → T → Bool) (fuel : Nat) (hne : a ≠ b) (ha : Owns m a pa) (hb : Owns m b pb)
    (hdis : ∀ p ∈ nodes m a pa, p ∉ nodes m b pb) (hf : pa.length + pb.length < fuel) :
    ∃ m' zs, merge a b comp fuel m = .ok m' ∧ Repr m' a zs ∧ Repr m' b [] ∧
      listToVector a fuel m' = .ok zs ∧
      zs = mergeRef comp (pa.map m.data) (pb.map m.data) ∧
      (pa.map m.data).Sublist zs ∧ (pb.map m.data).Sublist zs ∧
      (mergeTagged comp (pa.map m.data) (pb.map m.data)).map Prod.fst = zs ∧
      (mergeTagged comp (pa.map m.data) (pb.map m.data)).filter (fun p => !p.2) =
        tagged false (pa.map m.data) ∧
      (mergeTagged comp (pa.map m.data) (pb.map m.data)).filter (fun p => p.2) =
        tagged true (pb.map m.data) ∧
      (StrictWeakOrder comp → SortedBy comp (pa.map m.data) →
        TiesKeepFirst comp (mergeTagged comp (pa.map m.data) (pb.map m.data))) := by
  obtain ⟨m', N, h1, h2, h3, h4⟩ := merge_spec comp hne ha hb (fun p h1 h2 => hdis p h1 h2) hf
  have hperm := mergeRef_perm comp (pa.map m.data) (pb.map m.data)
  have hra : Repr m' a (mergeRef comp (pa.map m.data) (pb.map m.data)) := ⟨N, h2, h4⟩
  have hlen : (mergeRef comp (pa.map m.data) (pb.map m.data)).length = pa.length + pb.length := by
    simpa using hperm.length_eq
  exact ⟨m', _, h1, hra, ⟨[], h3, rfl⟩, hra.traverseRepr (by omega), rfl,
    mergeRef_sublist_left comp _ _, mergeRef_sublist_right comp _ _, mergeTagged_fst comp _ _,
    mergeTagged_filter_false comp _ _, mergeTagged_filter_true comp _ _,
    fun hswo hs => mergeTagged_ties hswo _ _ hs⟩

/-- Witness for C22 (amended): the lists `1, 3` and `2, 4` of `testSpliceAndMerge`. -/
theorem merge_is_reference_merge_witness :
    Owns demoTwo 0 [3, 4] ∧ Owns demoTwo 1 [7, 8] ∧
      ∃ m' zs, merge 0 1 (fun a b : Nat => decide (a < b)) 5 demoTwo = .ok m' ∧
        listToVector 0 5 m' = .ok zs ∧
        zs = mergeRef (fun a b : Nat => decide (a < b)) ([3, 4].map demoTwo.data)
          ([7, 8].map demoTwo.data) :=
  ⟨by decide, by decide,
    (merge_is_reference_merge demoTwo 0 1 [3, 4] [7, 8] (fun a b : Nat => decide (a < b)) 5
      (by decide) (by decide) (by decide) (by decide) (by decide)).imp fun _ hm =>
        hm.imp fun _ hz => ⟨hz.1, hz.2.2.2.1, hz.2.2.2.2.1⟩⟩

end DoublyList

end Linear
/-! ## Termination of the private member merge_sort -/

namespace Linear

namespace DoublyList

variable {T : Type}

/-- The linking loop leaves at once when one of the two runs is exhausted. -/
theorem linkLoop_exit (t : Nat) (comp : T → T → Bool) (f left right cur : Nat) (m : Mem T)
    (h : left = t ∨ right = t) :
    linkLoop t comp (f + 1) left right cur m = .ok (left, right, cur, m) := by
  rw [linkLoop]
  rcases h with h | h <;> simp [h]

/-- One iteration of the linking loop on two non-empty runs: the node taken is linked behind
`cur`, becomes the new `cur`, and only the run it came from moves on to its next node. -/
theorem linkLoop_step {t : Nat} (comp : T → T → Bool) (f : Nat) {l r : Nat} {L R : List Nat}
    {cur : Nat} {m : Mem T} (hL : TailSeg m t (l :: L)) (hR : TailSeg m t (r :: R))
    (hc : m.live cur = true) (hcL : cur ∉ l :: L) (hcR : cur ∉ r :: R) :
    linkLoop t comp (f + 1) l r cur m =
      (if comp (m.data l) (m.data r) = true then
        linkLoop t comp f (m.next l) r l ((m.withNext cur l).withPrev l cur)
      else linkLoop t comp f l (m.next r) r ((m.withNext cur r).withPrev r cur)) ∧
    (comp (m.data l) (m.data r) = true →
      TailSeg ((m.withNext cur l).withPrev l cur) t L ∧
      TailSeg ((m.withNext cur l).withPrev l cur) t (r :: R) ∧
      (L ++ [t]).head? = some (m.next l)) ∧
    (comp (m.data l) (m.data r) = false →
      TailSeg ((m.withNext cur r).withPrev r cur) t (l :: L) ∧
      TailSeg ((m.withNext cur r).withPrev r cur) t R ∧
      (R ++ [t]).head? = some (m.next r)) := by
  have hlt := hL.ne_tail (show l ∈ l :: L by simp)
  have hll := hL.liveOf (show l ∈ l :: L by simp)
  have hrt := hR.ne_tail (show r ∈ r :: R by simp)
  have hrl := hR.liveOf (show r ∈ r :: R by simp)
  have hlc : l ≠ cur := fun e => hcL (by simp [e])
  have hrc : r ≠ cur := fun e => hcR (by simp [e])
  refine ⟨?_, fun _ => ⟨?_, ?_, hL.head_next⟩, fun _ => ⟨?_, ?_, hR.head_next⟩⟩
  · rw [linkLoop]
    by_cases hcomp : comp (m.data l) (m.data r) = true
    · simp [hlt, hrt, Mem.getData_ok hll, Mem.getData_ok hrl, hcomp, Mem.setNext,
        Mem.setPrev, Mem.getNext, hc, hll, upd_ne, hlc]
    · simp [hlt, hrt, Mem.getData_ok hll, Mem.getData_ok hrl, hcomp, Mem.setNext,
        Mem.setPrev, Mem.getNext, hc, hrl, upd_ne, hrc]
  · exact hL.tail.frame (fun p hp => by
      have : p ≠ cur := fun e => hcL (by simp [← e, hp])
      simp [upd_ne, this]) (fun _ _ => rfl) (le_refl _)
  · exact hR.frame (fun p hp => by
      have : p ≠ cur := fun e => hcR (e ▸ hp)
      simp [upd_ne, this]) (fun _ _ => rfl) (le_refl _)
  · exact hL.frame (fun p hp => by
      have : p ≠ cur := fun e => hcL (e ▸ hp)
      simp [upd_ne, this]) (fun _ _ => rfl) (le_refl _)
  · exact hR.tail.frame (fun p hp => by
      have : p ≠ cur := fun e => hcR (by simp [← e, hp])
      simp [upd_ne, this]) (fun _ _ => rfl) (le_refl _)

/-- The linking loop returns on two disjoint tail-terminated runs once the fuel exceeds the
number of nodes in the two runs together. -/
theorem linkLoop_terminates {t : Nat} (comp : T → T → Bool) (fuel : Nat) {L R : List Nat}
    {left right cur : Nat} {m : Mem T} (hL : TailSeg m t L) (hR : TailSeg m t R)
    (hd : ∀ p ∈ L, p ∉ R) (hl : (L ++ [t]).head? = some left)
    (hr : (R ++ [t]).head? = some right) (hc : m.live cur = true) (hcL : cur ∉ L)
    (hcR : cur ∉ R) (hct : cur ≠ t) (hf : L.length + R.length < fuel) :
    ∃ st, linkLoop t comp fuel left right cur m = .ok st := by
  obtain ⟨m', N, e, _⟩ := linkLoop_spec comp fuel L R left right cur m hL hR
    (fun p h1 h2 => hd p h1 h2) hl hr hc hcL hcR hct hf
  cases hres : linkLoop t comp fuel left right cur m with
  | error err => rw [hres] at e; cases e
  | ok st => exact ⟨st, rfl⟩

/-- The split of `merge_sort(other, comp)` on a segment of at least two nodes: the slow
pointer stops on the node `slow` that ends the first `(n + 1) / 2` nodes, `mid = slow->next` is
the first node of a non-empty rest, and the call continues with the two recursive calls on
these halves followed by the linking of their results. -/
theorem merge_sort_split [Inhabited T] (self : Nat) (comp : T → T → Bool) (f : Nat)
    {p q : Nat} {rest : List Nat} {m : Mem T}
    (h : TailSeg m (m.tail_ self) (p :: q :: rest)) (hf : rest.length + 1 < f) :
    ∃ slow A B, slowFast (m.tail_ self) f p (m.next p) m = .ok slow ∧
      p :: q :: rest = A ++ slow :: B ∧
      (A ++ [slow]).length = ((p :: q :: rest).length + 1) / 2 ∧
      B ≠ [] ∧ B.head? = some (m.next slow) ∧ m.next slow ≠ m.tail_ self ∧
      (A ++ [slow]).head? = some p ∧
      TailSeg ((m.withNext slow (m.tail_ self)).withPrev (m.next slow) (m.head_ self))
        (m.tail_ self) (A ++ [slow]) ∧
      TailSeg ((m.withNext slow (m.tail_ self)).withPrev (m.next slow) (m.head_ self))
        (m.tail_ self) B ∧
      (∀ x ∈ A ++ [slow], x ∉ B) ∧
      merge_sort self comp (f + 1) p m =
        (merge_sort self comp f p
            ((m.withNext slow (m.tail_ self)).withPrev (m.next slow) (m.head_ self)) >>=
          fun x => merge_sort self comp f (m.next slow) x.2 >>=
            fun y => merge_sort_lr self comp f x.1 y.1 y.2) := by
  have hpt := h.ne_tail (show p ∈ p :: q :: rest by simp)
  have hqt := h.ne_tail (show q ∈ p :: q :: rest by simp)
  have hpl := h.liveOf (show p ∈ p :: q :: rest by simp)
  have hnp : m.next p = q := by
    have := h.head_next
    simpa using this.symm
  obtain ⟨r, A, B, esf, hdec, hA⟩ := slowFast_spec (m := m) (t := m.tail_ self) f
    (p :: q :: rest) (q :: rest) p q h.1 (List.Chain'.tail h.1)
    (fun ht => h.tail.ne_tail ht rfl) (fun x hx => h.liveOf hx)
    (fun x hx => h.tail.liveOf hx) (by simp) (by simp) (by simp) (by simp at hf ⊢; omega)
  have hlen : A.length + 1 + B.length = rest.length + 2 := by
    have := congrArg List.length hdec
    simp at this; omega
  simp only [List.length_cons] at hA
  have hB : B ≠ [] := by
    intro e; rw [e] at hlen; simp at hlen; omega
  have h' : TailSeg m (m.tail_ self) (A ++ r :: B) := hdec ▸ h
  have hrl := h'.liveOf (show r ∈ A ++ r :: B by simp)
  have hmid : (B ++ [m.tail_ self]).head? = some (m.next r) := Fwd.next_mid h'.1
  have hmidB' : B.head? = some (m.next r) := by
    rw [List.head?_append_of_ne_nil _ hB] at hmid
    exact hmid
  have hmidB : m.next r ∈ B := List.mem_of_mem_head? hmidB'
  have hmidl := h'.liveOf (show m.next r ∈ A ++ r :: B by simp [hmidB])
  have hmidt : m.next r ≠ m.tail_ self :=
    h'.ne_tail (show m.next r ∈ A ++ r :: B by simp [hmidB])
  obtain ⟨s1, s2, hdis⟩ := h'.split
  have hheadA : (A ++ [r]).head? = some p := by
    cases A with
    | nil => simp at hdec ⊢; exact hdec.1.symm
    | cons a A' => simp at hdec ⊢; exact hdec.1.symm
  refine ⟨r, A, B, by rw [hnp]; exact esf, hdec, by simp; omega, hB, hmidB', hmidt, hheadA,
    s1.withPrev _ _, s2.withPrev _ _, fun x h1 h2 => hdis h1 h2, ?_⟩
  rw [merge_sort]
  simp [hpt, Mem.getNext_ok hpl, hnp, hqt, esf, Mem.getNext_ok hrl, Mem.setNext_ok _ hrl,
    Mem.setPrev, hmidl]

/-- C24: the private member `merge_sort(other, comp)` returns on every well-formed
tail-terminated segment `ps` (a fuel above the number of nodes is enough, whatever the
comparator), with a tail-terminated run over the same nodes.  When the segment has at least two
nodes, the slow/fast loop returns a node `slow` that ends the first `(n + 1) / 2` nodes: the
left half `A ++ [slow]` and the right half `B` are both non-empty and strictly shorter than the
segment, `mid = slow->next` is the first node of `B` and not the tail sentinel, both halves are
tail-terminated segments after the cut, and the call is the two recursive calls on these halves
followed by the linking of their results.  The linking loop returns on any two disjoint
tail-terminated runs: it leaves at once when one run is exhausted, and otherwise one iteration
moves exactly one of the two runs to its next node and keeps the other. -/
theorem merge_sort_terminates [Inhabited T] (m : Mem T) (self : Nat) (comp : T → T → Bool)
    (ps : List Nat) (other fuel : Nat) (h : TailSeg m (m.tail_ self) ps)
    (ho : (ps ++ [m.tail_ self]).head? = some other) (hf : ps.length < fuel) :
    (∃ r m' N, merge_sort self comp (fuel + 1) other m = .ok (r, m') ∧
      TailSeg m' (m.tail_ self) N ∧ (N ++ [m.tail_ self]).head? = some r ∧ N.Perm ps) ∧
    (2 ≤ ps.length → ∃ slow A B,
      slowFast (m.tail_ self) fuel other (m.next other) m = .ok slow ∧
      ps = A ++ slow :: B ∧ (A ++ [slow]).length = (ps.length + 1) / 2 ∧
      0 < (A ++ [slow]).length ∧ (A ++ [slow]).length < ps.length ∧
      0 < B.length ∧ B.length < ps.length ∧
      B.head? = some (m.next slow) ∧ m.next slow ≠ m.tail_ self ∧
      (A ++ [slow]).head? = some other ∧
      TailSeg ((m.withNext slow (m.tail_ self)).withPrev (m.next slow) (m.head_ self))
        (m.tail_ self) (A ++ [slow]) ∧
      TailSeg ((m.withNext slow (m.tail_ self)).withPrev (m.next slow) (m.head_ self))
        (m.tail_ self) B ∧
      merge_sort self comp (fuel + 1) other m =
        (merge_sort self comp fuel other
            ((m.withNext slow (m.tail_ self)).withPrev (m.next slow) (m.head_ self)) >>=
          fun x => merge_sort self comp fuel (m.next slow) x.2 >>=
            fun y => merge_sort_lr self comp fuel x.1 y.1 y.2)) ∧
    (∀ (t : Nat) (L R : List Nat) (left right cur f : Nat) (m0 : Mem T),
      TailSeg m0 t L → TailSeg m0 t R → (∀ x ∈ L, x ∉ R) →
      (L ++ [t]).head? = some left → (R ++ [t]).head? = some right →
      m0.live cur = true → cur ∉ L → cur ∉ R → cur ≠ t →
      (L.length + R.length < f → ∃ st, linkLoop t comp f left right cur m0 = .ok st) ∧
      (left = t ∨ right = t →
        linkLoop t comp (f + 1) left right cur m0 = .ok (left, right, cur, m0)) ∧
      (left ≠ t → right ≠ t →
        linkLoop t comp (f + 1) left right cur m0 =
          (if comp (m0.data left) (m0.data right) = true then
            linkLoop t comp f (m0.next left) right left
              ((m0.withNext cur left).withPrev left cur)
          else linkLoop t comp f left (m0.next right) right
              ((m0.withNext cur right).withPrev right cur)) ∧
        (comp (m0.data left) (m0.data right) = true →
          TailSeg ((m0.withNext cur left).withPrev left cur) t L.tail ∧
          TailSeg ((m0.withNext cur left).withPrev left cur) t R ∧
          (L.tail ++ [t]).head? = some (m0.next left) ∧
          L.tail.length + R.length + 1 = L.length + R.length) ∧
        (comp (m0.data left) (m0.data right) = false →
          TailSeg ((m0.withNext cur right).withPrev right cur) t L ∧
          TailSeg ((m0.withNext cur right).withPrev right cur) t R.tail ∧
          (R.tail ++ [t]).head? = some (m0.next right) ∧
          L.length + R.tail.length + 1 = L.length + R.length))) := by
  refine ⟨?_, fun h2 => ?_, ?_⟩
  · obtain ⟨r, m', N, e, s, hd, pm, _⟩ := merge_sort_spec self comp (fuel + 1) ps other m h ho
      (by omega)
    exact ⟨r, m', N, e, s, hd, pm⟩
  · match ps, h, ho, hf, h2 with
    | p :: q :: rest, h, ho, hf, _ =>
      simp at ho
      subst ho
      obtain ⟨slow, A, B, e1, e2, e3, e4, e5, e6, e7, e8, e9, _, e11⟩ :=
        merge_sort_split self comp fuel h (by simp at hf; omega)
      have hlen : A.length + 1 + B.length = rest.length + 2 := by
        have := congrArg List.length e2
        simp at this; omega
      have hBpos : 0 < B.length := List.length_pos.2 e4
      refine ⟨slow, A, B, e1, e2, e3, by simp, ?_, hBpos, ?_, e5, e6, e7, e8, e9, e11⟩
      · simp; omega
      · simp; omega
  · intro t L R left right cur f m0 hL hR hd hl hr hc hcL hcR hct
    refine ⟨fun hlt => linkLoop_terminates comp f hL hR hd hl hr hc hcL hcR hct hlt,
      fun hex => linkLoop_exit t comp f left right cur m0 hex, fun hlt hrt => ?_⟩
    match L, R, hL, hR, hd, hl, hr, hcL, hcR with
    | [], _, _, _, _, hl, _, _, _ => simp at hl; exact absurd hl.symm hlt
    | _ :: _, [], _, _, _, _, hr, _, _ => simp at hr; exact absurd hr.symm hrt
    | l :: L, r :: R, hL, hR, hd, hl, hr, hcL, hcR =>
      simp at hl hr
      subst hl hr
      obtain ⟨s1, s2, s3⟩ := linkLoop_step comp f hL hR hc hcL hcR
      exact ⟨s1, fun hcomp => ⟨(s2 hcomp).1, (s2 hcomp).2.1, (s2 hcomp).2.2, by simp; omega⟩,
        fun hcomp => ⟨(s3 hcomp).1, (s3 hcomp).2.1, (s3 hcomp).2.2, by simp; omega⟩⟩

/-- Witness for C24: the list `3, 1, 4, 2` of `testSort`, whose interior nodes are `3, 4, 5, 6`;
the call returns, and the split cuts the four nodes into two halves of two. -/
theorem merge_sort_terminates_witness :
    Owns demoSort 0 [3, 4, 5, 6] ∧
      (∃ r m' N, merge_sort 0 (fun a b : Nat => decide (a < b)) 6 3 demoSort = .ok (r, m') ∧
        TailSeg m' (demoSort.tail_ 0) N ∧ (N ++ [demoSort.tail_ 0]).head? = some r ∧
        N.Perm [3, 4, 5, 6]) ∧
      ∃ slow A B, slowFast (demoSort.tail_ 0) 5 3 (demoSort.next 3) demoSort = .ok slow ∧
        [3, 4, 5, 6] = A ++ slow :: B ∧ (A ++ [slow]).length = 2 ∧ B.length < 4 ∧
        demoSort.next slow ≠ demoSort.tail_ 0 :=
  ⟨by decide,
    (merge_sort_terminates demoSort 0 (fun a b : Nat => decide (a < b)) [3, 4, 5, 6] 3 5
      (Owns.tailSeg (by decide)) rfl (by decide)).1,
    ((merge_sort_terminates demoSort 0 (fun a b : Nat => decide (a < b)) [3, 4, 5, 6] 3 5
      (Owns.tailSeg (by decide)) rfl (by decide)).2.1 (by decide)).imp fun _ hs =>
        hs.imp fun _ hA => hA.imp fun _ hB =>
          ⟨hB.1, hB.2.1, hB.2.2.1, hB.2.2.2.2.2.2.1, hB.2.2.2.2.2.2.2.2.1⟩⟩

end DoublyList

end Linear
/-! ## Sequences of pushes, pops, insertions and erasures -/

namespace Linear

namespace DoublyList

variable {T : Type}

theorem pop_back_eq {m : Mem T} (self : Nat) (hne : m.size_ self ≠ 0)
    (ht : m.live (m.tail_ self) = true) (hpos : m.live (m.prev (m.tail_ self)) = true)
    (hprev : m.live (m.prev (m.prev (m.tail_ self))) = true) :
    pop_back self m =
      .ok ((((m.withPrev (m.tail_ self) (m.prev (m.prev (m.tail_ self)))).withNext
        (m.prev (m.prev (m.tail_ self))) (m.tail_ self)).kill (m.prev (m.tail_ self))).decSize
          self) := by
  simp [pop_back, empty, Mem.getPrev, Mem.getNext, Mem.setNext, Mem.setPrev, Mem.deleteNode,
    upd_self_val, hpos, ht, hprev, hne]

/-- The member `pop_back()` on a well-formed list that is not empty removes its last node. -/
theorem pop_back_spec {m : Mem T} {self : Nat} {A : List Nat} {b : Nat}
    (h : Owns m self (A ++ [b])) :
    ∃ m', pop_back self m = .ok m' ∧ Owns m' self A ∧ m'.data = m.data ∧
      ∀ j, m'.head_ j = m.head_ j ∧ m'.tail_ j = m.tail_ j := by
  have ha : (m.head_ self :: A).getLast? = some ((m.head_ self :: A).getLast (by simp)) :=
    List.getLast?_eq_getLast _ _
  have hc : (([] : List Nat) ++ [m.tail_ self]).head? = some (m.tail_ self) := rfl
  obtain ⟨h1, h2, h3, h4, h5, h6, h7⟩ := h.neighbours ha hc
  have hsz : m.size_ self ≠ 0 := by simp [h.2]
  refine ⟨_, pop_back_eq self hsz h7 (h4 ▸ h6) (by rw [h4, h1]; exact h5), ?_, rfl,
    fun j => by simp⟩
  have hgoal : Owns ((((m.withPrev (m.tail_ self) (m.prev (m.prev (m.tail_ self)))).withNext
      (m.prev (m.prev (m.tail_ self))) (m.tail_ self)).kill (m.prev (m.tail_ self))).decSize
        self) self (A ++ []) := by
    refine h.erase_fields ha hc ?_ ?_ (fun p hp => ?_) rfl (by simp) (by simp) ?_
    · simp [h4, h1]
    · simp [h4, h1]
    · simp [h4, upd_ne, hp]
    · rw [Mem.decSize_size_same _ _ (by simpa using hsz)]; simp
  simpa using hgoal

/-- Walking `k` steps along a forward chain from its first node reaches its node number `k`. -/
theorem advance_of_fwd {m : Mem T} :
    ∀ (k : Nat) (l : List Nat) (it pos : Nat), Fwd m l → (∀ p ∈ l.take k, m.live p = true) →
      l.head? = some it → (l.drop k).head? = some pos → advance k it m = .ok pos
  | 0, l, it, pos, _, _, hit, hpos => by
    simp only [List.drop_zero] at hpos
    rw [hit] at hpos
    simp [advance, Option.some.inj hpos]
  | k + 1, [], it, pos, _, _, _, hpos => by simp at hpos
  | k + 1, a :: l, it, pos, hf, hl, hit, hpos => by
    simp at hit
    subst hit
    have hla : m.live a = true := hl a (by simp)
    have hne : l ≠ [] := by
      intro e
      rw [e] at hpos
      simp at hpos
    have hnx : l.head? = some (m.next a) := by
      cases l with
      | nil => exact absurd rfl hne
      | cons q l => simp [Fwd, List.chain'_cons] at hf; simp [hf.1]
    have ih := advance_of_fwd k l (m.next a) pos (List.Chain'.tail hf)
      (fun p hp => hl p (by simp [hp])) hnx (by simpa using hpos)
    simp [advance, Mem.getNext_ok hla, ih]

/-- On a well-formed list, `begin()` advanced `k` times is the node in front of which the
first `k` nodes lie; for `k` the number of nodes this is `end()`. -/
theorem Owns.iterAt_eq {m : Mem T} {self : Nat} {A B : List Nat} {pos : Nat}
    (h : Owns m self (A ++ B)) (hpos : (B ++ [m.tail_ self]).head? = some pos) :
    iterAt self A.length m = .ok pos := by
  simp only [iterAt, begin_, Mem.getNext_ok h.live_head, ok_bind]
  refine advance_of_fwd A.length ((A ++ B) ++ [m.tail_ self]) _ pos h.fwd (fun p hp => ?_)
    h.next_head ?_
  · rw [List.append_assoc, List.take_left' rfl] at hp
    exact h.live_mem (by simp [hp])
  · rw [List.append_assoc, List.drop_left' rfl]
    exact hpos

theorem Owns.iterAt_end {m : Mem T} {self : Nat} {ps : List Nat} (h : Owns m self ps) :
    iterAt self ps.length m = .ok (end_ self m) := by
  have h' : Owns m self (ps ++ []) := by simpa using h
  exact h'.iterAt_eq rfl

/-- The number of elements after a call, by the kind of the call. -/
theorem length_applyOp (op : Op T) (xs : List T) (hv : op.valid xs.length = true) :
    (applyOp op xs).length = op.lengthAfter xs.length := by
  cases op with
  | push_back v => simp [applyOp, Op.lengthAfter, Op.inserts]
  | push_front v => simp [applyOp, Op.lengthAfter, Op.inserts]
  | pop_back =>
    simp only [applyOp, Op.lengthAfter, Op.inserts, Op.removes, List.length_dropLast]
    by_cases hn : xs.length = 0 <;> simp [hn]
  | pop_front =>
    simp only [applyOp, Op.lengthAfter, Op.inserts, Op.removes, List.length_drop]
    by_cases hn : xs.length = 0 <;> simp [hn]
  | insert v => simp [applyOp, Op.lengthAfter, Op.inserts]
  | insert_pos v k =>
    simp only [Op.valid, decide_eq_true_eq] at hv
    simp [applyOp, Op.lengthAfter, Op.inserts]
    omega
  | erase =>
    simp only [applyOp, Op.lengthAfter, Op.inserts, Op.removes, List.length_drop]
    by_cases hn : xs.length = 0 <;> simp [hn]
  | erase_pos k =>
    simp only [applyOp, Op.lengthAfter, Op.inserts, Op.removes, List.length_eraseIdx]
    by_cases hn : k < xs.length <;> simp [hn]

/-- One call with a valid iterator argument on a well-formed list succeeds, and the list is
again well formed with the sequence the specification gives; a call that neither inserts nor
removes leaves the memory as it was. -/
theorem stepOp_spec {m : Mem T} {self : Nat} {xs : List T} (op : Op T) (h : Repr m self xs)
    (hv : op.valid xs.length = true) :
    ∃ m', stepOp self op m = .ok m' ∧ Repr m' self (applyOp op xs) ∧
      (op.inserts = false → op.removes xs.length = false → m' = m) := by
  obtain ⟨ps, ho, rfl⟩ := h
  cases op with
  | push_back v =>
    obtain ⟨m', h1, h2⟩ := push_back_repr v ⟨ps, ho, rfl⟩
    exact ⟨m', h1, h2, fun hi => by simp [Op.inserts] at hi⟩
  | push_front v =>
    obtain ⟨m', h1, h2⟩ := push_front_repr v ⟨ps, ho, rfl⟩
    exact ⟨m', h1, h2, fun hi => by simp [Op.inserts] at hi⟩
  | insert v =>
    obtain ⟨m', h1, h2⟩ := push_front_repr v ⟨ps, ho, rfl⟩
    exact ⟨m', h1, h2, fun hi => by simp [Op.inserts] at hi⟩
  | pop_back =>
    rcases List.eq_nil_or_concat ps with hnil | ⟨A, b, hps⟩
    · subst hnil
      have he : empty self m = true := ho.empty_iff.mpr rfl
      exact ⟨m, by simp [stepOp, pop_back, he], ⟨[], ho, rfl⟩, fun _ _ => rfl⟩
    · subst hps
      obtain ⟨m', h1, h2, h3, -⟩ := pop_back_spec (by simpa using ho)
      exact ⟨m', h1, ⟨A, h2, by simp [applyOp, h3]⟩, fun _ hr => by simp [Op.removes] at hr⟩
  | pop_front =>
    cases ps with
    | nil =>
      have he : empty self m = true := ho.empty_iff.mpr rfl
      exact ⟨m, by simp [stepOp, pop_front, he], ⟨[], ho, rfl⟩, fun _ _ => rfl⟩
    | cons b B =>
      obtain ⟨m', h1, h2, h3, -⟩ := pop_front_spec ho
      exact ⟨m', h1, ⟨B, h2, by simp [applyOp, h3]⟩, fun _ hr => by simp [Op.removes] at hr⟩
  | erase =>
    cases ps with
    | nil =>
      have he : empty self m = true := ho.empty_iff.mpr rfl
      exact ⟨m, by simp [stepOp, erase, pop_front, he], ⟨[], ho, rfl⟩, fun _ _ => rfl⟩
    | cons b B =>
      obtain ⟨m', h1, h2, h3, -⟩ := pop_front_spec ho
      exact ⟨m', h1, ⟨B, h2, by simp [applyOp, h3]⟩, fun _ hr => by simp [Op.removes] at hr⟩
  | insert_pos v k =>
    simp only [Op.valid, decide_eq_true_eq, List.length_map] at hv
    have hsplit : ps = ps.take k ++ ps.drop k := (List.take_append_drop k ps).symm
    have hlen : (ps.take k).length = k := by simp; omega
    obtain ⟨pos, Y, hY⟩ := exists_cons (ps.drop k) (m.tail_ self)
    have hpos : (ps.drop k ++ [m.tail_ self]).head? = some pos := by rw [hY]; rfl
    have ho' : Owns m self (ps.take k ++ ps.drop k) := by rw [← hsplit]; exact ho
    have hit : iterAt self k m = .ok pos := by
      have := ho'.iterAt_eq hpos
      rwa [hlen] at this
    obtain ⟨m', h1, h2, h3, -, -⟩ := insert_pos_spec v ho' hpos
    have hfA : m.fresh ∉ ps.take k := fun hx => ho.not_mem_fresh (List.mem_of_mem_take hx)
    have hfB : m.fresh ∉ ps.drop k := fun hx => ho.not_mem_fresh (List.mem_of_mem_drop hx)
    refine ⟨m', by simp [stepOp, hit, h1], ⟨_, h2, ?_⟩, fun hi => by simp [Op.inserts] at hi⟩
    simp [applyOp, h3, map_upd_of_not_mem _ _ hfA, map_upd_of_not_mem _ _ hfB, List.map_take,
      List.map_drop]
  | erase_pos k =>
    simp only [Op.valid, decide_eq_true_eq, List.length_map] at hv
    by_cases hk : k < ps.length
    · have hsplit : ps = ps.take k ++ ps[k] :: ps.drop (k + 1) := by
        rw [← List.drop_eq_getElem_cons hk, List.take_append_drop]
      have hlen : (ps.take k).length = k := by simp; omega
      have ho' : Owns m self (ps.take k ++ ps[k] :: ps.drop (k + 1)) := by
        rw [← hsplit]; exact ho
      have hit : iterAt self k m = .ok ps[k] := by
        have := ho'.iterAt_eq
          (show ((ps[k] :: ps.drop (k + 1)) ++ [m.tail_ self]).head? = some ps[k] from rfl)
        rwa [hlen] at this
      obtain ⟨m', h1, h2, h3, -⟩ := erase_pos_spec ho'
      refine ⟨m', by simp [stepOp, hit, h1], ⟨_, h2, ?_⟩, fun _ hr => ?_⟩
      · simp [applyOp, h3, List.eraseIdx_eq_take_drop_succ, List.map_take, List.map_drop]
      · simp [Op.removes, hk] at hr
    · have hkn : k = ps.length := by omega
      subst hkn
      refine ⟨m, ?_, ⟨ps, ho, ?_⟩, fun _ _ => rfl⟩
      · simp [stepOp, ho.iterAt_end, erase_pos]
      · simp [applyOp, List.eraseIdx_of_length_le]

/-- A sequence of calls with valid iterator arguments on a well-formed list succeeds and
gives the sequence of the specification; the elements gained are the insertions less the
erasures that were not no-ops. -/
theorem runOps_spec {self : Nat} :
    ∀ (ops : List (Op T)) {m : Mem T} {xs : List T}, Repr m self xs →
      validOps xs.length ops = true →
      ∃ m', runOps self ops m = .ok m' ∧ Repr m' self (applyOps ops xs) ∧
        (applyOps ops xs).length + removals xs.length ops = xs.length + insertions ops
  | [], m, xs, h, _ => ⟨m, rfl, h, by simp [applyOps, removals, insertions]⟩
  | op :: ops, m, xs, h, hv => by
    simp only [validOps, Bool.and_eq_true] at hv
    obtain ⟨m1, h1, h2, -⟩ := stepOp_spec op h hv.1
    have hlen := length_applyOp op xs hv.1
    obtain ⟨m2, h3, h4, h5⟩ := runOps_spec ops h2 (by rw [hlen]; exact hv.2)
    refine ⟨m2, by simp [runOps, h1, h3], h4, ?_⟩
    rw [hlen] at h5
    simp only [applyOps, removals, insertions]
    have hstep : op.lengthAfter xs.length + (if op.removes xs.length = true then 1 else 0) =
        xs.length + (if op.inserts = true then 1 else 0) := by
      unfold Op.lengthAfter
      cases hi : op.inserts
      · cases hr : op.removes xs.length
        · simp
        · have hpos : xs.length ≠ 0 := by
            intro h0
            cases op <;> simp [Op.removes, h0] at hr
          simp; omega
      · have hr : op.removes xs.length = false := by
          cases op <;> simp [Op.inserts, Op.removes] at hi ⊢
        simp [hr]
    omega

/-- C21: starting from a well-formed empty list, every finite sequence of `push_back`,
`push_front`, `pop_back`, `pop_front`, `insert(v)`, `insert(v, pos)`, `erase()` and
`erase(pos)` whose iterator arguments are iterators of the list or `end()` runs without a
fault.  Afterwards the list is a well-formed chain `head_, ps, tail_` whose values are the
sequence the specification gives, the walk along `next` from `begin()` to `end()` returns that
sequence, `size()` is the number of nodes walked over, it is the number of insertions less the
erasures that were not no-ops, and `empty()` holds exactly when `size()` is `0`.  In that state
`insert(v, pos)` puts the new node immediately before `pos` and changes nothing else of the
sequence, `erase(pos)` removes exactly the node `pos`, and `erase(end())` does nothing. -/
theorem op_sequences_keep_list_well_formed {m : Mem T} {self : Nat} (ops : List (Op T))
    (h : Repr m self []) (hv : validOps 0 ops = true) :
    ∃ m' ps, runOps self ops m = .ok m' ∧ Owns m' self ps ∧
      ps.map m'.data = applyOps ops [] ∧
      listToVector self (ps.length + 1) m' = .ok (applyOps ops []) ∧
      size self m' = ps.length ∧ size self m' = (applyOps ops []).length ∧
      size self m' + removals 0 ops = insertions ops ∧
      (empty self m' = true ↔ size self m' = 0) ∧
      (∀ (v : T) (A B : List Nat) (pos : Nat), ps = A ++ B →
        (B ++ [m'.tail_ self]).head? = some pos →
        iterAt self A.length m' = .ok pos ∧
        ∃ m2, insert_pos self v pos m' = .ok m2 ∧ Owns m2 self (A ++ m'.fresh :: B) ∧
          m2.data = upd m'.data m'.fresh v ∧
          listToVector self (ps.length + 2) m2 = .ok (A.map m'.data ++ v :: B.map m'.data)) ∧
      (∀ (A B : List Nat) (b : Nat), ps = A ++ b :: B →
        iterAt self A.length m' = .ok b ∧
        ∃ m2, erase_pos self b m' = .ok m2 ∧ Owns m2 self (A ++ B) ∧ m2.data = m'.data ∧
          listToVector self ps.length m2 = .ok (A.map m'.data ++ B.map m'.data)) ∧
      iterAt self ps.length m' = .ok (end_ self m') ∧
      erase_pos self (end_ self m') m' = .ok m' := by
  obtain ⟨m', h1, ⟨ps, ho, hmap⟩, hcount⟩ := runOps_spec ops h (by simpa using hv)
  have hlen : ps.length = (applyOps ops []).length := by rw [← hmap]; simp
  have hsize : size self m' = ps.length := by simp [size, ho.2]
  refine ⟨m', ps, h1, ho, hmap, ?_, hsize, by rw [hsize, hlen], ?_, ?_, ?_, ?_, ho.iterAt_end,
    by simp [erase_pos]⟩
  · rw [← hmap]
    exact ho.traverse (by omega)
  · rw [hsize, hlen]
    simpa using hcount
  · rw [ho.empty_iff, hsize]
    exact List.length_eq_zero.symm
  · intro v A B pos hps hpos
    subst hps
    obtain ⟨m2, e1, e2, e3, -, -⟩ := insert_pos_spec v ho hpos
    have hfA : m'.fresh ∉ A := fun hx => ho.not_mem_fresh (by simp [hx])
    have hfB : m'.fresh ∉ B := fun hx => ho.not_mem_fresh (by simp [hx])
    refine ⟨ho.iterAt_eq hpos, m2, e1, e2, e3, ?_⟩
    rw [e2.traverse (by simp; omega), e3]
    simp [map_upd_of_not_mem _ _ hfA, map_upd_of_not_mem _ _ hfB]
  · intro A B b hps
    subst hps
    obtain ⟨m2, e1, e2, e3, -⟩ := erase_pos_spec ho
    refine ⟨ho.iterAt_eq (show ((b :: B) ++ [m'.tail_ self]).head? = some b from rfl), m2, e1,
      e2, e3, ?_⟩
    rw [e2.traverse (by simp), e3]
    simp

/-- Witness for C21: the calls of `testPopAndErase` followed by those of `testEdgeCases` on
a freshly constructed list leave the sequence `20, 10`. -/
theorem op_sequences_keep_list_well_formed_witness :
    Repr demoEmpty 0 [] ∧ validOps 0 demoOps = true ∧ applyOps demoOps [] = [20, 10] ∧
      insertions demoOps = 5 ∧ removals 0 demoOps = 3 ∧
      ∃ m' ps, runOps 0 demoOps demoEmpty = .ok m' ∧ Owns m' 0 ps ∧
        ps.map m'.data = applyOps demoOps [] ∧
        listToVector 0 (ps.length + 1) m' = .ok (applyOps demoOps []) ∧
        size 0 m' = ps.length ∧ size 0 m' + removals 0 demoOps = insertions demoOps ∧
        (empty 0 m' = true ↔ size 0 m' = 0) :=
  ⟨⟨[], by decide, rfl⟩, by decide, by decide, by decide, by decide,
    (op_sequences_keep_list_well_formed demoOps
      (show Repr demoEmpty 0 [] from ⟨[], by decide, rfl⟩) (by decide)).imp fun _ hm =>
        hm.imp fun _ hp => ⟨hp.1, hp.2.1, hp.2.2.1, hp.2.2.2.1, hp.2.2.2.2.1, hp.2.2.2.2.2.2.1,
          hp.2.2.2.2.2.2.2.1⟩⟩

end DoublyList

end Linear

/-! ## Vector: memory primitives -/

namespace Linear

namespace VMem

variable {T : Type}

@[simp] theorem setData_data (m : VMem T) (a p b : Nat) :
    (m.setData a p).data_ b = if b = a then p else m.data_ b := by
  simp only [setData, data_, upd]; split <;> rfl

@[simp] theorem setData_size (m : VMem T) (a p b : Nat) :
    (m.setData a p).size_ b = m.size_ b := by
  simp only [setData, size_, upd]; split
  · next h => subst h; rfl
  · rfl

@[simp] theorem setData_capacity (m : VMem T) (a p b : Nat) :
    (m.setData a p).capacity_ b = m.capacity_ b := by
  simp only [setData, capacity_, upd]; split
  · next h => subst h; rfl
  · rfl

@[simp] theorem setSize_vdata (m : VMem T) (a n b : Nat) :
    (m.setSize a n).data_ b = m.data_ b := by
  simp only [setSize, data_, upd]; split
  · next h => subst h; rfl
  · rfl

@[simp] theorem setSize_vsize (m : VMem T) (a n b : Nat) :
    (m.setSize a n).size_ b = if b = a then n else m.size_ b := by
  simp only [setSize, size_, upd]; split <;> rfl

@[simp] theorem setSize_capacity (m : VMem T) (a n b : Nat) :
    (m.setSize a n).capacity_ b = m.capacity_ b := by
  simp only [setSize, capacity_, upd]; split
  · next h => subst h; rfl
  · rfl

@[simp] theorem setCap_data (m : VMem T) (a n b : Nat) :
    (m.setCap a n).data_ b = m.data_ b := by
  simp only [setCap, data_, upd]; split
  · next h => subst h; rfl
  · rfl

@[simp] theorem setCap_size (m : VMem T) (a n b : Nat) :
    (m.setCap a n).size_ b = m.size_ b := by
  simp only [setCap, size_, upd]; split
  · next h => subst h; rfl
  · rfl

@[simp] theorem setCap_capacity (m : VMem T) (a n b : Nat) :
    (m.setCap a n).capacity_ b = if b = a then n else m.capacity_ b := by
  simp only [setCap, capacity_, upd]; split <;> rfl

@[simp] theorem setData_cell (m : VMem T) (a p : Nat) : (m.setData a p).cell = m.cell := rfl
@[simp] theorem setData_blive (m : VMem T) (a p : Nat) : (m.setData a p).blive = m.blive := rfl
@[simp] theorem setData_bcap (m : VMem T) (a p : Nat) : (m.setData a p).bcap = m.bcap := rfl
@[simp] theorem setData_bfresh (m : VMem T) (a p : Nat) : (m.setData a p).bfresh = m.bfresh := rfl
@[simp] theorem setSize_cell (m : VMem T) (a p : Nat) : (m.setSize a p).cell = m.cell := rfl
@[simp] theorem setSize_blive (m : VMem T) (a p : Nat) : (m.setSize a p).blive = m.blive := rfl
@[simp] theorem setSize_bcap (m : VMem T) (a p : Nat) : (m.setSize a p).bcap = m.bcap := rfl
@[simp] theorem setSize_bfresh (m : VMem T) (a p : Nat) : (m.setSize a p).bfresh = m.bfresh := rfl
@[simp] theorem setCap_cell (m : VMem T) (a p : Nat) : (m.setCap a p).cell = m.cell := rfl
@[simp] theorem setCap_blive (m : VMem T) (a p : Nat) : (m.setCap a p).blive = m.blive := rfl
@[simp] theorem setCap_bcap (m : VMem T) (a p : Nat) : (m.setCap a p).bcap = m.bcap := rfl
@[simp] theorem setCap_bfresh (m : VMem T) (a p : Nat) : (m.setCap a p).bfresh = m.bfresh := rfl

@[simp] theorem withCell_cell (m : VMem T) (p i : Nat) (c : Option T) (q j : Nat) :
    (m.withCell p i c).cell q j = if q = p ∧ j = i then c else m.cell q j := by
  simp only [withCell, upd]
  by_cases hq : q = p
  · subst hq; by_cases hj : j = i <;> simp [hj, upd]
  · simp [hq]

@[simp] theorem withCell_blive (m : VMem T) (p i : Nat) (c : Option T) :
    (m.withCell p i c).blive = m.blive := rfl
@[simp] theorem withCell_bcap (m : VMem T) (p i : Nat) (c : Option T) :
    (m.withCell p i c).bcap = m.bcap := rfl
@[simp] theorem withCell_bfresh (m : VMem T) (p i : Nat) (c : Option T) :
    (m.withCell p i c).bfresh = m.bfresh := rfl
@[simp] theorem withCell_vecs (m : VMem T) (p i : Nat) (c : Option T) :
    (m.withCell p i c).vecs = m.vecs := rfl
@[simp] theorem withCell_data (m : VMem T) (p i : Nat) (c : Option T) (a : Nat) :
    (m.withCell p i c).data_ a = m.data_ a := rfl
@[simp] theorem withCell_size (m : VMem T) (p i : Nat) (c : Option T) (a : Nat) :
    (m.withCell p i c).size_ a = m.size_ a := rfl
@[simp] theorem withCell_capacity (m : VMem T) (p i : Nat) (c : Option T) (a : Nat) :
    (m.withCell p i c).capacity_ a = m.capacity_ a := rfl
@[simp] theorem withCell_inBounds (m : VMem T) (p i : Nat) (c : Option T) (q j : Nat) :
    (m.withCell p i c).inBounds q j = m.inBounds q j := rfl

@[simp] theorem alloc_cell (m : VMem T) (n q j : Nat) :
    (m.alloc n).cell q j = if q = m.bfresh then none else m.cell q j := by
  simp only [alloc, upd]; split <;> rfl
@[simp] theorem alloc_blive (m : VMem T) (n q : Nat) :
    (m.alloc n).blive q = if q = m.bfresh then true else m.blive q := rfl
@[simp] theorem alloc_bcap (m : VMem T) (n q : Nat) :
    (m.alloc n).bcap q = if q = m.bfresh then n else m.bcap q := rfl
@[simp] theorem alloc_bfresh (m : VMem T) (n : Nat) : (m.alloc n).bfresh = m.bfresh + 1 := rfl
@[simp] theorem alloc_vecs (m : VMem T) (n : Nat) : (m.alloc n).vecs = m.vecs := rfl
@[simp] theorem alloc_data (m : VMem T) (n a : Nat) : (m.alloc n).data_ a = m.data_ a := rfl
@[simp] theorem alloc_size (m : VMem T) (n a : Nat) : (m.alloc n).size_ a = m.size_ a := rfl
@[simp] theorem alloc_capacity (m : VMem T) (n a : Nat) :
    (m.alloc n).capacity_ a = m.capacity_ a := rfl

theorem inBounds_iff (m : VMem T) (p i : Nat) :
    m.inBounds p i = true ↔ p ≠ 0 ∧ m.blive p = true ∧ i < m.bcap p := by
  simp [inBounds, and_assoc]

theorem readCell_ok {m : VMem T} {p i : Nat} {x : T} (hb : m.inBounds p i = true)
    (hc : m.cell p i = some x) : m.readCell p i = .ok x := by
  simp [readCell, hb, hc]

theorem writeCell_ok {m : VMem T} {p i : Nat} (x : T) (hb : m.inBounds p i = true) :
    m.writeCell p i x = .ok (m.withCell p i (some x)) := by
  simp [writeCell, hb]

theorem destroyCell_ok {m : VMem T} {p i : Nat} (hb : m.inBounds p i = true) :
    m.destroyCell p i = .ok (m.withCell p i none) := by
  simp [destroyCell, hb]

theorem free_ok {m : VMem T} {p : Nat} (hp : p ≠ 0) (hl : m.blive p = true) :
    m.free p = .ok { m with blive := upd m.blive p false } := by
  simp [free, hp, hl]

theorem free_null (m : VMem T) : m.free 0 = .ok m := by
  simp [free]

end VMem

namespace Vector

variable {T : Type}

theorem bind_eq_ok {ε α β : Type} {x : Except ε α} {f : α → Except ε β} {b : β}
    (h : x >>= f = .ok b) : ∃ a, x = .ok a ∧ f a = .ok b := by
  cases x with
  | error e => cases h
  | ok a => exact ⟨a, rfl, h⟩

theorem SameFrame.rfl_ (m : VMem T) : SameFrame m m := ⟨rfl, rfl, rfl, rfl⟩

theorem SameFrame.trans_ {m1 m2 m3 : VMem T} (h1 : SameFrame m1 m2) (h2 : SameFrame m2 m3) :
    SameFrame m1 m3 :=
  ⟨h2.1.trans h1.1, h2.2.1.trans h1.2.1, h2.2.2.1.trans h1.2.2.1, h2.2.2.2.trans h1.2.2.2⟩

theorem writeCell_frame {m m' : VMem T} {p i : Nat} {x : T} (h : m.writeCell p i x = .ok m') :
    SameFrame m m' := by
  unfold VMem.writeCell at h
  split at h
  · cases h; exact ⟨rfl, rfl, rfl, rfl⟩
  · cases h

theorem destroyCell_frame {m m' : VMem T} {p i : Nat} (h : m.destroyCell p i = .ok m') :
    SameFrame m m' := by
  unfold VMem.destroyCell at h
  split at h
  · cases h; exact ⟨rfl, rfl, rfl, rfl⟩
  · cases h

theorem writeCell_inBounds {m m' : VMem T} {p i : Nat} {x : T}
    (h : m.writeCell p i x = .ok m') : m.inBounds p i = true := by
  unfold VMem.writeCell at h
  split at h
  · assumption
  · cases h

theorem free_frame {m m' : VMem T} {p : Nat} (h : m.free p = .ok m') :
    m'.vecs = m.vecs ∧ m'.bcap = m.bcap ∧ m'.bfresh = m.bfresh ∧
      ∀ q, q ≠ p → m'.blive q = m.blive q := by
  unfold VMem.free at h
  split at h
  · cases h; exact ⟨rfl, rfl, rfl, fun _ _ => rfl⟩
  · split at h
    · cases h; exact ⟨rfl, rfl, rfl, fun q hq => by simp [upd, hq]⟩
    · cases h

@[simp] theorem readRef_obj (m : VMem T) (v : T) : m.readRef (.obj v) = .ok v := rfl

@[simp] theorem readRef_slot (m : VMem T) (p i : Nat) :
    m.readRef (.slot p i) = m.readCell p i := rfl

theorem push_back_eq (self : Nat) (r : Ref T) (fuel : Nat) (m : VMem T) :
    push_back self r fuel m =
      ((if m.size_ self ≥ m.capacity_ self
        then reserve self (grown (m.capacity_ self)) fuel m else pure m) >>= fun m1 =>
        m1.readRef r >>= fun x =>
        m1.writeCell (m1.data_ self) (m1.size_ self) x >>= fun m2 =>
        pure (m2.setSize self ((m2.size_ self + 1) % sizeMod))) := by
  unfold push_back
  split <;> rfl

theorem insert_eq (self idx : Nat) (r : Ref T) (fuel : Nat) (m : VMem T) :
    insert self idx r fuel m =
      ((if m.size_ self ≥ m.capacity_ self
        then reserve self (grown (m.capacity_ self)) fuel m else pure m) >>= fun m1 =>
        insertLoop self idx fuel (m1.size_ self) m1 >>= fun m2 =>
        m2.readRef r >>= fun x =>
        m2.writeCell (m2.data_ self) idx x >>= fun m3 =>
        pure (m3.setSize self ((m3.size_ self + 1) % sizeMod))) := by
  unfold insert
  split <;> rfl

end Vector

end Linear

/-! ## Vector: reserve and push_back -/

namespace Linear

namespace Vector

variable {T : Type}

theorem Valid.inBounds {m : VMem T} {self : Nat} {xs : List T} (h : Valid m self xs)
    {i : Nat} (hi : i < m.capacity_ self) : m.inBounds (m.data_ self) i = true := by
  obtain ⟨_, _, _, hb, _, _⟩ := h
  rcases hb with ⟨_, h0⟩ | ⟨h1, h2, h3⟩
  · omega
  · rw [VMem.inBounds_iff]; exact ⟨h1, h2, by omega⟩

theorem Valid.cell_eq {m : VMem T} {self : Nat} {xs : List T} (h : Valid m self xs)
    {i : Nat} (hi : i < xs.length) : m.cell (m.data_ self) i = some (xs.get ⟨i, hi⟩) := by
  rw [h.2.2.2.2.2 i hi]; simp [List.getElem?_eq_getElem hi]

theorem Valid.size_is {m : VMem T} {self : Nat} {xs : List T} (h : Valid m self xs) :
    size self m = xs.length := h.1

theorem Valid.size_le_capacity {m : VMem T} {self : Nat} {xs : List T} (h : Valid m self xs) :
    size self m ≤ capacity self m := by
  have h1 := h.1
  have h2 := h.2.1
  simp only [size, capacity]; omega

theorem Valid.index_eq {m : VMem T} {self : Nat} {xs : List T} (h : Valid m self xs)
    {i : Nat} (hi : i < xs.length) : index self i m = .ok (xs.get ⟨i, hi⟩) := by
  have hc := h.2.1
  exact VMem.readCell_ok (h.inBounds (by omega)) (h.cell_eq hi)

theorem reserveLoop_spec (self nd : Nat) : ∀ (fuel i : Nat) (m : VMem T),
    m.size_ self - i < fuel →
    nd ≠ m.data_ self →
    (∀ j, i ≤ j → j < m.size_ self →
      m.inBounds (m.data_ self) j = true ∧ m.inBounds nd j = true ∧
      m.cell (m.data_ self) j ≠ none) →
    ∃ m', reserveLoop self nd fuel i m = .ok m' ∧ m'.vecs = m.vecs ∧ m'.blive = m.blive ∧
      m'.bcap = m.bcap ∧ m'.bfresh = m.bfresh ∧
      ∀ q j, m'.cell q j =
        if i ≤ j ∧ j < m.size_ self then
          (if q = nd then m.cell (m.data_ self) j
           else if q = m.data_ self then none else m.cell q j)
        else m.cell q j := by
  intro fuel
  induction fuel with
  | zero => intro i m h; omega
  | succ f ih =>
    intro i m hf hne hpre
    by_cases hi : i < m.size_ self
    · obtain ⟨hb1, hb2, hc⟩ := hpre i (le_refl _) hi
      obtain ⟨x, hx⟩ := Option.ne_none_iff_exists'.mp hc
      let m1 := m.withCell nd i (some x)
      let m2 := m1.withCell (m.data_ self) i none
      have hstep : reserveLoop self nd (f + 1) i m = reserveLoop self nd f (i + 1) m2 := by
        simp only [reserveLoop, if_pos hi, VMem.readCell_ok hb1 hx, VMem.writeCell_ok x hb2,
          ok_bind, VMem.withCell_data]
        rw [VMem.destroyCell_ok (by simpa using hb1)]
        rfl
      have hs2 : m2.size_ self = m.size_ self := rfl
      have hd2 : m2.data_ self = m.data_ self := rfl
      obtain ⟨m', hrun, hv, hl, hcp, hfr, hcell⟩ := ih (i + 1) m2 (by rw [hs2]; omega)
        (by rw [hd2]; exact hne) (by
          intro j hj1 hj2
          rw [hs2] at hj2
          obtain ⟨a1, a2, a3⟩ := hpre j (by omega) hj2
          rw [hd2]
          refine ⟨a1, a2, ?_⟩
          have hji : j ≠ i := by omega
          simp [m2, m1, hji, a3])
      refine ⟨m', hstep ▸ hrun, hv, hl, hcp, hfr, ?_⟩
      intro q j
      rw [hcell q j, hs2, hd2]
      by_cases hj : i + 1 ≤ j ∧ j < m.size_ self
      · have hj' : i ≤ j ∧ j < m.size_ self := ⟨by omega, hj.2⟩
        have hji : j ≠ i := by omega
        simp [hj, hj', m2, m1, hji]
      · by_cases hji : j = i
        · subst hji
          have : j ≤ j ∧ j < m.size_ self := ⟨le_refl _, hi⟩
          simp only [if_neg hj, if_pos this, m2, m1, VMem.withCell_cell]
          by_cases hq : q = nd
          · subst hq; simp [hne, hx]
          · by_cases hq2 : q = m.data_ self
            · subst hq2; simp [hq]
            · simp [hq, hq2]
        · have hj' : ¬ (i ≤ j ∧ j < m.size_ self) := by omega
          simp [hj, hj', m2, m1, hji]
    · refine ⟨m, by simp [reserveLoop, hi], rfl, rfl, rfl, rfl, ?_⟩
      intro q j
      have : ¬ (i ≤ j ∧ j < m.size_ self) := by omega
      simp [this]

theorem reserve_noop (self n fuel : Nat) (m : VMem T) (h : n ≤ m.capacity_ self) :
    reserve self n fuel m = .ok m := by
  simp [reserve, h, pure, Except.pure]

theorem reserve_spec {m : VMem T} {self : Nat} {xs : List T} (h : Valid m self xs)
    (n fuel : Nat) (hn : m.capacity_ self < n) (hn2 : n < sizeMod) (hf : xs.length < fuel) :
    ∃ m', reserve self n fuel m = .ok m' ∧ Valid m' self xs ∧ m'.capacity_ self = n ∧
      m'.data_ self = m.bfresh ∧ m'.bfresh = m.bfresh + 1 ∧
      (∀ a, a ≠ self → m'.vecs a = m.vecs a) ∧
      (∀ q, q ≠ m.data_ self → q ≠ m.bfresh →
        m'.cell q = m.cell q ∧ m'.blive q = m.blive q ∧ m'.bcap q = m.bcap q) ∧
      (m.data_ self ≠ 0 → m'.blive (m.data_ self) = false) := by
  obtain ⟨hsz, hle, hcap, hbuf, hfr, hcells⟩ := h
  have hne : m.bfresh ≠ m.data_ self := by omega
  have hpre : ∀ j, 0 ≤ j → j < (m.alloc n).size_ self →
      (m.alloc n).inBounds ((m.alloc n).data_ self) j = true ∧
      (m.alloc n).inBounds m.bfresh j = true ∧
      (m.alloc n).cell ((m.alloc n).data_ self) j ≠ none := by
    intro j _ hj
    simp only [VMem.alloc_size, VMem.alloc_data] at hj ⊢
    have hjx : j < xs.length := by omega
    rcases hbuf with ⟨_, h0⟩ | ⟨h1, h2, h3⟩
    · omega
    · refine ⟨?_, ?_, ?_⟩
      · rw [VMem.inBounds_iff]; simp [h1, h2, hne.symm, h3]; omega
      · rw [VMem.inBounds_iff]; simp; omega
      · simp [hne.symm, hcells j hjx, List.getElem?_eq_getElem hjx]
  obtain ⟨m2, hrun, hv, hl, hcp, hfr2, hcell⟩ := reserveLoop_spec self m.bfresh fuel 0
    (m.alloc n) (by simp only [VMem.alloc_size]; omega) (by simpa using hne) hpre
  have hd2 : m2.data_ self = m.data_ self := by simp [VMem.data_, hv]
  have hs2 : m2.size_ self = m.size_ self := by simp [VMem.size_, hv]
  have hfree : ∃ m3, m2.free (m2.data_ self) = .ok m3 ∧ m3.vecs = m2.vecs ∧ m3.cell = m2.cell ∧
      m3.bcap = m2.bcap ∧ m3.bfresh = m2.bfresh ∧
      (∀ q, q ≠ m.data_ self → m3.blive q = m2.blive q) ∧
      (m.data_ self ≠ 0 → m3.blive (m.data_ self) = false) := by
    rw [hd2]
    by_cases h0 : m.data_ self = 0
    · rw [h0, VMem.free_null]
      exact ⟨m2, rfl, rfl, rfl, rfl, rfl, fun _ _ => rfl, fun hh => absurd rfl hh⟩
    · have hlive : m2.blive (m.data_ self) = true := by
        rcases hbuf with ⟨h1, _⟩ | ⟨_, h2, _⟩
        · exact absurd h1 h0
        · rw [hl]; simp [hne.symm, h2]
      rw [VMem.free_ok h0 hlive]
      exact ⟨_, rfl, rfl, rfl, rfl, rfl, fun q hq => by simp [upd, hq], fun _ => by simp [upd]⟩
  obtain ⟨m3, hfree, hv3, hc3, hcp3, hfr3, hl3, hdead⟩ := hfree
  refine ⟨(m3.setData self m.bfresh).setCap self n, ?_, ?_, by simp, by simp, ?_, ?_, ?_,
    fun h0 => by simpa using hdead h0⟩
  · simp only [reserve, if_neg (Nat.not_le.mpr hn), hrun, ok_bind, hfree]; rfl
  · have hs3 : m3.size_ self = xs.length := by
      rw [← hsz, ← hs2]; simp [VMem.size_, hv3]
    refine ⟨by simpa using hs3, by simp; omega, by simpa using hn2, Or.inr ⟨?_, ?_, ?_⟩, ?_, ?_⟩
    · simp; omega
    · simp only [VMem.setCap_data, VMem.setData_data, if_true, VMem.setCap_blive,
        VMem.setData_blive]
      rw [hl3 _ hne, hl]; simp
    · simp [hcp3, hcp]
    · simp [hfr3, hfr2]
    · intro i hi
      simp only [VMem.setCap_data, VMem.setData_data, if_true, VMem.setCap_cell,
        VMem.setData_cell, hc3, hcell]
      simp only [VMem.alloc_size, VMem.alloc_data, VMem.alloc_cell, if_true]
      rw [if_pos ⟨Nat.zero_le _, by omega⟩, if_neg hne.symm]
      exact hcells i hi
  · simp [hfr3, hfr2]
  · intro a ha
    simp [VMem.setCap, VMem.setData, upd, ha, hv3, hv]
  · intro q hq1 hq2
    refine ⟨?_, ?_, ?_⟩
    · funext j
      simp only [VMem.setCap_cell, VMem.setData_cell, hc3, hcell]
      simp [hq1, hq2]
    · simp [hl3 q hq1, hl, hq2]
    · simp [hcp3, hcp, hq2]

theorem one_lt_sizeMod : 1 < sizeMod := by
  unfold sizeMod; norm_num

theorem grown_eq (c : Nat) (h : c * 2 < sizeMod) : grown c = max 1 (2 * c) := by
  unfold grown
  split
  · next h0 => subst h0; rfl
  · next h0 => rw [Nat.mod_eq_of_lt h]; omega

theorem Valid.store_back {m : VMem T} {self : Nat} {xs : List T} (h : Valid m self xs)
    (v : T) (hlt : xs.length < m.capacity_ self) :
    Valid ((m.withCell (m.data_ self) xs.length (some v)).setSize self (xs.length + 1)) self
      (xs ++ [v]) := by
  obtain ⟨hsz, hle, hcap, hbuf, hfr, hcells⟩ := h
  refine ⟨by simp, by simp; omega, by simpa using hcap, ?_, by simpa using hfr, ?_⟩
  · simpa using hbuf
  · intro i hi
    simp only [List.length_append, List.length_singleton] at hi
    simp only [VMem.setSize_vdata, VMem.setSize_cell, VMem.withCell_cell, VMem.withCell_data,
      true_and]
    by_cases hil : i = xs.length
    · subst hil; simp
    · rw [if_neg hil, hcells i (by omega), List.getElem?_append_left (by omega)]

theorem push_back_valid {m : VMem T} {self : Nat} {xs : List T} (h : Valid m self xs) (v : T)
    (fuel : Nat) (hov : m.size_ self = m.capacity_ self → m.capacity_ self * 2 < sizeMod)
    (hf : xs.length < fuel) :
    ∃ m', push_back self (.obj v) fuel m = .ok m' ∧ Valid m' self (xs ++ [v]) ∧
      m'.capacity_ self =
        (if m.size_ self = m.capacity_ self then max 1 (2 * m.capacity_ self)
         else m.capacity_ self) := by
  have hsz := h.1
  have hle := h.2.1
  have hstore : ∀ m1 : VMem T, Valid m1 self xs → xs.length < m1.capacity_ self →
      (do
        let m2 ← m1.writeCell (m1.data_ self) (m1.size_ self) v
        pure (m2.setSize self ((m2.size_ self + 1) % sizeMod)) : Except Fault (VMem T)) =
        .ok ((m1.withCell (m1.data_ self) xs.length (some v)).setSize self (xs.length + 1)) := by
    intro m1 h1 hlt
    have hc1 := h1.2.2.1
    rw [h1.1, VMem.writeCell_ok v (h1.inBounds hlt)]
    simp only [ok_bind, VMem.withCell_size, h1.1]
    rw [Nat.mod_eq_of_lt (by omega)]; rfl
  by_cases hfull : m.size_ self ≥ m.capacity_ self
  · have heq : m.size_ self = m.capacity_ self := by omega
    have hg := grown_eq _ (hov heq)
    have hone := one_lt_sizeMod
    obtain ⟨m1, hres, hv1, hc1, _⟩ := reserve_spec h (grown (m.capacity_ self)) fuel
      (by rw [hg]; omega) (by rw [hg]; omega) hf
    refine ⟨_, ?_, hv1.store_back v (by rw [hc1, hg]; omega), ?_⟩
    · simp only [push_back, if_pos hfull, hres, ok_bind, VMem.readRef]
      exact hstore m1 hv1 (by rw [hc1, hg]; omega)
    · simp [heq, hc1, hg]
  · refine ⟨_, ?_, h.store_back v (by omega), ?_⟩
    · simp only [push_back, if_neg hfull, pure_eq_ok, ok_bind, VMem.readRef]
      exact hstore m h (by omega)
    · have : m.size_ self ≠ m.capacity_ self := by omega
      simp [this]

theorem Valid.toList_take {m : VMem T} {self : Nat} {xs : List T} (h : Valid m self xs) :
    ∀ n, n ≤ xs.length →
      (List.range n).mapM (fun i => m.readCell (m.data_ self) i) = .ok (xs.take n) := by
  intro n
  induction n with
  | zero => intro _; rfl
  | succ n ih =>
    intro hn
    have hlt : n < xs.length := by omega
    have hr : m.readCell (m.data_ self) n = .ok (xs.get ⟨n, hlt⟩) := h.index_eq hlt
    rw [List.range_succ, List.mapM_append, ih (by omega)]
    simp only [List.mapM_cons, List.mapM_nil, hr, ok_bind, pure_eq_ok, bind_pure_comp]
    rw [List.take_succ]
    simp [List.getElem?_eq_getElem hlt]

theorem Valid.toList_eq {m : VMem T} {self : Nat} {xs : List T} (h : Valid m self xs) :
    toList self m = .ok xs := by
  unfold toList
  rw [h.1, h.toList_take xs.length (le_refl _), List.take_length]

end Vector

end Linear

/-! ## Vector: push_back, capacity growth, checked access -/

namespace Linear

namespace Vector

variable {T : Type}

theorem construct_valid (self : Nat) (m : VMem T) (h : 0 < m.bfresh) :
    Valid (construct self m) self [] := by
  refine ⟨?_, ?_, ?_, Or.inl ⟨?_, ?_⟩, ?_, ?_⟩ <;>
    simp [construct, VMem.size_, VMem.capacity_, VMem.data_, upd, sizeMod, h]

theorem CapInv.step {n c : Nat} (h : CapInv n c) (hle : n ≤ c) :
    CapInv (n + 1) (if n = c then max 1 (2 * c) else c) := by
  rcases h with ⟨h1, h2⟩ | ⟨e, h1, h2, h3⟩
  · subst h1; subst h2
    exact Or.inr ⟨0, by simp, by simp, by simp⟩
  · by_cases hnc : n = c
    · rw [if_pos hnc]
      refine Or.inr ⟨e + 1, ?_, ?_, ?_⟩
      · rw [pow_succ, ← h1]; omega
      · omega
      · omega
    · rw [if_neg hnc]
      exact Or.inr ⟨e, h1, by omega, by omega⟩

theorem CapInv.isLeast {n c : Nat} (h : CapInv n c) (hn : 1 ≤ n) :
    IsLeast {p | (∃ e, p = 2 ^ e) ∧ n ≤ p} c := by
  rcases h with ⟨h1, _⟩ | ⟨e, h1, h2, h3⟩
  · omega
  · refine ⟨⟨⟨e, h1⟩, h2⟩, ?_⟩
    rintro p ⟨⟨d, hd⟩, hp⟩
    by_contra hlt
    have hlt2 : 2 ^ d < 2 ^ e := by rw [← hd, ← h1]; omega
    have hde : d < e := (Nat.pow_lt_pow_iff_right (by norm_num)).mp hlt2
    have hmono : 2 ^ (d + 1) ≤ 2 ^ e := Nat.pow_le_pow_right (by norm_num) hde
    rw [pow_succ, ← hd, ← h1] at hmono
    omega

theorem pushAll_spec (self fuel : Nat) : ∀ (vs : List T) (m : VMem T) (xs : List T),
    Valid m self xs → CapInv xs.length (m.capacity_ self) →
    xs.length + vs.length ≤ 2 ^ 63 → xs.length + vs.length < fuel →
    ∃ m', pushAll self fuel vs m = .ok m' ∧ Valid m' self (xs ++ vs) ∧
      CapInv (xs.length + vs.length) (m'.capacity_ self) := by
  intro vs
  induction vs with
  | nil => intro m xs h hc _ _; exact ⟨m, rfl, by simpa using h, by simpa using hc⟩
  | cons v vs ih =>
    intro m xs h hc hmax hf
    simp only [List.length_cons] at hmax hf
    have hsz := h.1
    have hle := h.2.1
    obtain ⟨m1, hrun, hv1, hc1⟩ := push_back_valid h v fuel
      (by intro heq; unfold sizeMod; omega) (by omega)
    have hstep := hc.step hle
    rw [hsz] at hc1
    rw [← hc1] at hstep
    obtain ⟨m2, hrun2, hv2, hc2⟩ := ih m1 (xs ++ [v]) hv1 (by simpa using hstep)
      (by simp; omega) (by simp; omega)
    refine ⟨m2, ?_, by simpa using hv2, ?_⟩
    · simp only [pushAll, hrun, ok_bind, hrun2]
    · simp only [List.length_append, List.length_singleton, List.length_cons] at hc2 ⊢
      rw [show xs.length + (vs.length + 1) = xs.length + 1 + vs.length by omega]
      exact hc2

/-- A call of `push_back` that returns has read its parameter, and ran as the call does whose
parameter is bound to an object of its own holding the value read. -/
theorem push_back_of_ok {m m' : VMem T} {self fuel : Nat} {r : Ref T}
    (h : push_back self r fuel m = .ok m') :
    ∃ x, push_back self (.obj x) fuel m = .ok m' := by
  rw [push_back_eq] at h
  obtain ⟨m1, hg, h⟩ := bind_eq_ok h
  obtain ⟨x, _, h⟩ := bind_eq_ok h
  refine ⟨x, ?_⟩
  rw [push_back_eq, hg]
  simpa using h

/-- The member `push_back` with its parameter bound to an object outside the buffers: for
every vector holding `xs` and every such object holding `v`, `push_back(v)` returns, and
afterwards the vector holds `xs ++ [v]`: its size is `|xs| + 1`, the slots `[0, |xs|)` read as
the elements of `xs` in their order, slot `|xs|` reads as `v`, and traversal yields
`xs ++ [v]`.  This holds both when the push reallocates (`size == capacity`, the capacity
becomes `max(1, 2 * capacity)`) and when it does not.  The doubling is taken not to wrap:
`2 * capacity < 2^64` whenever the vector is full. -/
theorem push_back_appends {m : VMem T} {self : Nat} {xs : List T} (h : Valid m self xs)
    (v : T) (fuel : Nat) (hf : xs.length < fuel)
    (hov : m.size_ self = m.capacity_ self → m.capacity_ self * 2 < sizeMod) :
    ∃ m', push_back self (.obj v) fuel m = .ok m' ∧ Valid m' self (xs ++ [v]) ∧
      size self m' = xs.length + 1 ∧
      (∀ i (hi : i < xs.length), index self i m' = .ok (xs.get ⟨i, hi⟩)) ∧
      index self xs.length m' = .ok v ∧
      toList self m' = .ok (xs ++ [v]) ∧
      (m.size_ self = m.capacity_ self → capacity self m' = max 1 (2 * capacity self m)) ∧
      (m.size_ self ≠ m.capacity_ self → capacity self m' = capacity self m ∧
        m'.data_ self = m.data_ self) := by
  obtain ⟨m', hrun, hv, hc⟩ := push_back_valid h v fuel hov hf
  refine ⟨m', hrun, hv, by simpa using hv.size_is, ?_, ?_, hv.toList_eq, ?_, ?_⟩
  · intro i hi
    have := hv.index_eq (show i < (xs ++ [v]).length by simp; omega)
    rw [this]
    simp [List.getElem_append_left, hi]
  · have := hv.index_eq (show xs.length < (xs ++ [v]).length by simp)
    rw [this]; simp
  · intro heq; simp [capacity, hc, heq]
  · intro hne
    refine ⟨by simp [capacity, hc, hne], ?_⟩
    have hlt : ¬ m.size_ self ≥ m.capacity_ self := by
      have := h.1; have := h.2.1; omega
    have hb := h.inBounds (show m.size_ self < m.capacity_ self by
      have := h.1; have := h.2.1; omega)
    simp only [push_back, if_neg hlt, pure_eq_ok, ok_bind, VMem.readRef,
      VMem.writeCell_ok v hb] at hrun
    cases hrun
    simp

/-- Pushing the full vector `[1, 2]` the value `3` held by an object of its own, which
reallocates. -/
theorem push_back_appends_demo :
    ∃ m', push_back 0 (.obj 3) 3 demoVec = .ok m' ∧ Valid m' 0 ([1, 2] ++ [3]) ∧
      size 0 m' = [1, 2].length + 1 ∧
      (∀ i (hi : i < [1, 2].length), index 0 i m' = .ok ([1, 2].get ⟨i, hi⟩)) ∧
      index 0 [1, 2].length m' = .ok 3 ∧
      toList 0 m' = .ok ([1, 2] ++ [3]) ∧
      (demoVec.size_ 0 = demoVec.capacity_ 0 →
        capacity 0 m' = max 1 (2 * capacity 0 demoVec)) ∧
      (demoVec.size_ 0 ≠ demoVec.capacity_ 0 → capacity 0 m' = capacity 0 demoVec ∧
        m'.data_ 0 = demoVec.data_ 0) :=
  push_back_appends (show Valid demoVec 0 [1, 2] by decide) 3 3 (by decide)
    (fun _ => by decide)

/-- The member `push_back` with its parameter bound to an element of the vector itself, on a
vector that is not full: no reallocation takes place, the element is read where it is, and the
call runs as the call with an object of its own holding that element. -/
theorem push_back_own_element {m : VMem T} {self : Nat} {xs : List T} (h : Valid m self xs)
    (j fuel : Nat) (hj : j < xs.length) (hne : m.size_ self ≠ m.capacity_ self) :
    push_back self (.slot (m.data_ self) j) fuel m =
      push_back self (.obj (xs.get ⟨j, hj⟩)) fuel m := by
  have hlt : ¬ m.size_ self ≥ m.capacity_ self := by
    have := h.1; have := h.2.1; omega
  rw [push_back_eq, push_back_eq, if_neg hlt]
  have hread : m.readCell (m.data_ self) j = .ok (xs.get ⟨j, hj⟩) := h.index_eq hj
  simp only [pure_eq_ok, ok_bind, readRef_slot, readRef_obj, hread]

/-- The member `push_back` with its parameter bound to an element of the vector itself, on a
full vector: `reserve` moves the elements to a new buffer and releases the old one, and the
parameter, which still refers to the old buffer, is read after that.  Every such call reads
released memory. -/
theorem push_back_own_element_full {m : VMem T} {self : Nat} {xs : List T}
    (h : Valid m self xs) (j fuel : Nat) (hj : j < xs.length) (hf : xs.length < fuel)
    (hfull : m.size_ self = m.capacity_ self) (hov : m.capacity_ self * 2 < sizeMod) :
    push_back self (.slot (m.data_ self) j) fuel m = .error .invalidAccess := by
  have hsz := h.1
  have hd0 : m.data_ self ≠ 0 := by
    rcases h.2.2.2.1 with ⟨_, h0⟩ | ⟨h1, _⟩
    · omega
    · exact h1
  have hg := grown_eq _ hov
  have hone := one_lt_sizeMod
  obtain ⟨m1, hres, _, _, _, _, _, _, hdead⟩ := reserve_spec h (grown (m.capacity_ self)) fuel
    (by rw [hg]; omega) (by rw [hg]; omega) hf
  have hge : m.size_ self ≥ m.capacity_ self := by omega
  rw [push_back_eq, if_pos hge, hres]
  simp [VMem.readCell, VMem.inBounds, hdead hd0]

/-- C11 (failing input): `v.push_back(v[0])` on the full vector `[1, 2]` of
`testCopyAndAssignment`.  The parameter is bound to slot `0` of the buffer; the vector is full,
so `reserve` moves the elements and releases that buffer, and `new (data_ + size_) T(val)` then
reads the released slot: with any fuel the run ends in a fault, and from fuel 3 on the fault is
the access to released memory.  The contents are not `[1, 2, 1]`.  The same value passed in an
object of its own is appended. -/
theorem push_back_of_own_element_reads_released_buffer :
    Valid demoVec 0 [1, 2] ∧ size 0 demoVec = capacity 0 demoVec ∧
    index 0 0 demoVec = .ok 1 ∧
    (∀ f, push_back 0 (.slot (demoVec.data_ 0) 0) (f + 3) demoVec = .error .invalidAccess) ∧
    (∀ fuel m', push_back 0 (.slot (demoVec.data_ 0) 0) fuel demoVec ≠ .ok m') ∧
    (∀ f, ∃ m', push_back 0 (.obj 1) (f + 3) demoVec = .ok m' ∧
      toList 0 m' = .ok [1, 2, 1]) := by
  have hv : Valid demoVec 0 [1, 2] := by decide
  have hbad : ∀ f, push_back 0 (.slot (demoVec.data_ 0) 0) (f + 3) demoVec =
      .error .invalidAccess := fun f =>
    push_back_own_element_full hv 0 (f + 3) (by decide) (by simp) (by decide) (by decide)
  refine ⟨hv, by decide, rfl, hbad, fun fuel m' => ?_, fun f => ?_⟩
  · match fuel with
    | 0 => exact fun h => by cases h
    | 1 => exact fun h => by cases h
    | 2 => exact fun h => by cases h
    | f + 3 => rw [hbad f]; exact fun h => by cases h
  · obtain ⟨m', h1, _, _, _, _, h2, _⟩ := push_back_appends hv 1 (f + 3) (by simp)
      (fun _ => by decide)
    exact ⟨m', h1, h2⟩

/-- C12: starting from a default-constructed vector, `k ≥ 1` calls of `push_back` return and
leave size `k` and a capacity that is exactly the least power of two that is at least `k`;
and a single `push_back` on any vector leaves the capacity alone unless `size == capacity`,
in which case the capacity becomes `max(1, 2 * capacity)`.  Overflow of `size_t` is set
aside: `k ≤ 2^63`, and a full vector has `2 * capacity < 2^64`.  The elements pushed are
objects of their own; a call whose parameter is bound to anything else changes the capacity
by the same rule if it returns. -/
theorem push_back_capacity_doubles (self : Nat) (m0 : VMem T) (vs : List T) (fuel : Nat)
    (hfresh : 0 < m0.bfresh) (hk : 1 ≤ vs.length) (hmax : vs.length ≤ 2 ^ 63)
    (hf : vs.length < fuel) :
    size self (construct self m0) = 0 ∧ capacity self (construct self m0) = 0 ∧
    (∃ m', pushAll self fuel vs (construct self m0) = .ok m' ∧ size self m' = vs.length ∧
      IsLeast {p | (∃ e, p = 2 ^ e) ∧ vs.length ≤ p} (capacity self m')) ∧
    (∀ (m : VMem T) (xs : List T) (v : T), Valid m self xs → xs.length < fuel →
      (size self m = capacity self m → capacity self m * 2 < sizeMod) →
      ∃ m', push_back self (.obj v) fuel m = .ok m' ∧
        capacity self m' =
          if size self m = capacity self m then max 1 (2 * capacity self m)
          else capacity self m) ∧
    (∀ (m m' : VMem T) (xs : List T) (r : Ref T), Valid m self xs → xs.length < fuel →
      (size self m = capacity self m → capacity self m * 2 < sizeMod) →
      push_back self r fuel m = .ok m' →
        capacity self m' =
          if size self m = capacity self m then max 1 (2 * capacity self m)
          else capacity self m) := by
  have h0 := construct_valid self m0 hfresh
  refine ⟨h0.1, ?_, ?_, ?_, ?_⟩
  · simp [capacity, construct, VMem.capacity_, upd]
  · obtain ⟨m', hrun, hv, hc⟩ := pushAll_spec self fuel vs (construct self m0) [] h0
      (Or.inl ⟨rfl, by simp [construct, VMem.capacity_, upd]⟩) (by simpa using hmax)
      (by simpa using hf)
    simp only [List.length_nil, Nat.zero_add, List.nil_append] at hc hv
    exact ⟨m', hrun, hv.size_is, hc.isLeast hk⟩
  · intro m xs v hv hfx hov
    obtain ⟨m', hrun, _, hc⟩ := push_back_valid hv v fuel hov hfx
    exact ⟨m', hrun, hc⟩
  · intro m m' xs r hv hfx hov hr
    obtain ⟨x, hx⟩ := push_back_of_ok hr
    obtain ⟨m2, hrun, _, hc⟩ := push_back_valid hv x fuel hov hfx
    rw [hx] at hrun
    cases hrun
    exact hc

/-- Witness for C12: five pushes onto a default-constructed vector. -/
theorem push_back_capacity_doubles_witness :
    size 0 (construct 0 (VMem.init : VMem Nat)) = 0 ∧
    capacity 0 (construct 0 (VMem.init : VMem Nat)) = 0 ∧
    (∃ m', pushAll 0 6 [1, 2, 3, 4, 5] (construct 0 VMem.init) = .ok m' ∧
      size 0 m' = [1, 2, 3, 4, 5].length ∧
      IsLeast {p | (∃ e, p = 2 ^ e) ∧ [1, 2, 3, 4, 5].length ≤ p} (capacity 0 m')) ∧
    (∀ (m : VMem Nat) (xs : List Nat) (v : Nat), Valid m 0 xs → xs.length < 6 →
      (size 0 m = capacity 0 m → capacity 0 m * 2 < sizeMod) →
      ∃ m', push_back 0 (.obj v) 6 m = .ok m' ∧
        capacity 0 m' =
          if size 0 m = capacity 0 m then max 1 (2 * capacity 0 m) else capacity 0 m) ∧
    (∀ (m m' : VMem Nat) (xs : List Nat) (r : Ref Nat), Valid m 0 xs → xs.length < 6 →
      (size 0 m = capacity 0 m → capacity 0 m * 2 < sizeMod) →
      push_back 0 r 6 m = .ok m' →
        capacity 0 m' =
          if size 0 m = capacity 0 m then max 1 (2 * capacity 0 m) else capacity 0 m) :=
  push_back_capacity_doubles 0 VMem.init [1, 2, 3, 4, 5] 6 (by decide) (by decide)
    (by decide) (by decide)

/-- The capacities of `testEdgeCases` and beyond: after `0, 1, 2, 3, 4, 5` pushes the capacity
is `0, 1, 2, 4, 4, 8`. -/
theorem capacity_sequence :
    (List.range 6).map (fun k =>
      capacity 0 (vmemOf (pushAll 0 6 (List.replicate k 7) (construct 0 VMem.init)))) =
      [0, 1, 2, 4, 4, 8] := by
  decide

/-- C14: for every vector and every index, `at(index)` fails with the out-of-range error
exactly when `index >= size`; when `index < size` it returns the element stored at that
index, which is what `operator[]` returns.  In particular `at(0)` fails on an empty vector. -/
theorem at_checks_index {m : VMem T} {self : Nat} {xs : List T} (h : Valid m self xs)
    (i : Nat) :
    (at_ self i m = .error .outOfRange ↔ size self m ≤ i) ∧
    (i < size self m → ∃ hx : i < xs.length,
      at_ self i m = .ok (xs.get ⟨i, hx⟩) ∧ index self i m = .ok (xs.get ⟨i, hx⟩)) ∧
    (size self m = 0 → at_ self 0 m = .error .outOfRange) := by
  have hsz : m.size_ self = xs.length := h.1
  have hok : ∀ hx : i < xs.length, at_ self i m = .ok (xs.get ⟨i, hx⟩) := by
    intro hx
    have hn : ¬ i ≥ m.size_ self := by omega
    simp only [at_, if_neg hn]
    exact h.index_eq hx
  refine ⟨⟨?_, ?_⟩, ?_, ?_⟩
  · intro he
    by_contra hlt
    have hx : i < xs.length := by simp only [size] at hlt; omega
    rw [hok hx] at he
    cases he
  · intro hge
    simp only [size] at hge
    simp [at_, hge]
  · intro hi
    have hx : i < xs.length := by simp only [size] at hi; omega
    exact ⟨hx, hok hx, h.index_eq hx⟩
  · intro h0
    simp only [size] at h0
    simp [at_, h0]

/-- Witness for C14: index `1` of the vector `[1, 2]`. -/
theorem at_checks_index_witness :
    (at_ 0 1 demoVec = .error .outOfRange ↔ size 0 demoVec ≤ 1) ∧
    (1 < size 0 demoVec → ∃ hx : 1 < [1, 2].length,
      at_ 0 1 demoVec = .ok ([1, 2].get ⟨1, hx⟩) ∧
      index 0 1 demoVec = .ok ([1, 2].get ⟨1, hx⟩)) ∧
    (size 0 demoVec = 0 → at_ 0 0 demoVec = .error .outOfRange) :=
  at_checks_index (show Valid demoVec 0 [1, 2] by decide) 1

end Vector

end Linear

/-! ## Vector: erase and insert -/

namespace Linear

namespace Vector

variable {T : Type}

theorem eraseLoop_spec (self : Nat) : ∀ (fuel i : Nat) (m : VMem T),
    m.size_ self - i < fuel → 1 ≤ i → m.size_ self < sizeMod →
    (∀ j, i ≤ j → j < m.size_ self →
      m.inBounds (m.data_ self) j = true ∧ m.inBounds (m.data_ self) (j - 1) = true ∧
      m.cell (m.data_ self) j ≠ none) →
    ∃ m', eraseLoop self fuel i m = .ok m' ∧ m'.vecs = m.vecs ∧ m'.blive = m.blive ∧
      m'.bcap = m.bcap ∧ m'.bfresh = m.bfresh ∧
      ∀ q j, m'.cell q j =
        if q = m.data_ self ∧ i ≤ j + 1 ∧ j + 1 < m.size_ self then m.cell q (j + 1)
        else m.cell q j := by
  intro fuel
  induction fuel with
  | zero => intro i m h; omega
  | succ f ih =>
    intro i m hf h1 hmod hpre
    by_cases hi : i < m.size_ self
    · obtain ⟨hb1, hb2, hc⟩ := hpre i (le_refl _) hi
      obtain ⟨x, hx⟩ := Option.ne_none_iff_exists'.mp hc
      have hwrap : (i + sizeMod - 1) % sizeMod = i - 1 := by
        rw [show i + sizeMod - 1 = (i - 1) + sizeMod by omega, Nat.add_mod_right,
          Nat.mod_eq_of_lt (by omega)]
      let m1 := m.withCell (m.data_ self) (i - 1) (some x)
      have hstep : eraseLoop self (f + 1) i m = eraseLoop self f (i + 1) m1 := by
        simp only [eraseLoop, if_pos hi, VMem.readCell_ok hb1 hx, ok_bind, hwrap,
          VMem.writeCell_ok x hb2]
      have hs1 : m1.size_ self = m.size_ self := rfl
      have hd1 : m1.data_ self = m.data_ self := rfl
      obtain ⟨m', hrun, hv, hl, hcp, hfr, hcell⟩ := ih (i + 1) m1 (by rw [hs1]; omega)
        (by omega) (by rw [hs1]; exact hmod) (by
          intro j hj1 hj2
          rw [hs1] at hj2
          obtain ⟨a1, a2, a3⟩ := hpre j (by omega) hj2
          rw [hd1]
          refine ⟨a1, a2, ?_⟩
          have hji : j ≠ i - 1 := by omega
          simp [m1, hji, a3])
      refine ⟨m', hstep ▸ hrun, hv, hl, hcp, hfr, ?_⟩
      intro q j
      rw [hcell q j, hs1, hd1]
      by_cases hq : q = m.data_ self
      · subst hq
        by_cases hj : i + 1 ≤ j + 1 ∧ j + 1 < m.size_ self
        · have hj' : i ≤ j + 1 ∧ j + 1 < m.size_ self := ⟨by omega, hj.2⟩
          have hne : j + 1 ≠ i - 1 := by omega
          simp [hj, hj', m1, hne]
        · by_cases hji : j + 1 = i
          · have hj' : i ≤ j + 1 ∧ j + 1 < m.size_ self := ⟨by omega, by omega⟩
            have hj2 : j = i - 1 := by omega
            have hjn : ¬ (m.data_ self = m.data_ self ∧ i + 1 ≤ j + 1 ∧ j + 1 < m.size_ self) :=
              fun hh => hj hh.2
            rw [if_neg hjn, if_pos ⟨rfl, hj'⟩, hji, hx, hj2]
            simp [m1]
          · have hj' : ¬ (i ≤ j + 1 ∧ j + 1 < m.size_ self) := by omega
            have hne : j ≠ i - 1 := by omega
            have hj3 : ¬ (i ≤ j ∧ j + 1 < m.size_ self) := by omega
            simp [hj3, hj', m1, hne]
      · simp [hq, m1]
    · refine ⟨m, by simp [eraseLoop, hi], rfl, rfl, rfl, rfl, ?_⟩
      intro q j
      have : ¬ (q = m.data_ self ∧ i ≤ j + 1 ∧ j + 1 < m.size_ self) := by omega
      simp [this]

theorem erase_spec {m : VMem T} {self : Nat} {xs : List T} (h : Valid m self xs)
    (idx fuel : Nat) (hidx : idx < xs.length) (hf : xs.length < fuel) :
    ∃ m', erase self idx fuel m = .ok m' ∧ Valid m' self (xs.eraseIdx idx) ∧
      m'.capacity_ self = m.capacity_ self ∧ m'.data_ self = m.data_ self := by
  have hv := h
  obtain ⟨hsz, hle, hcap, hbuf, hfr, hcells⟩ := h
  have hstart : (idx + 1) % sizeMod = idx + 1 := Nat.mod_eq_of_lt (by omega)
  obtain ⟨m1, hrun, hv1, hl1, hcp1, hfr1, hcell⟩ := eraseLoop_spec self fuel (idx + 1) m
    (by omega) (by omega) (by omega) (by
      intro j hj1 hj2
      refine ⟨hv.inBounds (by omega), hv.inBounds (by omega), ?_⟩
      rw [hcells j (by omega)]
      simp [List.getElem?_eq_getElem (show j < xs.length by omega)])
  have hs1 : m1.size_ self = xs.length := by simp [VMem.size_, hv1, ← hsz]
  have hd1 : m1.data_ self = m.data_ self := by simp [VMem.data_, hv1]
  have hc1 : m1.capacity_ self = m.capacity_ self := by simp [VMem.capacity_, hv1]
  have hdec : (xs.length + sizeMod - 1) % sizeMod = xs.length - 1 := by
    rw [show xs.length + sizeMod - 1 = (xs.length - 1) + sizeMod by omega, Nat.add_mod_right,
      Nat.mod_eq_of_lt (by omega)]
  refine ⟨m1.setSize self (xs.length - 1), ?_, ?_, by simpa using hc1, by simpa using hd1⟩
  · simp only [erase, hstart, hrun, ok_bind, hs1, hdec]; rfl
  · have hlen : (xs.eraseIdx idx).length = xs.length - 1 := by
      rw [List.length_eraseIdx, if_pos hidx]
    refine ⟨by simp [hlen], by simp [hlen, hc1]; omega, by simpa [hc1] using hcap, ?_,
      by simpa [hd1, hfr1] using hfr, ?_⟩
    · simpa [hd1, hl1, hcp1, hc1] using hbuf
    · intro i hi
      rw [hlen] at hi
      simp only [VMem.setSize_vdata, VMem.setSize_cell, hd1, hcell, true_and]
      rw [List.getElem?_eraseIdx]
      by_cases hlt : i < idx
      · have : ¬ (idx + 1 ≤ i + 1 ∧ i + 1 < m.size_ self) := by omega
        rw [if_neg this, if_pos hlt]
        exact hcells i (by omega)
      · have : idx + 1 ≤ i + 1 ∧ i + 1 < m.size_ self := by omega
        rw [if_pos this, if_neg hlt]
        exact hcells (i + 1) (by omega)

theorem insertLoop_spec (self idx : Nat) : ∀ (fuel i : Nat) (m : VMem T),
    i - idx < fuel →
    (∀ j, idx < j → j ≤ i →
      j < m.capacity_ self ∧ m.inBounds (m.data_ self) j = true ∧
      m.inBounds (m.data_ self) (j - 1) = true ∧ m.cell (m.data_ self) (j - 1) ≠ none) →
    ∃ m', insertLoop self idx fuel i m = .ok m' ∧ m'.vecs = m.vecs ∧ m'.blive = m.blive ∧
      m'.bcap = m.bcap ∧ m'.bfresh = m.bfresh ∧
      ∀ q j, m'.cell q j =
        if q = m.data_ self ∧ idx < j ∧ j ≤ i then m.cell q (j - 1) else m.cell q j := by
  intro fuel
  induction fuel with
  | zero => intro i m h; omega
  | succ f ih =>
    intro i m hf hpre
    by_cases hi : i > idx
    · obtain ⟨hg, hb1, hb2, hc⟩ := hpre i hi (le_refl _)
      obtain ⟨x, hx⟩ := Option.ne_none_iff_exists'.mp hc
      let m1 := m.withCell (m.data_ self) i (some x)
      have hstep : insertLoop self idx (f + 1) i m = insertLoop self idx f (i - 1) m1 := by
        simp only [insertLoop, if_pos hi, if_pos hg, VMem.readCell_ok hb2 hx, ok_bind,
          VMem.writeCell_ok x hb1]
      have hc1 : m1.capacity_ self = m.capacity_ self := rfl
      have hd1 : m1.data_ self = m.data_ self := rfl
      obtain ⟨m', hrun, hv, hl, hcp, hfr, hcell⟩ := ih (i - 1) m1 (by omega) (by
          intro j hj1 hj2
          obtain ⟨a0, a1, a2, a3⟩ := hpre j hj1 (by omega)
          rw [hd1, hc1]
          refine ⟨a0, a1, a2, ?_⟩
          have hji : j - 1 ≠ i := by omega
          simp [m1, hji, a3])
      refine ⟨m', hstep ▸ hrun, hv, hl, hcp, hfr, ?_⟩
      intro q j
      rw [hcell q j, hd1]
      by_cases hq : q = m.data_ self
      · subst hq
        by_cases hj : idx < j ∧ j ≤ i - 1
        · have hj' : idx < j ∧ j ≤ i := ⟨hj.1, by omega⟩
          have hne : j - 1 ≠ i := by omega
          rw [if_pos ⟨rfl, hj⟩, if_pos ⟨rfl, hj'⟩]
          simp [m1, hne]
        · have hjn : ¬ (m.data_ self = m.data_ self ∧ idx < j ∧ j ≤ i - 1) := fun hh => hj hh.2
          rw [if_neg hjn]
          by_cases hji : j = i
          · subst hji
            rw [if_pos ⟨rfl, hi, le_refl _⟩, hx]
            simp [m1]
          · have hj' : ¬ (m.data_ self = m.data_ self ∧ idx < j ∧ j ≤ i) := by omega
            rw [if_neg hj']
            simp [m1, hji]
      · simp [hq, m1]
    · refine ⟨m, by simp [insertLoop, hi], rfl, rfl, rfl, rfl, ?_⟩
      intro q j
      have : ¬ (q = m.data_ self ∧ idx < j ∧ j ≤ i) := by omega
      simp [this]

theorem insert_unguarded_eq (self idx : Nat) (r : Ref T) (fuel : Nat) (m : VMem T) :
    insert_unguarded self idx r fuel m =
      ((if m.size_ self ≥ m.capacity_ self
        then reserve self (grown (m.capacity_ self)) fuel m else pure m) >>= fun m1 =>
        shiftLoop self idx fuel (m1.size_ self) m1 >>= fun m2 =>
        m2.readRef r >>= fun x =>
        m2.writeCell (m2.data_ self) idx x >>= fun m3 =>
        pure (m3.setSize self ((m3.size_ self + 1) % sizeMod))) := by
  unfold insert_unguarded
  split <;> rfl

/-- Where every value of the loop counter is below the capacity, the guarded loop of `insert`
and the unguarded shift run alike, faults included. -/
theorem insertLoop_eq_shiftLoop (self idx : Nat) : ∀ (fuel i : Nat) (m : VMem T),
    (∀ j, idx < j → j ≤ i → j < m.capacity_ self) →
    insertLoop self idx fuel i m = shiftLoop self idx fuel i m := by
  intro fuel
  induction fuel with
  | zero => intro i m _; rfl
  | succ f ih =>
    intro i m hg
    by_cases hi : i > idx
    · have hlt : i < m.capacity_ self := hg i hi (le_refl _)
      simp only [insertLoop, shiftLoop, if_pos hi, if_pos hlt, bind_assoc]
      cases hr : m.readCell (m.data_ self) (i - 1) with
      | error e => rfl
      | ok x =>
        simp only [ok_bind]
        cases hw : m.writeCell (m.data_ self) i x with
        | error e => rfl
        | ok m1 =>
          simp only [ok_bind]
          have hv : m1.vecs = m.vecs := (writeCell_frame hw).1
          exact ih (i - 1) m1 (by
            intro j hj1 hj2
            have : m1.capacity_ self = m.capacity_ self := by simp [VMem.capacity_, hv]
            rw [this]; exact hg j hj1 (by omega))
    · simp only [insertLoop, shiftLoop, if_neg hi]

theorem grow_spec {m : VMem T} {self : Nat} {xs : List T} (h : Valid m self xs)
    (fuel : Nat) (hov : m.size_ self = m.capacity_ self → m.capacity_ self * 2 < sizeMod)
    (hf : xs.length < fuel) :
    ∃ m1, (if m.size_ self ≥ m.capacity_ self
        then reserve self (grown (m.capacity_ self)) fuel m else pure m) = .ok m1 ∧
      Valid m1 self xs ∧ xs.length < m1.capacity_ self ∧
      m1.capacity_ self =
        (if m.size_ self = m.capacity_ self then max 1 (2 * m.capacity_ self)
         else m.capacity_ self) := by
  have hsz := h.1
  have hle := h.2.1
  by_cases hfull : m.size_ self ≥ m.capacity_ self
  · have heq : m.size_ self = m.capacity_ self := by omega
    have hg := grown_eq _ (hov heq)
    have hone := one_lt_sizeMod
    obtain ⟨m1, hres, hv1, hc1, _⟩ := reserve_spec h (grown (m.capacity_ self)) fuel
      (by rw [hg]; omega) (by rw [hg]; have := hov heq; omega) hf
    exact ⟨m1, by rw [if_pos hfull, hres], hv1, by rw [hc1, hg]; omega, by simp [heq, hc1, hg]⟩
  · have hne : m.size_ self ≠ m.capacity_ self := by omega
    exact ⟨m, by rw [if_neg hfull]; rfl, h, by omega, by simp [hne]⟩

theorem getElem?_take_cons_drop (xs : List T) (idx : Nat) (v : T) (hidx : idx ≤ xs.length)
    (i : Nat) :
    (xs.take idx ++ v :: xs.drop idx)[i]? =
      if i < idx then xs[i]? else if i = idx then some v else xs[i - 1]? := by
  have hlen : (xs.take idx).length = idx := by simp [hidx]
  by_cases h1 : i < idx
  · rw [if_pos h1, List.getElem?_append_left (by omega), List.getElem?_take_of_lt h1]
  · rw [if_neg h1, List.getElem?_append_right (by omega), hlen]
    by_cases h2 : i = idx
    · subst h2; simp
    · rw [if_neg h2]
      obtain ⟨k, hk⟩ : ∃ k, i - idx = k + 1 := ⟨i - idx - 1, by omega⟩
      rw [hk, List.getElem?_cons_succ, List.getElem?_drop]
      congr 1; omega

theorem insert_spec {m : VMem T} {self : Nat} {xs : List T} (h : Valid m self xs)
    (idx : Nat) (v : T) (fuel : Nat) (hidx : idx ≤ xs.length)
    (hov : m.size_ self = m.capacity_ self → m.capacity_ self * 2 < sizeMod)
    (hf : xs.length < fuel) :
    ∃ m', insert self idx (.obj v) fuel m = .ok m' ∧
      Valid m' self (xs.take idx ++ v :: xs.drop idx) ∧
      m'.capacity_ self =
        (if m.size_ self = m.capacity_ self then max 1 (2 * m.capacity_ self)
         else m.capacity_ self) ∧
      xs.length < m'.capacity_ self ∧
      insert self idx (.obj v) fuel m = insert_unguarded self idx (.obj v) fuel m := by
  obtain ⟨m1, hgrow, hv1, hlt1, hc1⟩ := grow_spec h fuel hov hf
  have hsame : insert self idx (.obj v) fuel m =
      insert_unguarded self idx (.obj v) fuel m := by
    rw [insert_eq, insert_unguarded_eq, hgrow]
    simp only [ok_bind]
    rw [insertLoop_eq_shiftLoop self idx fuel _ m1 (by
      intro j _ hj
      have := hv1.1
      omega)]
  have hunf : insert self idx (.obj v) fuel m = (do
      let m2 ← insertLoop self idx fuel (m1.size_ self) m1
      let m3 ← m2.writeCell (m2.data_ self) idx v
      pure (m3.setSize self ((m3.size_ self + 1) % sizeMod))) := by
    by_cases hfull : m.size_ self ≥ m.capacity_ self
    · rw [if_pos hfull] at hgrow
      simp only [insert, if_pos hfull, hgrow, ok_bind, VMem.readRef]
    · rw [if_neg hfull] at hgrow
      cases hgrow
      simp only [insert, if_neg hfull, pure_eq_ok, ok_bind, VMem.readRef]
  obtain ⟨hsz, hle, hcap, hbuf, hfr, hcells⟩ := id hv1
  obtain ⟨m2, hrun, hv2, hl2, hcp2, hfr2, hcell⟩ := insertLoop_spec self idx fuel xs.length m1
    (by omega) (by
      intro j hj1 hj2
      refine ⟨by omega, hv1.inBounds (by omega), hv1.inBounds (by omega), ?_⟩
      rw [hcells (j - 1) (by omega)]
      simp [List.getElem?_eq_getElem (show j - 1 < xs.length by omega)])
  have hs2 : m2.size_ self = xs.length := by simp [VMem.size_, hv2, ← hsz]
  have hd2 : m2.data_ self = m1.data_ self := by simp [VMem.data_, hv2]
  have hc2 : m2.capacity_ self = m1.capacity_ self := by simp [VMem.capacity_, hv2]
  have hb : m2.inBounds (m2.data_ self) idx = true := by
    rw [hd2]
    have := hv1.inBounds (show idx < m1.capacity_ self by omega)
    rw [VMem.inBounds_iff] at this ⊢
    rw [hl2, hcp2]; exact this
  have hinc : (xs.length + 1) % sizeMod = xs.length + 1 := Nat.mod_eq_of_lt (by omega)
  refine ⟨(m2.withCell (m2.data_ self) idx (some v)).setSize self (xs.length + 1), ?_, ?_,
    by simpa [hc2] using hc1, by simpa [hc2] using hlt1, hsame⟩
  · rw [hunf]
    simp only [ok_bind, hsz, hrun, VMem.writeCell_ok v hb, VMem.withCell_size, hs2, hinc]
    rfl
  · have hlen : (xs.take idx ++ v :: xs.drop idx).length = xs.length + 1 := by
      simp; omega
    refine ⟨by simp [hlen], by simp [hlen, hc2]; omega, by simpa [hc2] using hcap, ?_,
      by simpa [hd2, hfr2] using hfr, ?_⟩
    · simpa [hd2, hl2, hcp2, hc2] using hbuf
    · intro i hi
      rw [hlen] at hi
      simp only [VMem.setSize_vdata, VMem.setSize_cell, VMem.withCell_cell, VMem.withCell_data,
        hd2, hcell, true_and]
      rw [getElem?_take_cons_drop xs idx v hidx i]
      by_cases h1 : i < idx
      · have hn1 : i ≠ idx := by omega
        have hn2 : ¬ (idx < i ∧ i ≤ xs.length) := by omega
        rw [if_neg hn1, if_neg hn2, if_pos h1]
        exact hcells i (by omega)
      · by_cases h2 : i = idx
        · rw [if_pos h2, if_neg h1, if_pos h2]
        · have h3 : idx < i ∧ i ≤ xs.length := by omega
          rw [if_neg h2, if_pos h3, if_neg h1, if_neg h2]
          exact hcells (i - 1) (by omega)

/-- C15: for every vector holding `xs` and every `index < size`, `erase(index)` returns, and
afterwards the vector holds `xs` without the element at position `index`, the others in their
original order (`xs[0..index) ++ xs[index+1..size)`); the size is `|xs| - 1` and the capacity
is unchanged. -/
theorem erase_removes_index {m : VMem T} {self : Nat} {xs : List T} (h : Valid m self xs)
    (idx fuel : Nat) (hidx : idx < size self m) (hf : xs.length < fuel) :
    ∃ m', erase self idx fuel m = .ok m' ∧
      Valid m' self (xs.take idx ++ xs.drop (idx + 1)) ∧
      toList self m' = .ok (xs.take idx ++ xs.drop (idx + 1)) ∧
      size self m' = xs.length - 1 ∧ capacity self m' = capacity self m := by
  have hidx' : idx < xs.length := by have := h.1; simp only [size] at hidx; omega
  obtain ⟨m', hrun, hv, hc, _⟩ := erase_spec h idx fuel hidx' hf
  rw [List.eraseIdx_eq_take_drop_succ] at hv
  refine ⟨m', hrun, hv, hv.toList_eq, ?_, hc⟩
  rw [hv.size_is]
  simp; omega

/-- Witness for C15: `erase(1)` on the vector `[1, 2, 3, 4]` of `testEraseAndClear`. -/
theorem erase_removes_index_witness :
    ∃ m', erase 0 1 5 demoFour = .ok m' ∧
      Valid m' 0 ([1, 2, 3, 4].take 1 ++ [1, 2, 3, 4].drop (1 + 1)) ∧
      toList 0 m' = .ok ([1, 2, 3, 4].take 1 ++ [1, 2, 3, 4].drop (1 + 1)) ∧
      size 0 m' = [1, 2, 3, 4].length - 1 ∧ capacity 0 m' = capacity 0 demoFour :=
  erase_removes_index (show Valid demoFour 0 [1, 2, 3, 4] by decide) 1 5 (by decide)
    (by decide)

/-- A call of `insert` that returns has read its parameter, and ran as the call does whose
parameter is bound to an object of its own holding the value read. -/
theorem insert_of_ok {m m' : VMem T} {self idx fuel : Nat} {r : Ref T}
    (h : insert self idx r fuel m = .ok m') :
    ∃ x, insert self idx (.obj x) fuel m = .ok m' := by
  rw [insert_eq] at h
  obtain ⟨m1, hg, h⟩ := bind_eq_ok h
  obtain ⟨m2, hl, h⟩ := bind_eq_ok h
  obtain ⟨x, _, h⟩ := bind_eq_ok h
  refine ⟨x, ?_⟩
  rw [insert_eq, hg]
  simp only [ok_bind, hl, readRef_obj]
  exact h

/-- The member `insert` with its parameter bound to an object outside the buffers: for every
vector holding `xs`, every `index <= size` and every such object holding `v`,
`insert(index, v)` returns, and afterwards the vector holds
`xs[0..index) ++ [v] ++ xs[index..size)` and has size `|xs| + 1`.  The capacity becomes
`max(1, 2 * capacity)` if `size == capacity` held before the call and is unchanged otherwise.
The shift loop runs its counter `i` over `size, ..., index + 1`, reading slot `i - 1` and
writing slot `i`; every such `i` is below the capacity, so the guard `i < capacity_` holds in
every iteration, and the call runs exactly as `insert_unguarded`, the same code without the
guard, does.  The doubling is taken not to wrap: `2 * capacity < 2^64` whenever the vector
is full. -/
theorem insert_shifts_right {m : VMem T} {self : Nat} {xs : List T} (h : Valid m self xs)
    (idx : Nat) (v : T) (fuel : Nat) (hidx : idx ≤ size self m) (hf : xs.length < fuel)
    (hov : m.size_ self = m.capacity_ self → m.capacity_ self * 2 < sizeMod) :
    ∃ m', insert self idx (.obj v) fuel m = .ok m' ∧
      Valid m' self (xs.take idx ++ [v] ++ xs.drop idx) ∧
      toList self m' = .ok (xs.take idx ++ [v] ++ xs.drop idx) ∧
      size self m' = xs.length + 1 ∧
      (size self m = capacity self m → capacity self m' = max 1 (2 * capacity self m)) ∧
      (size self m ≠ capacity self m → capacity self m' = capacity self m) ∧
      (∀ i, idx < i → i ≤ size self m → i < capacity self m' ∧ i - 1 < capacity self m') ∧
      insert self idx (.obj v) fuel m = insert_unguarded self idx (.obj v) fuel m := by
  have hsz : m.size_ self = xs.length := h.1
  have hidx' : idx ≤ xs.length := by simp only [size] at hidx; omega
  obtain ⟨m', hrun, hv, hc, hlt, hsame⟩ := insert_spec h idx v fuel hidx' hov hf
  have hv' : Valid m' self (xs.take idx ++ [v] ++ xs.drop idx) := by simpa using hv
  refine ⟨m', hrun, hv', hv'.toList_eq, ?_, ?_, ?_, ?_, hsame⟩
  · rw [hv.size_is]; simp; omega
  · intro heq
    simp only [size, capacity] at heq ⊢
    rw [hc, if_pos heq]
  · intro hne
    simp only [size, capacity] at hne ⊢
    rw [hc, if_neg hne]
  · intro i _ hi
    simp only [size, capacity] at hi ⊢
    omega

/-- The call `insert(1, 9)` on the full vector `[1, 2]`, which reallocates; the `9` is an
object of its own. -/
theorem insert_shifts_right_demo :
    ∃ m', insert 0 1 (.obj 9) 3 demoVec = .ok m' ∧
      Valid m' 0 ([1, 2].take 1 ++ [9] ++ [1, 2].drop 1) ∧
      toList 0 m' = .ok ([1, 2].take 1 ++ [9] ++ [1, 2].drop 1) ∧
      size 0 m' = [1, 2].length + 1 ∧
      (size 0 demoVec = capacity 0 demoVec → capacity 0 m' = max 1 (2 * capacity 0 demoVec)) ∧
      (size 0 demoVec ≠ capacity 0 demoVec → capacity 0 m' = capacity 0 demoVec) ∧
      (∀ i, 1 < i → i ≤ size 0 demoVec → i < capacity 0 m' ∧ i - 1 < capacity 0 m') ∧
      insert 0 1 (.obj 9) 3 demoVec = insert_unguarded 0 1 (.obj 9) 3 demoVec :=
  insert_shifts_right (show Valid demoVec 0 [1, 2] by decide) 1 9 3 (by decide) (by decide)
    (fun _ => by decide)

/-- The member `insert` with its parameter bound to the element `v[j]` of the vector itself,
on a vector that is not full.  The parameter is read after the shift loop, which has moved the
elements from `index` on one slot to the right: slot `j` then holds `xs[j - 1]` if
`index < j`, and still `xs[j]` otherwise.  The call runs as the call with an object of its own
holding that value. -/
theorem insert_own_element {m : VMem T} {self : Nat} {xs : List T} (h : Valid m self xs)
    (idx j fuel : Nat) (x : T) (hidx : idx ≤ xs.length) (hj : j < xs.length)
    (hx : xs[if idx < j then j - 1 else j]? = some x) (hf : xs.length < fuel)
    (hne : m.size_ self ≠ m.capacity_ self) :
    insert self idx (.slot (m.data_ self) j) fuel m = insert self idx (.obj x) fuel m := by
  obtain ⟨hsz, hle, hcap, hbuf, hfr, hcells⟩ := id h
  have hlt : ¬ m.size_ self ≥ m.capacity_ self := by omega
  obtain ⟨m2, hrun, hv2, hl2, hcp2, hfr2, hcell⟩ := insertLoop_spec self idx fuel xs.length m
    (by omega) (by
      intro i hi1 hi2
      refine ⟨by omega, h.inBounds (by omega), h.inBounds (by omega), ?_⟩
      rw [hcells (i - 1) (by omega)]
      simp [List.getElem?_eq_getElem (show i - 1 < xs.length by omega)])
  have hd2 : m2.data_ self = m.data_ self := by simp [VMem.data_, hv2]
  have hb : m2.inBounds (m.data_ self) j = true := by
    have := h.inBounds (show j < m.capacity_ self by omega)
    rw [VMem.inBounds_iff] at this ⊢
    rw [hl2, hcp2]; exact this
  have hread : m2.readCell (m.data_ self) j = .ok x := by
    refine VMem.readCell_ok hb ?_
    rw [hcell]
    by_cases hij : idx < j
    · rw [if_pos ⟨rfl, hij, by omega⟩, hcells (j - 1) (by omega)]
      simpa [hij] using hx
    · have hn : ¬ (m.data_ self = m.data_ self ∧ idx < j ∧ j ≤ xs.length) := fun hh => hij hh.2.1
      rw [if_neg hn, hcells j hj]
      simpa [hij] using hx
  rw [insert_eq, insert_eq, if_neg hlt]
  simp only [pure_eq_ok, ok_bind, hsz, hrun, readRef_slot, readRef_obj, hread]

/-- The member `insert` with its parameter bound to an element of the vector itself, on a
full vector: `reserve` releases the buffer the parameter refers to, and `data_[index] = val`
reads it after the shift loop.  Every such call reads released memory. -/
theorem insert_own_element_full {m : VMem T} {self : Nat} {xs : List T} (h : Valid m self xs)
    (idx j fuel : Nat) (hidx : idx ≤ xs.length) (hj : j < xs.length) (hf : xs.length < fuel)
    (hfull : m.size_ self = m.capacity_ self) (hov : m.capacity_ self * 2 < sizeMod) :
    insert self idx (.slot (m.data_ self) j) fuel m = .error .invalidAccess := by
  have hsz := h.1
  have hd0 : m.data_ self ≠ 0 := by
    rcases h.2.2.2.1 with ⟨_, h0⟩ | ⟨h1, _⟩
    · omega
    · exact h1
  have hg := grown_eq _ hov
  have hone := one_lt_sizeMod
  obtain ⟨m1, hres, hv1, hc1, _, _, _, _, hdead⟩ := reserve_spec h (grown (m.capacity_ self))
    fuel (by rw [hg]; omega) (by rw [hg]; omega) hf
  obtain ⟨hsz1, hle1, hcap1, hbuf1, hfr1, hcells1⟩ := id hv1
  obtain ⟨m2, hrun, hv2, hl2, hcp2, hfr2, hcell⟩ := insertLoop_spec self idx fuel xs.length m1
    (by omega) (by
      intro i hi1 hi2
      refine ⟨by rw [hc1, hg]; omega, hv1.inBounds (by rw [hc1, hg]; omega),
        hv1.inBounds (by rw [hc1, hg]; omega), ?_⟩
      rw [hcells1 (i - 1) (by omega)]
      simp [List.getElem?_eq_getElem (show i - 1 < xs.length by omega)])
  have hge : m.size_ self ≥ m.capacity_ self := by omega
  rw [insert_eq, if_pos hge, hres]
  simp [hsz1, hrun, VMem.readCell, VMem.inBounds, hl2, hdead hd0]

/-- C16 (failing input): `v.insert(0, v[2])` on the vector `[1, 2, 3]` with capacity 4.  The
parameter is bound to slot `2`, which holds `3`.  The vector is not full, so nothing is
reallocated; the shift loop moves `3, 2, 1` one slot to the right, after which slot `2` holds
`2`, and `data_[0] = val` reads the parameter only then.  The call returns with the contents
`[2, 1, 2, 3]`, not `[3, 1, 2, 3]`; the same value passed in an object of its own gives
`[3, 1, 2, 3]`.  On the full vector `[1, 2]` the call `v.insert(0, v[1])` reads the buffer
that `reserve` has released. -/
theorem insert_of_own_element_inserts_shifted_value :
    Valid demoThree 0 [1, 2, 3] ∧ size 0 demoThree = 3 ∧ capacity 0 demoThree = 4 ∧
    index 0 2 demoThree = .ok 3 ∧
    (∀ f, ∃ m', insert 0 0 (.slot (demoThree.data_ 0) 2) (f + 4) demoThree = .ok m' ∧
      toList 0 m' = .ok [2, 1, 2, 3] ∧ size 0 m' = 4 ∧ capacity 0 m' = 4) ∧
    (∀ fuel m', insert 0 0 (.slot (demoThree.data_ 0) 2) fuel demoThree = .ok m' →
      toList 0 m' = .ok [2, 1, 2, 3]) ∧
    (∀ f, ∃ m', insert 0 0 (.obj 3) (f + 4) demoThree = .ok m' ∧
      toList 0 m' = .ok [3, 1, 2, 3]) ∧
    (∀ f, insert 0 0 (.slot (demoVec.data_ 0) 1) (f + 3) demoVec = .error .invalidAccess) := by
  have hv : Valid demoThree 0 [1, 2, 3] := by decide
  have hw : Valid demoVec 0 [1, 2] := by decide
  have hshift : ∀ fuel, 3 < fuel → ∃ m', insert 0 0 (.slot (demoThree.data_ 0) 2) fuel
      demoThree = .ok m' ∧ toList 0 m' = .ok [2, 1, 2, 3] ∧ size 0 m' = 4 ∧
      capacity 0 m' = 4 := by
    intro fuel hfuel
    have he := insert_own_element hv 0 2 fuel 2 (by decide) (by decide) (by decide)
      (by simpa using hfuel) (by decide)
    obtain ⟨m', h1, _, h2, h3, _, h4, _⟩ := insert_shifts_right hv 0 2 fuel (by decide)
      (by simpa using hfuel) (fun _ => by decide)
    exact ⟨m', by rw [he]; exact h1, h2, h3, by rw [h4 (by decide)]; decide⟩
  refine ⟨hv, by decide, by decide, rfl, fun f => hshift (f + 4) (by omega),
    fun fuel m' hr => ?_, fun f => ?_, fun f => ?_⟩
  · match fuel, hr with
    | 0, hr => cases hr
    | 1, hr => cases hr
    | 2, hr => cases hr
    | 3, hr => cases hr
    | f + 4, hr =>
      obtain ⟨m2, h1, h2, _⟩ := hshift (f + 4) (by omega)
      rw [hr] at h1
      cases h1
      exact h2
  · obtain ⟨m', h1, _, h2, _⟩ := insert_shifts_right hv 0 3 (f + 4) (by decide) (by simp)
      (fun _ => by decide)
    exact ⟨m', h1, h2⟩
  · exact insert_own_element_full hw 0 1 (f + 3) (by decide) (by decide) (by simp) (by decide)
      (by decide)

end Vector

end Linear

/-! ## Vector: clear, copy construction and copy assignment -/

namespace Linear

namespace Vector

variable {T : Type}

theorem clearLoop_spec (self : Nat) : ∀ (fuel i : Nat) (m : VMem T),
    m.size_ self - i < fuel →
    (∀ j, i ≤ j → j < m.size_ self → m.inBounds (m.data_ self) j = true) →
    ∃ m', clearLoop self fuel i m = .ok m' ∧ SameFrame m m' ∧
      ∀ q j, m'.cell q j =
        if q = m.data_ self ∧ i ≤ j ∧ j < m.size_ self then none else m.cell q j := by
  intro fuel
  induction fuel with
  | zero => intro i m h; omega
  | succ f ih =>
    intro i m hf hpre
    by_cases hi : i < m.size_ self
    · have hb := hpre i (le_refl _) hi
      let m1 := m.withCell (m.data_ self) i none
      have hstep : clearLoop self (f + 1) i m = clearLoop self f (i + 1) m1 := by
        simp only [clearLoop, if_pos hi, VMem.destroyCell_ok hb, ok_bind]
      have hs1 : m1.size_ self = m.size_ self := rfl
      have hd1 : m1.data_ self = m.data_ self := rfl
      obtain ⟨m', hrun, hfr, hcell⟩ := ih (i + 1) m1 (by rw [hs1]; omega) (by
          intro j hj1 hj2
          rw [hs1] at hj2
          rw [hd1]
          exact hpre j (by omega) hj2)
      refine ⟨m', hstep ▸ hrun, hfr, ?_⟩
      intro q j
      rw [hcell q j, hs1, hd1]
      by_cases hq : q = m.data_ self
      · subst hq
        by_cases hj : i + 1 ≤ j ∧ j < m.size_ self
        · rw [if_pos ⟨rfl, hj⟩, if_pos ⟨rfl, by omega, hj.2⟩]
        · have hjn : ¬ (m.data_ self = m.data_ self ∧ i + 1 ≤ j ∧ j < m.size_ self) :=
            fun hh => hj hh.2
          rw [if_neg hjn]
          by_cases hji : j = i
          · subst hji
            rw [if_pos ⟨rfl, le_refl _, hi⟩]
            simp [m1]
          · have hj' : ¬ (m.data_ self = m.data_ self ∧ i ≤ j ∧ j < m.size_ self) := by omega
            rw [if_neg hj']
            simp [m1, hji]
      · simp [hq, m1]
    · refine ⟨m, by simp [clearLoop, hi], ⟨rfl, rfl, rfl, rfl⟩, ?_⟩
      intro q j
      have : ¬ (q = m.data_ self ∧ i ≤ j ∧ j < m.size_ self) := by omega
      simp [this]

theorem clear_valid {m : VMem T} {self : Nat} {xs : List T} (h : Valid m self xs)
    (fuel : Nat) (hf : xs.length < fuel) :
    ∃ m', clear self fuel m = .ok m' ∧ Valid m' self [] ∧
      m'.capacity_ self = m.capacity_ self ∧ m'.data_ self = m.data_ self ∧
      m'.blive = m.blive ∧ m'.bcap = m.bcap ∧ m'.bfresh = m.bfresh ∧
      (∀ a, a ≠ self → m'.vecs a = m.vecs a) ∧
      (∀ q j, m'.cell q j =
        if q = m.data_ self ∧ j < xs.length then none else m.cell q j) := by
  obtain ⟨hsz, hle, hcap, hbuf, hfr, hcells⟩ := id h
  obtain ⟨m1, hrun, ⟨hv1, hl1, hcp1, hfr1⟩, hcell⟩ := clearLoop_spec self fuel 0 m (by omega)
    (fun j _ hj => h.inBounds (by omega))
  have hd1 : m1.data_ self = m.data_ self := by simp [VMem.data_, hv1]
  have hc1 : m1.capacity_ self = m.capacity_ self := by simp [VMem.capacity_, hv1]
  refine ⟨m1.setSize self 0, by simp only [clear, hrun, ok_bind]; rfl, ?_,
    by simpa using hc1, by simpa using hd1, hl1, hcp1, hfr1, ?_, ?_⟩
  · refine ⟨by simp, by simp, by simpa [hc1] using hcap, ?_, by simpa [hd1, hfr1] using hfr,
      by simp⟩
    simpa [hd1, hl1, hcp1, hc1] using hbuf
  · intro a ha
    simp [VMem.setSize, upd, ha, hv1]
  · intro q j
    simp only [VMem.setSize_cell, hcell, hsz, Nat.zero_le, true_and]

theorem copyLoop_spec (self other : Nat) : ∀ (fuel i : Nat) (m : VMem T),
    m.size_ other - i < fuel → m.size_ other ≤ intMax →
    m.data_ self ≠ m.data_ other →
    (∀ j, i ≤ j → j < m.size_ other →
      m.inBounds (m.data_ other) j = true ∧ m.inBounds (m.data_ self) j = true ∧
      m.cell (m.data_ other) j ≠ none) →
    ∃ m', copyLoop self other fuel i m = .ok m' ∧ SameFrame m m' ∧
      ∀ q j, m'.cell q j =
        if q = m.data_ self ∧ i ≤ j ∧ j < m.size_ other then m.cell (m.data_ other) j
        else m.cell q j := by
  intro fuel
  induction fuel with
  | zero => intro i m h; omega
  | succ f ih =>
    intro i m hf hmax hne hpre
    by_cases hi : i < m.size_ other
    · obtain ⟨hb1, hb2, hc⟩ := hpre i (le_refl _) hi
      obtain ⟨x, hx⟩ := Option.ne_none_iff_exists'.mp hc
      let m1 := m.withCell (m.data_ self) i (some x)
      have hlt : i < intMax := by omega
      have hstep : copyLoop self other (f + 1) i m = copyLoop self other f (i + 1) m1 := by
        simp only [copyLoop, if_pos hi, VMem.readCell_ok hb1 hx, ok_bind,
          VMem.writeCell_ok x hb2, if_pos hlt]
      have hs1 : m1.size_ other = m.size_ other := rfl
      have hd1 : m1.data_ self = m.data_ self := rfl
      have hd2 : m1.data_ other = m.data_ other := rfl
      obtain ⟨m', hrun, hfr, hcell⟩ := ih (i + 1) m1 (by rw [hs1]; omega)
        (by rw [hs1]; exact hmax) (by rw [hd1, hd2]; exact hne) (by
          intro j hj1 hj2
          rw [hs1] at hj2
          obtain ⟨a1, a2, a3⟩ := hpre j (by omega) hj2
          rw [hd1, hd2]
          refine ⟨a1, a2, ?_⟩
          simp [m1, hne.symm, a3])
      refine ⟨m', hstep ▸ hrun, hfr, ?_⟩
      intro q j
      rw [hcell q j, hs1, hd1, hd2]
      by_cases hq : q = m.data_ self
      · subst hq
        by_cases hj : i + 1 ≤ j ∧ j < m.size_ other
        · rw [if_pos ⟨rfl, hj⟩, if_pos ⟨rfl, by omega, hj.2⟩]
          simp [m1, hne.symm]
        · have hjn : ¬ (m.data_ self = m.data_ self ∧ i + 1 ≤ j ∧ j < m.size_ other) :=
            fun hh => hj hh.2
          rw [if_neg hjn]
          by_cases hji : j = i
          · subst hji
            rw [if_pos ⟨rfl, le_refl _, hi⟩, hx]
            simp [m1]
          · have hj' : ¬ (m.data_ self = m.data_ self ∧ i ≤ j ∧ j < m.size_ other) := by
              omega
            rw [if_neg hj']
            simp [m1, hji]
      · simp [hq, m1]
    · refine ⟨m, by simp [copyLoop, hi], ⟨rfl, rfl, rfl, rfl⟩, ?_⟩
      intro q j
      have : ¬ (q = m.data_ self ∧ i ≤ j ∧ j < m.size_ other) := by omega
      simp [this]

/-- The slots the copy loop touches once the destination buffer is allocated: those of the
source hold its elements, those of the destination lie in the new buffer. -/
theorem copy_pre {m : VMem T} (self : Nat) {other : Nat} {xs : List T}
    (h : Valid m other xs) :
    ∀ j, j < xs.length →
      (((m.alloc (m.capacity_ other)).setData self m.bfresh).setCap self
        (m.capacity_ other)).inBounds (m.data_ other) j = true ∧
      (((m.alloc (m.capacity_ other)).setData self m.bfresh).setCap self
        (m.capacity_ other)).inBounds m.bfresh j = true ∧
      (((m.alloc (m.capacity_ other)).setData self m.bfresh).setCap self
        (m.capacity_ other)).cell (m.data_ other) j ≠ none := by
  obtain ⟨hsz, hle, hcap, hbuf, hfr, hcells⟩ := id h
  have hdne : m.data_ other ≠ m.bfresh := by omega
  intro j hj
  rcases hbuf with ⟨_, h0⟩ | ⟨h1, h2, h3⟩
  · omega
  · refine ⟨?_, ?_, ?_⟩
    · rw [VMem.inBounds_iff]; simp [h1, h2, hdne, h3]; omega
    · rw [VMem.inBounds_iff]; simp; omega
    · simp [hdne, hcells j hj, List.getElem?_eq_getElem hj]

/-- Copying into a freshly allocated buffer: the step shared by the copy constructor and
`operator=` once the destination buffer is allocated. -/
theorem copy_into_fresh {m : VMem T} {self other : Nat} {xs : List T} (h : Valid m other xs)
    (fuel : Nat) (hne : self ≠ other) (hmax : xs.length ≤ intMax) (hf : xs.length < fuel) :
    ∃ m3, copyLoop self other fuel 0
        (((m.alloc (m.capacity_ other)).setData self m.bfresh).setCap self
          (m.capacity_ other)) = .ok m3 ∧
      Valid (m3.setSize self xs.length) self xs ∧ Valid (m3.setSize self xs.length) other xs ∧
      m3.vecs other = m.vecs other ∧ m3.size_ other = xs.length ∧
      m3.capacity_ self = m.capacity_ other ∧ m3.data_ self = m.bfresh ∧
      m3.bfresh = m.bfresh + 1 ∧
      (∀ a, a ≠ self → m3.vecs a = m.vecs a) ∧
      (∀ q, q ≠ m.bfresh → m3.cell q = m.cell q ∧ m3.blive q = m.blive q ∧
        m3.bcap q = m.bcap q) := by
  obtain ⟨hsz, hle, hcap, hbuf, hfr, hcells⟩ := id h
  have hno : other ≠ self := fun hh => hne hh.symm
  have hdne : m.data_ other ≠ m.bfresh := by omega
  let m2 := ((m.alloc (m.capacity_ other)).setData self m.bfresh).setCap self (m.capacity_ other)
  have hs2 : m2.size_ other = xs.length := by simp [m2, hsz]
  have hds : m2.data_ self = m.bfresh := by simp [m2]
  have hdo : m2.data_ other = m.data_ other := by simp [m2, hno]
  obtain ⟨m3, hrun, ⟨hv3, hl3, hcp3, hfr3⟩, hcell⟩ := copyLoop_spec self other fuel 0 m2
    (by rw [hs2]; omega) (by rw [hs2]; exact hmax) (by rw [hds, hdo]; exact hdne.symm) (by
      intro j _ hj
      rw [hs2] at hj
      rw [hds, hdo]
      exact copy_pre self h j hj)
  have hvecs : ∀ a, a ≠ self → m3.vecs a = m.vecs a := by
    intro a ha
    rw [hv3]; simp [m2, VMem.setCap, VMem.setData, upd, ha]
  have hvo : m3.vecs other = m.vecs other := hvecs other hno
  have hd3s : m3.data_ self = m.bfresh := by
    have : m3.data_ self = m2.data_ self := by simp [VMem.data_, hv3]
    rw [this, hds]
  have hd3o : m3.data_ other = m.data_ other := by simp [VMem.data_, hvo]
  have hc3s : m3.capacity_ self = m.capacity_ other := by
    have : m3.capacity_ self = m2.capacity_ self := by simp [VMem.capacity_, hv3]
    rw [this]; simp [m2]
  refine ⟨m3, hrun, ?_, ?_, hvo, by simp [VMem.size_, hvo, ← hsz], hc3s, hd3s,
    by rw [hfr3]; rfl, hvecs, ?_⟩
  · refine ⟨by simp, by simpa [hc3s] using hle, by simpa [hc3s] using hcap, Or.inr ⟨?_, ?_, ?_⟩,
      ?_, ?_⟩
    · simp [hd3s]; omega
    · simp [hd3s, hl3, m2]
    · simp [hd3s, hcp3, hc3s, m2]
    · simp [hd3s, hfr3, m2]
    · intro i hi
      simp only [VMem.setSize_vdata, VMem.setSize_cell]
      rw [hd3s, hcell, if_pos ⟨hds.symm, Nat.zero_le _, by rw [hs2]; exact hi⟩, hdo]
      simp [m2, hdne, hcells i hi]
  · have hso : (m3.setSize self xs.length).size_ other = xs.length := by
      rw [VMem.setSize_vsize, if_neg hno, ← hsz]
      simp [VMem.size_, hvo]
    have hco : m3.capacity_ other = m.capacity_ other := by simp [VMem.capacity_, hvo]
    refine ⟨hso, by simpa [hco] using hle, by simpa [hco] using hcap, ?_, ?_, ?_⟩
    · simp only [VMem.setSize_vdata, VMem.setSize_capacity, VMem.setSize_blive,
        VMem.setSize_bcap, hd3o, hco, hl3, hcp3]
      rcases hbuf with hb | ⟨h1, h2, h3⟩
      · exact Or.inl hb
      · exact Or.inr ⟨h1, by simp [m2, hdne, h2], by simp [m2, hdne, h3]⟩
    · simp [hd3o, hfr3, m2]; omega
    · intro i hi
      simp only [VMem.setSize_vdata, VMem.setSize_cell]
      have : ¬ (m.data_ other = m2.data_ self ∧ 0 ≤ i ∧ i < m2.size_ other) :=
        fun hh => hdne (hh.1.trans hds)
      rw [hd3o, hcell, if_neg this]
      simp [m2, hdne, hcells i hi]
  · intro q hq
    refine ⟨?_, ?_, ?_⟩
    · funext j
      have : ¬ (q = m2.data_ self ∧ 0 ≤ j ∧ j < m2.size_ other) :=
        fun hh => hq (hh.1.trans hds)
      rw [hcell, if_neg this]; simp [m2, hq]
    · simp [hl3, m2, hq]
    · simp [hcp3, m2, hq]

theorem copy_construct_spec {m : VMem T} {self other : Nat} {xs : List T}
    (h : Valid m other xs) (fuel : Nat) (hne : self ≠ other) (hmax : xs.length ≤ intMax)
    (hf : xs.length < fuel) :
    ∃ m', copy_construct self other fuel m = .ok m' ∧ Valid m' self xs ∧ Valid m' other xs ∧
      m'.vecs other = m.vecs other ∧ m'.capacity_ self = m.capacity_ other ∧
      m'.data_ self ≠ m'.data_ other ∧ m'.cell (m.data_ other) = m.cell (m.data_ other) := by
  have hno : other ≠ self := fun hh => hne hh.symm
  have hfr := h.2.2.2.2.1
  obtain ⟨m3, hrun, hv1, hv2, hvo, hso, hcs, hds, _, _, hframe⟩ :=
    copy_into_fresh h fuel hne hmax hf
  have hc : (((m.alloc (m.capacity_ other)).setData self m.bfresh).capacity_ other) =
      m.capacity_ other := by simp
  refine ⟨m3.setSize self xs.length, ?_, hv1, hv2, ?_, by simpa using hcs, ?_, ?_⟩
  · simp only [copy_construct, hc, hrun, ok_bind, hso]; rfl
  · simp [VMem.setSize, upd, hno, hvo]
  · have hdo : m3.data_ other = m.data_ other := by simp [VMem.data_, hvo]
    simp only [VMem.setSize_vdata, hds, hdo]; omega
  · exact (hframe _ (by omega)).1

theorem Valid.free_buffer {m : VMem T} {self : Nat} {xs : List T} (h : Valid m self xs) :
    ∃ m2, m.free (m.data_ self) = .ok m2 ∧ m2.vecs = m.vecs ∧ m2.cell = m.cell ∧
      m2.bcap = m.bcap ∧ m2.bfresh = m.bfresh ∧
      ∀ q, (q ≠ m.data_ self ∨ m.data_ self = 0) → m2.blive q = m.blive q := by
  by_cases h0 : m.data_ self = 0
  · rw [h0, VMem.free_null]; exact ⟨m, rfl, rfl, rfl, rfl, rfl, fun _ _ => rfl⟩
  · have hlive : m.blive (m.data_ self) = true := by
      rcases h.2.2.2.1 with ⟨h1, _⟩ | ⟨_, h2, _⟩
      · exact absurd h1 h0
      · exact h2
    rw [VMem.free_ok h0 hlive]
    refine ⟨_, rfl, rfl, rfl, rfl, rfl, fun q hq => ?_⟩
    rcases hq with hq | hq
    · simp [upd, hq]
    · exact absurd hq h0

/-- The first half of `operator=` on distinct vectors: `clear()` and the release of the old
buffer leave the source as it was. -/
theorem assign_prefix {m : VMem T} {self other : Nat} {xs ys : List T}
    (hs : Valid m self ys) (ho : Valid m other xs) (fuel : Nat) (hne : self ≠ other)
    (hdis : m.data_ self = m.data_ other → m.data_ self = 0) (hfy : ys.length < fuel) :
    ∃ m1 m2, clear self fuel m = .ok m1 ∧ m1.free (m1.data_ self) = .ok m2 ∧
      Valid m2 other xs ∧ m2.vecs other = m.vecs other ∧ m2.bfresh = m.bfresh ∧
      ∀ j, m2.cell (m.data_ other) j = m.cell (m.data_ other) j := by
  have hno : other ≠ self := fun hh => hne hh.symm
  obtain ⟨m1, hclear, hv1, hc1, hd1, hl1, hcp1, hfr1, hvecs1, hcell1⟩ := clear_valid hs fuel hfy
  obtain ⟨m2, hfree, hv2, hce2, hcp2, hfr2, hl2⟩ := hv1.free_buffer
  have hys : m.data_ self = 0 → ys = [] := by
    intro h0
    rcases hs.2.2.2.1 with ⟨_, hc0⟩ | ⟨hn0, _⟩
    · have := hs.2.1
      exact List.length_eq_zero.mp (by omega)
    · exact absurd h0 hn0
  have hvo2 : m2.vecs other = m.vecs other := by rw [hv2]; exact hvecs1 other hno
  have hdo2 : m2.data_ other = m.data_ other := by simp [VMem.data_, hvo2]
  have hcell2 : ∀ j, m2.cell (m.data_ other) j = m.cell (m.data_ other) j := by
    intro j
    rw [hce2, hcell1]
    by_cases hq : m.data_ other = m.data_ self
    · have hnil := hys (hdis hq.symm)
      subst hnil
      simp
    · simp [hq]
  refine ⟨m1, m2, hclear, hfree, ?_, hvo2, by rw [hfr2, hfr1], hcell2⟩
  obtain ⟨hsz, hle, hcap, hbuf, hfr, hcells⟩ := id ho
  have hco : m2.capacity_ other = m.capacity_ other := by simp [VMem.capacity_, hvo2]
  have hlive : m2.blive (m.data_ other) = m.blive (m.data_ other) := by
    rw [hl2 _ (by
      rw [hd1]
      by_cases hq : m.data_ other = m.data_ self
      · exact Or.inr (hdis hq.symm)
      · exact Or.inl hq), hl1]
  refine ⟨by simp [VMem.size_, hvo2, ← hsz], by simpa [hco] using hle,
    by simpa [hco] using hcap, ?_, by simpa [hdo2, hfr2, hfr1] using hfr, ?_⟩
  · rw [hdo2, hco, hlive, hcp2, hcp1]; exact hbuf
  · intro i hi
    rw [hdo2, hcell2]; exact hcells i hi

theorem assign_spec {m : VMem T} {self other : Nat} {xs ys : List T}
    (hs : Valid m self ys) (ho : Valid m other xs) (fuel : Nat) (hne : self ≠ other)
    (hdis : m.data_ self = m.data_ other → m.data_ self = 0)
    (hmax : xs.length ≤ intMax) (hfx : xs.length < fuel) (hfy : ys.length < fuel) :
    ∃ m', assign self other fuel m = .ok m' ∧ Valid m' self xs ∧ Valid m' other xs ∧
      m'.vecs other = m.vecs other ∧ m'.capacity_ self = m.capacity_ other ∧
      m'.data_ self ≠ m'.data_ other ∧ m'.cell (m.data_ other) = m.cell (m.data_ other) := by
  have hno : other ≠ self := fun hh => hne hh.symm
  obtain ⟨m1, m2, hclear, hfree, ho2, hvo2, hfr2, hcell2⟩ :=
    assign_prefix hs ho fuel hne hdis hfy
  obtain ⟨m5, hrun, hva, hvb, hvo5, hso5, hcs5, hds5, _, _, hframe⟩ :=
    copy_into_fresh ho2 fuel hne hmax hfx
  have hc : (((m2.alloc (m2.capacity_ other)).setData self m2.bfresh).capacity_ other) =
      m2.capacity_ other := by simp
  have htemp : m.size_ other = xs.length := ho.1
  refine ⟨m5.setSize self xs.length, ?_, hva, hvb, ?_, ?_, ?_, ?_⟩
  · simp only [assign, hclear, ok_bind, hfree, hc, hrun, htemp]; rfl
  · simp [VMem.setSize, upd, hno, hvo5, hvo2]
  · rw [VMem.setSize_capacity, hcs5]
    simp [VMem.capacity_, hvo2]
  · have hdo5 : m5.data_ other = m.data_ other := by simp [VMem.data_, hvo5, hvo2]
    have := ho.2.2.2.2.1
    simp only [VMem.setSize_vdata, hds5, hdo5, hfr2]; omega
  · have := ho.2.2.2.2.1
    funext j
    have hq : m.data_ other ≠ m2.bfresh := by rw [hfr2]; omega
    simp only [VMem.setSize_cell]
    rw [(hframe _ hq).1, hcell2]

/-- The copy loop on a source of more than `INT_MAX` elements: the counter is incremented at
`INT_MAX`. -/
theorem copyLoop_overflow (self other : Nat) : ∀ (fuel i : Nat) (m : VMem T),
    i ≤ intMax → intMax < m.size_ other →
    (∀ j, i ≤ j → j ≤ intMax →
      m.inBounds (m.data_ other) j = true ∧ m.inBounds (m.data_ self) j = true ∧
      m.cell (m.data_ other) j ≠ none) →
    copyLoop self other fuel i m =
      if intMax - i < fuel then .error .signedOverflow else .error .outOfFuel := by
  intro fuel
  induction fuel with
  | zero => intro i m _ _ _; rfl
  | succ f ih =>
    intro i m hi hsz hpre
    obtain ⟨hb1, hb2, hc⟩ := hpre i (le_refl _) hi
    obtain ⟨x, hx⟩ := Option.ne_none_iff_exists'.mp hc
    have hlt : i < m.size_ other := by omega
    simp only [copyLoop, if_pos hlt, VMem.readCell_ok hb1 hx, ok_bind, VMem.writeCell_ok x hb2]
    by_cases hmax : i < intMax
    · rw [if_pos hmax, ih (i + 1) _ (by omega) (by simpa using hsz) (by
        intro j hj1 hj2
        obtain ⟨a1, a2, a3⟩ := hpre j (by omega) hj2
        refine ⟨by simpa using a1, by simpa using a2, ?_⟩
        simp only [VMem.withCell_data, VMem.withCell_cell]
        split
        · simp
        · exact a3)]
      by_cases hfu : intMax - (i + 1) < f
      · rw [if_pos hfu, if_pos (by omega)]
      · rw [if_neg hfu, if_neg (by omega)]
    · rw [if_neg hmax, if_pos (by omega)]

/-- Copying from a source of more than `INT_MAX` elements into a freshly allocated buffer
overflows the `int` counter. -/
theorem copy_into_fresh_overflow {m : VMem T} {self other : Nat} {xs : List T}
    (h : Valid m other xs) (fuel : Nat) (hne : self ≠ other) (hbig : intMax < xs.length) :
    copyLoop self other fuel 0
        (((m.alloc (m.capacity_ other)).setData self m.bfresh).setCap self
          (m.capacity_ other)) =
      if intMax < fuel then .error .signedOverflow else .error .outOfFuel := by
  have hno : other ≠ self := fun hh => hne hh.symm
  have hsz := h.1
  rw [copyLoop_overflow self other fuel 0 _ (Nat.zero_le _) (by simpa [hsz] using hbig) (by
    intro j _ hj
    have hds : (((m.alloc (m.capacity_ other)).setData self m.bfresh).setCap self
        (m.capacity_ other)).data_ self = m.bfresh := by simp
    have hdo : (((m.alloc (m.capacity_ other)).setData self m.bfresh).setCap self
        (m.capacity_ other)).data_ other = m.data_ other := by simp [hno]
    rw [hds, hdo]
    exact copy_pre self h j (by omega))]
  simp

theorem copy_construct_overflow {m : VMem T} {self other : Nat} {xs : List T}
    (h : Valid m other xs) (fuel : Nat) (hne : self ≠ other) (hbig : intMax < xs.length) :
    copy_construct self other fuel m =
      if intMax < fuel then .error .signedOverflow else .error .outOfFuel := by
  have hc : (((m.alloc (m.capacity_ other)).setData self m.bfresh).capacity_ other) =
      m.capacity_ other := by simp
  simp only [copy_construct, hc, copy_into_fresh_overflow h fuel hne hbig]
  split <;> rfl

theorem assign_overflow {m : VMem T} {self other : Nat} {xs ys : List T}
    (hs : Valid m self ys) (ho : Valid m other xs) (fuel : Nat) (hne : self ≠ other)
    (hdis : m.data_ self = m.data_ other → m.data_ self = 0) (hfy : ys.length < fuel)
    (hbig : intMax < xs.length) :
    assign self other fuel m =
      if intMax < fuel then .error .signedOverflow else .error .outOfFuel := by
  obtain ⟨m1, m2, hclear, hfree, ho2, hvo2, hfr2, hcell2⟩ :=
    assign_prefix hs ho fuel hne hdis hfy
  have hc : (((m2.alloc (m2.capacity_ other)).setData self m2.bfresh).capacity_ other) =
      m2.capacity_ other := by simp
  simp only [assign, hclear, ok_bind, hfree, hc, copy_into_fresh_overflow ho2 fuel hne hbig]
  split <;> rfl

end Vector

end Linear

/-! ## Vector: self-assignment, deep copies and the `int` loop counter -/

namespace Linear

namespace Vector

variable {T : Type}

theorem index_write_spec {m : VMem T} {a b : Nat} {xs ys : List T} (ha : Valid m a xs)
    (hb : Valid m b ys) (hne : m.data_ a ≠ m.data_ b) (i : Nat) (hi : i < xs.length) (v : T) :
    ∃ m', index_write a i v m = .ok m' ∧ Valid m' a (xs.set i v) ∧ Valid m' b ys ∧
      m'.vecs = m.vecs := by
  obtain ⟨hsz, hle, hcap, hbuf, hfr, hcells⟩ := id ha
  refine ⟨m.withCell (m.data_ a) i (some v), VMem.writeCell_ok v (ha.inBounds (by omega)), ?_,
    ?_, rfl⟩
  · refine ⟨by simpa using hsz, by simpa using hle, hcap, hbuf, hfr, ?_⟩
    intro j hj
    simp only [List.length_set] at hj
    simp only [VMem.withCell_data, VMem.withCell_cell, true_and]
    rw [List.getElem?_set]
    by_cases hji : j = i
    · subst hji; simp [hi]
    · have hij : ¬ i = j := fun hh => hji hh.symm
      rw [if_neg hji, if_neg hij]; exact hcells j hj
  · obtain ⟨hsz', hle', hcap', hbuf', hfr', hcells'⟩ := id hb
    refine ⟨hsz', hle', hcap', hbuf', hfr', ?_⟩
    intro j hj
    simp only [VMem.withCell_data, VMem.withCell_cell]
    have : ¬ (m.data_ b = m.data_ a ∧ j = i) := fun hh => hne hh.1.symm
    rw [if_neg this]; exact hcells' j hj

/-- Copy construction and assignment to a distinct vector, for sources of at most `INT_MAX`
elements: the copy holds the elements of the source, has its capacity and its own buffer, the
source is unchanged, and a write through either vector leaves the other as it was. -/
theorem copy_is_deep {m : VMem T} {self other : Nat} {xs ys : List T} (ho : Valid m other xs)
    (fuel : Nat) (hne : self ≠ other) (hmax : xs.length ≤ intMax) (hfx : xs.length < fuel) :
    (∃ m', copy_construct self other fuel m = .ok m' ∧ Valid m' self xs ∧ Valid m' other xs ∧
      m'.vecs other = m.vecs other ∧ capacity self m' = capacity other m ∧
      ∀ i v, i < xs.length →
        (∃ m2, index_write self i v m' = .ok m2 ∧ Valid m2 self (xs.set i v) ∧
          Valid m2 other xs) ∧
        (∃ m2, index_write other i v m' = .ok m2 ∧ Valid m2 other (xs.set i v) ∧
          Valid m2 self xs)) ∧
    (Valid m self ys → ys.length < fuel → (m.data_ self = m.data_ other → m.data_ self = 0) →
      ∃ m', assign self other fuel m = .ok m' ∧ Valid m' self xs ∧ Valid m' other xs ∧
      m'.vecs other = m.vecs other ∧ capacity self m' = capacity other m ∧
      ∀ i v, i < xs.length →
        (∃ m2, index_write self i v m' = .ok m2 ∧ Valid m2 self (xs.set i v) ∧
          Valid m2 other xs) ∧
        (∃ m2, index_write other i v m' = .ok m2 ∧ Valid m2 other (xs.set i v) ∧
          Valid m2 self xs)) := by
  have hdeep : ∀ m' : VMem T, Valid m' self xs → Valid m' other xs →
      m'.data_ self ≠ m'.data_ other → ∀ i v, i < xs.length →
        (∃ m2, index_write self i v m' = .ok m2 ∧ Valid m2 self (xs.set i v) ∧
          Valid m2 other xs) ∧
        (∃ m2, index_write other i v m' = .ok m2 ∧ Valid m2 other (xs.set i v) ∧
          Valid m2 self xs) := by
    intro m' h1 h2 hd i v hi
    obtain ⟨m2, e1, e2, e3, _⟩ := index_write_spec h1 h2 hd i hi v
    obtain ⟨m3, f1, f2, f3, _⟩ := index_write_spec h2 h1 hd.symm i hi v
    exact ⟨⟨m2, e1, e2, e3⟩, ⟨m3, f1, f2, f3⟩⟩
  constructor
  · obtain ⟨m', h1, h2, h3, h4, h5, h6, _⟩ := copy_construct_spec ho fuel hne hmax hfx
    exact ⟨m', h1, h2, h3, h4, h5, hdeep m' h2 h3 h6⟩
  · intro hs hfy hdis
    obtain ⟨m', h1, h2, h3, h4, h5, h6, _⟩ := assign_spec hs ho fuel hne hdis hmax hfx hfy
    exact ⟨m', h1, h2, h3, h4, h5, hdeep m' h2 h3 h6⟩

/-- Self-assignment: `v = v` returns, keeps the size, and leaves the vector with a fresh
buffer none of whose slots holds an element. -/
theorem assign_self_spec {m : VMem T} {self : Nat} {xs : List T} (h : Valid m self xs)
    (fuel : Nat) (hf : xs.length < fuel) :
    ∃ m', assign self self fuel m = .ok m' ∧ size self m' = xs.length ∧
      capacity self m' = capacity self m ∧ m'.data_ self = m.bfresh ∧
      (∀ i, m'.cell (m'.data_ self) i = none) ∧
      (∀ i, i < capacity self m → index self i m' = .error .uninitialisedRead) := by
  obtain ⟨m1, hclear, hv1, hc1, hd1, hl1, hcp1, hfr1, hvecs1, hcell1⟩ := clear_valid h fuel hf
  obtain ⟨m2, hfree, hv2, hce2, hcp2, hfr2, hl2⟩ := hv1.free_buffer
  obtain ⟨f, rfl⟩ : ∃ f, fuel = f + 1 := ⟨fuel - 1, by omega⟩
  have hc2 : m2.capacity_ self = m.capacity_ self := by
    rw [← hc1]; simp [VMem.capacity_, hv2]
  have hs2 : m2.size_ self = 0 := by
    have := hv1.1
    simp only [List.length_nil] at this
    rw [← this]; simp [VMem.size_, hv2]
  let m4 := ((m2.alloc (m2.capacity_ self)).setData self m2.bfresh).setCap self
    (m2.capacity_ self)
  have hloop : copyLoop self self (f + 1) 0 m4 = .ok m4 := by
    have : ¬ (0 < m4.size_ self) := by simp [m4, hs2]
    simp only [copyLoop, if_neg this]; rfl
  have hc : (((m2.alloc (m2.capacity_ self)).setData self m2.bfresh).capacity_ self) =
      m2.capacity_ self := by simp
  have hfr := h.2.2.2.2.1
  refine ⟨m4.setSize self xs.length, ?_, by simp [size], by simp [capacity, m4, hc2],
    by simp [m4, hfr2, hfr1], ?_, ?_⟩
  · simp only [assign, hclear, ok_bind, hfree, hc]
    rw [show copyLoop self self (f + 1) 0 _ = .ok m4 from hloop]
    simp only [ok_bind, h.1]; rfl
  · intro i
    simp [m4]
  · intro i hi
    have hb : (m4.setSize self xs.length).inBounds ((m4.setSize self xs.length).data_ self) i
        = true := by
      rw [VMem.inBounds_iff]
      simp only [capacity] at hi
      simp [m4, hc2, hi]
      omega
    simp only [index, VMem.readCell, hb, if_true]
    simp [m4]

theorem hugeVec_valid (n : Nat) (hn : n = 2 ^ 31 + 1) :
    Valid hugeVec 0 (List.replicate n 0) := by
  have hd : hugeVec.data_ 0 = 1 := rfl
  have hs : hugeVec.size_ 0 = 2 ^ 31 + 1 := rfl
  have hc : hugeVec.capacity_ 0 = 2 ^ 31 + 1 := rfl
  have hlen : (List.replicate n 0).length = n := List.length_replicate _ _
  refine ⟨by rw [hs, hlen, hn], by rw [hc, hlen, hn], by rw [hc]; unfold sizeMod; norm_num,
    Or.inr ⟨by rw [hd]; omega, by rw [hd]; rfl, by rw [hd, hc]; rfl⟩, by rw [hd]; decide, ?_⟩
  intro i hi
  rw [hlen] at hi
  rw [hd, List.getElem?_replicate, if_pos hi]
  show (if 1 = 1 ∧ i < 2 ^ 31 + 1 then some 0 else none) = some 0
  rw [if_pos ⟨rfl, by omega⟩]

/-- C17 (failing input): `operator=` does not survive self-assignment.  On the vector `[1, 2]`
of `testCopyAndAssignment`, `v = v` returns with size `2` and capacity `2`, but `clear()` has
destroyed the elements and the copy loop, whose bound `other.size_` is by then zero, copies
nothing into the new buffer: both slots are raw storage, reading `v[0]` or `v[1]` reads an
uninitialised element, and the vector no longer holds `[1, 2]`. -/
theorem self_assignment_loses_elements :
    Valid demoVec 0 [1, 2] ∧
    ∃ m', assign 0 0 3 demoVec = .ok m' ∧ size 0 m' = 2 ∧ capacity 0 m' = 2 ∧
      m'.cell (m'.data_ 0) 0 = none ∧ m'.cell (m'.data_ 0) 1 = none ∧
      index 0 0 m' = .error .uninitialisedRead ∧ index 0 1 m' = .error .uninitialisedRead ∧
      toList 0 m' = .error .uninitialisedRead ∧ ¬ Valid m' 0 [1, 2] :=
  ⟨by decide, vmemOf (assign 0 0 3 demoVec), rfl, rfl, rfl, rfl, rfl, rfl, rfl, rfl,
    by decide⟩

/-- C18 (failing input): the copy loops count with an `int`.  For the vector of `2^31 + 1`
zeros left by `Vector<T> src(2147483649, 0)`, which is well formed, both the copy constructor
and the assignment to a distinct, default-constructed vector reach `i == INT_MAX` with
elements still to copy and increment the counter there, which is undefined behaviour: with
fuel for `2^31` iterations the run ends in `signedOverflow`, and no amount of fuel makes it
return a copy. -/
theorem copy_overflows_int_counter :
    Valid hugeVec 0 (List.replicate (2 ^ 31 + 1) 0) ∧
    (∀ fuel, 2 ^ 31 ≤ fuel → copy_construct 1 0 fuel hugeVec = .error .signedOverflow) ∧
    (∀ fuel, 2 ^ 31 ≤ fuel →
      assign 1 0 fuel (construct 1 hugeVec) = .error .signedOverflow) ∧
    (∀ fuel m', copy_construct 1 0 fuel hugeVec ≠ .ok m') ∧
    (∀ fuel m', assign 1 0 fuel (construct 1 hugeVec) ≠ .ok m') := by
  have hv : Valid hugeVec 0 (List.replicate (2 ^ 31 + 1) 0) := hugeVec_valid _ rfl
  have hlen : (List.replicate (2 ^ 31 + 1) 0).length = 2 ^ 31 + 1 := List.length_replicate _ _
  have hmaxv : intMax = 2 ^ 31 - 1 := rfl
  have hbig : intMax < (List.replicate (2 ^ 31 + 1) 0).length := by rw [hlen, hmaxv]; omega
  have hv0 : Valid (construct 1 hugeVec) 0 (List.replicate (2 ^ 31 + 1) 0) := hv
  have hv1 : Valid (construct 1 hugeVec) 1 ([] : List Nat) :=
    construct_valid 1 hugeVec (by decide)
  have hdis : (construct 1 hugeVec).data_ 1 = (construct 1 hugeVec).data_ 0 →
      (construct 1 hugeVec).data_ 1 = 0 := fun _ => rfl
  have hcopy := fun fuel => copy_construct_overflow hv fuel (show (1 : Nat) ≠ 0 by decide) hbig
  refine ⟨hv, ?_, ?_, ?_, ?_⟩
  · intro fuel hf
    rw [hcopy, if_pos (by omega)]
  · intro fuel hf
    rw [assign_overflow hv1 hv0 fuel (by decide) hdis (by simp; omega) hbig, if_pos (by omega)]
  · intro fuel m' h
    rw [hcopy] at h
    split at h <;> cases h
  · intro fuel m' h
    cases fuel with
    | zero => cases h
    | succ f =>
      rw [assign_overflow hv1 hv0 (f + 1) (by decide) hdis (by simp) hbig] at h
      split at h <;> cases h

end Vector

end Linear

/-! ## Vector: the invariant `size <= capacity` -/

namespace Linear

namespace Vector

variable {T : Type}

theorem reserveLoop_frame (self nd : Nat) : ∀ (fuel i : Nat) (m m' : VMem T),
    reserveLoop self nd fuel i m = .ok m' → SameFrame m m' := by
  intro fuel
  induction fuel with
  | zero => intro i m m' h; cases h
  | succ f ih =>
    intro i m m' h
    simp only [reserveLoop] at h
    split at h
    · obtain ⟨x, _, h⟩ := bind_eq_ok h
      obtain ⟨m1, h1, h⟩ := bind_eq_ok h
      obtain ⟨m2, h2, h⟩ := bind_eq_ok h
      exact ((writeCell_frame h1).trans_ (destroyCell_frame h2)).trans_ (ih _ _ _ h)
    · cases h; exact SameFrame.rfl_ m

theorem eraseLoop_frame (self : Nat) : ∀ (fuel i : Nat) (m m' : VMem T),
    eraseLoop self fuel i m = .ok m' → SameFrame m m' := by
  intro fuel
  induction fuel with
  | zero => intro i m m' h; cases h
  | succ f ih =>
    intro i m m' h
    simp only [eraseLoop] at h
    split at h
    · obtain ⟨x, _, h⟩ := bind_eq_ok h
      obtain ⟨m1, h1, h⟩ := bind_eq_ok h
      exact (writeCell_frame h1).trans_ (ih _ _ _ h)
    · cases h; exact SameFrame.rfl_ m

theorem insertLoop_frame (self idx : Nat) : ∀ (fuel i : Nat) (m m' : VMem T),
    insertLoop self idx fuel i m = .ok m' → SameFrame m m' := by
  intro fuel
  induction fuel with
  | zero => intro i m m' h; cases h
  | succ f ih =>
    intro i m m' h
    simp only [insertLoop] at h
    split at h
    · split at h
      · obtain ⟨x, _, h⟩ := bind_eq_ok h
        obtain ⟨m1, h1, h⟩ := bind_eq_ok h
        exact (writeCell_frame h1).trans_ (ih _ _ _ h)
      · obtain ⟨m1, h1, h⟩ := bind_eq_ok h
        cases h1
        exact ih _ _ _ h
    · cases h; exact SameFrame.rfl_ m

theorem clearLoop_frame (self : Nat) : ∀ (fuel i : Nat) (m m' : VMem T),
    clearLoop self fuel i m = .ok m' → SameFrame m m' := by
  intro fuel
  induction fuel with
  | zero => intro i m m' h; cases h
  | succ f ih =>
    intro i m m' h
    simp only [clearLoop] at h
    split at h
    · obtain ⟨m1, h1, h⟩ := bind_eq_ok h
      exact (destroyCell_frame h1).trans_ (ih _ _ _ h)
    · cases h; exact SameFrame.rfl_ m

theorem copyLoop_frame (self other : Nat) : ∀ (fuel i : Nat) (m m' : VMem T),
    copyLoop self other fuel i m = .ok m' → SameFrame m m' := by
  intro fuel
  induction fuel with
  | zero => intro i m m' h; cases h
  | succ f ih =>
    intro i m m' h
    simp only [copyLoop] at h
    split at h
    · obtain ⟨x, _, h⟩ := bind_eq_ok h
      obtain ⟨m1, h1, h⟩ := bind_eq_ok h
      split at h
      · exact (writeCell_frame h1).trans_ (ih _ _ _ h)
      · cases h
    · cases h; exact SameFrame.rfl_ m

theorem fillLoop_frame (self count : Nat) (val : T) : ∀ (fuel i : Nat) (m m' : VMem T),
    fillLoop self count val fuel i m = .ok m' → SameFrame m m' := by
  intro fuel
  induction fuel with
  | zero => intro i m m' h; cases h
  | succ f ih =>
    intro i m m' h
    simp only [fillLoop] at h
    split at h
    · obtain ⟨m1, h1, h⟩ := bind_eq_ok h
      exact (writeCell_frame h1).trans_ (ih _ _ _ h)
    · cases h; exact SameFrame.rfl_ m

theorem SameFrame.shaped {m m' : VMem T} (hf : SameFrame m m') {self : Nat}
    (h : Shaped m self) : Shaped m' self := by
  obtain ⟨hv, hl, hc, hb⟩ := hf
  unfold Shaped size capacity VMem.size_ VMem.capacity_ VMem.data_ at *
  rw [hv, hl, hc, hb]; exact h

theorem grown_lt (c : Nat) : grown c < sizeMod := by
  unfold grown
  split
  · exact one_lt_sizeMod
  · exact Nat.mod_lt _ (by have := one_lt_sizeMod; omega)

theorem reserve_shaped {m m' : VMem T} {self n fuel : Nat} (h : Shaped m self)
    (hn : n < sizeMod) (hr : reserve self n fuel m = .ok m') :
    Shaped m' self ∧ m'.size_ self = m.size_ self ∧
      (n ≤ m.capacity_ self → m'.capacity_ self = m.capacity_ self) ∧
      (m.capacity_ self < n → m'.capacity_ self = n) := by
  unfold reserve at hr
  split at hr
  · next hle =>
    cases hr
    exact ⟨h, rfl, fun _ => rfl, fun hlt => by omega⟩
  · next hlt =>
    obtain ⟨m2, h2, hr⟩ := bind_eq_ok hr
    obtain ⟨m3, h3, hr⟩ := bind_eq_ok hr
    cases hr
    obtain ⟨hv2, hl2, hc2, hb2⟩ := reserveLoop_frame _ _ _ _ _ _ h2
    obtain ⟨hv3, hc3, hb3, hl3⟩ := free_frame h3
    obtain ⟨hsz, hcap, hbuf, hfr⟩ := h
    have hd2 : m2.data_ self = m.data_ self := by simp [VMem.data_, hv2]
    have hs3 : m3.size_ self = m.size_ self := by simp [VMem.size_, hv3, hv2]
    have hne : m.bfresh ≠ m.data_ self := by omega
    refine ⟨⟨?_, by simpa using hn, Or.inr ⟨?_, ?_, ?_⟩, ?_⟩, by simpa using hs3,
      fun hle => absurd hle hlt, fun _ => by simp⟩
    · simp only [size, capacity, VMem.setCap_size, VMem.setData_size, VMem.setCap_capacity,
        if_true, hs3]
      simp only [size, capacity] at hsz
      omega
    · simp; omega
    · simp only [VMem.setCap_data, VMem.setData_data, if_true, VMem.setCap_blive,
        VMem.setData_blive]
      rw [hl3 _ (by rw [hd2]; exact hne), hl2]; simp
    · simp [hc3, hc2]
    · simp [hb3, hb2]

theorem grow_shaped {m m1 : VMem T} {self fuel : Nat} (h : Shaped m self)
    (hg : (if m.size_ self ≥ m.capacity_ self
      then reserve self (grown (m.capacity_ self)) fuel m else pure m) = .ok m1) :
    Shaped m1 self ∧ m1.size_ self = m.size_ self ∧
      ((m.size_ self = m.capacity_ self → m.capacity_ self * 2 < sizeMod) →
        m1.size_ self < m1.capacity_ self) := by
  have hle : m.size_ self ≤ m.capacity_ self := h.1
  split at hg
  · next hfull =>
    obtain ⟨hs1, hsz1, hc1, hc2⟩ := reserve_shaped h (grown_lt _) hg
    refine ⟨hs1, hsz1, fun hov => ?_⟩
    have heq : m.size_ self = m.capacity_ self := by omega
    have hgr := grown_eq _ (hov heq)
    rw [hsz1, hc2 (by rw [hgr]; omega), hgr]; omega
  · next hfull =>
    cases hg
    exact ⟨h, rfl, fun _ => by omega⟩

theorem push_back_shaped {m m' : VMem T} {self fuel : Nat} {r : Ref T} (h : Shaped m self)
    (hr : push_back self r fuel m = .ok m') : Shaped m' self := by
  rw [push_back_eq] at hr
  obtain ⟨m1, hg, hr⟩ := bind_eq_ok hr
  obtain ⟨x, _, hr⟩ := bind_eq_ok hr
  obtain ⟨m2, hw, hr⟩ := bind_eq_ok hr
  cases hr
  obtain ⟨hs1, hsz1, _⟩ := grow_shaped h hg
  have hb := writeCell_inBounds hw
  rw [VMem.inBounds_iff] at hb
  obtain ⟨hsz, hcap, hbuf, hfr⟩ := hs1
  have hlt : m1.size_ self < m1.capacity_ self := by
    rcases hbuf with ⟨h0, _⟩ | ⟨_, _, h3⟩
    · exact absurd h0 hb.1
    · rw [← h3]; exact hb.2.2
  obtain ⟨hv2, hl2, hc2, hb2⟩ := writeCell_frame hw
  have hs2 : m2.size_ self = m1.size_ self := by simp [VMem.size_, hv2]
  have hd2 : m2.data_ self = m1.data_ self := by simp [VMem.data_, hv2]
  have hcp2 : m2.capacity_ self = m1.capacity_ self := by simp [VMem.capacity_, hv2]
  refine ⟨?_, by simpa [hcp2] using hcap, ?_, by simpa [hd2, hb2] using hfr⟩
  · simp only [size, capacity, VMem.setSize_vsize, if_true, VMem.setSize_capacity, hcp2, hs2]
    exact le_trans (Nat.mod_le _ _) hlt
  · simpa [hd2, hl2, hc2, hcp2] using hbuf

theorem insert_shaped {m m' : VMem T} {self fuel idx : Nat} {r : Ref T} (h : Shaped m self)
    (hov : m.size_ self = m.capacity_ self → m.capacity_ self * 2 < sizeMod)
    (hr : insert self idx r fuel m = .ok m') : Shaped m' self := by
  rw [insert_eq] at hr
  obtain ⟨m1, hg, hr⟩ := bind_eq_ok hr
  obtain ⟨m2, hloop, hr⟩ := bind_eq_ok hr
  obtain ⟨x, _, hr⟩ := bind_eq_ok hr
  obtain ⟨m3, hw, hr⟩ := bind_eq_ok hr
  cases hr
  obtain ⟨hs1, hsz1, hlt⟩ := grow_shaped h hg
  have hlt := hlt hov
  have hf3 : SameFrame m1 m3 := (insertLoop_frame _ _ _ _ _ _ hloop).trans_ (writeCell_frame hw)
  obtain ⟨hsz, hcap, hbuf, hfr⟩ := hf3.shaped hs1
  obtain ⟨hv3, _, _, _⟩ := hf3
  have hs3 : m3.size_ self = m1.size_ self := by simp [VMem.size_, hv3]
  have hcp3 : m3.capacity_ self = m1.capacity_ self := by simp [VMem.capacity_, hv3]
  refine ⟨?_, by simpa using hcap, by simpa using hbuf, by simpa using hfr⟩
  simp only [size, capacity, VMem.setSize_vsize, if_true, VMem.setSize_capacity, hcp3, hs3]
  exact le_trans (Nat.mod_le _ _) hlt

theorem erase_shaped {m m' : VMem T} {self fuel idx : Nat} (h : Shaped m self)
    (hne : m.size_ self ≠ 0) (hr : erase self idx fuel m = .ok m') :
    Shaped m' self ∧ m'.size_ self + 1 = m.size_ self := by
  unfold erase at hr
  obtain ⟨m1, hloop, hr⟩ := bind_eq_ok hr
  cases hr
  have hf1 := eraseLoop_frame _ _ _ _ _ hloop
  have hle : m.size_ self ≤ m.capacity_ self := h.1
  have hcm := h.2.1
  obtain ⟨hsz, hcap, hbuf, hfr⟩ := hf1.shaped h
  obtain ⟨hv1, _, _, _⟩ := hf1
  have hs1 : m1.size_ self = m.size_ self := by simp [VMem.size_, hv1]
  have hc1 : m1.capacity_ self = m.capacity_ self := by simp [VMem.capacity_, hv1]
  have hdec : (m.size_ self + sizeMod - 1) % sizeMod = m.size_ self - 1 := by
    rw [show m.size_ self + sizeMod - 1 = (m.size_ self - 1) + sizeMod by omega,
      Nat.add_mod_right, Nat.mod_eq_of_lt (by omega)]
  refine ⟨⟨?_, by simpa using hcap, by simpa using hbuf, by simpa using hfr⟩, ?_⟩
  · simp only [size, capacity, VMem.setSize_vsize, if_true, VMem.setSize_capacity, hs1, hc1,
      hdec]
    omega
  · simp only [VMem.setSize_vsize, if_true, hs1, hdec]; omega

theorem clear_shaped {m m' : VMem T} {self fuel : Nat} (h : Shaped m self)
    (hr : clear self fuel m = .ok m') :
    Shaped m' self ∧ m'.size_ self = 0 ∧ m'.capacity_ self = m.capacity_ self ∧
      m'.data_ self = m.data_ self ∧ m'.blive = m.blive ∧ m'.bcap = m.bcap ∧
      m'.bfresh = m.bfresh ∧ ∀ a, a ≠ self → m'.vecs a = m.vecs a := by
  unfold clear at hr
  obtain ⟨m1, hloop, hr⟩ := bind_eq_ok hr
  cases hr
  have hf1 := clearLoop_frame _ _ _ _ _ hloop
  obtain ⟨hsz, hcap, hbuf, hfr⟩ := hf1.shaped h
  obtain ⟨hv1, hl1, hc1, hb1⟩ := hf1
  refine ⟨⟨?_, by simpa using hcap, by simpa using hbuf, by simpa using hfr⟩, by simp,
    by rw [VMem.setSize_capacity]; simp [VMem.capacity_, hv1],
    by rw [VMem.setSize_vdata]; simp [VMem.data_, hv1], hl1, hc1, hb1, ?_⟩
  · simp [size, capacity]
  · intro a ha
    simp [VMem.setSize, upd, ha, hv1]

theorem assign_shaped {m m' : VMem T} {self other fuel : Nat} (hs : Shaped m self)
    (ho : Shaped m other) (hr : assign self other fuel m = .ok m') : Shaped m' self := by
  unfold assign at hr
  obtain ⟨m1, hclear, hr⟩ := bind_eq_ok hr
  obtain ⟨m2, hfree, hr⟩ := bind_eq_ok hr
  obtain ⟨m5, hloop, hr⟩ := bind_eq_ok hr
  cases hr
  obtain ⟨_, _, hc1, hd1, hl1, hcp1, hb1, hv1⟩ := clear_shaped hs hclear
  obtain ⟨hv2, hcp2, hb2, hl2⟩ := free_frame hfree
  obtain ⟨hv5, hl5, hcp5, hb5⟩ := copyLoop_frame _ _ _ _ _ _ hloop
  have hco : m2.capacity_ other = m.capacity_ other := by
    by_cases hso : other = self
    · subst hso; rw [← hc1]; simp [VMem.capacity_, hv2]
    · simp [VMem.capacity_, hv2, hv1 other hso]
  have hfr : m2.bfresh = m.bfresh := by rw [hb2, hb1]
  have hpos : 0 < m.bfresh := by have := hs.2.2.2; omega
  have hle : m.size_ other ≤ m.capacity_ other := ho.1
  have hcm := ho.2.1
  have hd5 : m5.data_ self = m.bfresh := by
    show (m5.vecs self).data_ = _
    rw [hv5]
    change VMem.data_ _ self = _
    simp [hfr]
  have hc5 : m5.capacity_ self = m.capacity_ other := by
    show (m5.vecs self).capacity_ = _
    rw [← hco]
    rw [hv5]
    change VMem.capacity_ _ self = _
    simp
  refine ⟨?_, by simpa [hc5] using hcm, Or.inr ⟨?_, ?_, ?_⟩, ?_⟩
  · simp only [size, capacity, VMem.setSize_vsize, if_true, VMem.setSize_capacity, hc5]
    exact hle
  · rw [VMem.setSize_vdata, hd5]; omega
  · simp only [VMem.setSize_vdata, VMem.setSize_blive, hd5, hl5]
    simp [hfr]
  · simp only [VMem.setSize_vdata, VMem.setSize_bcap, VMem.setSize_capacity, hd5, hcp5, hc5]
    simp [hfr, hco]
  · simp only [VMem.setSize_vdata, VMem.setSize_bfresh, hd5, hb5]
    simp [hfr]

theorem construct_shaped (a : Nat) (m : VMem T) (h : 0 < m.bfresh) :
    Shaped (construct a m) a := by
  refine ⟨?_, ?_, Or.inl ⟨?_, ?_⟩, ?_⟩ <;>
    simp [construct, size, capacity, VMem.size_, VMem.capacity_, VMem.data_, upd, sizeMod, h]

theorem construct_cap_shaped (a n : Nat) (m : VMem T) (h : 0 < m.bfresh) (hn : n < sizeMod) :
    Shaped (construct_cap a n m) a := by
  refine ⟨?_, ?_, Or.inr ⟨?_, ?_, ?_⟩, ?_⟩ <;>
    simp [construct_cap, size, capacity, VMem.size_, VMem.capacity_, VMem.data_, upd, hn,
      VMem.alloc]
  omega

theorem construct_fill_shaped {m m' : VMem T} {a n fuel : Nat} {v : T} (h : 0 < m.bfresh)
    (hn : n < sizeMod) (hr : construct_fill a n v fuel m = .ok m') : Shaped m' a := by
  unfold construct_fill at hr
  obtain ⟨m3, hloop, hr⟩ := bind_eq_ok hr
  cases hr
  obtain ⟨hv3, hl3, hcp3, hb3⟩ := fillLoop_frame _ _ _ _ _ _ _ hloop
  have hd3 : m3.data_ a = m.bfresh := by
    show (m3.vecs a).data_ = _
    rw [hv3]
    change VMem.data_ _ a = _
    simp
  have hc3 : m3.capacity_ a = n := by
    show (m3.vecs a).capacity_ = _
    rw [hv3]
    change VMem.capacity_ _ a = _
    simp
  refine ⟨?_, by simpa [hc3] using hn, Or.inr ⟨?_, ?_, ?_⟩, ?_⟩
  · simp [size, capacity, hc3]
  · rw [VMem.setSize_vdata, hd3]; omega
  · simp only [VMem.setSize_vdata, VMem.setSize_blive, hd3, hl3]; simp
  · simp only [VMem.setSize_vdata, VMem.setSize_bcap, VMem.setSize_capacity, hd3, hcp3, hc3]
    simp
  · simp only [VMem.setSize_vdata, VMem.setSize_bfresh, hd3, hb3]; simp

theorem copy_construct_shaped {m m' : VMem T} {a other fuel : Nat} (ho : Shaped m other)
    (hr : copy_construct a other fuel m = .ok m') : Shaped m' a := by
  unfold copy_construct at hr
  obtain ⟨m3, hloop, hr⟩ := bind_eq_ok hr
  cases hr
  obtain ⟨hv3, hl3, hcp3, hb3⟩ := copyLoop_frame _ _ _ _ _ _ hloop
  have hpos : 0 < m.bfresh := by have := ho.2.2.2; omega
  have hle : m.size_ other ≤ m.capacity_ other := ho.1
  have hcm := ho.2.1
  have hd3 : m3.data_ a = m.bfresh := by
    show (m3.vecs a).data_ = _
    rw [hv3]
    change VMem.data_ _ a = _
    simp
  have hc3 : m3.capacity_ a = m.capacity_ other := by
    show (m3.vecs a).capacity_ = _
    rw [hv3]
    change VMem.capacity_ _ a = _
    simp
  have hs3 : m3.size_ other = m.size_ other := by
    show (m3.vecs other).size_ = _
    rw [hv3]
    change VMem.size_ _ other = _
    simp
  refine ⟨?_, by simpa [hc3] using hcm, Or.inr ⟨?_, ?_, ?_⟩, ?_⟩
  · simp only [size, capacity, VMem.setSize_vsize, if_true, VMem.setSize_capacity, hc3, hs3]
    exact hle
  · rw [VMem.setSize_vdata, hd3]; omega
  · simp only [VMem.setSize_vdata, VMem.setSize_blive, hd3, hl3]; simp
  · simp only [VMem.setSize_vdata, VMem.setSize_bcap, VMem.setSize_capacity, hd3, hcp3, hc3]
    simp
  · simp only [VMem.setSize_vdata, VMem.setSize_bfresh, hd3, hb3]; simp

theorem Valid.toShaped {m : VMem T} {self : Nat} {xs : List T} (h : Valid m self xs) :
    Shaped m self := by
  obtain ⟨hsz, hle, hcap, hbuf, hfr, _⟩ := h
  exact ⟨by simp only [size, capacity]; omega, hcap, hbuf, hfr⟩

/-- C13 (counterexample): `erase` on an empty vector breaks `size <= capacity`.  On a
default-constructed vector, which is well formed with size `0` and capacity `0`, `erase(0)`
runs no iteration of its loop and then executes `size_ -= 1`, which wraps: the call returns
with size `2^64 - 1` and capacity `0`. -/
theorem erase_on_empty_breaks_invariant :
    Valid (construct 0 (VMem.init : VMem Nat)) 0 [] ∧
    Shaped (construct 0 (VMem.init : VMem Nat)) 0 ∧
    ∃ m', erase 0 0 1 (construct 0 (VMem.init : VMem Nat)) = .ok m' ∧
      size 0 m' = 2 ^ 64 - 1 ∧ capacity 0 m' = 0 ∧ ¬ (size 0 m' ≤ capacity 0 m') :=
  ⟨by decide, by decide, vmemOf (erase 0 0 1 (construct 0 VMem.init)), rfl, rfl, rfl,
    by decide⟩

/-- C13 (amended): `size <= capacity` is an invariant of the vector as long as `erase` is
not called on an empty vector.  `Shaped` is `size <= capacity` together with the facts about
the buffer that make it inductive.  It holds after every constructor that returns; from a
state where it holds, every call of `push_back`, `reserve`, `insert`, `clear` and
copy-assignment (from any well-shaped vector, the vector itself included) that returns, for
every argument, ends in a state where it holds, and so does every call of `erase` that
returns when the size was not zero (the size then went down by one).  For `insert` the
doubling is taken not to wrap.  The element of `push_back` and `insert` is any reference, an
element of the vector itself included.  On a vector holding elements the calls with arguments
in range, the element an object of its own, do return. -/
theorem size_le_capacity_preserved {m : VMem T} {self : Nat} (h : Shaped m self)
    (fuel : Nat) :
    size self m ≤ capacity self m ∧
    (∀ (r : Ref T) m', push_back self r fuel m = .ok m' →
      Shaped m' self ∧ size self m' ≤ capacity self m') ∧
    (∀ n m', n < sizeMod → reserve self n fuel m = .ok m' →
      Shaped m' self ∧ size self m' ≤ capacity self m') ∧
    (∀ idx (r : Ref T) m', (size self m = capacity self m → capacity self m * 2 < sizeMod) →
      insert self idx r fuel m = .ok m' → Shaped m' self ∧ size self m' ≤ capacity self m') ∧
    (∀ idx m', size self m ≠ 0 → erase self idx fuel m = .ok m' →
      Shaped m' self ∧ size self m' ≤ capacity self m' ∧ size self m' + 1 = size self m) ∧
    (∀ m', clear self fuel m = .ok m' → Shaped m' self ∧ size self m' ≤ capacity self m') ∧
    (∀ other m', Shaped m other → assign self other fuel m = .ok m' →
      Shaped m' self ∧ size self m' ≤ capacity self m') ∧
    (∀ a, Shaped (construct a m) a) ∧
    (∀ a n, n < sizeMod → Shaped (construct_cap a n m) a) ∧
    (∀ a n v m', n < sizeMod → construct_fill a n v fuel m = .ok m' → Shaped m' a) ∧
    (∀ a m', copy_construct a self fuel m = .ok m' → Shaped m' a) ∧
    (∀ xs, Valid m self xs → xs.length < fuel →
      (∀ v, (size self m = capacity self m → capacity self m * 2 < sizeMod) →
        ∃ m', push_back self (.obj v) fuel m = .ok m') ∧
      (∀ n, n < sizeMod → ∃ m', reserve self n fuel m = .ok m') ∧
      (∀ idx v, idx ≤ xs.length →
        (size self m = capacity self m → capacity self m * 2 < sizeMod) →
        ∃ m', insert self idx (.obj v) fuel m = .ok m') ∧
      (∀ idx, idx < xs.length → ∃ m', erase self idx fuel m = .ok m') ∧
      (∃ m', clear self fuel m = .ok m') ∧
      (∃ m', assign self self fuel m = .ok m')) := by
  have hpos : 0 < m.bfresh := by have := h.2.2.2; omega
  refine ⟨h.1, ?_, ?_, ?_, ?_, ?_, ?_, ?_, ?_, ?_, ?_, ?_⟩
  · intro v m' hr
    have := push_back_shaped h hr
    exact ⟨this, this.1⟩
  · intro n m' hn hr
    have := (reserve_shaped h hn hr).1
    exact ⟨this, this.1⟩
  · intro idx v m' hov hr
    have := insert_shaped h hov hr
    exact ⟨this, this.1⟩
  · intro idx m' hne hr
    have := erase_shaped h hne hr
    exact ⟨this.1, this.1.1, this.2⟩
  · intro m' hr
    have := (clear_shaped h hr).1
    exact ⟨this, this.1⟩
  · intro other m' ho hr
    have := assign_shaped h ho hr
    exact ⟨this, this.1⟩
  · exact fun a => construct_shaped a m hpos
  · exact fun a n hn => construct_cap_shaped a n m hpos hn
  · exact fun a n v m' hn hr => construct_fill_shaped hpos hn hr
  · exact fun a m' hr => copy_construct_shaped h hr
  · intro xs hv hf
    refine ⟨?_, ?_, ?_, ?_, ?_, ?_⟩
    · intro v hov
      obtain ⟨m', hr, _⟩ := push_back_valid hv v fuel hov hf
      exact ⟨m', hr⟩
    · intro n hn
      by_cases hle : n ≤ m.capacity_ self
      · exact ⟨m, reserve_noop self n fuel m hle⟩
      · obtain ⟨m', hr, _⟩ := reserve_spec hv n fuel (by omega) hn hf
        exact ⟨m', hr⟩
    · intro idx v hidx hov
      obtain ⟨m', hr, _⟩ := insert_spec hv idx v fuel hidx hov hf
      exact ⟨m', hr⟩
    · intro idx hidx
      obtain ⟨m', hr, _⟩ := erase_spec hv idx fuel hidx hf
      exact ⟨m', hr⟩
    · obtain ⟨m', hr, _⟩ := clear_valid hv fuel hf
      exact ⟨m', hr⟩
    · obtain ⟨m', hr, _⟩ := assign_self_spec hv fuel hf
      exact ⟨m', hr⟩

/-- Witness for C13 (amended): the vector `[1, 2]` of `testCopyAndAssignment`. -/
theorem size_le_capacity_preserved_witness :
    size 0 demoVec ≤ capacity 0 demoVec ∧
    (∀ (r : Ref Nat) m', push_back 0 r 3 demoVec = .ok m' →
      Shaped m' 0 ∧ size 0 m' ≤ capacity 0 m') ∧
    (∀ n m', n < sizeMod → reserve 0 n 3 demoVec = .ok m' →
      Shaped m' 0 ∧ size 0 m' ≤ capacity 0 m') ∧
    (∀ idx (r : Ref Nat) m',
      (size 0 demoVec = capacity 0 demoVec → capacity 0 demoVec * 2 < sizeMod) →
      insert 0 idx r 3 demoVec = .ok m' → Shaped m' 0 ∧ size 0 m' ≤ capacity 0 m') ∧
    (∀ idx m', size 0 demoVec ≠ 0 → erase 0 idx 3 demoVec = .ok m' →
      Shaped m' 0 ∧ size 0 m' ≤ capacity 0 m' ∧ size 0 m' + 1 = size 0 demoVec) ∧
    (∀ m', clear 0 3 demoVec = .ok m' → Shaped m' 0 ∧ size 0 m' ≤ capacity 0 m') ∧
    (∀ other m', Shaped demoVec other → assign 0 other 3 demoVec = .ok m' →
      Shaped m' 0 ∧ size 0 m' ≤ capacity 0 m') ∧
    (∀ a, Shaped (construct a demoVec) a) ∧
    (∀ a n, n < sizeMod → Shaped (construct_cap a n demoVec) a) ∧
    (∀ a n v m', n < sizeMod → construct_fill a n v 3 demoVec = .ok m' → Shaped m' a) ∧
    (∀ a m', copy_construct a 0 3 demoVec = .ok m' → Shaped m' a) ∧
    (∀ xs, Valid demoVec 0 xs → xs.length < 3 →
      (∀ v, (size 0 demoVec = capacity 0 demoVec → capacity 0 demoVec * 2 < sizeMod) →
        ∃ m', push_back 0 (.obj v) 3 demoVec = .ok m') ∧
      (∀ n, n < sizeMod → ∃ m', reserve 0 n 3 demoVec = .ok m') ∧
      (∀ idx v, idx ≤ xs.length →
        (size 0 demoVec = capacity 0 demoVec → capacity 0 demoVec * 2 < sizeMod) →
        ∃ m', insert 0 idx (.obj v) 3 demoVec = .ok m') ∧
      (∀ idx, idx < xs.length → ∃ m', erase 0 idx 3 demoVec = .ok m') ∧
      (∃ m', clear 0 3 demoVec = .ok m') ∧
      (∃ m', assign 0 0 3 demoVec = .ok m')) :=
  size_le_capacity_preserved (show Shaped demoVec 0 by decide) 3

end Vector

end Linear
